import Mathlib

/-!
# Verification of `LRUCache<Key, Value>` (src/linked_list/lru_cache.h)

The cache is embedded at the level of the source: a heap of `Node` cells linked
by `prev`/`next` pointers, the `unordered_map` from keys to node pointers, and
the `head_`/`tail_` pointers.  Every private and public member function is
translated statement by statement.

Modelling conventions.
* A `Node*` is `Option Nat`: `none` is `nullptr`, `some a` is the address `a`.
* The heap is a function from addresses to cells; an address without a cell is
  not allocated.  Dereferencing a null or unallocated pointer is undefined
  behaviour in C++; every function therefore returns an `Option`, and `none`
  stands for undefined behaviour (or for a loop that ran out of fuel).
* `new Node(k, v)` returns the address `brk`, which was never handed out before,
  and advances `brk`; `delete` removes the cell.
* `std::unordered_map<Key, Node*>` is an association list with `find`,
  `operator[]=`, `erase`, `size` and `clear`; its iteration order is never
  observed by the cache.
* `size_t` values are natural numbers; the cache performs no arithmetic on them
  besides the comparison `map_.size() > capacity_`.
-/

/-- A `Node*`: `none` is `nullptr`, `some a` the address of a heap cell. -/
abbrev LRUCache.Ptr := Option Nat

/-- The private `struct Node` of the cache. -/
structure LRUCache.Node (K V : Type) where
  key : K
  value : V
  prev : LRUCache.Ptr
  next : LRUCache.Ptr

/-- The data members of `LRUCache<Key, Value>` together with the heap they point into. -/
structure LRUCache (K V : Type) where
  capacity_ : Nat
  map_ : List (K × LRUCache.Ptr)
  head_ : LRUCache.Ptr
  tail_ : LRUCache.Ptr
  heap : Nat → Option (LRUCache.Node K V)
  brk : Nat

namespace LRUCache

variable {K V : Type}

/-- Heap write `*a = n`. -/
def store (h : Nat → Option (Node K V)) (a : Nat) (n : Node K V) : Nat → Option (Node K V) :=
  fun x => if x = a then some n else h x

/-- Heap deallocation of the cell at `a`. -/
def release (h : Nat → Option (Node K V)) (a : Nat) : Nat → Option (Node K V) :=
  fun x => if x = a then none else h x

/-- The lookup `map_.find(k)`: `none` is `map_.end()`, `some p` is `it->second = p`. -/
def mapFind [DecidableEq K] (m : List (K × Ptr)) (k : K) : Option Ptr :=
  match m with
  | [] => none
  | e :: rest => if e.1 = k then some e.2 else mapFind rest k

/-- The assignment `map_[k] = p`: overwrite the mapping of `k`, or add one. -/
def mapAssign [DecidableEq K] (m : List (K × Ptr)) (k : K) (p : Ptr) : List (K × Ptr) :=
  match mapFind m k with
  | some _ => m.map fun e => if e.1 = k then (k, p) else e
  | none => (k, p) :: m

/-- The removal `map_.erase(k)`. -/
def mapErase [DecidableEq K] (m : List (K × Ptr)) (k : K) : List (K × Ptr) :=
  m.filter fun e => decide (e.1 ≠ k)

/-- The constructor `LRUCache(size_t capacity)`: capacity 0 becomes 1.  (The source
gives the argument the default value 100.) -/
def construct (capacity : Nat) : LRUCache K V :=
  { capacity_ := if capacity = 0 then 1 else capacity
    map_ := []
    head_ := none
    tail_ := none
    heap := fun _ => none
    brk := 0 }

/-- The private `add_to_front(Node* node)`. -/
def add_to_front (s : LRUCache K V) (node : Ptr) : Option (LRUCache K V) := do
  let a ← node
  let n ← s.heap a
  -- node->prev = nullptr; node->next = head_;
  let h1 := store s.heap a { n with prev := none, next := s.head_ }
  -- if (head_) head_->prev = node;
  let h2 ← match s.head_ with
    | some hd => (h1 hd).map fun x => store h1 hd { x with prev := node }
    | none => some h1
  -- head_ = node; if (!tail_) tail_ = node;
  some { s with heap := h2, head_ := node, tail_ := if s.tail_.isNone then node else s.tail_ }

/-- The private `remove_node(Node* node)`. -/
def remove_node (s : LRUCache K V) (node : Ptr) : Option (LRUCache K V) :=
  match node with
  | none => some s -- if (!node) return;
  | some a => do
    let n ← s.heap a
    -- if (node->prev) node->prev->next = node->next; else head_ = node->next;
    let s1 ← match n.prev with
      | some q => (s.heap q).map fun x => { s with heap := store s.heap q { x with next := n.next } }
      | none => some { s with head_ := n.next }
    let n1 ← s1.heap a
    -- if (node->next) node->next->prev = node->prev; else tail_ = node->prev;
    let s2 ← match n1.next with
      | some r =>
        (s1.heap r).map fun x => { s1 with heap := store s1.heap r { x with prev := n1.prev } }
      | none => some { s1 with tail_ := n1.prev }
    let n2 ← s2.heap a
    -- node->prev = node->next = nullptr;
    some { s2 with heap := store s2.heap a { n2 with prev := none, next := none } }

/-- The private `move_to_front(Node* node)`. -/
def move_to_front (s : LRUCache K V) (node : Ptr) : Option (LRUCache K V) :=
  if node = s.head_ then some s
  else (remove_node s node).bind fun s1 => add_to_front s1 node

/-- The private `pop_tail()`: the returned pointer and the new state. -/
def pop_tail (s : LRUCache K V) : Option (Ptr × LRUCache K V) :=
  match s.tail_ with
  | none => some (none, s)
  | some t => (remove_node s (some t)).map fun s1 => (some t, s1)

/-- The member `size()`. -/
def size (s : LRUCache K V) : Nat := s.map_.length

/-- The member `capacity()`. -/
def capacity (s : LRUCache K V) : Nat := s.capacity_

/-- The member `get(k)`: the returned `std::optional<Value>` and the new state. -/
def get [DecidableEq K] (s : LRUCache K V) (k : K) : Option (Option V × LRUCache K V) :=
  match mapFind s.map_ k with
  | none => some (none, s)
  | some node => do
    let s1 ← move_to_front s node
    let a ← node
    let n ← s1.heap a
    some (some n.value, s1)

/-- The member `put(k, v)`. -/
def put [DecidableEq K] (s : LRUCache K V) (k : K) (v : V) : Option (LRUCache K V) :=
  match mapFind s.map_ k with
  | some node => do
    -- update existing
    let a ← node
    let n ← s.heap a
    move_to_front { s with heap := store s.heap a { n with value := v } } node
  | none => do
    -- insert new
    let node : Ptr := some s.brk
    let s1 : LRUCache K V :=
      { s with heap := store s.heap s.brk ⟨k, v, none, none⟩, brk := s.brk + 1 }
    let s2 ← add_to_front s1 node
    let s3 : LRUCache K V := { s2 with map_ := mapAssign s2.map_ k node }
    if s3.map_.length > s3.capacity_ then do
      let r ← pop_tail s3
      match r.1 with
      | some o => do
        let n ← r.2.heap o
        some { r.2 with map_ := mapErase r.2.map_ n.key, heap := release r.2.heap o }
      | none => some r.2
    else some s3

/-- The member `erase(k)`: the returned flag and the new state. -/
def erase [DecidableEq K] (s : LRUCache K V) (k : K) : Option (Bool × LRUCache K V) :=
  match mapFind s.map_ k with
  | none => some (false, s)
  | some node => do
    let s1 ← remove_node s node
    let s2 : LRUCache K V := { s1 with map_ := mapErase s1.map_ k }
    -- delete node;  (deleting nullptr has no effect)
    match node with
    | none => some (true, s2)
    | some a => (s2.heap a).map fun _ => (true, { s2 with heap := release s2.heap a })

/-- The loop of `clear()`: delete every node reachable from `cur` along `next`. -/
def clearLoop (h : Nat → Option (Node K V)) : Nat → Ptr → Option (Nat → Option (Node K V))
  | _, none => some h
  | 0, some _ => none
  | fuel + 1, some a => (h a).bind fun n => clearLoop (release h a) fuel n.next

/-- The member `clear()`.  At most `brk` cells were ever allocated, so `brk` iterations
suffice for the loop whenever it ends at all. -/
def clear (s : LRUCache K V) : Option (LRUCache K V) :=
  (clearLoop s.heap s.brk s.head_).map fun h =>
    { s with heap := h, head_ := none, tail_ := none, map_ := [] }

/-- The loop of `debug_print`: the keys met from `cur` along `next`. -/
def keysFrom (h : Nat → Option (Node K V)) : Nat → Ptr → Option (List K)
  | _, none => some []
  | 0, some _ => none
  | fuel + 1, some a => (h a).bind fun n => (keysFrom h fuel n.next).map fun ks => n.key :: ks

/-- The member `debug_print`: the keys from most to least recent. -/
def debug_print (s : LRUCache K V) : Option (List K) :=
  keysFrom s.heap s.brk s.head_

/-- One public mutating call on the cache. -/
inductive Op (K V : Type) where
  | put (k : K) (v : V)
  | get (k : K)
  | erase (k : K)
  | clear

/-- The state after one call. -/
def step [DecidableEq K] (s : LRUCache K V) : Op K V → Option (LRUCache K V)
  | Op.put k v => put s k v
  | Op.get k => (get s k).map fun r => r.2
  | Op.erase k => (erase s k).map fun r => r.2
  | Op.clear => clear s

/-- The state after a sequence of calls, first call first. -/
def run [DecidableEq K] (s : LRUCache K V) : List (Op K V) → Option (LRUCache K V)
  | [] => some s
  | op :: ops => (step s op).bind fun s1 => run s1 ops

/-! ## Observations used in the statements -/

/-- The states a client can reach: a fresh cache followed by any sequence of calls. -/
def Reachable [DecidableEq K] (s : LRUCache K V) : Prop :=
  ∃ (c : Nat) (ops : List (Op K V)), run (construct c) ops = some s

/-- The test `map_.find(k) != map_.end()` with which `get`, `put` and `erase` begin:
whether the cache holds key `k`. -/
def contains [DecidableEq K] (s : LRUCache K V) (k : K) : Bool :=
  (mapFind s.map_ k).isSome

/-- What `get(k)` returns in state `s`: `some none` is "not found". -/
def lookup [DecidableEq K] (s : LRUCache K V) (k : K) : Option (Option V) :=
  (get s k).map fun r => r.1

/-- The key a call touches in state `s`: the key of a `put`, or the key of a `get` that
finds its key.  A failed `get`, `erase` and `clear` touch no key. -/
def touched [DecidableEq K] (s : LRUCache K V) : Op K V → Option K
  | Op.put k _ => some k
  | Op.get k => if contains s k then some k else none
  | Op.erase _ => none
  | Op.clear => none

/-- The keys touched by a sequence of calls started in state `s`, one entry per call. -/
def touchLog [DecidableEq K] (s : LRUCache K V) : List (Op K V) → List (Option K)
  | [] => []
  | op :: ops =>
    touched s op :: match step s op with
      | some s1 => touchLog s1 ops
      | none => []

/-- The number of the last call that touched key `j` (calls are numbered from 1 in the
order of the log), or 0 when no call touched `j`. -/
def lastTouch [DecidableEq K] (log : List (Option K)) (j : K) : Nat :=
  log.length - log.reverse.indexOf (some j)

/-- What a call returns to the client: nothing (`put`, `clear`), the optional value of a
`get`, or the flag of an `erase`. -/
inductive Reply (V : Type) where
  | unit
  | value (v : Option V)
  | flag (b : Bool)
  deriving DecidableEq

/-- One public call with the value it returns and the state it leaves. -/
def call [DecidableEq K] (s : LRUCache K V) : Op K V → Option (Reply V × LRUCache K V)
  | Op.put k v => (put s k v).map fun s1 => (Reply.unit, s1)
  | Op.get k => (get s k).map fun r => (Reply.value r.1, r.2)
  | Op.erase k => (erase s k).map fun r => (Reply.flag r.1, r.2)
  | Op.clear => (clear s).map fun s1 => (Reply.unit, s1)

/-- Everything a client observes along a sequence of calls: for each call the value it
returns and, after it, `size()` and the key order printed by `debug_print`. -/
def transcript [DecidableEq K] (s : LRUCache K V) :
    List (Op K V) → Option (List (Reply V × Nat × List K))
  | [] => some []
  | op :: ops =>
    (call s op).bind fun r =>
      (debug_print r.2).bind fun ks =>
        (transcript r.2 ops).map fun rest => (r.1, size r.2, ks) :: rest

/-! ## The scenarios of the specification -/

/-- Scenario 1 up to its last `put`: `put(1, "one")`, `put(2, "two")`, `get(1)`. -/
def scenario1Ops : List (Op Nat String) :=
  [Op.put 1 "one", Op.put 2 "two", Op.get 1]

/-- The state of scenario 1 (capacity 2) before `put(3, "three")`. -/
def scenario1 : LRUCache Nat String :=
  (run (construct 2) scenario1Ops).get rfl

/-- The state of scenario 2 (capacity 1) after `put("a", 1)`. -/
def scenario2 : LRUCache String Nat :=
  (run (construct 1) [Op.put "a" 1]).get rfl

/-- Scenario 3 up to its `get`: `put(1, "x")`, `put(2, "y")`, `put(3, "z")`. -/
def scenario3Ops : List (Op Nat String) :=
  [Op.put 1 "x", Op.put 2 "y", Op.put 3 "z"]

/-- The state of scenario 3 (capacity 3) before `get(1)`. -/
def scenario3 : LRUCache Nat String :=
  (run (construct 3) scenario3Ops).get rfl

/-! ## The abstraction used in the proofs

A linked recency list is described by the sequence of its cells from `head_` to
`tail_`; each cell is given by its address, key and value. -/

/-- One cell of the recency list as seen from outside: where it lives and what it holds. -/
structure Entry (K V : Type) where
  addr : Nat
  key : K
  value : V

/-- The address of the first cell of `l`, or `nxt` when `l` is empty. -/
def hd (l : List (Entry K V)) (nxt : Ptr) : Ptr :=
  match l with
  | [] => nxt
  | e :: _ => some e.addr

/-- The address of the last cell of `l`, or `prev` when `l` is empty. -/
def lst (prev : Ptr) (l : List (Entry K V)) : Ptr :=
  match l with
  | [] => prev
  | e :: rest => lst (some e.addr) rest

/-- The heap `h` holds the cells of `l` as a doubly linked segment: the first cell points
back to `prev`, the last cell points on to `nxt`, and neighbours point at each other. -/
def Seg (h : Nat → Option (Node K V)) : Ptr → List (Entry K V) → Ptr → Prop
  | _, [], _ => True
  | prev, e :: rest, nxt =>
    h e.addr = some ⟨e.key, e.value, prev, hd rest nxt⟩ ∧ Seg h (some e.addr) rest nxt

/-- The pointer part of the representation: `head_`, `tail_` and the heap form the doubly
linked list `l`, whose addresses are pairwise distinct. -/
structure Linked (s : LRUCache K V) (l : List (Entry K V)) : Prop where
  seg : Seg s.heap none l none
  head : s.head_ = hd l none
  tail : s.tail_ = lst none l
  nodupAddr : (l.map Entry.addr).Nodup

/-- The index and the list agree: the heap is linked as `l`, keys are distinct, the index
maps exactly the keys of `l` to their cells, and every cell was handed out by the allocator. -/
structure Coherent (s : LRUCache K V) (l : List (Entry K V)) : Prop where
  linked : Linked s l
  nodupKey : (l.map Entry.key).Nodup
  index : s.map_.Perm (l.map fun e => (e.key, some e.addr))
  below : ∀ e ∈ l, e.addr < s.brk

/-- The state `s` represents the recency list `l` (most recent first): index and list agree
and the capacity bound holds. -/
structure Represents (s : LRUCache K V) (l : List (Entry K V)) : Prop where
  coherent : Coherent s l
  capPos : 1 ≤ s.capacity_
  bound : l.length ≤ s.capacity_

/-- The value held for key `k` in the recency list `l`, if any. -/
def valueOf [DecidableEq K] (l : List (Entry K V)) (k : K) : Option V :=
  (l.find? fun e => decide (e.key = k)).map Entry.value

/-- The recency list `l` with the cell of key `k` (if any) moved to the front. -/
def promote [DecidableEq K] (l : List (Entry K V)) (k : K) : List (Entry K V) :=
  (l.filter fun e => decide (e.key = k)) ++ l.filter fun e => decide (e.key ≠ k)

/-- The recency list `l` without the cell of key `k`. -/
def without [DecidableEq K] (l : List (Entry K V)) (k : K) : List (Entry K V) :=
  l.filter fun e => decide (e.key ≠ k)

/-- The recency list after `put(k, v)` when the allocator hands out address `a` and the
capacity is `cap`: an existing cell is overwritten and moved to the front; otherwise a new
cell is put in front and the last cell is dropped when the list became longer than `cap`. -/
def listPut [DecidableEq K] (l : List (Entry K V)) (k : K) (v : V) (a cap : Nat) :
    List (Entry K V) :=
  match l.find? fun e => decide (e.key = k) with
  | some e => ⟨e.addr, k, v⟩ :: without l k
  | none => if cap < l.length + 1 then (⟨a, k, v⟩ :: l).dropLast else ⟨a, k, v⟩ :: l

/-- The recency list after one call, given the allocator position and the capacity. -/
def listStep [DecidableEq K] (l : List (Entry K V)) (a cap : Nat) : Op K V → List (Entry K V)
  | Op.put k v => listPut l k v a cap
  | Op.get k => promote l k
  | Op.erase k => without l k
  | Op.clear => []

/-- The recency list `l` is ordered by last touch with respect to the call log: every cell
was touched by some call, and a cell nearer the front was touched later. -/
def Ordered [DecidableEq K] (log : List (Option K)) (l : List (Entry K V)) : Prop :=
  l.Pairwise (fun x y => lastTouch log y.key < lastTouch log x.key) ∧
    ∀ x ∈ l, 0 < lastTouch log x.key

/-! ## The reference model

A duplicate-free list of (key, value) pairs in most-to-least-recent order, bounded by the
capacity `cap`. -/

/-- The pairs of a recency list, most recent first, without their addresses. -/
def view (l : List (Entry K V)) : List (K × V) :=
  l.map fun e => (e.key, e.value)

/-- Reference `put(k, v)`: delete any pair for `k`, prepend `(k, v)`, and drop the last pair
if the length exceeds the capacity. -/
def refPut [DecidableEq K] (cap : Nat) (m : List (K × V)) (k : K) (v : V) : List (K × V) :=
  if cap < ((k, v) :: m.filter fun p => decide (p.1 ≠ k)).length then
    ((k, v) :: m.filter fun p => decide (p.1 ≠ k)).dropLast
  else (k, v) :: m.filter fun p => decide (p.1 ≠ k)

/-- Reference `get(k)`: on a hit move the pair to the front and return its value. -/
def refGet [DecidableEq K] (m : List (K × V)) (k : K) : Option V × List (K × V) :=
  match m.find? fun p => decide (p.1 = k) with
  | some p => (some p.2, p :: m.filter fun q => decide (q.1 ≠ k))
  | none => (none, m)

/-- Reference `erase(k)`: delete the pair of `k` and report whether there was one. -/
def refErase [DecidableEq K] (m : List (K × V)) (k : K) : Bool × List (K × V) :=
  ((m.find? fun p => decide (p.1 = k)).isSome, m.filter fun p => decide (p.1 ≠ k))

/-- One call on the reference model: the returned value and the new list. -/
def refCall [DecidableEq K] (cap : Nat) (m : List (K × V)) : Op K V → Reply V × List (K × V)
  | Op.put k v => (Reply.unit, refPut cap m k v)
  | Op.get k => (Reply.value (refGet m k).1, (refGet m k).2)
  | Op.erase k => (Reply.flag (refErase m k).1, (refErase m k).2)
  | Op.clear => (Reply.unit, [])

/-- What a client of the reference model observes along a sequence of calls: the value each
call returns, and after it the number of pairs and the keys in list order. -/
def refTranscript [DecidableEq K] (cap : Nat) (m : List (K × V)) :
    List (Op K V) → List (Reply V × Nat × List K)
  | [] => []
  | op :: ops =>
    ((refCall cap m op).1, (refCall cap m op).2.length, (refCall cap m op).2.map Prod.fst) ::
      refTranscript cap (refCall cap m op).2 ops

end LRUCache

/-!
# Verification of `qalg::sliding_window_max` (src/queue/queue_algorithms.h)

The vector `a` is a list of integers, `std::size_t` values are natural numbers (the only
arithmetic is `dq.front() + k` and `i + 1` with `dq.front() <= i < a.size()` and
`k <= a.size()`, which cannot wrap), and the `std::deque<std::size_t>` of indices is a list
with the front first.  An access `a[j]` outside the vector is undefined behaviour; the
functions return `none` for it.
-/

namespace qalg

/-- The loop `while (!dq.empty() && dq.front() + k <= i) dq.pop_front();`. -/
def popFrontLoop (k i : Nat) : List Nat → List Nat
  | [] => []
  | j :: rest => if j + k ≤ i then popFrontLoop k i rest else j :: rest

/-- The loop `while (!dq.empty() && a[dq.back()] <= a[i]) dq.pop_back();` on the deque
listed from the back, where `x` is `a[i]`. -/
def popBackLoop (a : List Int) (x : Int) : List Nat → Option (List Nat)
  | [] => some []
  | j :: rest =>
    match a[j]? with
    | none => none
    | some y => if y ≤ x then popBackLoop a x rest else some (j :: rest)

/-- The body of the `for` loop for index `i`, on the deque `st.1` and the result `st.2`. -/
def windowStep (a : List Int) (k : Nat) (st : List Nat × List Int) (i : Nat) :
    Option (List Nat × List Int) :=
  match a[i]? with
  | none => none
  | some x =>
    -- remove indices out of window, then maintain the monotonic deque
    match popBackLoop a x (popFrontLoop k i st.1).reverse with
    | none => none
    | some back =>
      -- dq.push_back(i);
      let dq := back.reverse ++ [i]
      -- if (i + 1 >= k) res.push_back(a[dq.front()]);
      if k ≤ i + 1 then
        match dq.head? with
        | none => none
        | some f =>
          match a[f]? with
          | none => none
          | some y => some (dq, st.2 ++ [y])
      else some (dq, st.2)

/-- The `for` loop from index `i` with `remaining` iterations to go. -/
def windowLoop (a : List Int) (k : Nat) :
    Nat → Nat → List Nat × List Int → Option (List Nat × List Int)
  | 0, _, st => some st
  | remaining + 1, i, st =>
    match windowStep a k st i with
    | none => none
    | some st1 => windowLoop a k remaining (i + 1) st1

/-- The function `sliding_window_max(a, k)`. -/
def sliding_window_max (a : List Int) (k : Nat) : Option (List Int) :=
  if k = 0 ∨ a.length < k then some []
  else (windowLoop a k a.length 0 ([], [])).map fun st => st.2

/-- The value `m` is the maximum of the `k` elements of `a` starting at index `t`: it is
one of them and none of them is greater. -/
def IsWindowMax (a : List Int) (t k : Nat) (m : Int) : Prop :=
  m ∈ (a.drop t).take k ∧ ∀ x ∈ (a.drop t).take k, x ≤ m

/-- The loop invariant of `sliding_window_max` before index `i` is processed: the deque
holds increasing indices below `i` that still lie in the window ending at `i - 1`, their
values strictly decrease, every index of that window is dominated by a later-or-equal index
in the deque, and the result holds the maxima of all windows completed so far. -/
structure WindowInv (a : List Int) (k i : Nat) (st : List Nat × List Int) : Prop where
  sorted : st.1.Pairwise fun u v => u < v
  below : ∀ j ∈ st.1, j < i
  inWindow : ∀ j ∈ st.1, i ≤ j + k
  decreasing : st.1.Pairwise fun u v => a.getD v 0 < a.getD u 0
  covers : ∀ p, p < i → i ≤ p + k → ∃ j ∈ st.1, p ≤ j ∧ a.getD p 0 ≤ a.getD j 0
  count : st.2.length = i + 1 - k
  maxima : ∀ t, t < st.2.length → ∃ m, st.2[t]? = some m ∧ IsWindowMax a t k m

end qalg

/-!
# Verification of `ArrayQueue<T>` (src/queue/array_queue.h) and `Deque<T>` (src/queue/deque.h)

Both classes keep their elements in a heap array `T *buf` of `cap` cells used as a ring.
The array is a function from indices to cells, where `none` is a cell that was never
written (`new T[cap]` does not initialise it).  Reading or writing `buf[i]` with `i >= cap`,
reading a cell that was never written, and `x % cap` with `cap == 0` are undefined behaviour
in C++; the member functions return `none` for it.  `size_t` values are natural numbers:
the sums computed (`tail + 1`, `head + i`, `head + cap - 1`, `cap * 2`) stay below
`2 * cap + 1`, which does not wrap for any buffer that can be allocated.
-/

namespace CArray

/-- The read `buf[i]` of an array of `cap` cells. -/
def read {T : Type} (buf : Nat → Option T) (cap i : Nat) : Option T :=
  if i < cap then buf i else none

/-- The write `buf[i] = v` to an array of `cap` cells. -/
def write {T : Type} (buf : Nat → Option T) (cap i : Nat) (v : T) : Option (Nat → Option T) :=
  if i < cap then some fun x => if x = i then some v else buf x else none

/-- The index computation `x % cap`. -/
def wrap (x cap : Nat) : Option Nat :=
  if cap = 0 then none else some (x % cap)

/-- What a parameter `const T &v` (or `T &&v`) of a member function refers to: an object
outside the buffer, holding the value `v`, or the cell `buf[j]` of the container's own
buffer, as `operator[]`, `front_ptr()` and `back_ptr()` hand it out. -/
inductive Ref (T : Type) where
  | value (v : T)
  | cell (j : Nat)

/-- Reading the parameter `v` inside the member function.  A reference into the buffer
reads the cell as it is at that moment; once the call has run `delete[] buf` (`freed`) the
cell is gone and the read is undefined behaviour. -/
def deref {T : Type} (freed : Bool) (buf : Nat → Option T) (cap : Nat) : Ref T → Option T
  | Ref.value v => some v
  | Ref.cell j => if freed then none else read buf cap j

end CArray

/-- The data members of `ArrayQueue<T>`. -/
structure ArrayQueue (T : Type) where
  buf : Nat → Option T
  cap : Nat
  head : Nat
  tail : Nat
  len : Nat

namespace ArrayQueue

variable {T : Type}

/-- The private `alloc_buf(capacity)`: capacity 0 becomes 1. -/
def alloc_buf (capacity : Nat) : ArrayQueue T :=
  { buf := fun _ => none
    cap := if capacity = 0 then 1 else capacity
    head := 0
    tail := 0
    len := 0 }

/-- The constructor `ArrayQueue(size_t capacity)`. -/
def construct (capacity : Nat) : ArrayQueue T :=
  alloc_buf capacity

/-- The member `empty()`. -/
def empty (q : ArrayQueue T) : Bool := decide (q.len = 0)

/-- The member `full()`. -/
def full (q : ArrayQueue T) : Bool := decide (q.len = q.cap)

/-- The member `size()`. -/
def size (q : ArrayQueue T) : Nat := q.len

/-- The member `capacity()`. -/
def capacity (q : ArrayQueue T) : Nat := q.cap

/-- The member `enqueue(val)`: the returned flag and the new state. -/
def enqueue (q : ArrayQueue T) (val : T) : Option (Bool × ArrayQueue T) :=
  if q.len ≥ q.cap then some (false, q)
  else
    -- buf[tail] = val; tail = (tail + 1) % cap; ++len;
    match CArray.write q.buf q.cap q.tail val with
    | none => none
    | some b =>
      match CArray.wrap (q.tail + 1) q.cap with
      | none => none
      | some t => some (true, { q with buf := b, tail := t, len := q.len + 1 })

/-- The member `dequeue()`: the returned flag and the new state. -/
def dequeue (q : ArrayQueue T) : Option (Bool × ArrayQueue T) :=
  if q.len = 0 then some (false, q)
  else
    -- head = (head + 1) % cap; --len;
    match CArray.wrap (q.head + 1) q.cap with
    | none => none
    | some h => some (true, { q with head := h, len := q.len - 1 })

/-- The member `front_ptr()`: `none` is `nullptr`, `some i` is `&buf[i]`. -/
def front_ptr (q : ArrayQueue T) : Option Nat :=
  if q.len = 0 then none else some q.head

/-- The member `clear()`. -/
def clear (q : ArrayQueue T) : ArrayQueue T :=
  { q with head := 0, tail := 0, len := 0 }

/-- The element `*front_ptr()` as the test program reads it: `some none` when the pointer is
null, `some (some x)` when it points at `x`. -/
def front (q : ArrayQueue T) : Option (Option T) :=
  match front_ptr q with
  | none => some none
  | some p => (CArray.read q.buf q.cap p).map some

/-- One mutating call on the queue. -/
inductive Op (T : Type) where
  | enqueue (v : T)
  | dequeue
  | clear

/-- One call with the flag it returns (`none` for `clear`, which returns nothing). -/
def call (q : ArrayQueue T) : Op T → Option (Option Bool × ArrayQueue T)
  | Op.enqueue v => (enqueue q v).map fun r => (some r.1, r.2)
  | Op.dequeue => (dequeue q).map fun r => (some r.1, r.2)
  | Op.clear => some (none, clear q)

/-- What a client observes along a sequence of calls: the flag each call returns and, after
the call, `size()` and the element `front_ptr()` points at. -/
def transcript (q : ArrayQueue T) : List (Op T) → Option (List (Option Bool × Nat × Option T))
  | [] => some []
  | op :: ops =>
    match call q op with
    | none => none
    | some r =>
      match front r.2 with
      | none => none
      | some x => (transcript r.2 ops).map fun rest => (r.1, size r.2, x) :: rest

/-- The state after a sequence of calls. -/
def run (q : ArrayQueue T) : List (Op T) → Option (ArrayQueue T)
  | [] => some q
  | op :: ops =>
    match call q op with
    | none => none
    | some r => run r.2 ops

/-! ## The reference model: a FIFO list bounded by `c`, oldest element first -/

/-- One call on the bounded FIFO list: `enqueue` fails and changes nothing iff the list has
`c` elements and otherwise appends at the back; `dequeue` fails iff the list is empty and
otherwise removes the oldest element; `clear` empties the list. -/
def fifoCall (c : Nat) (l : List T) : Op T → Option Bool × List T
  | Op.enqueue v => if l.length = c then (some false, l) else (some true, l ++ [v])
  | Op.dequeue =>
    match l with
    | [] => (some false, [])
    | _ :: rest => (some true, rest)
  | Op.clear => (none, [])

/-- The list after a sequence of calls. -/
def fifoRun (c : Nat) (l : List T) : List (Op T) → List T
  | [] => l
  | op :: ops => fifoRun c (fifoCall c l op).2 ops

/-- What a client of the bounded FIFO list observes: the flag of each call and, after it,
the length and the oldest element. -/
def fifoTranscript (c : Nat) (l : List T) : List (Op T) → List (Option Bool × Nat × Option T)
  | [] => []
  | op :: ops =>
    ((fifoCall c l op).1, (fifoCall c l op).2.length, (fifoCall c l op).2.head?) ::
      fifoTranscript c (fifoCall c l op).2 ops

/-- The ring `q` holds the list `l`, oldest element first: the indices are in range, `tail`
is `len` cells after `head`, and the cell `i` places after `head` holds the `i`-th
element. -/
structure Holds (q : ArrayQueue T) (l : List T) : Prop where
  capPos : 1 ≤ q.cap
  headLt : q.head < q.cap
  tailEq : q.tail = (q.head + q.len) % q.cap
  lenEq : q.len = l.length
  lenLe : q.len ≤ q.cap
  cells : ∀ i, i < q.len → q.buf ((q.head + i) % q.cap) = l[i]?

end ArrayQueue

/-- The data members of `Deque<T>`. -/
structure Deque (T : Type) where
  buf : Nat → Option T
  cap : Nat
  head : Nat
  len : Nat

namespace Deque

variable {T : Type}

/-- The loop `for (i = 1; i < sizeof(size_t) * 8; i <<= 1) x |= x >> i;` of `next_pow2`
for a 64-bit `size_t`; `i` doubles, so 64 rounds of fuel are more than enough. -/
def next_pow2_loop : Nat → Nat → Nat → Nat
  | 0, _, x => x
  | fuel + 1, i, x => if i < 64 then next_pow2_loop fuel (i <<< 1) (x ||| (x >>> i)) else x

/-- The static `next_pow2(x)` for a 64-bit `size_t`; the final `++x` wraps modulo `2^64`. -/
def next_pow2 (x : Nat) : Nat :=
  if x = 0 then 1 else (next_pow2_loop 64 1 (x - 1) + 1) % 2 ^ 64

/-- The private `allocate(capacity)`: capacity 0 becomes 1. -/
def allocate (capacity : Nat) : Deque T :=
  { buf := fun _ => none
    cap := if capacity = 0 then 1 else capacity
    head := 0
    len := 0 }

/-- The constructor `Deque(size_t initial_capacity)`.  (The source gives the argument the
default value 16.) -/
def construct (initial_capacity : Nat) : Deque T :=
  allocate (next_pow2 (if initial_capacity = 0 then 1 else initial_capacity))

/-- The copy loop of `grow_if_full`: `nb[i] = std::move(buf[(head + i) % cap])` from index
`i` with `remaining` iterations to go, into the new array `nb` of `newCap` cells. -/
def growCopy (d : Deque T) (newCap : Nat) :
    Nat → Nat → (Nat → Option T) → Option (Nat → Option T)
  | 0, _, nb => some nb
  | remaining + 1, i, nb =>
    match CArray.wrap (d.head + i) d.cap with
    | none => none
    | some j =>
      match CArray.read d.buf d.cap j with
      | none => none
      | some x =>
        match CArray.write nb newCap i x with
        | none => none
        | some nb1 => growCopy d newCap remaining (i + 1) nb1

/-- The private `grow_if_full()`. -/
def grow_if_full (d : Deque T) : Option (Deque T) :=
  if d.len < d.cap then some d
  else
    match growCopy d (if d.cap = 0 then 1 else d.cap * 2) d.len 0 (fun _ => none) with
    | none => none
    | some nb =>
      some { buf := nb, cap := if d.cap = 0 then 1 else d.cap * 2, head := 0, len := d.len }

/-- The member `empty()`. -/
def empty (d : Deque T) : Bool := decide (d.len = 0)

/-- The member `size()`. -/
def size (d : Deque T) : Nat := d.len

/-- The member `capacity()`. -/
def capacity (d : Deque T) : Nat := d.cap

/-- The member `operator[](idx)`: `some none` stands for the exception `std::out_of_range`
thrown when `idx >= len`. -/
def index (d : Deque T) (idx : Nat) : Option (Option T) :=
  if idx ≥ d.len then some none
  else
    match CArray.wrap (d.head + idx) d.cap with
    | none => none
    | some j => (CArray.read d.buf d.cap j).map some

/-- The member `front_ptr()`: `none` is `nullptr`, `some i` is `&buf[i]`. -/
def front_ptr (d : Deque T) : Option Nat :=
  if d.len = 0 then none else some d.head

/-- The member `push_front(v)`, whose parameter is a reference: `v` is read in the
assignment `buf[head] = v`, after `grow_if_full()`, which has freed the old buffer exactly
when the deque was full (`cap <= len`). -/
def push_front (d : Deque T) (v : CArray.Ref T) : Option (Deque T) :=
  match grow_if_full d with
  | none => none
  | some d1 =>
    -- head = (head + cap - 1) % cap; buf[head] = v; ++len;
    match CArray.wrap (d1.head + d1.cap - 1) d1.cap with
    | none => none
    | some h =>
      match CArray.deref (decide (d.cap ≤ d.len)) d1.buf d1.cap v with
      | none => none
      | some x =>
        match CArray.write d1.buf d1.cap h x with
        | none => none
        | some b => some { d1 with buf := b, head := h, len := d1.len + 1 }

/-- The member `push_back(v)`, whose parameter is a reference: `v` is read in the
assignment `buf[(head + len) % cap] = v`, after `grow_if_full()`, which has freed the old
buffer exactly when the deque was full (`cap <= len`). -/
def push_back (d : Deque T) (v : CArray.Ref T) : Option (Deque T) :=
  match grow_if_full d with
  | none => none
  | some d1 =>
    -- buf[(head + len) % cap] = v; ++len;
    match CArray.wrap (d1.head + d1.len) d1.cap with
    | none => none
    | some j =>
      match CArray.deref (decide (d.cap ≤ d.len)) d1.buf d1.cap v with
      | none => none
      | some x =>
        match CArray.write d1.buf d1.cap j x with
        | none => none
        | some b => some { d1 with buf := b, len := d1.len + 1 }

/-- The member `pop_front()`: the returned flag and the new state. -/
def pop_front (d : Deque T) : Option (Bool × Deque T) :=
  if d.len = 0 then some (false, d)
  else
    match CArray.wrap (d.head + 1) d.cap with
    | none => none
    | some h => some (true, { d with head := h, len := d.len - 1 })

/-- The member `pop_back()`: the returned flag and the new state. -/
def pop_back (d : Deque T) : Option (Bool × Deque T) :=
  if d.len = 0 then some (false, d) else some (true, { d with len := d.len - 1 })

/-- The member `clear()`. -/
def clear (d : Deque T) : Deque T :=
  { d with head := 0, len := 0 }

/-- The loop of `to_vector`: `out.push_back(buf[(head + i) % cap])` from index `i` with
`remaining` iterations to go. -/
def toVectorLoop (d : Deque T) : Nat → Nat → List T → Option (List T)
  | 0, _, out => some out
  | remaining + 1, i, out =>
    match CArray.wrap (d.head + i) d.cap with
    | none => none
    | some j =>
      match CArray.read d.buf d.cap j with
      | none => none
      | some x => toVectorLoop d remaining (i + 1) (out ++ [x])

/-- The member `to_vector()`: the elements from front to back. -/
def to_vector (d : Deque T) : Option (List T) :=
  toVectorLoop d d.len 0 []

/-- One mutating call on the deque; the argument of a push is an object outside the buffer
of the deque, holding the value `v`. -/
inductive Op (T : Type) where
  | push_front (v : T)
  | push_back (v : T)
  | pop_front
  | pop_back
  | clear

/-- One call with the flag it returns (`none` for the calls that return nothing). -/
def call (d : Deque T) : Op T → Option (Option Bool × Deque T)
  | Op.push_front v => (push_front d (CArray.Ref.value v)).map fun d1 => (none, d1)
  | Op.push_back v => (push_back d (CArray.Ref.value v)).map fun d1 => (none, d1)
  | Op.pop_front => (pop_front d).map fun r => (some r.1, r.2)
  | Op.pop_back => (pop_back d).map fun r => (some r.1, r.2)
  | Op.clear => some (none, clear d)

/-- What a client observes along a sequence of calls: the flag each call returns and, after
the call, the contents `to_vector()` from front to back. -/
def transcript (d : Deque T) : List (Op T) → Option (List (Option Bool × List T))
  | [] => some []
  | op :: ops =>
    match call d op with
    | none => none
    | some r =>
      match to_vector r.2 with
      | none => none
      | some l => (transcript r.2 ops).map fun rest => (r.1, l) :: rest

/-- The state after a sequence of calls. -/
def run (d : Deque T) : List (Op T) → Option (Deque T)
  | [] => some d
  | op :: ops =>
    match call d op with
    | none => none
    | some r => run r.2 ops

/-! ## The reference model: a plain list, front element first -/

/-- One call on the plain list: cons, append, drop-first, drop-last; a pop fails iff the
list is empty. -/
def listCall (l : List T) : Op T → Option Bool × List T
  | Op.push_front v => (none, v :: l)
  | Op.push_back v => (none, l ++ [v])
  | Op.pop_front =>
    match l with
    | [] => (some false, [])
    | _ :: rest => (some true, rest)
  | Op.pop_back =>
    match l with
    | [] => (some false, [])
    | x :: rest => (some true, (x :: rest).dropLast)
  | Op.clear => (none, [])

/-- The list after a sequence of calls. -/
def listRun (l : List T) : List (Op T) → List T
  | [] => l
  | op :: ops => listRun (listCall l op).2 ops

/-- What a client of the plain list observes: the flag of each call and the list after it. -/
def listTranscript (l : List T) : List (Op T) → List (Option Bool × List T)
  | [] => []
  | op :: ops => ((listCall l op).1, (listCall l op).2) :: listTranscript (listCall l op).2 ops

/-- The ring `d` holds the list `l`, front element first: the indices are in range and the
cell `i` places after `head` holds the `i`-th element. -/
structure Holds (d : Deque T) (l : List T) : Prop where
  capPos : 1 ≤ d.cap
  headLt : d.head < d.cap
  lenEq : d.len = l.length
  lenLe : d.len ≤ d.cap
  cells : ∀ i, i < d.len → d.buf ((d.head + i) % d.cap) = l[i]?

end Deque

/-!
# Verification of `ArrayStack<T, CAP>` (src/stack/array_stack.h)

The member array `T buf[CAP]` is a function from indices to cells, `none` being a cell that
was never written; an access outside `0..CAP-1` or a read of a cell never written is
undefined behaviour and gives `none`.
-/

/-- The data members of `ArrayStack<T, CAP>`. -/
structure ArrayStack (T : Type) (CAP : Nat) where
  buf : Nat → Option T
  len : Nat

namespace ArrayStack

variable {T : Type} {CAP : Nat}

/-- The default constructor `ArrayStack()`. -/
def construct : ArrayStack T CAP :=
  { buf := fun _ => none, len := 0 }

/-- The member `capacity()`. -/
def capacity (_s : ArrayStack T CAP) : Nat := CAP

/-- The member `size()`. -/
def size (s : ArrayStack T CAP) : Nat := s.len

/-- The member `empty()`. -/
def empty (s : ArrayStack T CAP) : Bool := decide (s.len = 0)

/-- The member `full()`. -/
def full (s : ArrayStack T CAP) : Bool := decide (s.len = CAP)

/-- The member `push(val)`: the returned flag and the new state. -/
def push (s : ArrayStack T CAP) (val : T) : Option (Bool × ArrayStack T CAP) :=
  if s.len ≥ CAP then some (false, s)
  else
    -- buf[len++] = val;
    match CArray.write s.buf CAP s.len val with
    | none => none
    | some b => some (true, { buf := b, len := s.len + 1 })

/-- The member `pop()`: the returned flag and the new state. -/
def pop (s : ArrayStack T CAP) : Bool × ArrayStack T CAP :=
  if s.len = 0 then (false, s) else (true, { s with len := s.len - 1 })

/-- The member `top_or_throw()`: `some none` stands for the exception `std::out_of_range`,
`some (some x)` for the returned element. -/
def top_or_throw (s : ArrayStack T CAP) : Option (Option T) :=
  if s.len = 0 then some none else (CArray.read s.buf CAP (s.len - 1)).map some

/-- The member `top()`, an alias of `top_or_throw()`. -/
def top (s : ArrayStack T CAP) : Option (Option T) :=
  top_or_throw s

/-- The member `clear()`. -/
def clear (s : ArrayStack T CAP) : ArrayStack T CAP :=
  { s with len := 0 }

/-- One mutating call on the stack. -/
inductive Op (T : Type) where
  | push (v : T)
  | pop
  | clear

/-- One call with the flag it returns (`none` for `clear`, which returns nothing). -/
def call (s : ArrayStack T CAP) : Op T → Option (Option Bool × ArrayStack T CAP)
  | Op.push v => (push s v).map fun r => (some r.1, r.2)
  | Op.pop => some (some (pop s).1, (pop s).2)
  | Op.clear => some (none, clear s)

/-- What a client observes along a sequence of calls: the flag each call returns and, after
the call, `size()` and what `top()` gives (`none` when it throws). -/
def transcript (s : ArrayStack T CAP) :
    List (Op T) → Option (List (Option Bool × Nat × Option T))
  | [] => some []
  | op :: ops =>
    match call s op with
    | none => none
    | some r =>
      match top r.2 with
      | none => none
      | some x => (transcript r.2 ops).map fun rest => (r.1, size r.2, x) :: rest

/-- The state after a sequence of calls. -/
def run (s : ArrayStack T CAP) : List (Op T) → Option (ArrayStack T CAP)
  | [] => some s
  | op :: ops =>
    match call s op with
    | none => none
    | some r => run r.2 ops

/-! ## The reference model: a LIFO list bounded by `c`, top element first -/

/-- One call on the bounded LIFO list: `push` fails and changes nothing iff the list has `c`
elements and otherwise puts the element on top; `pop` fails iff the list is empty and
otherwise removes the top; `clear` empties the list. -/
def lifoCall (c : Nat) (l : List T) : Op T → Option Bool × List T
  | Op.push v => if l.length = c then (some false, l) else (some true, v :: l)
  | Op.pop =>
    match l with
    | [] => (some false, [])
    | _ :: rest => (some true, rest)
  | Op.clear => (none, [])

/-- The list after a sequence of calls. -/
def lifoRun (c : Nat) (l : List T) : List (Op T) → List T
  | [] => l
  | op :: ops => lifoRun c (lifoCall c l op).2 ops

/-- What a client of the bounded LIFO list observes: the flag of each call and, after it,
the length and the top element. -/
def lifoTranscript (c : Nat) (l : List T) : List (Op T) → List (Option Bool × Nat × Option T)
  | [] => []
  | op :: ops =>
    ((lifoCall c l op).1, (lifoCall c l op).2.length, (lifoCall c l op).2.head?) ::
      lifoTranscript c (lifoCall c l op).2 ops

/-- The array `s` holds the list `l` (top first): cell `i` holds the `i`-th element from
the bottom. -/
structure Holds (s : ArrayStack T CAP) (l : List T) : Prop where
  lenEq : s.len = l.length
  lenLe : s.len ≤ CAP
  cells : ∀ i, i < s.len → s.buf i = l.reverse[i]?

end ArrayStack

/-! # `arralg` (`src/arrays/array_algorithms.h`)

A `std::vector<T>` is a list; an access outside the vector is undefined behaviour and makes
the operation return `none`. -/

namespace arralg

/-- `std::swap(a[i], a[j])` on a vector. -/
def swapAt {T : Type} (a : List T) (i j : Nat) : Option (List T) :=
  match a[i]?, a[j]? with
  | some x, some y => some ((a.set i y).set j x)
  | _, _ => none

/-- The loop `while (i < j) std::swap(a[i++], a[j--]);` of `reverse_inplace`; the first
argument bounds the number of iterations. -/
def reverseLoop {T : Type} : Nat → List T → Nat → Nat → Option (List T)
  | 0, a, i, j => if i < j then none else some a
  | fuel + 1, a, i, j =>
    if i < j then
      match swapAt a i j with
      | none => none
      | some a1 => reverseLoop fuel a1 (i + 1) (j - 1)
    else some a

/-- `reverse_inplace(a)`: returns at once on the empty vector, otherwise swaps from both
ends, starting at `i = 0`, `j = a.size() - 1`. -/
def reverse_inplace {T : Type} (a : List T) : Option (List T) :=
  if a.isEmpty then some a else reverseLoop a.length a 0 (a.length - 1)

/-- The body of the `for` loop of `kadane_max_subarray`, run over `a[i], a[i+1], …` in
order: `cur = max(a[i], cur + a[i]); best = max(best, cur);`. -/
def kadaneLoop : List Int → Int → Int → Int
  | [], best, _ => best
  | x :: rest, best, cur => kadaneLoop rest (max best (max x (cur + x))) (max x (cur + x))

/-- `kadane_max_subarray(a)` with exact integers: 0 on the empty vector, otherwise
`best = cur = a[0]` and the loop over `a[1], a[2], …`. -/
def kadane_max_subarray : List Int → Int
  | [] => 0
  | x :: rest => kadaneLoop rest x x

/-- The value `static_cast<std::size_t>(-1)`. -/
def SIZE_MAX : Nat := 2 ^ 64 - 1

/-- `pref_index.find(key)` on the map kept as a list of (key, index) pairs. -/
def prefFind : List (Int × Nat) → Int → Option Nat
  | [], _ => none
  | (k, v) :: m, key => if k = key then some v else prefFind m key

/-- The `for` loop of `subarray_with_sum`, run over `a[i], a[i+1], …` in order with the
index `i` carried along (`i` stays below `a.size()`, so `++i` and `it->second + 1` do not
wrap).  `none` is `std::nullopt`. -/
def subarrayLoop (target : Int) : List Int → Nat → Int → List (Int × Nat) → Option (Nat × Nat)
  | [], _, _, _ => none
  | x :: rest, i, pref, m =>
    match prefFind m (pref + x - target) with
    | some idx => some (if idx = SIZE_MAX then 0 else idx + 1, i)
    | none =>
      match prefFind m (pref + x) with
      | none => subarrayLoop target rest (i + 1) (pref + x) ((pref + x, i) :: m)
      | some _ => subarrayLoop target rest (i + 1) (pref + x) m

/-- `subarray_with_sum(a, target)`: the map starts as `{0 ↦ (size_t)-1}` and `pref = 0`. -/
def subarray_with_sum (a : List Int) (target : Int) : Option (Nat × Nat) :=
  subarrayLoop target a 0 0 [(0, SIZE_MAX)]

/-- The sum `a[i] + … + a[j]` of the contiguous subarray from index `i` to index `j`. -/
def segSum (a : List Int) (i j : Nat) : Int := ((a.drop i).take (j + 1 - i)).sum

end arralg

/-! # `stackalgo` (`src/stack/stack_algorithms.h`)

A `std::stack<T>` is a list with the top element first; `top()` or `pop()` on an empty
`std::stack` is undefined behaviour (`none`). -/

namespace stackalgo

/-- The conversion `(int)n` of a `size_t` to a 32-bit `int` (two's complement). -/
def toInt32 (n : Nat) : Int :=
  if n % 2 ^ 32 < 2 ^ 31 then ((n % 2 ^ 32 : Nat) : Int) else ((n % 2 ^ 32 : Nat) : Int) - 2 ^ 32

/-- The loop `while (!st.empty() && st.top() <= x) st.pop();`. -/
def popNotGreater (x : Int) : List Int → List Int
  | [] => []
  | t :: st => if t ≤ x then popNotGreater x st else t :: st

/-- The loop `for (int i = …; i >= 0; --i)` of `next_greater` from the index `i` on; the
first argument bounds the number of iterations. -/
def nextGreaterLoop (arr : List Int) :
    Nat → Int → List (Option Int) → List Int → Option (List (Option Int))
  | 0, i, res, _ => if 0 ≤ i then none else some res
  | fuel + 1, i, res, st =>
    if 0 ≤ i then
      match arr[i.toNat]? with
      | none => none
      | some x =>
        if i.toNat < res.length then
          nextGreaterLoop arr fuel (i - 1)
            (res.set i.toNat (popNotGreater x st).head?) (x :: popNotGreater x st)
        else none
    else some res

/-- `next_greater(arr)`: `res` starts as `arr.size()` empty optionals and the index as
`(int)arr.size() - 1`, which overflows `int` when the conversion yields `INT_MIN`. -/
def next_greater (arr : List Int) : Option (List (Option Int)) :=
  if toInt32 arr.length = -2 ^ 31 then none
  else nextGreaterLoop arr arr.length (toInt32 arr.length - 1)
    (List.replicate arr.length none) []

/-- The first element to the right of index `i` that is strictly greater than `arr[i]`. -/
def firstGreaterRight (arr : List Int) (i : Nat) : Option Int :=
  match arr[i]? with
  | none => none
  | some x => (arr.drop (i + 1)).find? (fun y => decide (x < y))

end stackalgo

/-- `MinStack<T>`: the data stack `st` and the stack of minima `minSt`, top first. -/
structure stackalgo.MinStack where
  st : List Int
  minSt : List Int
  deriving DecidableEq

namespace stackalgo.MinStack

/-- A new `MinStack` has both stacks empty. -/
def construct : MinStack := { st := [], minSt := [] }

/-- `push(x)`: `st.push(x); if (minSt.empty() || x <= minSt.top()) minSt.push(x);`. -/
def push (s : MinStack) (x : Int) : MinStack :=
  match s.minSt with
  | [] => { st := x :: s.st, minSt := [x] }
  | m :: ms =>
    if x ≤ m then { st := x :: s.st, minSt := x :: m :: ms }
    else { st := x :: s.st, minSt := m :: ms }

/-- `pop()`: nothing on an empty `st`; otherwise `minSt` is popped when the two tops are
equal, and `st` is popped.  `minSt.top()` on an empty `minSt` is undefined. -/
def pop (s : MinStack) : Option MinStack :=
  match s.st with
  | [] => some s
  | t :: rest =>
    match s.minSt with
    | [] => none
    | m :: ms => if t = m then some { st := rest, minSt := ms }
      else some { st := rest, minSt := m :: ms }

/-- `top()` is `st.top()`. -/
def top (s : MinStack) : Option Int := s.st.head?

/-- `getMin()` is `minSt.top()`. -/
def getMin (s : MinStack) : Option Int := s.minSt.head?

/-- `empty()` is `st.empty()`. -/
def empty (s : MinStack) : Bool := s.st.isEmpty

/-- `size()` is `st.size()`. -/
def size (s : MinStack) : Nat := s.st.length

/-- A call of the interface that changes the stack. -/
inductive Op where
  | push (x : Int)
  | pop
  deriving DecidableEq

/-- A sequence of calls, from left to right. -/
def run (s : MinStack) : List Op → Option MinStack
  | [] => some s
  | Op.push x :: ops => run (push s x) ops
  | Op.pop :: ops =>
    match pop s with
    | none => none
    | some s1 => run s1 ops

/-- The elements a sequence of calls leaves in a plain list, most recent first. -/
def listRun (l : List Int) : List Op → List Int
  | [] => l
  | Op.push x :: ops => listRun (x :: l) ops
  | Op.pop :: ops => listRun l.tail ops

/-- How `minSt` tracks `st`: an element is on `minSt` exactly when it was not greater
than the minimum below it. -/
inductive Tracks : List Int → List Int → Prop where
  | nil : Tracks [] []
  | keep {x : Int} {st : List Int} {m : Int} {ms : List Int} :
      Tracks st (m :: ms) → m < x → Tracks (x :: st) (m :: ms)
  | fresh {x : Int} {st ms : List Int} :
      Tracks st ms → (∀ m, ms.head? = some m → x ≤ m) → Tracks (x :: st) (x :: ms)

end stackalgo.MinStack

namespace stackalgo

/-- The contents of the stack of `next_greater` once the loop has handled the elements
`s` (the part of the vector to the right of the current index). -/
def stackAfter : List Int → List Int
  | [] => []
  | x :: s => x :: popNotGreater x (stackAfter s)

/-- A vector of `2^31 + 1` elements: 0, 1, and then zeros. -/
def wideVector : List Int := 0 :: 1 :: List.replicate (2 ^ 31 - 1) 0

end stackalgo

/-- `qalg::QueueWithStacks<T>`: two `std::vector`s used as stacks, each written in vector
order (index 0 first, `back()` last). -/
structure qalg.QueueWithStacks (T : Type) where
  in_stack : List T
  out_stack : List T

namespace qalg.QueueWithStacks

variable {T : Type}

/-- The defaulted constructor: both vectors empty. -/
def construct : QueueWithStacks T := { in_stack := [], out_stack := [] }

/-- The loop `while (!in_stack.empty()) { out_stack.push_back(in_stack.back());
in_stack.pop_back(); }`; the first argument bounds the number of iterations. -/
def transferLoop : Nat → List T → List T → Option (List T × List T)
  | 0, ins, outs => if ins.isEmpty then some (ins, outs) else none
  | fuel + 1, ins, outs =>
    match ins.getLast? with
    | none => some (ins, outs)
    | some x => transferLoop fuel ins.dropLast (outs ++ [x])

/-- `transfer_if_needed()`: nothing when `out_stack` is non-empty, otherwise the loop. -/
def transfer_if_needed (q : QueueWithStacks T) : Option (QueueWithStacks T) :=
  if !q.out_stack.isEmpty then some q
  else (transferLoop q.in_stack.length q.in_stack q.out_stack).map
    fun r => { in_stack := r.1, out_stack := r.2 }

/-- `push(val)`: `in_stack.push_back(val)`. -/
def push (q : QueueWithStacks T) (val : T) : QueueWithStacks T :=
  { q with in_stack := q.in_stack ++ [val] }

/-- `pop()`: transfer, then `false` on an empty `out_stack`, else `out_stack.pop_back()`
and `true`. -/
def pop (q : QueueWithStacks T) : Option (Bool × QueueWithStacks T) :=
  (transfer_if_needed q).map fun q1 =>
    if q1.out_stack.isEmpty then (false, q1)
    else (true, { q1 with out_stack := q1.out_stack.dropLast })

/-- The non-const `front_ptr()`: transfer, then `nullptr` (`none`) on an empty `out_stack`,
else the element `out_stack.back()` pointed to. -/
def front_ptr (q : QueueWithStacks T) : Option (Option T × QueueWithStacks T) :=
  (transfer_if_needed q).map fun q1 =>
    if q1.out_stack.isEmpty then (none, q1) else (q1.out_stack.getLast?, q1)

/-- The const `front_ptr()`: `out_stack.back()` when `out_stack` is non-empty, else
`in_stack.front()` when `in_stack` is non-empty, else `nullptr` (`none`). -/
def front_ptr_const (q : QueueWithStacks T) : Option T :=
  if !q.out_stack.isEmpty then q.out_stack.getLast?
  else if !q.in_stack.isEmpty then q.in_stack.head?
  else none

/-- The non-const `front_or_throw()`: transfer, then throw (`none`) on an empty
`out_stack`, else `out_stack.back()`. -/
def front_or_throw (q : QueueWithStacks T) : Option (Option T × QueueWithStacks T) :=
  (transfer_if_needed q).map fun q1 =>
    if q1.out_stack.isEmpty then (none, q1) else (q1.out_stack.getLast?, q1)

/-- The const `front_or_throw()`: as the const `front_ptr()`, throwing (`none`) when both
vectors are empty. -/
def front_or_throw_const (q : QueueWithStacks T) : Option T :=
  if !q.out_stack.isEmpty then q.out_stack.getLast?
  else if !q.in_stack.isEmpty then q.in_stack.head?
  else none

/-- `empty()`. -/
def empty (q : QueueWithStacks T) : Bool := q.in_stack.isEmpty && q.out_stack.isEmpty

/-- `size()`. -/
def size (q : QueueWithStacks T) : Nat := q.in_stack.length + q.out_stack.length

/-- `clear()`. -/
def clear (_q : QueueWithStacks T) : QueueWithStacks T := { in_stack := [], out_stack := [] }

/-- A call of the non-const interface. -/
inductive Op (T : Type) where
  | push (v : T)
  | pop
  | front_ptr
  | front_or_throw

/-- What a call returns: nothing, a flag, or an element (`none` for `nullptr` and for a
thrown `out_of_range`). -/
inductive Reply (T : Type) where
  | unit
  | flag (b : Bool)
  | elem (x : Option T)
  deriving DecidableEq

/-- One call with the value it returns and the state it leaves. -/
def call (q : QueueWithStacks T) : Op T → Option (Reply T × QueueWithStacks T)
  | Op.push v => some (Reply.unit, push q v)
  | Op.pop => (pop q).map fun r => (Reply.flag r.1, r.2)
  | Op.front_ptr => (front_ptr q).map fun r => (Reply.elem r.1, r.2)
  | Op.front_or_throw => (front_or_throw q).map fun r => (Reply.elem r.1, r.2)

/-- What a client observes along a sequence of calls: what each call returns and, after
the call, what the const `front_ptr()` and the const `front_or_throw()` give, and `size()`. -/
def transcript (q : QueueWithStacks T) :
    List (Op T) → Option (List (Reply T × Option T × Option T × Nat))
  | [] => some []
  | op :: ops =>
    match call q op with
    | none => none
    | some r =>
      (transcript r.2 ops).map fun rest =>
        (r.1, front_ptr_const r.2, front_or_throw_const r.2, size r.2) :: rest

/-- The state after a sequence of calls. -/
def run (q : QueueWithStacks T) : List (Op T) → Option (QueueWithStacks T)
  | [] => some q
  | op :: ops =>
    match call q op with
    | none => none
    | some r => run r.2 ops

/-- The front-to-back contents: `reverse(out_stack)` followed by `in_stack`. -/
def contents (q : QueueWithStacks T) : List T := q.out_stack.reverse ++ q.in_stack

/-! ## The reference model: a FIFO list, oldest element first -/

/-- One call on the FIFO list: `push` appends at the back, `pop` removes the oldest element
and tells whether there was one, the two `front` calls return the oldest element. -/
def fifoCall (l : List T) : Op T → Reply T × List T
  | Op.push v => (Reply.unit, l ++ [v])
  | Op.pop => (Reply.flag (!l.isEmpty), l.tail)
  | Op.front_ptr => (Reply.elem l.head?, l)
  | Op.front_or_throw => (Reply.elem l.head?, l)

/-- The FIFO list after a sequence of calls. -/
def fifoRun (l : List T) : List (Op T) → List T
  | [] => l
  | op :: ops => fifoRun (fifoCall l op).2 ops

/-- What a client of the FIFO list observes: what each call returns and, after it, the
oldest element (twice) and the length. -/
def fifoTranscript (l : List T) : List (Op T) → List (Reply T × Option T × Option T × Nat)
  | [] => []
  | op :: ops =>
    ((fifoCall l op).1, (fifoCall l op).2.head?, (fifoCall l op).2.head?,
      (fifoCall l op).2.length) :: fifoTranscript (fifoCall l op).2 ops

end qalg.QueueWithStacks

/-!
# Verification of `DynamicArray<T>` (src/arrays/dynamic_array.h)

The buffer `T *buf` of `cap` cells is modelled as for the queues above: a function from
indices to cells, with `none` for a cell that was never written and for every access outside
the `cap` cells (`buf == nullptr` has `cap == 0`).  `size_t` values are natural numbers:
`cap * 2` and `len + 1` do not wrap for any buffer that can be allocated.
-/

/-- The data members of `DynamicArray<T>`. -/
structure DynamicArray (T : Type) where
  buf : Nat → Option T
  cap : Nat
  len : Nat

namespace DynamicArray

variable {T : Type}

/-- The default constructor: `buf(nullptr), cap(0), len(0)`. -/
def construct : DynamicArray T := { buf := fun _ => none, cap := 0, len := 0 }

/-- The member `size()`. -/
def size (d : DynamicArray T) : Nat := d.len

/-- The member `capacity()`. -/
def capacity (d : DynamicArray T) : Nat := d.cap

/-- The member `operator[](i)`, which does not check `i`. -/
def index (d : DynamicArray T) (i : Nat) : Option T := CArray.read d.buf d.cap i

/-- The copy loop of `grow`: `nb[i] = buf[i]` from index `i` with `remaining` iterations
to go, into the new array `nb` of `newCap` cells. -/
def growCopy (d : DynamicArray T) (newCap : Nat) :
    Nat → Nat → (Nat → Option T) → Option (Nat → Option T)
  | 0, _, nb => some nb
  | remaining + 1, i, nb =>
    match CArray.read d.buf d.cap i with
    | none => none
    | some x =>
      match CArray.write nb newCap i x with
      | none => none
      | some nb1 => growCopy d newCap remaining (i + 1) nb1

/-- The private `grow(min_needed)`: the new capacity is
`max(cap ? cap * 2 : 1, max(1, min_needed))`. -/
def grow (d : DynamicArray T) (min_needed : Nat) : Option (DynamicArray T) :=
  match growCopy d (max (if d.cap ≠ 0 then d.cap * 2 else 1) (max 1 min_needed)) d.len 0
      (fun _ => none) with
  | none => none
  | some nb =>
    some { buf := nb, cap := max (if d.cap ≠ 0 then d.cap * 2 else 1) (max 1 min_needed),
           len := d.len }

/-- The statement `if (len >= cap) grow(std::max((size_t)2, cap * 2));` that opens
`push_back` and `insert`. -/
def grow_if_full (d : DynamicArray T) : Option (DynamicArray T) :=
  if d.len ≥ d.cap then grow d (max 2 (d.cap * 2)) else some d

/-- The member `push_back(v)`: grow when full, then `buf[len++] = v`.  The parameter is a
reference, read in that assignment; `grow` has freed the old buffer exactly when
`len >= cap`. -/
def push_back (d : DynamicArray T) (v : CArray.Ref T) : Option (DynamicArray T) :=
  match grow_if_full d with
  | none => none
  | some d1 =>
    match CArray.deref (decide (d.len ≥ d.cap)) d1.buf d1.cap v with
    | none => none
    | some x =>
      match CArray.write d1.buf d1.cap d1.len x with
      | none => none
      | some b => some { d1 with buf := b, len := d1.len + 1 }

/-- The loop `for (i = len; i > pos; --i) buf[i] = buf[i - 1];` of `insert` from the index
`i` on; the first argument bounds the number of iterations. -/
def shiftRight (cap pos : Nat) : Nat → Nat → (Nat → Option T) → Option (Nat → Option T)
  | 0, i, buf => if i > pos then none else some buf
  | fuel + 1, i, buf =>
    if i > pos then
      match CArray.read buf cap (i - 1) with
      | none => none
      | some x =>
        match CArray.write buf cap i x with
        | none => none
        | some b => shiftRight cap pos fuel (i - 1) b
    else some buf

/-- The member `insert(pos, v)`: `false` when `pos > len`; otherwise grow when full, shift
the cells from `pos` on one place to the right, write `buf[pos] = v`, `++len`, `true`.
The parameter is a reference, read in the assignment `buf[pos] = v`: after the shift, and
after `grow` has freed the old buffer when `len >= cap`. -/
def insert (d : DynamicArray T) (pos : Nat) (v : CArray.Ref T) :
    Option (Bool × DynamicArray T) :=
  if pos > d.len then some (false, d)
  else
    match grow_if_full d with
    | none => none
    | some d1 =>
      match shiftRight d1.cap pos d1.len d1.len d1.buf with
      | none => none
      | some b =>
        match CArray.deref (decide (d.len ≥ d.cap)) b d1.cap v with
        | none => none
        | some x =>
          match CArray.write b d1.cap pos x with
          | none => none
          | some b1 => some (true, { d1 with buf := b1, len := d1.len + 1 })

/-- The loop `for (i = pos; i + 1 < len; ++i) buf[i] = buf[i + 1];` of `erase` from the
index `i` on; the first argument bounds the number of iterations. -/
def shiftLeft (cap len : Nat) : Nat → Nat → (Nat → Option T) → Option (Nat → Option T)
  | 0, i, buf => if i + 1 < len then none else some buf
  | fuel + 1, i, buf =>
    if i + 1 < len then
      match CArray.read buf cap (i + 1) with
      | none => none
      | some x =>
        match CArray.write buf cap i x with
        | none => none
        | some b => shiftLeft cap len fuel (i + 1) b
    else some buf

/-- The member `erase(pos)`: `false` when `pos >= len`; otherwise shift the cells after
`pos` one place to the left, `--len`, `true`. -/
def erase (d : DynamicArray T) (pos : Nat) : Option (Bool × DynamicArray T) :=
  if pos ≥ d.len then some (false, d)
  else
    match shiftLeft d.cap d.len d.len pos d.buf with
    | none => none
    | some b => some (true, { d with buf := b, len := d.len - 1 })

/-- The loop `for (i = 0; i < da.size(); ++i) … da[i] …` of the test, from index `i` with
`remaining` iterations to go. -/
def readLoop (d : DynamicArray T) : Nat → Nat → Option (List T)
  | 0, _ => some []
  | remaining + 1, i =>
    match index d i with
    | none => none
    | some x => (readLoop d remaining (i + 1)).map fun rest => x :: rest

/-- The elements at the indices `0 .. size() - 1`, read with `operator[]`. -/
def elements (d : DynamicArray T) : Option (List T) := readLoop d d.len 0

/-- A call of the interface that changes the array; the argument `v` of `push_back` and
`insert` is an object outside the buffer of the array, holding the value `v`. -/
inductive Op (T : Type) where
  | push_back (v : T)
  | insert (pos : Nat) (v : T)
  | erase (pos : Nat)

/-- One call with the flag it returns (`none` for `void`) and the state it leaves. -/
def call (d : DynamicArray T) : Op T → Option (Option Bool × DynamicArray T)
  | Op.push_back v => (push_back d (CArray.Ref.value v)).map fun d1 => (none, d1)
  | Op.insert pos v => (insert d pos (CArray.Ref.value v)).map fun r => (some r.1, r.2)
  | Op.erase pos => (erase d pos).map fun r => (some r.1, r.2)

/-- What a client observes along a sequence of calls: the flag each call returns and, after
the call, `size()` and the elements at the indices `0 .. size() - 1`. -/
def transcript (d : DynamicArray T) : List (Op T) → Option (List (Option Bool × Nat × List T))
  | [] => some []
  | op :: ops =>
    match call d op with
    | none => none
    | some r =>
      match elements r.2 with
      | none => none
      | some l => (transcript r.2 ops).map fun rest => (r.1, size r.2, l) :: rest

/-- The state after a sequence of calls. -/
def run (d : DynamicArray T) : List (Op T) → Option (DynamicArray T)
  | [] => some d
  | op :: ops =>
    match call d op with
    | none => none
    | some r => run r.2 ops

/-! ## The reference model: a plain list -/

/-- One call on the plain list: `push_back` appends; `insert(pos, v)` puts `v` at index
`pos` with the later elements shifted right when `pos <= length`, and otherwise changes
nothing; `erase(pos)` removes index `pos` when `pos < length`, and otherwise changes
nothing. -/
def listCall (l : List T) : Op T → Option Bool × List T
  | Op.push_back v => (none, l ++ [v])
  | Op.insert pos v =>
    if pos ≤ l.length then (some true, l.take pos ++ v :: l.drop pos) else (some false, l)
  | Op.erase pos =>
    if pos < l.length then (some true, l.take pos ++ l.drop (pos + 1)) else (some false, l)

/-- The list after a sequence of calls. -/
def listRun (l : List T) : List (Op T) → List T
  | [] => l
  | op :: ops => listRun (listCall l op).2 ops

/-- What a client of the plain list observes: the flag of each call and, after it, the
length and the list. -/
def listTranscript (l : List T) : List (Op T) → List (Option Bool × Nat × List T)
  | [] => []
  | op :: ops =>
    ((listCall l op).1, (listCall l op).2.length, (listCall l op).2) ::
      listTranscript (listCall l op).2 ops

/-- The array `d` holds the list `l`: `len` is its length, it fits into the `cap` cells,
and the cell `i` holds the `i`-th element. -/
structure Holds (d : DynamicArray T) (l : List T) : Prop where
  lenEq : d.len = l.length
  lenLe : d.len ≤ d.cap
  cells : ∀ i, i < d.len → d.buf i = l[i]?

end DynamicArray

namespace qalg

/-- The loop `for (int v : adj[u])` of `bfs_on_adjlist` over the remaining neighbours, on the
vectors `dist`, `parent` and the queue `q` (front first).  Neighbours outside `0 .. n - 1`
are skipped; an access outside a vector is undefined (`none`). -/
def visitNeighbours (n u : Int) :
    List Int → List Int × List Int × List Int → Option (List Int × List Int × List Int)
  | [], st => some st
  | v :: vs, (dist, parent, q) =>
    if v < 0 ∨ v ≥ n then visitNeighbours n u vs (dist, parent, q)
    else
      match dist[v.toNat]? with
      | none => none
      | some dv =>
        if dv = -1 then
          match dist[u.toNat]? with
          | none => none
          | some du =>
            if v.toNat < parent.length then
              visitNeighbours n u vs
                (dist.set v.toNat (du + 1), parent.set v.toNat u, q ++ [v])
            else none
        else visitNeighbours n u vs (dist, parent, q)

/-- The loop `while (!q.empty())` of `bfs_on_adjlist`; the first argument bounds the number
of iterations. -/
def bfsLoop (adj : List (List Int)) (n : Int) :
    Nat → List Int → List Int → List Int → Option (List Int × List Int)
  | 0, dist, parent, q =>
    match q with
    | [] => some (dist, parent)
    | _ :: _ => none
  | fuel + 1, dist, parent, q =>
    match q with
    | [] => some (dist, parent)
    | u :: rest =>
      match adj[u.toNat]? with
      | none => none
      | some nbrs =>
        match visitNeighbours n u nbrs (dist, parent, rest) with
        | none => none
        | some r => bfsLoop adj n fuel r.1 r.2.1 r.2.2

/-- `bfs_on_adjlist(adj, start)`: `n` is `static_cast<int>(adj.size())`; `some none` stands
for the exception `std::out_of_range`.  Every vertex enters the queue at most once, so the
loop runs at most `n` times. -/
def bfs_on_adjlist (adj : List (List Int)) (start : Int) : Option (Option (List Int × List Int)) :=
  if start < 0 ∨ start ≥ stackalgo.toInt32 adj.length then some none
  else
    (bfsLoop adj (stackalgo.toInt32 adj.length) (stackalgo.toInt32 adj.length).toNat
      ((List.replicate (stackalgo.toInt32 adj.length).toNat (-1)).set start.toNat 0)
      ((List.replicate (stackalgo.toInt32 adj.length).toNat (-1)).set start.toNat (-1))
      [start]).map some

/-- An edge of the graph: `w` is listed in `adj[u]` and is a vertex (in range). -/
def Edge (adj : List (List Int)) (u w : Nat) : Prop :=
  ∃ nbrs, adj[u]? = some nbrs ∧ (w : Int) ∈ nbrs ∧ w < adj.length

/-- A path of `k` edges from `s` to the vertex, using only in-range neighbours. -/
inductive Walk (adj : List (List Int)) (s : Nat) : Nat → Nat → Prop where
  | nil : Walk adj s s 0
  | snoc {v w k : Nat} : Walk adj s v k → Edge adj v w → Walk adj s w (k + 1)

end qalg

namespace qalg

/-- The entry of vertex `v` in `dist` or `parent`, with `-1` outside the vector. -/
def entry (l : List Int) (v : Nat) : Int := l.getD v (-1)

/-- What holds of `dist`, `parent` and the queue throughout `bfs_on_adjlist` from the start
vertex `s`: a vertex with `dist != -1` has a path of that length from `s`; the queue holds
such vertices in the order of their `dist`; `parent` is `-1` for `s` and for vertices with
`dist == -1`, and otherwise a predecessor one step closer to `s`. -/
structure BfsInv (adj : List (List Int)) (s : Nat) (dist parent q : List Int) : Prop where
  lenD : dist.length = adj.length
  lenP : parent.length = adj.length
  startD : entry dist s = 0
  sound : ∀ v, entry dist v ≠ -1 → ∃ d : Nat, entry dist v = (d : Int) ∧ Walk adj s v d
  qVis : ∀ x, x ∈ q → 0 ≤ x ∧ entry dist x.toNat ≠ -1
  qSorted : q.Pairwise fun x y => entry dist x.toNat ≤ entry dist y.toNat
  parStart : entry parent s = -1
  parUnvis : ∀ v, entry dist v = -1 → entry parent v = -1
  parVis : ∀ v, entry dist v ≠ -1 → v ≠ s →
    ∃ u : Nat, entry parent v = (u : Int) ∧ Edge adj u v ∧ entry dist u ≠ -1 ∧
      entry dist v = entry dist u + 1

/-- The invariant of the loop `while (!q.empty())`: every edge from a vertex that has left
the queue leads to a vertex with `dist` at most one more, and no `dist` exceeds that of the
front of the queue by more than one. -/
structure LoopInv (adj : List (List Int)) (s : Nat) (dist parent q : List Int) : Prop where
  base : BfsInv adj s dist parent q
  closed : ∀ v w, entry dist v ≠ -1 → (v : Int) ∉ q → Edge adj v w →
    entry dist w ≠ -1 ∧ entry dist w ≤ entry dist v + 1
  bound : ∀ x, q.head? = some x → ∀ v, entry dist v ≤ entry dist x.toNat + 1

/-- The invariant of the loop over the neighbours of the dequeued vertex `u`, of which
`seen` have been handled. -/
structure VisitInv (adj : List (List Int)) (s u : Nat) (seen : List Int)
    (dist parent q : List Int) : Prop where
  base : BfsInv adj s dist parent q
  closed : ∀ v w, entry dist v ≠ -1 → (v : Int) ∉ q → v ≠ u → Edge adj v w →
    entry dist w ≠ -1 ∧ entry dist w ≤ entry dist v + 1
  seenU : ∀ w : Nat, (w : Int) ∈ seen → w < adj.length →
    entry dist w ≠ -1 ∧ entry dist w ≤ entry dist u + 1
  bound : ∀ v, entry dist v ≤ entry dist u + 1
  qGe : ∀ x, x ∈ q → entry dist u ≤ entry dist x.toNat
  uVis : entry dist u ≠ -1

end qalg

/-!
# Verification of `SinglyLinkedList<T>` (src/linked_list/singly_linked_list.h)

Nodes live in a heap, a function from addresses to nodes; a pointer is `none` for `nullptr`
or `some a` for the address `a`.  `new` takes the next fresh address `brk`.  Dereferencing
`nullptr` or a dangling pointer is undefined behaviour, for which the member functions
return `none`.  `size_t` arithmetic is modulo `2^64` where it can wrap.
-/

/-- The struct `SLLNode<T>`. -/
structure SLLNode (T : Type) where
  val : T
  next : Option Nat

/-- The data members of `SinglyLinkedList<T>`, with the heap and the next fresh address. -/
structure SinglyLinkedList (T : Type) where
  heap : Nat → Option (SLLNode T)
  brk : Nat
  head : Option Nat
  tail : Option Nat
  len : Nat

namespace SinglyLinkedList

variable {T : Type}

/-- Writing the node at address `a`. -/
def store (h : Nat → Option (SLLNode T)) (a : Nat) (nd : SLLNode T) : Nat → Option (SLLNode T) :=
  fun x => if x = a then some nd else h x

/-- The effect of `delete` (and of leaving the scope of a local node) on the heap. -/
def release (h : Nat → Option (SLLNode T)) (a : Nat) : Nat → Option (SLLNode T) :=
  fun x => if x = a then none else h x

/-- The default constructor: `head(nullptr), tail(nullptr), len(0)`. -/
def construct : SinglyLinkedList T :=
  { heap := fun _ => none, brk := 0, head := none, tail := none, len := 0 }

/-- The member `size()`. -/
def size (s : SinglyLinkedList T) : Nat := s.len

/-- The member `get_head()`. -/
def get_head (s : SinglyLinkedList T) : Option Nat := s.head

/-- The member `get_tail()`. -/
def get_tail (s : SinglyLinkedList T) : Option Nat := s.tail

/-- The member `push_back(v)`: a new node, linked after `tail` when there is one. -/
def push_back (s : SinglyLinkedList T) (v : T) : Option (SinglyLinkedList T) :=
  match s.tail with
  | none =>
    some { heap := store s.heap s.brk { val := v, next := none }, brk := s.brk + 1,
           head := some s.brk, tail := some s.brk, len := (s.len + 1) % 2 ^ 64 }
  | some t =>
    match store s.heap s.brk { val := v, next := none } t with
    | none => none
    | some nt =>
      some { heap := store (store s.heap s.brk { val := v, next := none }) t
                      { nt with next := some s.brk },
             brk := s.brk + 1, head := s.head, tail := some s.brk,
             len := (s.len + 1) % 2 ^ 64 }

/-- The constructor from an initializer list: `push_back` of every element in order. -/
def pushAll (s : SinglyLinkedList T) : List T → Option (SinglyLinkedList T)
  | [] => some s
  | v :: vs =>
    match push_back s v with
    | none => none
    | some s1 => pushAll s1 vs

/-- The list `SinglyLinkedList<T>{ … }` built from an initializer list. -/
def fromList (l : List T) : Option (SinglyLinkedList T) := pushAll construct l

/-- The traversal `for (cur = head; cur; cur = cur->next)` collecting `cur->val`; the first
argument bounds the number of nodes visited. -/
def toListLoop (h : Nat → Option (SLLNode T)) : Nat → Option Nat → Option (List T)
  | 0, cur =>
    match cur with
    | none => some []
    | some _ => none
  | fuel + 1, cur =>
    match cur with
    | none => some []
    | some a =>
      match h a with
      | none => none
      | some nd => (toListLoop h fuel nd.next).map fun rest => nd.val :: rest

/-- The sequence of values from `head` on. -/
def toList (s : SinglyLinkedList T) : Option (List T) := toListLoop s.heap s.brk s.head

/-- The loop `for (i = 0; i < n + 1; ++i) { if (!fast) return false; fast = fast->next; }`
with `count` iterations to go: `some none` is the early `return false`. -/
def advanceFast (h : Nat → Option (SLLNode T)) : Nat → Option Nat → Option (Option (Option Nat))
  | 0, fast => some (some fast)
  | count + 1, fast =>
    match fast with
    | none => some none
    | some a =>
      match h a with
      | none => none
      | some nd => advanceFast h count nd.next

/-- The loop `while (fast) { fast = fast->next; slow = slow->next; }`, returning `slow`;
the first argument bounds the number of iterations. -/
def walkBoth (h : Nat → Option (SLLNode T)) :
    Nat → Option Nat → Option Nat → Option (Option Nat)
  | 0, fast, slow =>
    match fast with
    | none => some slow
    | some _ => none
  | fuel + 1, fast, slow =>
    match fast with
    | none => some slow
    | some a =>
      match h a with
      | none => none
      | some nf =>
        match slow with
        | none => none
        | some b =>
          match h b with
          | none => none
          | some ns => walkBoth h fuel nf.next ns.next

/-- The member `remove_nth_from_end(n)`.  The local node `dummy` is placed at the fresh
address `brk` and disappears on return.  The bound of the first loop is `n + 1` computed in
`size_t`. -/
def remove_nth_from_end [Inhabited T] (s : SinglyLinkedList T) (n : Nat) :
    Option (Bool × SinglyLinkedList T) :=
  if n = 0 ∨ s.head = none then some (false, s)
  else
    match advanceFast (store s.heap s.brk { val := default, next := s.head })
        ((n + 1) % 2 ^ 64) (some s.brk) with
    | none => none
    | some none => some (false, s)
    | some (some fast) =>
      match walkBoth (store s.heap s.brk { val := default, next := s.head }) (s.brk + 1) fast
          (some s.brk) with
      | none => none
      | some none => none
      | some (some slow) =>
        match store s.heap s.brk { val := default, next := s.head } slow with
        | none => none
        | some ns =>
          match ns.next with
          | none => some (false, s)
          | some to_delete =>
            match store s.heap s.brk { val := default, next := s.head } to_delete with
            | none => none
            | some nd =>
              match release (store (store s.heap s.brk { val := default, next := s.head })
                  slow { ns with next := nd.next }) to_delete s.brk with
              | none => none
              | some dummy =>
                some (true,
                  { heap := release (release (store (store s.heap s.brk
                      { val := default, next := s.head }) slow { ns with next := nd.next })
                      to_delete) s.brk
                    brk := s.brk
                    head := dummy.next
                    tail := if some to_delete = s.tail then
                        (if slow = s.brk then none else some slow)
                      else s.tail
                    len := (s.len + 2 ^ 64 - 1) % 2 ^ 64 })

/-- The nodes at the addresses `cs` form a null-terminated chain holding the values `vs`. -/
structure Chain (h : Nat → Option (SLLNode T)) (cs : List Nat) (vs : List T) : Prop where
  lenEq : cs.length = vs.length
  nodup : cs.Nodup
  cells : ∀ i a, cs[i]? = some a → ∃ v, vs[i]? = some v ∧ h a = some { val := v, next := cs[i + 1]? }

/-- The list object `s` holds the values `l` in nodes at the addresses `cs`. -/
structure Holds (s : SinglyLinkedList T) (cs : List Nat) (l : List T) : Prop where
  chain : Chain s.heap cs l
  headEq : s.head = cs.head?
  tailEq : s.tail = cs.getLast?
  lenEq : s.len = l.length
  lenLt : l.length < 2 ^ 64
  below : ∀ a, a ∈ cs → a < s.brk

end SinglyLinkedList

namespace LRUCache

variable {K V : Type}

/-- The list of the reference model after a sequence of calls. -/
def refRun [DecidableEq K] (cap : Nat) (m : List (K × V)) : List (Op K V) → List (K × V)
  | [] => m
  | op :: ops => refRun cap (refCall cap m op).2 ops

end LRUCache

namespace LRUCache

variable {K V : Type}

/-- The addresses of the nodes met from `cur` along `next` (the traversal of `clear` and
`debug_print`); the first argument bounds the number of nodes. -/
def nodesFrom (h : Nat → Option (Node K V)) : Nat → Ptr → Option (List Nat)
  | _, none => some []
  | 0, some _ => none
  | fuel + 1, some a => (h a).bind fun n => (nodesFrom h fuel n.next).map fun as => a :: as

/-- The addresses of the nodes met from `cur` along `prev`; the first argument bounds the
number of nodes. -/
def nodesBack (h : Nat → Option (Node K V)) : Nat → Ptr → Option (List Nat)
  | _, none => some []
  | 0, some _ => none
  | fuel + 1, some a => (h a).bind fun n => (nodesBack h fuel n.prev).map fun as => a :: as

/-- The nodes reachable from `head_`, in list order. -/
def listNodes (s : LRUCache K V) : Option (List Nat) := nodesFrom s.heap s.brk s.head_

/-- The nodes reachable from `tail_` along `prev`. -/
def listNodesBack (s : LRUCache K V) : Option (List Nat) := nodesBack s.heap s.brk s.tail_

/-- The key field of the node at address `a`. -/
def keyAt (s : LRUCache K V) (a : Nat) : Option K := (s.heap a).map fun n => n.key

end LRUCache

namespace stackalgo

/-- The lookup `match[c]` in the map `{')' ↦ '(', ']' ↦ '[', '}' ↦ '{'}`, for a closer `c`. -/
def matchOf (c : Char) : Char :=
  if c = ')' then '(' else if c = ']' then '[' else '{'

/-- The loop `for (char c : s)` of `balanced_parentheses` over the remaining characters,
with the stack `st` (top first), followed by `return st.empty()`; `false` is also the early
`return false`. -/
def parenLoop : List Char → List Char → Bool
  | [], st => st.isEmpty
  | c :: cs, st =>
    if c = '(' ∨ c = '[' ∨ c = '{' then parenLoop cs (c :: st)
    else if c = ')' ∨ c = ']' ∨ c = '}' then
      match st with
      | [] => false
      | t :: rest => if t ≠ matchOf c then false else parenLoop cs rest
    else parenLoop cs st

/-- `balanced_parentheses(s)` on the characters of `s`. -/
def balanced_parentheses (s : List Char) : Bool := parenLoop s []

/-- The six bracket characters. -/
def isBracket (c : Char) : Bool :=
  decide (c = '(' ∨ c = '[' ∨ c = '{' ∨ c = ')' ∨ c = ']' ∨ c = '}')

/-- An opener and the closer of the same kind. -/
def Matches (o c : Char) : Prop :=
  (o = '(' ∧ c = ')') ∨ (o = '[' ∧ c = ']') ∨ (o = '{' ∧ c = '}')

/-- The well-nested bracket words: the empty word, a well-nested word enclosed in a
matching pair, and the concatenation of two well-nested words. -/
inductive WellNested : List Char → Prop where
  | nil : WellNested []
  | wrap {o c : Char} {w : List Char} : Matches o c → WellNested w → WellNested (o :: w ++ [c])
  | append {u v : List Char} : WellNested u → WellNested v → WellNested (u ++ v)

/-- The bracket word `w` closes the openers on the stack `st` (top first) one after the
other, with well-nested words in between, and ends well-nested. -/
def Closes : List Char → List Char → Prop
  | [], w => WellNested w
  | o :: st, w => ∃ u c v, w = u ++ c :: v ∧ WellNested u ∧ Matches o c ∧ Closes st v

end stackalgo

namespace stackalgo

/-- The loop `while (!st.empty() && h < heights[st.top()])` of
`largest_rectangle_histogram` at index `i`, on the stack of indices `st` (top first) and
`maxArea`.  The indices are of type `int`; they are never negative and are kept as natural
numbers, the products `height * width` are exact. -/
def histPop (heights : List Int) (h : Int) (i : Nat) : List Nat → Int → Option (List Nat × Int)
  | [], mx => some ([], mx)
  | t :: rest, mx =>
    match heights[t]? with
    | none => none
    | some ht =>
      if h < ht then
        histPop heights h i rest
          (max mx (ht * (match rest with
            | [] => (i : Int)
            | p :: _ => (i : Int) - (p : Int) - 1)))
      else some (t :: rest, mx)

/-- The loop `for (int i = 0; i <= n; ++i)` from index `i` on; `++i` overflows at
`INT_MAX`.  The first argument bounds the number of iterations. -/
def histLoop (heights : List Int) (n : Int) : Nat → Nat → List Nat → Int → Option Int
  | 0, i, _, mx => if (i : Int) ≤ n then none else some mx
  | fuel + 1, i, st, mx =>
    if (i : Int) ≤ n then
      match (if (i : Int) = n then some 0 else heights[i]?) with
      | none => none
      | some h =>
        match histPop heights h i st mx with
        | none => none
        | some r =>
          if i = 2 ^ 31 - 1 then none else histLoop heights n fuel (i + 1) (i :: r.1) r.2
    else some mx

/-- `largest_rectangle_histogram(heights)`: `int n = heights.size()` narrows the size to
32 bits. -/
def largest_rectangle_histogram (heights : List Int) : Option Int :=
  histLoop heights (toInt32 heights.length) (heights.length + 1) 0 [] 0

/-- The value `m` is the minimum of `heights[a..b]`: one of these heights is `m` and none
is smaller. -/
def IsSegMin (heights : List Int) (a b : Nat) (m : Int) : Prop :=
  (∃ t, a ≤ t ∧ t ≤ b ∧ heights[t]? = some m) ∧
    ∀ y, a ≤ y → y ≤ b → ∃ x, heights[y]? = some x ∧ m ≤ x

/-- The height at index `y`, with 0 outside the vector (as for the sentinel at `i == n`). -/
def heightAt (heights : List Int) (y : Nat) : Int := heights.getD y 0

/-- The index after the top of the stack, or 0 for the empty stack: the left end of the
rectangle of the element that lies on top of these. -/
def leftEnd : List Nat → Nat
  | [] => 0
  | p :: _ => p + 1

/-- The stack of `largest_rectangle_histogram` before index `i`: indices increase and
heights do not decrease towards the top, and no height between an element's predecessor on
the stack and `i` is below the element's height. -/
def StackOk (heights : List Int) : Nat → List Nat → Prop
  | _, [] => True
  | i, t :: rest =>
    t < i ∧ (∀ y, leftEnd rest ≤ y → y < i → heightAt heights t ≤ heightAt heights y) ∧
      (∀ p, rest.head? = some p → heightAt heights p ≤ heightAt heights t) ∧
      StackOk heights t rest

/-- What `maxArea` has accounted for before index `i`: every rectangle whose leftmost
lowest bar has left the stack, and nothing but areas of rectangles. -/
structure AreaInv (heights : List Int) (i : Nat) (st : List Nat) (mx : Int) : Prop where
  nonneg : 0 ≤ mx
  popped : ∀ t, t < i → t ∉ st → ∀ a b, a ≤ t → t ≤ b → b < heights.length →
    (∀ y, a ≤ y → y ≤ b → heightAt heights t ≤ heightAt heights y) →
    (∀ y, a ≤ y → y < t → heightAt heights t < heightAt heights y) →
    heightAt heights t * ((b + 1 - a : Nat) : Int) ≤ mx
  attained : mx = 0 ∨ ∃ a b m, a ≤ b ∧ b < heights.length ∧ IsSegMin heights a b m ∧
    mx = ((b + 1 - a : Nat) : Int) * m

end stackalgo

/-!
# Verification of `Solution::topoSort` (src/graph/graphAlgos/topoSort.cpp)

Vertices are natural numbers (`int` values that index `visited` and `adj`); the entries of
`adj`, read as `int neighbor`, are integers.  The state is the pair of `visited` and the
stack `st` (top first).  An access outside a vector is undefined behaviour (`none`).
-/

namespace Solution

/-- The loop `for (int neighbor : adj[node]) if (!visited[neighbor]) dfs(neighbor, …);` over
the remaining neighbours, where `call` is the recursive call of `dfs`. -/
def visitAll (call : Nat → List Bool × List Nat → Option (List Bool × List Nat)) :
    List Int → List Bool × List Nat → Option (List Bool × List Nat)
  | [], s => some s
  | v :: vs, s =>
    if v < 0 then none
    else
      match s.1[v.toNat]? with
      | none => none
      | some true => visitAll call vs s
      | some false =>
        match call v.toNat s with
        | none => none
        | some s1 => visitAll call vs s1

/-- The private `dfs(node, adj, visited, st)`: mark `node`, visit the unvisited neighbours,
push `node`.  The first argument bounds the depth of the recursion. -/
def dfs (adj : List (List Int)) :
    Nat → Nat → List Bool × List Nat → Option (List Bool × List Nat)
  | 0, _, _ => none
  | depth + 1, node, s =>
    if node < s.1.length then
      match adj[node]? with
      | none => none
      | some nbrs =>
        match visitAll (dfs adj depth) nbrs (s.1.set node true, s.2) with
        | none => none
        | some s1 => some (s1.1, node :: s1.2)
    else none

/-- The loop `for (int i = 0; i < V; ++i) if (!visited[i]) dfs(i, …);` from index `i` with
`remaining` iterations to go.  A `dfs` never nests deeper than the `V` vertices. -/
def topoLoop (adj : List (List Int)) (V : Nat) :
    Nat → Nat → List Bool × List Nat → Option (List Bool × List Nat)
  | 0, _, s => some s
  | remaining + 1, i, s =>
    match s.1[i]? with
    | none => none
    | some true => topoLoop adj V remaining (i + 1) s
    | some false =>
      match dfs adj V i s with
      | none => none
      | some s1 => topoLoop adj V remaining (i + 1) s1

/-- The loop `while (!st.empty()) { topoOrder.push_back(st.top()); st.pop(); }`. -/
def drain : List Nat → List Nat → List Nat
  | [], out => out
  | t :: st, out => drain st (out ++ [t])

/-- `topoSort(V, adj)` for a vertex count `V >= 0`. -/
def topoSort (V : Nat) (adj : List (List Int)) : Option (List Nat) :=
  match topoLoop adj V V 0 (List.replicate V false, []) with
  | none => none
  | some s => some (drain s.2 [])

/-- The graph has the edge `u -> v`: `v` is listed in `adj[u]`. -/
def Arc (adj : List (List Int)) (u v : Nat) : Prop :=
  ∃ nbrs, adj[u]? = some nbrs ∧ (v : Int) ∈ nbrs

/-- In the sequence `order`, `u` appears before `v`. -/
def Before (order : List Nat) (u v : Nat) : Prop :=
  ∃ a b, order = a ++ u :: b ∧ v ∈ b

/-- What holds of `visited` and the stack throughout `topoSort`: the vertices on the stack
are visited and pairwise distinct, and every edge from a vertex on the stack leads to a
vertex deeper in the stack. -/
structure TopoInv (adj : List (List Int)) (V : Nat) (vis : List Bool) (st : List Nat) : Prop where
  lenV : vis.length = V
  sub : ∀ x, x ∈ st → vis[x]? = some true
  nodup : st.Nodup
  closed : ∀ u v, u ∈ st → Arc adj u v → Before st u v

end Solution

namespace Solution

/-- How one call of `dfs` (or a run of calls) changes `visited` and the stack: the stack
grows at its top by vertices that were not visited before, the visited vertices are the
old ones and those on the stack, and no vertex becomes unvisited. -/
structure Grows (vis : List Bool) (st : List Nat) (vis1 : List Bool) (st1 : List Nat) : Prop where
  ext : ∃ new, st1 = new ++ st ∧ ∀ x, x ∈ new → ¬ vis[x]? = some true
  marks : ∀ x, vis1[x]? = some true ↔ (vis[x]? = some true ∨ x ∈ st1)
  count : vis1.count false ≤ vis.count false

end Solution

/-!
## The raw-pointer algorithms of `linked_list_algorithms.h`: `find_middle`, `split_list`,
`merge_two_sorted`, `mergesort_list`

The functions work on `SLLNode<T>*` in a heap, as above: a pointer is `none` for `nullptr`
or `some a` for the address `a`; a function returns `none` for undefined behaviour (a
dereference of a pointer with no node behind it) or when its loop bound is used up.
-/

namespace llist

variable {T : Type}

/-- The loop `while (fast && fast->next) { slow = slow->next; fast = fast->next->next; }`
of `find_middle`, returning `slow`; the first argument bounds the number of iterations. -/
def middleLoop (h : Nat → Option (SLLNode T)) : Nat → Option Nat → Option Nat → Option (Option Nat)
  | 0, slow, fast =>
    match fast with
    | none => some slow
    | some f =>
      match h f with
      | none => none
      | some nf =>
        match nf.next with
        | none => some slow
        | some _ => none
  | fuel + 1, slow, fast =>
    match fast with
    | none => some slow
    | some f =>
      match h f with
      | none => none
      | some nf =>
        match nf.next with
        | none => some slow
        | some g =>
          match slow with
          | none => none
          | some s =>
            match h s, h g with
            | some ns, some ng => middleLoop h fuel ns.next ng.next
            | _, _ => none

/-- `find_middle(head)`: `nullptr` for the empty list, else `slow` after the loop started
with `slow = head; fast = head->next`. -/
def find_middle (fuel : Nat) (h : Nat → Option (SLLNode T)) (head : Option Nat) :
    Option (Option Nat) :=
  match head with
  | none => some none
  | some a =>
    match h a with
    | none => none
    | some nd => middleLoop h fuel head nd.next

/-- `split_list(head)`: the heap after `mid->next = nullptr` and the pair
`(front_head, back_head)`. -/
def split_list (fuel : Nat) (h : Nat → Option (SLLNode T)) (head : Option Nat) :
    Option ((Nat → Option (SLLNode T)) × Option Nat × Option Nat) :=
  match head with
  | none => some (h, none, none)
  | some _ =>
    match find_middle fuel h head with
    | none => none
    | some none => some (h, head, none)
    | some (some m) =>
      match h m with
      | none => none
      | some nm => some (SinglyLinkedList.store h m { nm with next := none }, head, nm.next)

/-- From the pointer `p`, the nodes `l` (address and value of each) are linked in this order,
and the `next` of the last one is `q` (`p = q` when there is no node). -/
def Segment (h : Nat → Option (SLLNode T)) : Option Nat → List (Nat × T) → Option Nat → Prop
  | p, [], q => p = q
  | p, x :: l, q => p = some x.1 ∧ ∃ nx, h x.1 = some { val := x.2, next := nx } ∧ Segment h nx l q

/-- The pointer `p` is the head of a finite null-terminated list made of the nodes `l`. -/
def IsList (h : Nat → Option (SLLNode T)) (p : Option Nat) (l : List (Nat × T)) : Prop :=
  Segment h p l none

/-- The pointer to the node at position `k` of the nodes `l`, `nullptr` past the end. -/
def ptrAt (l : List (Nat × T)) (k : Nat) : Option Nat := (l[k]?).map Prod.fst

end llist

namespace llist

variable {T : Type}

/-- The assignment `tail->next = p` in `merge_two_sorted`, where `tail` is `none` for
`&dummy` and `dn` is the field `dummy.next` of the local node. -/
def linkAfter (h : Nat → Option (SLLNode T)) (dn tail p : Option Nat) :
    Option ((Nat → Option (SLLNode T)) × Option Nat) :=
  match tail with
  | none => some (h, p)
  | some t =>
    match h t with
    | none => none
    | some nt => some (SinglyLinkedList.store h t { nt with next := p }, dn)

/-- The loop `while (l1 && l2) { … }` of `merge_two_sorted` followed by
`tail->next = l1 ? l1 : l2;`, giving the heap and `dummy.next`.  After `tail->next = l1`
the step `tail = tail->next` makes `tail` the node just linked.  The first argument bounds
the number of iterations. -/
def mergeLoop [LinearOrder T] :
    Nat → (Nat → Option (SLLNode T)) → Option Nat → Option Nat → Option Nat → Option Nat →
      Option ((Nat → Option (SLLNode T)) × Option Nat)
  | 0, h, dn, tail, l1, l2 =>
    match l1, l2 with
    | some _, some _ => none
    | some a, none => linkAfter h dn tail (some a)
    | none, _ => linkAfter h dn tail l2
  | fuel + 1, h, dn, tail, l1, l2 =>
    match l1, l2 with
    | some a, some b =>
      match h a, h b with
      | some na, some nb =>
        if na.val ≤ nb.val then
          match linkAfter h dn tail (some a) with
          | none => none
          | some (h1, dn1) =>
            match h1 a with
            | none => none
            | some na1 => mergeLoop fuel h1 dn1 (some a) na1.next (some b)
        else
          match linkAfter h dn tail (some b) with
          | none => none
          | some (h1, dn1) =>
            match h1 b with
            | none => none
            | some nb1 => mergeLoop fuel h1 dn1 (some b) (some a) nb1.next
      | _, _ => none
    | some a, none => linkAfter h dn tail (some a)
    | none, _ => linkAfter h dn tail l2

/-- `merge_two_sorted(l1, l2)` with `dummy` a local node whose `next` starts as `nullptr`,
which is what the body uses it as and how the sibling
`SinglyLinkedList::remove_nth_from_end` declares its sentinel (`Node dummy{T()};`).  The
declaration in `merge_two_sorted` itself is `SLLNode<T> dummy(T());`, which C++ reads as
the declaration of a function `dummy`; with it `&dummy` and `dummy.next` are ill-formed
and the template cannot be instantiated, so the function as written has no behaviour to
embed.  The result is the heap with `dummy.next`. -/
def merge_two_sorted [LinearOrder T] (fuel : Nat) (h : Nat → Option (SLLNode T))
    (l1 l2 : Option Nat) : Option ((Nat → Option (SLLNode T)) × Option Nat) :=
  mergeLoop fuel h none none l1 l2

/-- `mergesort_list(head)` over that `merge_two_sorted`.  The first argument bounds the
depth of the recursion and the iterations of the loops. -/
def mergesort_list [LinearOrder T] :
    Nat → (Nat → Option (SLLNode T)) → Option Nat →
      Option ((Nat → Option (SLLNode T)) × Option Nat)
  | 0, h, head =>
    match head with
    | none => some (h, head)
    | some a =>
      match h a with
      | none => none
      | some nd =>
        match nd.next with
        | none => some (h, head)
        | some _ => none
  | fuel + 1, h, head =>
    match head with
    | none => some (h, head)
    | some a =>
      match h a with
      | none => none
      | some nd =>
        match nd.next with
        | none => some (h, head)
        | some _ =>
          match split_list (fuel + 1) h head with
          | none => none
          | some (h1, front, back) =>
            match mergesort_list fuel h1 front with
            | none => none
            | some (h2, left) =>
              match mergesort_list fuel h2 back with
              | none => none
              | some (h3, right) => merge_two_sorted (fuel + 1) h3 left right

end llist

namespace llist

/-- The list `5 -> 3 -> 8` in nodes at the addresses 10, 11 and 12. -/
def sampleHeap : Nat → Option (SLLNode Int) := fun a =>
  if a = 10 then some { val := 5, next := some 11 }
  else if a = 11 then some { val := 3, next := some 12 }
  else if a = 12 then some { val := 8, next := none }
  else none

end llist

/-! ## Lemmas about the heap and linked segments -/

namespace LRUCache

variable {K V : Type}

@[simp] theorem store_same (h : Nat → Option (Node K V)) (a : Nat) (n : Node K V) :
    store h a n a = some n := by
  simp [store]

theorem store_other (h : Nat → Option (Node K V)) {a x : Nat} (n : Node K V) (hx : x ≠ a) :
    store h a n x = h x := by
  simp [store, hx]

@[simp] theorem release_same (h : Nat → Option (Node K V)) (a : Nat) :
    release h a a = none := by
  simp [release]

theorem release_other (h : Nat → Option (Node K V)) {a x : Nat} (hx : x ≠ a) :
    release h a x = h x := by
  simp [release, hx]

@[simp] theorem hd_nil (nxt : Ptr) : hd ([] : List (Entry K V)) nxt = nxt := rfl

@[simp] theorem hd_cons (e : Entry K V) (l : List (Entry K V)) (nxt : Ptr) :
    hd (e :: l) nxt = some e.addr := rfl

@[simp] theorem lst_nil (prev : Ptr) : lst prev ([] : List (Entry K V)) = prev := rfl

@[simp] theorem lst_cons (e : Entry K V) (l : List (Entry K V)) (prev : Ptr) :
    lst prev (e :: l) = lst (some e.addr) l := rfl

theorem hd_append (l1 l2 : List (Entry K V)) (nxt : Ptr) :
    hd (l1 ++ l2) nxt = hd l1 (hd l2 nxt) := by
  cases l1 <;> rfl

theorem lst_append (l1 l2 : List (Entry K V)) (prev : Ptr) :
    lst prev (l1 ++ l2) = lst (lst prev l1) l2 := by
  induction l1 generalizing prev with
  | nil => rfl
  | cons e l1 ih => simpa using ih (some e.addr)

@[simp] theorem lst_concat (l : List (Entry K V)) (e : Entry K V) (prev : Ptr) :
    lst prev (l ++ [e]) = some e.addr := by
  simp [lst_append]

@[simp] theorem Seg_nil (h : Nat → Option (Node K V)) (prev nxt : Ptr) :
    Seg h prev [] nxt := trivial

theorem Seg_cons (h : Nat → Option (Node K V)) (prev nxt : Ptr) (e : Entry K V)
    (l : List (Entry K V)) :
    Seg h prev (e :: l) nxt ↔
      h e.addr = some ⟨e.key, e.value, prev, hd l nxt⟩ ∧ Seg h (some e.addr) l nxt :=
  Iff.rfl

theorem Seg_append (h : Nat → Option (Node K V)) (prev nxt : Ptr) (l1 l2 : List (Entry K V)) :
    Seg h prev (l1 ++ l2) nxt ↔ Seg h prev l1 (hd l2 nxt) ∧ Seg h (lst prev l1) l2 nxt := by
  induction l1 generalizing prev with
  | nil => simp
  | cons e l1 ih =>
    simp only [List.cons_append, Seg_cons, ih, hd_append, lst_cons]
    tauto

/-- Writing to an address outside a segment does not disturb the segment. -/
theorem Seg_store_frame {h : Nat → Option (Node K V)} {prev nxt : Ptr} {l : List (Entry K V)}
    {a : Nat} (n : Node K V) (ha : a ∉ l.map Entry.addr) (hs : Seg h prev l nxt) :
    Seg (store h a n) prev l nxt := by
  induction l generalizing prev with
  | nil => trivial
  | cons e l ih =>
    simp only [List.map_cons, List.mem_cons, not_or] at ha
    obtain ⟨h1, h2⟩ := hs
    exact ⟨by rw [store_other _ _ (Ne.symm ha.1)]; exact h1, ih ha.2 h2⟩

/-- Deallocating an address outside a segment does not disturb the segment. -/
theorem Seg_release_frame {h : Nat → Option (Node K V)} {prev nxt : Ptr}
    {l : List (Entry K V)} {a : Nat} (ha : a ∉ l.map Entry.addr) (hs : Seg h prev l nxt) :
    Seg (release h a) prev l nxt := by
  induction l generalizing prev with
  | nil => trivial
  | cons e l ih =>
    simp only [List.map_cons, List.mem_cons, not_or] at ha
    obtain ⟨h1, h2⟩ := hs
    exact ⟨by rw [release_other _ (Ne.symm ha.1)]; exact h1, ih ha.2 h2⟩

theorem lst_some_ne_none (a : Nat) (l : List (Entry K V)) : lst (some a) l ≠ none := by
  induction l generalizing a with
  | nil => simp
  | cons e l ih => simpa using ih e.addr

theorem add_to_front_linked {s : LRUCache K V} {l : List (Entry K V)} (hl : Linked s l)
    (e : Entry K V) (p n : Ptr) (hcell : s.heap e.addr = some ⟨e.key, e.value, p, n⟩)
    (hfresh : e.addr ∉ l.map Entry.addr) :
    ∃ s1, add_to_front s (some e.addr) = some s1 ∧ Linked s1 (e :: l) ∧
      s1.map_ = s.map_ ∧ s1.capacity_ = s.capacity_ ∧ s1.brk = s.brk := by
  obtain ⟨hseg, hhead, htail, hnd⟩ := hl
  cases l with
  | nil =>
    simp only [hd_nil, lst_nil] at hhead htail
    simp [add_to_front, hcell, hhead, htail]
    refine ⟨?_, rfl, rfl, by simp⟩
    simp [Seg_cons]
  | cons f l =>
    simp only [hd_cons, lst_cons] at hhead htail
    simp only [List.map_cons, List.mem_cons, not_or] at hfresh
    obtain ⟨hf, hrest⟩ := hseg
    have hne : f.addr ≠ e.addr := Ne.symm hfresh.1
    have hnd' := hnd
    simp only [List.map_cons, List.nodup_cons] at hnd'
    simp [add_to_front, hcell, hhead, store_other _ _ hne, hf]
    refine ⟨?_, rfl, ?_, ?_⟩
    · simp only [Seg_cons, hd_cons, store_same, true_and]
      refine ⟨by simp [store_other _ _ hfresh.1], ?_⟩
      exact Seg_store_frame _ hnd'.1 (Seg_store_frame _ hfresh.2 hrest)
    · simp [htail, lst_some_ne_none]
    · simp [hnd', hfresh]

theorem Seg_last_cell {h : Nat → Option (Node K V)} {prev nxt : Ptr} {l : List (Entry K V)}
    {q : Entry K V} (hs : Seg h prev (l ++ [q]) nxt) :
    h q.addr = some ⟨q.key, q.value, lst prev l, nxt⟩ := by
  rw [Seg_append] at hs
  exact hs.2.1

/-- Redirecting the `next` pointer of the last cell of a segment. -/
theorem Seg_set_next {h : Nat → Option (Node K V)} {prev nxt : Ptr} {l : List (Entry K V)}
    {q : Entry K V} (nxt1 : Ptr) (hq : q.addr ∉ l.map Entry.addr)
    (hs : Seg h prev (l ++ [q]) nxt) :
    Seg (store h q.addr ⟨q.key, q.value, lst prev l, nxt1⟩) prev (l ++ [q]) nxt1 := by
  rw [Seg_append] at hs ⊢
  exact ⟨Seg_store_frame _ hq hs.1, by simp [Seg_cons]⟩

/-- Redirecting the `prev` pointer of the first cell of a segment. -/
theorem Seg_set_prev {h : Nat → Option (Node K V)} {prev nxt : Ptr} {l : List (Entry K V)}
    {r : Entry K V} (prev1 : Ptr) (hr : r.addr ∉ l.map Entry.addr)
    (hs : Seg h prev (r :: l) nxt) :
    Seg (store h r.addr ⟨r.key, r.value, prev1, hd l nxt⟩) prev1 (r :: l) nxt :=
  ⟨store_same _ _ _, Seg_store_frame _ hr hs.2⟩

theorem nodup_addr_middle {l1 l2 : List (Entry K V)} {e : Entry K V}
    (hnd : ((l1 ++ e :: l2).map Entry.addr).Nodup) :
    e.addr ∉ l1.map Entry.addr ∧ e.addr ∉ l2.map Entry.addr ∧
      ((l1 ++ l2).map Entry.addr).Nodup := by
  simp only [List.map_append, List.map_cons] at hnd ⊢
  rw [List.nodup_middle, List.nodup_cons, List.mem_append, not_or] at hnd
  exact ⟨hnd.1.1, hnd.1.2, hnd.2⟩

theorem remove_node_linked {s : LRUCache K V} {l1 l2 : List (Entry K V)} {e : Entry K V}
    (hl : Linked s (l1 ++ e :: l2)) :
    ∃ s1, remove_node s (some e.addr) = some s1 ∧ Linked s1 (l1 ++ l2) ∧
      s1.heap e.addr = some ⟨e.key, e.value, none, none⟩ ∧
      s1.map_ = s.map_ ∧ s1.capacity_ = s.capacity_ ∧ s1.brk = s.brk := by
  obtain ⟨hseg, hhead, htail, hnd⟩ := hl
  rw [Seg_append, Seg_cons] at hseg
  obtain ⟨hs1, he, hs2⟩ := hseg
  simp only [hd_append, hd_cons] at hhead
  simp only [lst_append, lst_cons] at htail
  obtain ⟨he1, he2, hnd12⟩ := nodup_addr_middle hnd
  rcases List.eq_nil_or_concat l1 with rfl | ⟨l1, q, rfl⟩
  · cases l2 with
    | nil =>
      simp only [hd_nil, lst_nil] at hhead htail he
      simp [remove_node, he]
      exact ⟨trivial, rfl, rfl, List.nodup_nil⟩
    | cons r l2 =>
      simp only [hd_nil, lst_nil, hd_cons, lst_cons] at hhead htail he
      have hr := hs2.1
      have hre : r.addr ≠ e.addr := fun h => he2 (by simp [h])
      have hnd2 : r.addr ∉ l2.map Entry.addr := by
        simp only [List.nil_append, List.map_cons, List.nodup_cons] at hnd12
        exact hnd12.1
      simp [remove_node, he, hr, store_other _ _ hre.symm]
      refine ⟨?_, rfl, htail, by simpa using hnd12⟩
      exact Seg_store_frame _ he2 (Seg_set_prev none hnd2 hs2)
  · simp only [List.concat_eq_append] at *
    have hq := Seg_last_cell hs1
    have hqe : q.addr ≠ e.addr := fun h => he1 (by simp [h])
    cases l2 with
    | nil =>
      simp only [hd_nil, lst_nil, lst_concat] at hhead htail he
      have hnd1 : q.addr ∉ l1.map Entry.addr := by
        intro hmem
        simp only [List.append_nil, List.map_append, List.map_cons, List.map_nil] at hnd12
        exact (List.disjoint_of_nodup_append hnd12) hmem (by simp)
      simp [remove_node, he, hq, store_other _ _ hqe.symm]
      refine ⟨?_, by simp [hhead, hd_append], by simp, by simpa using hnd12⟩
      exact Seg_store_frame _ he1 (Seg_set_next none hnd1 hs1)
    | cons r l2 =>
      simp only [hd_cons, lst_cons, lst_concat] at hhead htail he
      have hr := hs2.1
      have hre : r.addr ≠ e.addr := fun h => he2 (by simp [h])
      simp only [List.map_append, List.map_cons, List.map_nil, List.append_assoc,
        List.singleton_append] at hnd12
      have hq12 := hnd12
      rw [List.nodup_middle, List.nodup_cons, List.mem_append, List.mem_cons, not_or, not_or]
        at hq12
      have hr12 := hq12.2
      rw [List.nodup_middle, List.nodup_cons, List.mem_append, not_or] at hr12
      have hqr : q.addr ≠ r.addr := hq12.1.2.1
      simp only [hd_cons] at hs1 hq
      simp [remove_node, he, hq, hr, store_other _ _ hqe.symm, store_other _ _ hre.symm,
        store_other _ _ hqr.symm]
      refine ⟨?_, by simp [hhead, hd_append], by simp [htail, lst_append],
        by simpa using hnd12⟩
      rw [show l1 ++ q :: r :: l2 = (l1 ++ [q]) ++ r :: l2 by simp, Seg_append]
      refine ⟨Seg_store_frame _ he1 (Seg_store_frame _ ?_ ?_), Seg_store_frame _ he2 ?_⟩
      · simp only [List.map_append, List.map_cons, List.map_nil, List.mem_append,
          List.mem_singleton, not_or]
        exact ⟨hr12.1.1, hqr.symm⟩
      · exact Seg_set_next _ hq12.1.1 hs1
      · simp only [lst_concat]
        refine Seg_set_prev _ hr12.1.2 (Seg_store_frame _ ?_ hs2)
        simp only [List.map_cons, List.mem_cons, not_or]
        exact ⟨hqr, hq12.1.2.2⟩

theorem move_to_front_linked {s : LRUCache K V} {l1 l2 : List (Entry K V)} {e : Entry K V}
    (hl : Linked s (l1 ++ e :: l2)) :
    ∃ s1, move_to_front s (some e.addr) = some s1 ∧ Linked s1 (e :: (l1 ++ l2)) ∧
      s1.map_ = s.map_ ∧ s1.capacity_ = s.capacity_ ∧ s1.brk = s.brk := by
  cases l1 with
  | nil =>
    refine ⟨s, ?_, hl, rfl, rfl, rfl⟩
    simp [move_to_front, hl.head]
  | cons f l1 =>
    have hne : e.addr ≠ f.addr := by
      have h := hl.nodupAddr
      simp only [List.cons_append, List.map_cons, List.nodup_cons, List.map_append,
        List.mem_append, List.mem_cons, not_or] at h
      exact fun hef => h.1.2.1 hef.symm
    obtain ⟨s1, hrm, hl1, hcell, hm, hc, hb⟩ := remove_node_linked hl
    obtain ⟨_, he2, _⟩ := nodup_addr_middle hl.nodupAddr
    have hfresh : e.addr ∉ ((f :: l1) ++ l2).map Entry.addr := by
      obtain ⟨h1, h2, _⟩ := nodup_addr_middle hl.nodupAddr
      simp only [List.map_append, List.mem_append, not_or]
      exact ⟨h1, h2⟩
    obtain ⟨s2, hadd, hl2, hm2, hc2, hb2⟩ := add_to_front_linked hl1 e none none hcell hfresh
    refine ⟨s2, ?_, hl2, hm2.trans hm, hc2.trans hc, hb2.trans hb⟩
    simp [move_to_front, hl.head, hne, hrm, hadd]


theorem mapFind_eq_some_iff [DecidableEq K] {m : List (K × Ptr)} (hm : (m.map Prod.fst).Nodup)
    (k : K) (p : Ptr) : mapFind m k = some p ↔ (k, p) ∈ m := by
  induction m with
  | nil => simp [mapFind]
  | cons x m ih =>
    simp only [List.map_cons, List.nodup_cons] at hm
    by_cases hx : x.1 = k
    · simp only [mapFind, hx, if_true, List.mem_cons, Option.some.injEq]
      constructor
      · intro h; left; rw [← h, ← hx]
      · rintro (h | h)
        · rw [← hx] at h; simpa using (congrArg Prod.snd h).symm
        · exact absurd (List.mem_map_of_mem Prod.fst h) (by simpa [hx] using hm.1)
    · simp only [mapFind, hx, if_false, List.mem_cons, ih hm.2]
      constructor
      · exact Or.inr
      · rintro (h | h)
        · exact absurd (congrArg Prod.fst h).symm hx
        · exact h

theorem mapFind_eq_none_iff [DecidableEq K] (m : List (K × Ptr)) (k : K) :
    mapFind m k = none ↔ k ∉ m.map Prod.fst := by
  induction m with
  | nil => simp [mapFind]
  | cons x m ih =>
    by_cases hx : x.1 = k
    · simp [mapFind, hx]
    · simp only [mapFind, hx, if_false, ih, List.map_cons, List.mem_cons, not_or]
      exact ⟨fun h => ⟨Ne.symm hx, h⟩, fun h => h.2⟩

theorem keysFrom_seg {h : Nat → Option (Node K V)} {prev : Ptr} {l : List (Entry K V)}
    {fuel : Nat} (hs : Seg h prev l none) (hf : l.length ≤ fuel) :
    keysFrom h fuel (hd l none) = some (l.map Entry.key) := by
  induction l generalizing prev fuel with
  | nil => cases fuel <;> rfl
  | cons e l ih =>
    cases fuel with
    | zero => simp at hf
    | succ fuel =>
      simp only [List.length_cons, Nat.add_le_add_iff_right] at hf
      simp [keysFrom, hs.1, ih hs.2 hf]

theorem clearLoop_seg {h : Nat → Option (Node K V)} {prev : Ptr} {l : List (Entry K V)}
    {fuel : Nat} (hs : Seg h prev l none) (hnd : (l.map Entry.addr).Nodup)
    (hf : l.length ≤ fuel) :
    ∃ h1, clearLoop h fuel (hd l none) = some h1 ∧
      ∀ a, h1 a = if a ∈ l.map Entry.addr then none else h a := by
  induction l generalizing h prev fuel with
  | nil => exact ⟨h, by cases fuel <;> rfl, by simp⟩
  | cons e l ih =>
    cases fuel with
    | zero => simp at hf
    | succ fuel =>
      simp only [List.length_cons, Nat.add_le_add_iff_right] at hf
      simp only [List.map_cons, List.nodup_cons] at hnd
      obtain ⟨h1, hrun, hchar⟩ := ih (Seg_release_frame hnd.1 hs.2) hnd.2 hf
      refine ⟨h1, by simp [clearLoop, hs.1, hrun], fun a => ?_⟩
      rw [hchar a]
      by_cases ha : a = e.addr
      · subst ha; simp [hnd.1]
      · simp [ha, release_other _ ha]

/-- Distinct addresses below `n` are at most `n` many. -/
theorem length_le_of_nodup_lt {l : List Nat} {n : Nat} (hnd : l.Nodup) (hlt : ∀ a ∈ l, a < n) :
    l.length ≤ n := by
  have hsub : l ⊆ List.range n := fun a ha => List.mem_range.2 (hlt a ha)
  simpa using (List.subperm_of_subset hnd hsub).length_le

/-- A key found in a list with distinct keys splits the list around its cell. -/
theorem split_of_find [DecidableEq K] {l : List (Entry K V)} {k : K} {e : Entry K V}
    (hnd : (l.map Entry.key).Nodup) (hf : l.find? (fun x => decide (x.key = k)) = some e) :
    e.key = k ∧ ∃ l1 l2, l = l1 ++ e :: l2 ∧ (∀ x ∈ l1, x.key ≠ k) ∧ ∀ x ∈ l2, x.key ≠ k := by
  rw [List.find?_eq_some] at hf
  obtain ⟨hk, l1, l2, rfl, h1⟩ := hf
  have hk : e.key = k := by simpa using hk
  refine ⟨hk, l1, l2, rfl, fun x hx => by simpa using h1 x hx, fun x hx hxk => ?_⟩
  simp only [List.map_append, List.map_cons] at hnd
  have h2 := (List.nodup_cons.1 (List.nodup_append.1 hnd).2.1).1
  exact h2 (by rw [hk, ← hxk]; exact List.mem_map_of_mem Entry.key hx)

theorem without_split [DecidableEq K] {l1 l2 : List (Entry K V)} {k : K} {e : Entry K V}
    (hk : e.key = k) (h1 : ∀ x ∈ l1, x.key ≠ k) (h2 : ∀ x ∈ l2, x.key ≠ k) :
    without (l1 ++ e :: l2) k = l1 ++ l2 := by
  have f1 : l1.filter (fun x => decide (x.key ≠ k)) = l1 :=
    List.filter_eq_self.2 fun x hx => by simpa using h1 x hx
  have f2 : l2.filter (fun x => decide (x.key ≠ k)) = l2 :=
    List.filter_eq_self.2 fun x hx => by simpa using h2 x hx
  simp only [decide_not] at f1 f2
  simp [without, List.filter_append, List.filter_cons, hk, f1, f2]

theorem promote_split [DecidableEq K] {l1 l2 : List (Entry K V)} {k : K} {e : Entry K V}
    (hk : e.key = k) (h1 : ∀ x ∈ l1, x.key ≠ k) (h2 : ∀ x ∈ l2, x.key ≠ k) :
    promote (l1 ++ e :: l2) k = e :: (l1 ++ l2) := by
  have f1 : l1.filter (fun x => decide (x.key = k)) = [] :=
    List.filter_eq_nil_iff.2 fun x hx => by simpa using h1 x hx
  have f2 : l2.filter (fun x => decide (x.key = k)) = [] :=
    List.filter_eq_nil_iff.2 fun x hx => by simpa using h2 x hx
  have hw := without_split hk h1 h2
  unfold without at hw
  unfold promote
  rw [hw]
  simp [List.filter_append, List.filter_cons, hk, f1, f2]

theorem without_absent [DecidableEq K] {l : List (Entry K V)} {k : K}
    (hf : l.find? (fun x => decide (x.key = k)) = none) : without l k = l := by
  rw [List.find?_eq_none] at hf
  exact List.filter_eq_self.2 fun x hx => by simpa using hf x hx

theorem promote_absent [DecidableEq K] {l : List (Entry K V)} {k : K}
    (hf : l.find? (fun x => decide (x.key = k)) = none) : promote l k = l := by
  have hw := without_absent hf
  unfold without at hw
  unfold promote
  rw [hw]
  rw [List.find?_eq_none] at hf
  simp [List.filter_eq_nil_iff.2 hf]

theorem index_nodup {s : LRUCache K V} {l : List (Entry K V)} (hr : Coherent s l) :
    (s.map_.map Prod.fst).Nodup := by
  have h := (hr.index.map Prod.fst).nodup_iff.2
  apply h
  simpa [List.map_map, Function.comp_def] using hr.nodupKey

theorem index_find_mem [DecidableEq K] {s : LRUCache K V} {l : List (Entry K V)}
    (hr : Coherent s l) {e : Entry K V} (he : e ∈ l) :
    mapFind s.map_ e.key = some (some e.addr) := by
  rw [mapFind_eq_some_iff (index_nodup hr)]
  exact hr.index.mem_iff.2 (List.mem_map.2 ⟨e, he, rfl⟩)

theorem index_find_absent [DecidableEq K] {s : LRUCache K V} {l : List (Entry K V)}
    (hr : Coherent s l) {k : K} (hf : l.find? (fun x => decide (x.key = k)) = none) :
    mapFind s.map_ k = none := by
  rw [mapFind_eq_none_iff]
  rw [List.find?_eq_none] at hf
  intro hmem
  obtain ⟨x, hx, hxk⟩ := List.mem_map.1 hmem
  obtain ⟨e, he, rfl⟩ := List.mem_map.1 (hr.index.mem_iff.1 hx)
  exact hf e he (by simpa using hxk)

theorem size_eq_length {s : LRUCache K V} {l : List (Entry K V)} (hr : Coherent s l) :
    size s = l.length := by
  simpa [size] using hr.index.length_eq

theorem length_le_brk {s : LRUCache K V} {l : List (Entry K V)} (hr : Coherent s l) :
    l.length ≤ s.brk := by
  have h := length_le_of_nodup_lt hr.linked.nodupAddr (n := s.brk) (by
    intro a ha
    obtain ⟨e, he, rfl⟩ := List.mem_map.1 ha
    exact hr.below e he)
  simpa using h

theorem debug_print_eq {s : LRUCache K V} {l : List (Entry K V)} (hr : Coherent s l) :
    debug_print s = some (l.map Entry.key) := by
  unfold debug_print
  rw [hr.linked.head]
  exact keysFrom_seg hr.linked.seg (length_le_brk hr)

/-- Moving a cell to the front keeps index and list in agreement. -/
theorem coherent_move [DecidableEq K] {s s1 : LRUCache K V} {l1 l2 : List (Entry K V)}
    {e : Entry K V} (hr : Coherent s (l1 ++ e :: l2)) (hl : Linked s1 (e :: (l1 ++ l2)))
    (hm : s1.map_ = s.map_) (hb : s1.brk = s.brk) :
    Coherent s1 (e :: (l1 ++ l2)) := by
  have hp : (e :: (l1 ++ l2)).Perm (l1 ++ e :: l2) := List.perm_middle.symm
  refine ⟨hl, ?_, ?_, ?_⟩
  · exact ((hp.map Entry.key).nodup_iff).2 hr.nodupKey
  · rw [hm]; exact hr.index.trans (hp.map _).symm
  · intro x hx; rw [hb]; exact hr.below x (hp.mem_iff.1 hx)

theorem get_spec [DecidableEq K] {s : LRUCache K V} {l : List (Entry K V)}
    (hr : Represents s l) (k : K) :
    ∃ s1, get s k = some (valueOf l k, s1) ∧ Represents s1 (promote l k) ∧
      s1.capacity_ = s.capacity_ := by
  cases hf : l.find? (fun x => decide (x.key = k)) with
  | none =>
    refine ⟨s, ?_, by rw [promote_absent hf]; exact hr, rfl⟩
    simp [get, index_find_absent hr.coherent hf, valueOf, hf]
  | some e =>
    obtain ⟨hk, l1, l2, rfl, h1, h2⟩ := split_of_find hr.coherent.nodupKey hf
    obtain ⟨s1, hmv, hl1, hm, hc, hb⟩ := move_to_front_linked hr.coherent.linked
    have hfind := index_find_mem hr.coherent (e := e) (by simp)
    rw [hk] at hfind
    refine ⟨s1, ?_, ?_, hc⟩
    · simp [get, hfind, hmv, hl1.seg.1, valueOf, hf]
    · rw [promote_split hk h1 h2]
      refine ⟨coherent_move hr.coherent hl1 hm hb, by rw [hc]; exact hr.capPos, ?_⟩
      rw [hc]
      simpa using hr.bound

theorem mapErase_perm [DecidableEq K] {m : List (K × Ptr)} {l1 l2 : List (Entry K V)}
    {e : Entry K V} (hp : m.Perm ((l1 ++ e :: l2).map fun x => (x.key, some x.addr)))
    (hnd : ((l1 ++ e :: l2).map Entry.key).Nodup) :
    (mapErase m e.key).Perm ((l1 ++ l2).map fun x => (x.key, some x.addr)) := by
  have h := hp.filter (fun x => decide (x.1 ≠ e.key))
  refine h.trans (List.Perm.of_eq ?_)
  simp only [List.map_append, List.map_cons, List.nodup_append, List.nodup_cons,
    List.mem_map, not_exists, not_and] at hnd
  obtain ⟨-, ⟨he2, -⟩, hdis⟩ := hnd
  have f1 : (l1.map fun x : Entry K V => (x.key, some x.addr)).filter
      (fun x => decide (x.1 ≠ e.key)) = l1.map fun x => (x.key, some x.addr) := by
    apply List.filter_eq_self.2
    intro x hx
    obtain ⟨y, hy, rfl⟩ := List.mem_map.1 hx
    have : y.key ≠ e.key := fun hye =>
      hdis (List.mem_map_of_mem Entry.key hy) (by rw [hye]; simp)
    simpa using this
  have f2 : (l2.map fun x : Entry K V => (x.key, some x.addr)).filter
      (fun x => decide (x.1 ≠ e.key)) = l2.map fun x => (x.key, some x.addr) := by
    apply List.filter_eq_self.2
    intro x hx
    obtain ⟨y, hy, rfl⟩ := List.mem_map.1 hx
    simpa using he2 y hy
  simp only [decide_not] at f1 f2
  simp [List.filter_append, List.filter_cons, f1, f2]

/-- Unlinking a cell, erasing its key from the index and deallocating it. -/
theorem coherent_drop [DecidableEq K] {s : LRUCache K V} {l1 l2 : List (Entry K V)}
    {e : Entry K V} (hr : Coherent s (l1 ++ e :: l2)) :
    ∃ s1, remove_node s (some e.addr) = some s1 ∧
      s1.heap e.addr = some ⟨e.key, e.value, none, none⟩ ∧ s1.capacity_ = s.capacity_ ∧
      Coherent { s1 with map_ := mapErase s1.map_ e.key, heap := release s1.heap e.addr }
        (l1 ++ l2) := by
  obtain ⟨s1, hrm, hl1, hcell, hm, hc, hb⟩ := remove_node_linked hr.linked
  obtain ⟨he1, he2, _⟩ := nodup_addr_middle hr.linked.nodupAddr
  have hout : e.addr ∉ (l1 ++ l2).map Entry.addr := by
    simp only [List.map_append, List.mem_append, not_or]
    exact ⟨he1, he2⟩
  refine ⟨s1, hrm, hcell, hc, ⟨⟨Seg_release_frame hout hl1.seg, hl1.head, hl1.tail,
    hl1.nodupAddr⟩, ?_, ?_, ?_⟩⟩
  · have hsub : (l1 ++ l2).Sublist (l1 ++ e :: l2) :=
      List.Sublist.append_left (List.sublist_cons_self e l2) l1
    exact hr.nodupKey.sublist (hsub.map Entry.key)
  · show (mapErase s1.map_ e.key).Perm _
    rw [hm]
    exact mapErase_perm hr.index hr.nodupKey
  · intro x hx
    show x.addr < s1.brk
    rw [hb]
    apply hr.below
    simp only [List.mem_append, List.mem_cons] at hx ⊢
    tauto

theorem erase_spec [DecidableEq K] {s : LRUCache K V} {l : List (Entry K V)}
    (hr : Represents s l) (k : K) :
    ∃ s1, erase s k = some ((valueOf l k).isSome, s1) ∧ Represents s1 (without l k) ∧
      s1.capacity_ = s.capacity_ := by
  cases hf : l.find? (fun x => decide (x.key = k)) with
  | none =>
    refine ⟨s, ?_, by rw [without_absent hf]; exact hr, rfl⟩
    simp [erase, index_find_absent hr.coherent hf, valueOf, hf]
  | some e =>
    obtain ⟨hk, l1, l2, rfl, h1, h2⟩ := split_of_find hr.coherent.nodupKey hf
    obtain ⟨s1, hrm, hcell, hc, hco⟩ := coherent_drop hr.coherent
    have hfind := index_find_mem hr.coherent (e := e) (by simp)
    rw [hk] at hfind hco
    refine ⟨_, ?_, ⟨by rw [without_split hk h1 h2]; exact hco, ?_, ?_⟩, ?_⟩
    · simp [erase, hfind, hrm, hcell, valueOf, hf]
    · show 1 ≤ s1.capacity_
      rw [hc]; exact hr.capPos
    · show _ ≤ s1.capacity_
      rw [hc, without_split hk h1 h2]
      have := hr.bound
      simp only [List.length_append, List.length_cons] at this ⊢
      omega
    · exact hc

theorem construct_spec (c : Nat) : Represents (construct c : LRUCache K V) [] := by
  refine ⟨⟨⟨trivial, rfl, rfl, List.nodup_nil⟩, List.nodup_nil, List.Perm.refl _, ?_⟩, ?_, ?_⟩
  · intro e he; cases he
  · simp only [construct]; split <;> omega
  · simp

theorem clear_spec {s : LRUCache K V} {l : List (Entry K V)} (hr : Represents s l) :
    ∃ s1, clear s = some s1 ∧ Represents s1 [] ∧ s1.capacity_ = s.capacity_ := by
  obtain ⟨h1, hrun, -⟩ := clearLoop_seg (l := l) hr.coherent.linked.seg
    hr.coherent.linked.nodupAddr (length_le_brk hr.coherent)
  rw [← hr.coherent.linked.head] at hrun
  refine ⟨{ s with heap := h1, head_ := none, tail_ := none, map_ := [] },
    by simp [clear, hrun], ?_, rfl⟩
  refine ⟨⟨⟨trivial, rfl, rfl, List.nodup_nil⟩, List.nodup_nil, List.Perm.refl _, ?_⟩,
    hr.capPos, by simp⟩
  intro e he; cases he

/-- Overwriting the value of one cell of a segment. -/
theorem Seg_set_value {h : Nat → Option (Node K V)} {prev nxt : Ptr}
    {l1 l2 : List (Entry K V)} {e : Entry K V} (v : V) (he1 : e.addr ∉ l1.map Entry.addr)
    (he2 : e.addr ∉ l2.map Entry.addr) (hs : Seg h prev (l1 ++ e :: l2) nxt) :
    Seg (store h e.addr ⟨e.key, v, lst prev l1, hd l2 nxt⟩) prev
      (l1 ++ ⟨e.addr, e.key, v⟩ :: l2) nxt := by
  rw [Seg_append, Seg_cons] at hs ⊢
  exact ⟨Seg_store_frame _ he1 hs.1, store_same _ _ _, Seg_store_frame _ he2 hs.2.2⟩

theorem coherent_set_value {s : LRUCache K V} {l1 l2 : List (Entry K V)} {e : Entry K V}
    (v : V) (hr : Coherent s (l1 ++ e :: l2)) :
    Coherent { s with heap := store s.heap e.addr ⟨e.key, v, lst none l1, hd l2 none⟩ }
      (l1 ++ ⟨e.addr, e.key, v⟩ :: l2) := by
  obtain ⟨he1, he2, _⟩ := nodup_addr_middle hr.linked.nodupAddr
  refine ⟨⟨Seg_set_value v he1 he2 hr.linked.seg, ?_, ?_, ?_⟩, ?_, ?_, ?_⟩
  · simpa [hd_append] using hr.linked.head
  · simpa [lst_append] using hr.linked.tail
  · simpa using hr.linked.nodupAddr
  · simpa using hr.nodupKey
  · simpa using hr.index
  · intro x hx
    simp only [List.mem_append, List.mem_cons] at hx
    rcases hx with hx | rfl | hx
    · exact hr.below x (by simp [hx])
    · exact hr.below e (by simp)
    · exact hr.below x (by simp [hx])

theorem put_present [DecidableEq K] {s : LRUCache K V} {l1 l2 : List (Entry K V)}
    {e : Entry K V} (hr : Coherent s (l1 ++ e :: l2)) (v : V) :
    ∃ s1, put s e.key v = some s1 ∧ Coherent s1 (⟨e.addr, e.key, v⟩ :: (l1 ++ l2)) ∧
      s1.capacity_ = s.capacity_ ∧ s1.brk = s.brk := by
  have hfind := index_find_mem hr (e := e) (by simp)
  have hcell : s.heap e.addr = some ⟨e.key, e.value, lst none l1, hd l2 none⟩ := by
    have h := hr.linked.seg
    rw [Seg_append, Seg_cons] at h
    exact h.2.1
  have hr1 := coherent_set_value v hr
  obtain ⟨s1, hmv, hl1, hm, hc, hb⟩ := move_to_front_linked hr1.linked
  refine ⟨s1, ?_, coherent_move hr1 hl1 hm hb, hc, hb⟩
  simp only [put, hfind, Option.bind_eq_bind, Option.some_bind, hcell]
  exact hmv

theorem put_absent [DecidableEq K] {s : LRUCache K V} {l : List (Entry K V)} {k : K}
    (hr : Represents s l) (hf : l.find? (fun x => decide (x.key = k)) = none) (v : V) :
    ∃ s1, put s k v = some s1 ∧
      Represents s1 (if s.capacity_ < l.length + 1 then (⟨s.brk, k, v⟩ :: l).dropLast
        else ⟨s.brk, k, v⟩ :: l) ∧
      s1.capacity_ = s.capacity_ := by
  have hfind := index_find_absent hr.coherent hf
  have hfresh : s.brk ∉ l.map Entry.addr := by
    intro hmem
    obtain ⟨x, hx, hxa⟩ := List.mem_map.1 hmem
    have := hr.coherent.below x hx
    omega
  have hl0 : Linked
      ({ s with heap := store s.heap s.brk ⟨k, v, none, none⟩, brk := s.brk + 1 } :
        LRUCache K V) l :=
    ⟨Seg_store_frame _ hfresh hr.coherent.linked.seg, hr.coherent.linked.head,
      hr.coherent.linked.tail, hr.coherent.linked.nodupAddr⟩
  obtain ⟨s2, hadd, hl2, hm2, hc2, hb2⟩ :=
    add_to_front_linked hl0 ⟨s.brk, k, v⟩ none none (store_same _ _ _) hfresh
  have hco : Coherent ({ s2 with map_ := mapAssign s2.map_ k (some s.brk) } : LRUCache K V)
      (⟨s.brk, k, v⟩ :: l) := by
    refine ⟨⟨hl2.seg, hl2.head, hl2.tail, hl2.nodupAddr⟩, ?_, ?_, ?_⟩
    · rw [List.find?_eq_none] at hf
      simp only [List.map_cons, List.nodup_cons, List.mem_map, not_exists, not_and]
      exact ⟨fun x hx => by simpa using hf x hx, hr.coherent.nodupKey⟩
    · show (mapAssign s2.map_ k (some s.brk)).Perm _
      rw [hm2]
      simp only [mapAssign, hfind, List.map_cons]
      exact List.Perm.cons _ hr.coherent.index
    · intro x hx
      show x.addr < s2.brk
      rw [hb2]
      simp only [List.mem_cons] at hx
      rcases hx with rfl | hx
      · exact Nat.lt_succ_self _
      · exact Nat.lt_succ_of_lt (hr.coherent.below x hx)
  have hlen : (mapAssign s2.map_ k (some s.brk)).length = l.length + 1 := by
    simpa using hco.index.length_eq
  by_cases hfull : s.capacity_ < l.length + 1
  · rcases List.eq_nil_or_concat (⟨s.brk, k, v⟩ :: l) with hnil | ⟨l1, t, hsplit⟩
    · cases hnil
    · rw [List.concat_eq_append] at hsplit
      rw [hsplit] at hco
      obtain ⟨s4, hrm, hcell, hc4, hdrop⟩ := coherent_drop hco
      have htail : s2.tail_ = some t.addr := by
        have := hco.linked.tail
        simpa using this
      have hlen1 : l1.length = l.length := by
        have := congrArg List.length hsplit
        simp only [List.length_cons, List.length_append, List.length_nil] at this
        omega
      refine ⟨{ s4 with map_ := mapErase s4.map_ t.key, heap := release s4.heap t.addr },
        ?_, ?_, hc4.trans hc2⟩
      · have hc2a : s2.capacity_ = s.capacity_ := hc2
        have hrm1 := hrm
        rw [hc2a, htail] at hrm1
        simp [put, hfind, hadd, hlen, hc2, hfull, pop_tail, htail, hrm1, hcell]
      · rw [if_pos hfull, hsplit, List.dropLast_concat]
        rw [List.append_nil] at hdrop
        refine ⟨hdrop, ?_, ?_⟩
        · show 1 ≤ s4.capacity_
          rw [hc4]; show 1 ≤ s2.capacity_
          rw [hc2]; exact hr.capPos
        · show _ ≤ s4.capacity_
          rw [hc4]; show _ ≤ s2.capacity_
          rw [hc2, hlen1]; exact hr.bound
  · refine ⟨{ s2 with map_ := mapAssign s2.map_ k (some s.brk) }, ?_, ?_, hc2⟩
    · simp [put, hfind, hadd, hlen, hc2, hfull]
    · rw [if_neg hfull]
      exact ⟨hco, by show 1 ≤ s2.capacity_; rw [hc2]; exact hr.capPos,
        by show _ ≤ s2.capacity_; rw [hc2]; simp only [List.length_cons]; omega⟩

theorem put_spec [DecidableEq K] {s : LRUCache K V} {l : List (Entry K V)}
    (hr : Represents s l) (k : K) (v : V) :
    ∃ s1, put s k v = some s1 ∧ Represents s1 (listPut l k v s.brk s.capacity_) ∧
      s1.capacity_ = s.capacity_ := by
  cases hf : l.find? (fun x => decide (x.key = k)) with
  | none =>
    obtain ⟨s1, hput, hr1, hc⟩ := put_absent hr hf v
    exact ⟨s1, hput, by simpa [listPut, hf] using hr1, hc⟩
  | some e =>
    obtain ⟨hk, l1, l2, rfl, h1, h2⟩ := split_of_find hr.coherent.nodupKey hf
    obtain ⟨s1, hput, hco, hc, -⟩ := put_present hr.coherent v
    rw [hk] at hput hco
    refine ⟨s1, hput, ?_, hc⟩
    simp only [listPut, hf, without_split hk h1 h2]
    refine ⟨hco, by rw [hc]; exact hr.capPos, ?_⟩
    rw [hc]
    simpa using hr.bound

theorem step_spec [DecidableEq K] {s : LRUCache K V} {l : List (Entry K V)}
    (hr : Represents s l) (op : Op K V) :
    ∃ s1, step s op = some s1 ∧ Represents s1 (listStep l s.brk s.capacity_ op) ∧
      s1.capacity_ = s.capacity_ := by
  cases op with
  | put k v => exact put_spec hr k v
  | get k =>
    obtain ⟨s1, h, hr1, hc⟩ := get_spec hr k
    exact ⟨s1, by simp [step, h], hr1, hc⟩
  | erase k =>
    obtain ⟨s1, h, hr1, hc⟩ := erase_spec hr k
    exact ⟨s1, by simp [step, h], hr1, hc⟩
  | clear => exact clear_spec hr

theorem run_spec [DecidableEq K] {s : LRUCache K V} {l : List (Entry K V)}
    (hr : Represents s l) (ops : List (Op K V)) :
    ∃ s1 l1, run s ops = some s1 ∧ Represents s1 l1 ∧ s1.capacity_ = s.capacity_ := by
  induction ops generalizing s l with
  | nil => exact ⟨s, l, rfl, hr, rfl⟩
  | cons op ops ih =>
    obtain ⟨s1, hstep, hr1, hc1⟩ := step_spec hr op
    obtain ⟨s2, l2, hrun, hr2, hc2⟩ := ih hr1
    exact ⟨s2, l2, by simp [run, hstep, hrun], hr2, hc2.trans hc1⟩

/-- Every state reached from a fresh cache represents some recency list. -/
theorem reachable_represents [DecidableEq K] (c : Nat) (ops : List (Op K V)) :
    ∃ s l, run (construct c : LRUCache K V) ops = some s ∧ Represents s l ∧
      s.capacity_ = if c = 0 then 1 else c := by
  obtain ⟨s, l, hrun, hr, hc⟩ := run_spec (construct_spec (K := K) (V := V) c) ops
  exact ⟨s, l, hrun, hr, hc⟩

theorem contains_iff [DecidableEq K] {s : LRUCache K V} {l : List (Entry K V)}
    (hr : Coherent s l) (j : K) : contains s j = true ↔ j ∈ l.map Entry.key := by
  unfold contains
  cases hf : l.find? (fun x => decide (x.key = j)) with
  | none =>
    rw [index_find_absent hr hf]
    rw [List.find?_eq_none] at hf
    simp only [Option.isSome_none, Bool.false_eq_true, List.mem_map, false_iff, not_exists,
      not_and]
    exact fun x hx => by simpa using hf x hx
  | some e =>
    have hmem := List.mem_of_find?_eq_some hf
    have hk : e.key = j := by simpa using List.find?_some hf
    rw [← hk, index_find_mem hr hmem]
    simp only [Option.isSome_some, List.mem_map, true_iff]
    exact ⟨e, hmem, rfl⟩

theorem contains_eq_false_iff [DecidableEq K] {s : LRUCache K V} {l : List (Entry K V)}
    (hr : Coherent s l) (j : K) : contains s j = false ↔ j ∉ l.map Entry.key := by
  rw [← contains_iff hr j]
  simp

theorem lookup_eq [DecidableEq K] {s : LRUCache K V} {l : List (Entry K V)}
    (hr : Represents s l) (j : K) : lookup s j = some (valueOf l j) := by
  obtain ⟨s1, hget, -, -⟩ := get_spec hr j
  simp [lookup, hget]

theorem valueOf_cons [DecidableEq K] (e : Entry K V) (l : List (Entry K V)) (j : K) :
    valueOf (e :: l) j = if e.key = j then some e.value else valueOf l j := by
  by_cases h : e.key = j <;> simp [valueOf, List.find?_cons, h]

theorem valueOf_eq_some_iff [DecidableEq K] {l : List (Entry K V)}
    (hnd : (l.map Entry.key).Nodup) (j : K) (v : V) :
    valueOf l j = some v ↔ ∃ e ∈ l, e.key = j ∧ e.value = v := by
  induction l with
  | nil => simp [valueOf]
  | cons x l ih =>
    simp only [List.map_cons, List.nodup_cons] at hnd
    rw [valueOf_cons]
    by_cases h : x.key = j
    · simp only [h, if_true, Option.some.injEq, List.mem_cons, exists_eq_or_imp, true_and]
      constructor
      · exact Or.inl
      · rintro (hv | ⟨e, he, hej, -⟩)
        · exact hv
        · exact absurd (List.mem_map_of_mem Entry.key he) (by rw [hej, ← h]; exact hnd.1)
    · simp only [h, if_false, ih hnd.2, List.mem_cons, exists_eq_or_imp, false_and, false_or]

theorem valueOf_eq_none_iff [DecidableEq K] (l : List (Entry K V)) (j : K) :
    valueOf l j = none ↔ j ∉ l.map Entry.key := by
  induction l with
  | nil => simp [valueOf]
  | cons x l ih =>
    rw [valueOf_cons]
    by_cases h : x.key = j
    · simp [h]
    · simp only [h, if_false, ih, List.map_cons, List.mem_cons, not_or]
      exact ⟨fun hj => ⟨Ne.symm h, hj⟩, fun hj => hj.2⟩

/-- Lists with distinct keys and the same cells hold the same values. -/
theorem valueOf_perm [DecidableEq K] {l1 l2 : List (Entry K V)} (hp : l1.Perm l2)
    (hnd : (l1.map Entry.key).Nodup) (j : K) : valueOf l1 j = valueOf l2 j := by
  have hnd2 : (l2.map Entry.key).Nodup := ((hp.map Entry.key).nodup_iff).1 hnd
  apply Option.ext
  intro v
  simp only [Option.mem_def, valueOf_eq_some_iff hnd, valueOf_eq_some_iff hnd2]
  exact ⟨fun ⟨e, he, h⟩ => ⟨e, hp.mem_iff.1 he, h⟩, fun ⟨e, he, h⟩ => ⟨e, hp.mem_iff.2 he, h⟩⟩

theorem promote_perm [DecidableEq K] (l : List (Entry K V)) (k : K) : (promote l k).Perm l := by
  unfold promote
  simpa using List.filter_append_perm (fun e : Entry K V => decide (e.key = k)) l

theorem valueOf_promote [DecidableEq K] {l : List (Entry K V)}
    (hnd : (l.map Entry.key).Nodup) (k j : K) : valueOf (promote l k) j = valueOf l j :=
  valueOf_perm (promote_perm l k) (((promote_perm l k).map Entry.key).nodup_iff.2 hnd) j

theorem keys_without [DecidableEq K] (l : List (Entry K V)) (k : K) :
    (without l k).map Entry.key = (l.map Entry.key).filter fun j => decide (j ≠ k) := by
  unfold without
  rw [List.filter_map]
  rfl

theorem mem_keys_without [DecidableEq K] (l : List (Entry K V)) (k j : K) :
    j ∈ (without l k).map Entry.key ↔ j ∈ l.map Entry.key ∧ j ≠ k := by
  rw [keys_without]
  simp

theorem valueOf_without [DecidableEq K] (l : List (Entry K V)) (k j : K) :
    valueOf (without l k) j = if j = k then none else valueOf l j := by
  induction l with
  | nil => simp [valueOf, without]
  | cons x l ih =>
    unfold without at ih ⊢
    by_cases hx : x.key = k
    · rw [List.filter_cons_of_neg (by simpa using hx), ih, valueOf_cons]
      by_cases hj : j = k
      · simp [hj]
      · have : x.key ≠ j := fun h => hj (h.symm.trans hx)
        simp [hj, this]
    · rw [List.filter_cons_of_pos (by simpa using hx), valueOf_cons, valueOf_cons, ih]
      by_cases hj : j = k
      · have : x.key ≠ j := fun h => hx (h.trans hj)
        simp [hj, this]
        intro h; exact absurd h hx
      · simp [hj]

theorem promote_present [DecidableEq K] {l : List (Entry K V)} {k : K}
    (hnd : (l.map Entry.key).Nodup) (hk : k ∈ l.map Entry.key) :
    ∃ e ∈ l, e.key = k ∧ promote l k = e :: without l k := by
  cases hf : l.find? (fun x => decide (x.key = k)) with
  | none =>
    rw [List.find?_eq_none] at hf
    obtain ⟨x, hx, hxk⟩ := List.mem_map.1 hk
    exact absurd hxk (by simpa using hf x hx)
  | some e =>
    obtain ⟨hek, l1, l2, rfl, h1, h2⟩ := split_of_find hnd hf
    exact ⟨e, by simp, hek, by rw [promote_split hek h1 h2, without_split hek h1 h2]⟩

theorem Reachable.represents [DecidableEq K] {s : LRUCache K V} (hs : Reachable s) :
    ∃ l, Represents s l := by
  obtain ⟨c, ops, hrun⟩ := hs
  obtain ⟨s1, l, hrun1, hr, -⟩ := reachable_represents (K := K) (V := V) c ops
  rw [hrun] at hrun1
  cases hrun1
  exact ⟨l, hr⟩

theorem find_eq_none_iff_keys [DecidableEq K] (l : List (Entry K V)) (k : K) :
    l.find? (fun x => decide (x.key = k)) = none ↔ k ∉ l.map Entry.key := by
  rw [List.find?_eq_none]
  simp only [decide_eq_true_eq, List.mem_map, not_exists, not_and]

theorem listPut_present [DecidableEq K] {l : List (Entry K V)} {k : K}
    (hk : k ∈ l.map Entry.key) (v : V) (a cap : Nat) :
    ∃ e ∈ l, e.key = k ∧ listPut l k v a cap = ⟨e.addr, k, v⟩ :: without l k := by
  cases hf : l.find? (fun x => decide (x.key = k)) with
  | none => exact absurd hk ((find_eq_none_iff_keys l k).1 hf)
  | some e =>
    exact ⟨e, List.mem_of_find?_eq_some hf, by simpa using List.find?_some hf,
      by simp [listPut, hf]⟩

theorem listPut_room [DecidableEq K] {l : List (Entry K V)} {k : K}
    (hk : k ∉ l.map Entry.key) (v : V) (a : Nat) {cap : Nat} (hroom : l.length < cap) :
    listPut l k v a cap = ⟨a, k, v⟩ :: l := by
  have hf := (find_eq_none_iff_keys l k).2 hk
  have : ¬ cap < l.length + 1 := by omega
  simp [listPut, hf, this]

theorem listPut_full [DecidableEq K] {l : List (Entry K V)} {k : K}
    (hk : k ∉ l.map Entry.key) (v : V) (a : Nat) {cap : Nat} (hfull : l.length = cap)
    (hcap : 1 ≤ cap) :
    ∃ l1 t, l = l1 ++ [t] ∧ listPut l k v a cap = ⟨a, k, v⟩ :: l1 := by
  have hf := (find_eq_none_iff_keys l k).2 hk
  have hlt : cap < l.length + 1 := by omega
  rcases List.eq_nil_or_concat l with rfl | ⟨l1, t, rfl⟩
  · simp at hfull; omega
  · refine ⟨l1, t, by simp, ?_⟩
    simp only [listPut, hf, hlt, if_true]
    rw [List.concat_eq_append, ← List.cons_append, List.dropLast_concat]

/-- After `put(k, v)` the cell of `k` is first and holds `v`; the cells behind it are
cells the list had before, in their old order, and none of them has key `k`. -/
theorem listPut_shape [DecidableEq K] (l : List (Entry K V))
    (k : K) (v : V) (a : Nat) {cap : Nat} (hcap : 1 ≤ cap) (hb : l.length ≤ cap) :
    ∃ a1 rest, listPut l k v a cap = ⟨a1, k, v⟩ :: rest ∧ rest.Sublist (without l k) := by
  by_cases hk : k ∈ l.map Entry.key
  · obtain ⟨e, -, -, h⟩ := listPut_present hk v a cap
    exact ⟨e.addr, without l k, h, List.Sublist.refl _⟩
  · have hw : without l k = l := without_absent ((find_eq_none_iff_keys l k).2 hk)
    rw [hw]
    rcases Nat.lt_or_eq_of_le hb with hlt | heq
    · exact ⟨a, l, listPut_room hk v a hlt, List.Sublist.refl _⟩
    · obtain ⟨l1, t, hl, h⟩ := listPut_full hk v a heq hcap
      exact ⟨a, l1, h, by rw [hl]; exact List.sublist_append_left l1 [t]⟩

theorem valueOf_listPut_self [DecidableEq K] (l : List (Entry K V)) (k : K) (v : V) (a : Nat) {cap : Nat} (hcap : 1 ≤ cap)
    (hb : l.length ≤ cap) : valueOf (listPut l k v a cap) k = some v := by
  obtain ⟨a1, rest, h, -⟩ := listPut_shape l k v a hcap hb
  rw [h, valueOf_cons]
  simp

theorem Seg_mem {h : Nat → Option (Node K V)} {prev nxt : Ptr} {l : List (Entry K V)}
    (hs : Seg h prev l nxt) {e : Entry K V} (he : e ∈ l) :
    ∃ p n, h e.addr = some ⟨e.key, e.value, p, n⟩ := by
  induction l generalizing prev with
  | nil => cases he
  | cons x l ih =>
    rcases List.mem_cons.1 he with rfl | hmem
    · exact ⟨_, _, hs.1⟩
    · exact ih hs.2 hmem

theorem contains_congr [DecidableEq K] {s s1 : LRUCache K V} {l l1 : List (Entry K V)}
    (hr : Coherent s l) (hr1 : Coherent s1 l1)
    (h : ∀ j, j ∈ l1.map Entry.key ↔ j ∈ l.map Entry.key) (j : K) :
    contains s1 j = contains s j := by
  rw [Bool.eq_iff_iff, contains_iff hr, contains_iff hr1, h]

theorem length_without_present [DecidableEq K] {l : List (Entry K V)} {k : K}
    (hnd : (l.map Entry.key).Nodup) (hk : k ∈ l.map Entry.key) :
    (without l k).length + 1 = l.length := by
  obtain ⟨e, -, -, h⟩ := promote_present hnd hk
  have := (promote_perm l k).length_eq
  rw [h] at this
  simpa using this

/-- Updating a key the cache holds: the list after the call and the unchanged size. -/
theorem put_present_spec [DecidableEq K] {s : LRUCache K V} {l : List (Entry K V)}
    (hr : Represents s l) {k : K} (hk : k ∈ l.map Entry.key) (v : V) :
    ∃ s1 a, put s k v = some s1 ∧ Represents s1 (⟨a, k, v⟩ :: without l k) ∧
      size s1 = size s := by
  obtain ⟨s1, hput, hr1, -⟩ := put_spec hr k v
  obtain ⟨e, -, -, hshape⟩ := listPut_present hk v s.brk s.capacity_
  rw [hshape] at hr1
  refine ⟨s1, e.addr, hput, hr1, ?_⟩
  rw [size_eq_length hr1.coherent, size_eq_length hr.coherent, List.length_cons,
    length_without_present hr.coherent.nodupKey hk]

theorem run_append [DecidableEq K] (s : LRUCache K V) (ops1 ops2 : List (Op K V)) :
    run s (ops1 ++ ops2) = (run s ops1).bind fun s1 => run s1 ops2 := by
  induction ops1 generalizing s with
  | nil => rfl
  | cons op ops1 ih =>
    simp only [List.cons_append, run]
    cases step s op with
    | none => rfl
    | some s1 => simpa using ih s1

theorem run_concat [DecidableEq K] {s s1 : LRUCache K V} {ops : List (Op K V)}
    (h : run s ops = some s1) (op : Op K V) : run s (ops ++ [op]) = step s1 op := by
  rw [run_append, h]
  simp only [Option.some_bind, run]
  cases step s1 op <;> rfl

theorem touchLog_concat [DecidableEq K] {s s1 : LRUCache K V} {ops : List (Op K V)}
    (h : run s ops = some s1) (op : Op K V) :
    touchLog s (ops ++ [op]) = touchLog s ops ++ [touched s1 op] := by
  induction ops generalizing s with
  | nil =>
    cases h
    simp only [List.nil_append, touchLog]
    split <;> rfl
  | cons o ops ih =>
    simp only [run] at h
    cases hstep : step s o with
    | none => simp [hstep] at h
    | some s2 =>
      rw [hstep, Option.some_bind] at h
      have := ih h
      simp only [List.cons_append, touchLog, hstep, List.append_eq] at this ⊢
      rw [this]

theorem lastTouch_concat [DecidableEq K] (log : List (Option K)) (x : Option K) (j : K) :
    lastTouch (log ++ [x]) j = if x = some j then log.length + 1 else lastTouch log j := by
  unfold lastTouch
  rw [List.reverse_append, List.reverse_singleton, List.singleton_append, List.indexOf_cons]
  by_cases h : x = some j
  · simp [h]
  · have : (x == some j) = false := by simpa using h
    simp only [this, cond_false, h, if_false, List.length_append, List.length_singleton]
    omega

theorem lastTouch_le [DecidableEq K] (log : List (Option K)) (j : K) :
    lastTouch log j ≤ log.length := by
  unfold lastTouch
  omega

/-- A call that touches key `k` leaves an ordered list when the cell of `k` goes to the
front and the cells behind it are old cells in their old order. -/
theorem ordered_touch [DecidableEq K] {log : List (Option K)} {l rest : List (Entry K V)}
    (ho : Ordered log l) {k : K} (x : Entry K V) (hx : x.key = k)
    (hsub : rest.Sublist (without l k)) : Ordered (log ++ [some k]) (x :: rest) := by
  have hmem : ∀ y ∈ rest, y ∈ l ∧ y.key ≠ k := by
    intro y hy
    have := hsub.subset hy
    simpa [without] using this
  have hsame : ∀ y ∈ rest, lastTouch (log ++ [some k]) y.key = lastTouch log y.key := by
    intro y hy
    rw [lastTouch_concat, if_neg]
    simpa using Ne.symm (hmem y hy).2
  have hk : lastTouch (log ++ [some k]) x.key = log.length + 1 := by
    rw [lastTouch_concat, hx, if_pos rfl]
  have hsubl : rest.Sublist l := hsub.trans (List.filter_sublist _)
  refine ⟨List.pairwise_cons.2 ⟨fun y hy => ?_, ?_⟩, fun y hy => ?_⟩
  · rw [hk, hsame y hy]
    exact Nat.lt_succ_of_le (lastTouch_le log y.key)
  · refine (ho.1.sublist hsubl).imp_of_mem ?_
    intro a b ha hb hab
    rw [hsame a ha, hsame b hb]
    exact hab
  · rcases List.mem_cons.1 hy with rfl | hy
    · rw [hk]; exact Nat.succ_pos _
    · rw [hsame y hy]; exact ho.2 y (hmem y hy).1

/-- A call that touches no key leaves an ordered list when it only removes cells. -/
theorem ordered_keep [DecidableEq K] {log : List (Option K)} {l rest : List (Entry K V)}
    (ho : Ordered log l) (hsub : rest.Sublist l) : Ordered (log ++ [none]) rest := by
  have hsame : ∀ j : K, lastTouch (log ++ [none]) j = lastTouch log j := by
    intro j
    rw [lastTouch_concat, if_neg (by simp)]
  unfold Ordered
  simp only [hsame]
  exact ⟨ho.1.sublist hsub, fun y hy => ho.2 y (hsub.subset hy)⟩

theorem ordered_step [DecidableEq K] {s : LRUCache K V} {l : List (Entry K V)}
    (hr : Represents s l) {log : List (Option K)} (ho : Ordered log l) (op : Op K V) :
    Ordered (log ++ [touched s op]) (listStep l s.brk s.capacity_ op) := by
  cases op with
  | put k v =>
    obtain ⟨a1, rest, hshape, hsub⟩ := listPut_shape l k v s.brk hr.capPos hr.bound
    simp only [touched, listStep, hshape]
    exact ordered_touch ho _ rfl hsub
  | get k =>
    by_cases hk : contains s k = true
    · have hmem := (contains_iff hr.coherent k).1 hk
      obtain ⟨e, -, hek, hshape⟩ := promote_present hr.coherent.nodupKey hmem
      simp only [touched, listStep, hk, if_true, hshape]
      exact ordered_touch ho e hek (List.Sublist.refl _)
    · have hk1 : contains s k = false := by simpa using hk
      have hmem := (contains_eq_false_iff hr.coherent k).1 hk1
      simp only [touched, listStep, hk1, Bool.false_eq_true, if_false,
        promote_absent ((find_eq_none_iff_keys l k).2 hmem)]
      exact ordered_keep ho (List.Sublist.refl _)
  | erase k =>
    simp only [touched, listStep]
    exact ordered_keep ho (List.filter_sublist _)
  | clear =>
    simp only [touched, listStep]
    exact ordered_keep ho (List.nil_sublist _)

/-- Every state reached from a fresh cache represents a recency list that is ordered by last
touch with respect to the log of the calls made. -/
theorem history_ordered [DecidableEq K] (c : Nat) (ops : List (Op K V)) :
    ∃ s l, run (construct c : LRUCache K V) ops = some s ∧ Represents s l ∧
      Ordered (touchLog (construct c : LRUCache K V) ops) l := by
  induction ops using List.reverseRecOn with
  | nil =>
    exact ⟨construct c, [], rfl, construct_spec c, List.Pairwise.nil, fun x hx => by cases hx⟩
  | append_singleton ops op ih =>
    obtain ⟨s, l, hrun, hr, ho⟩ := ih
    obtain ⟨s1, hstep, hr1, -⟩ := step_spec hr op
    refine ⟨s1, _, by rw [run_concat hrun, hstep], hr1, ?_⟩
    rw [touchLog_concat hrun]
    exact ordered_step hr ho op

/-- Inserting a new key into a full cache: the last cell of the list goes, its key is the
only one lost, and the new key is held. -/
theorem put_full_spec [DecidableEq K] {s : LRUCache K V} {l : List (Entry K V)}
    (hr : Represents s l) {k : K} (hk : k ∉ l.map Entry.key) (v : V)
    (hfull : l.length = s.capacity_) :
    ∃ s1 l1 t, put s k v = some s1 ∧ l = l1 ++ [t] ∧ Represents s1 (⟨s.brk, k, v⟩ :: l1) ∧
      contains s t.key = true ∧ contains s1 t.key = false ∧ t.key ≠ k ∧
      contains s1 k = true ∧
      ∀ j, contains s j = true → j ≠ t.key → contains s1 j = true ∧ j ∈ l1.map Entry.key := by
  obtain ⟨s1, hput, hr1, -⟩ := put_spec hr k v
  obtain ⟨l1, t, hl, hshape⟩ := listPut_full hk v s.brk hfull hr.capPos
  rw [hshape] at hr1
  have hnd := hr.coherent.nodupKey
  have hk1 := hk
  rw [hl] at hnd hk1
  simp only [List.map_append, List.map_cons, List.map_nil, List.mem_append,
    List.mem_singleton, not_or] at hk1
  have ht1 : t.key ∉ l1.map Entry.key := by
    simp only [List.map_append, List.map_cons, List.map_nil] at hnd
    exact fun h => (List.disjoint_of_nodup_append hnd) h (by simp)
  refine ⟨s1, l1, t, hput, hl, hr1, ?_, ?_, fun h => hk1.2 h.symm, ?_, ?_⟩
  · rw [contains_iff hr.coherent, hl]; simp
  · rw [contains_eq_false_iff hr1.coherent, List.map_cons, List.mem_cons, not_or]
    exact ⟨fun h => hk1.2 h.symm, ht1⟩
  · rw [contains_iff hr1.coherent]; simp
  · intro j hj hjt
    rw [contains_iff hr1.coherent]
    rw [contains_iff hr.coherent, hl] at hj
    simp only [List.map_append, List.map_cons, List.map_nil, List.mem_append,
      List.mem_singleton] at hj
    rcases hj with hj | hj
    · exact ⟨by simp [hj], hj⟩
    · exact absurd hj hjt

theorem view_length (l : List (Entry K V)) : (view l).length = l.length := by
  simp [view]

theorem view_keys (l : List (Entry K V)) : (view l).map Prod.fst = l.map Entry.key := by
  simp [view, List.map_map, Function.comp_def]

theorem view_without [DecidableEq K] (l : List (Entry K V)) (k : K) :
    view (without l k) = (view l).filter fun p => decide (p.1 ≠ k) := by
  unfold view without
  rw [List.filter_map]
  rfl

theorem view_find [DecidableEq K] (l : List (Entry K V)) (k : K) :
    (view l).find? (fun p => decide (p.1 = k)) =
      (l.find? fun e => decide (e.key = k)).map fun e => (e.key, e.value) := by
  induction l with
  | nil => rfl
  | cons x l ih =>
    unfold view at ih ⊢
    by_cases h : x.key = k
    · simp [List.find?_cons, h]
    · simp only [List.map_cons, List.find?_cons, h, decide_False]
      exact ih

theorem view_listPut [DecidableEq K] {l : List (Entry K V)} (hnd : (l.map Entry.key).Nodup)
    (k : K) (v : V) (a : Nat) {cap : Nat} (hb : l.length ≤ cap) :
    view (listPut l k v a cap) = refPut cap (view l) k v := by
  unfold refPut
  rw [← view_without, List.length_cons, view_length]
  cases hf : l.find? (fun x => decide (x.key = k)) with
  | none =>
    rw [without_absent hf]
    simp only [listPut, hf]
    split
    · simp [view, List.map_dropLast]
    · rfl
  | some e =>
    have hk : k ∈ l.map Entry.key :=
      List.mem_map.2 ⟨e, List.mem_of_find?_eq_some hf, by simpa using List.find?_some hf⟩
    have hlen := length_without_present hnd hk
    have : ¬ cap < (without l k).length + 1 := by omega
    simp only [listPut, hf, this, if_false]
    rfl

theorem view_promote [DecidableEq K] {l : List (Entry K V)} (hnd : (l.map Entry.key).Nodup)
    (k : K) : (valueOf l k, view (promote l k)) = refGet (view l) k := by
  unfold refGet
  rw [view_find, ← view_without]
  cases hf : l.find? (fun x => decide (x.key = k)) with
  | none => simp [valueOf, hf, promote_absent hf]
  | some e =>
    obtain ⟨hk, l1, l2, rfl, h1, h2⟩ := split_of_find hnd hf
    simp [valueOf, hf, promote_split hk h1 h2, without_split hk h1 h2, view]

theorem view_erase [DecidableEq K] (l : List (Entry K V)) (k : K) :
    ((valueOf l k).isSome, view (without l k)) = refErase (view l) k := by
  unfold refErase
  rw [view_find, ← view_without]
  simp [valueOf]

/-- One call agrees with the reference model on the value returned and on the pairs held
afterwards. -/
theorem call_spec [DecidableEq K] {s : LRUCache K V} {l : List (Entry K V)}
    (hr : Represents s l) (op : Op K V) :
    ∃ s1 l1, call s op = some ((refCall s.capacity_ (view l) op).1, s1) ∧ Represents s1 l1 ∧
      view l1 = (refCall s.capacity_ (view l) op).2 ∧ s1.capacity_ = s.capacity_ := by
  cases op with
  | put k v =>
    obtain ⟨s1, h, hr1, hc⟩ := put_spec hr k v
    exact ⟨s1, _, by simp [call, h, refCall], hr1,
      view_listPut hr.coherent.nodupKey k v s.brk hr.bound, hc⟩
  | get k =>
    obtain ⟨s1, h, hr1, hc⟩ := get_spec hr k
    have hv := view_promote hr.coherent.nodupKey k
    exact ⟨s1, _, by simp [call, h, refCall, ← hv], hr1, by simp [refCall, ← hv], hc⟩
  | erase k =>
    obtain ⟨s1, h, hr1, hc⟩ := erase_spec hr k
    have hv := view_erase l k
    exact ⟨s1, _, by simp [call, h, refCall, ← hv], hr1, by simp [refCall, ← hv], hc⟩
  | clear =>
    obtain ⟨s1, h, hr1, hc⟩ := clear_spec hr
    exact ⟨s1, [], by simp [call, h, refCall], hr1, rfl, hc⟩

/-- The transcript of the cache is the transcript of the reference model. -/
theorem transcript_spec [DecidableEq K] {s : LRUCache K V} {l : List (Entry K V)}
    (hr : Represents s l) (ops : List (Op K V)) :
    transcript s ops = some (refTranscript s.capacity_ (view l) ops) := by
  induction ops generalizing s l with
  | nil => rfl
  | cons op ops ih =>
    obtain ⟨s1, l1, hcall, hr1, hview, hc⟩ := call_spec hr op
    have hrest := ih hr1
    rw [hc, hview] at hrest
    simp only [transcript, hcall, Option.some_bind, debug_print_eq hr1.coherent, hrest,
      Option.map_some', refTranscript, size_eq_length hr1.coherent]
    rw [← hview, view_length, view_keys]

theorem step_eq_call [DecidableEq K] (s : LRUCache K V) (op : Op K V) :
    step s op = (call s op).map fun r => r.2 := by
  cases op <;> simp [step, call, Option.map_map, Function.comp_def]

/-- A run ends in a state that represents the list of the reference model. -/
theorem run_view [DecidableEq K] {s : LRUCache K V} {l : List (Entry K V)}
    (hr : Represents s l) (ops : List (Op K V)) :
    ∃ s1 l1, run s ops = some s1 ∧ Represents s1 l1 ∧
      view l1 = refRun s.capacity_ (view l) ops ∧ s1.capacity_ = s.capacity_ := by
  induction ops generalizing s l with
  | nil => exact ⟨s, l, rfl, hr, rfl, rfl⟩
  | cons op ops ih =>
    obtain ⟨s1, l1, hcall, hr1, hview, hcap⟩ := call_spec hr op
    obtain ⟨s2, l2, hrun, hr2, hview2, hcap2⟩ := ih hr1
    refine ⟨s2, l2, ?_, hr2, ?_, hcap2.trans hcap⟩
    · simp only [run, step_eq_call, hcall, Option.map_some', Option.some_bind, hrun]
    · rw [hview2, hcap, hview]
      rfl

theorem construct_capacity (c : Nat) : (construct c : LRUCache K V).capacity_ = max c 1 := by
  by_cases h : c = 0
  · simp [construct, h]
  · have : max c 1 = c := max_eq_left (by omega)
    simp [construct, h, this]

theorem nodesFrom_seg {h : Nat → Option (Node K V)} {prev : Ptr} {l : List (Entry K V)}
    {fuel : Nat} (hs : Seg h prev l none) (hf : l.length ≤ fuel) :
    nodesFrom h fuel (hd l none) = some (l.map Entry.addr) := by
  induction l generalizing prev fuel with
  | nil => cases fuel <;> rfl
  | cons e l ih =>
    cases fuel with
    | zero => simp at hf
    | succ fuel =>
      simp only [List.length_cons, Nat.add_le_add_iff_right] at hf
      simp [nodesFrom, hs.1, ih hs.2 hf]

theorem nodesBack_seg {h : Nat → Option (Node K V)} (l : List (Entry K V)) :
    ∀ {nxt : Ptr} {fuel : Nat}, Seg h none l nxt → l.length ≤ fuel →
      nodesBack h fuel (lst none l) = some (l.map Entry.addr).reverse := by
  induction l using List.reverseRecOn with
  | nil =>
    intro nxt fuel _ _
    cases fuel <;> rfl
  | append_singleton l q ih =>
    intro nxt fuel hs hf
    have hcell := Seg_last_cell hs
    rw [Seg_append] at hs
    cases fuel with
    | zero => simp at hf
    | succ fuel =>
      simp only [List.length_append, List.length_singleton, Nat.add_le_add_iff_right] at hf
      simp [nodesBack, hcell, ih hs.1 hf]

theorem hd_eq_head? (l : List (Entry K V)) : hd l none = (l.map Entry.addr).head? := by
  cases l <;> rfl

theorem lst_eq_getLast? (l : List (Entry K V)) : lst none l = (l.map Entry.addr).getLast? := by
  induction l using List.reverseRecOn with
  | nil => rfl
  | append_singleton l q _ => simp

/-- In a linked segment every cell with a successor is the predecessor of that successor. -/
theorem Seg_next_prev {h : Nat → Option (Node K V)} {l : List (Entry K V)}
    (hs : Seg h none l none) {e : Entry K V} (he : e ∈ l) {n : Node K V} {b : Nat}
    (hn : h e.addr = some n) (hb : n.next = some b) :
    b ∈ l.map Entry.addr ∧ ∃ m, h b = some m ∧ m.prev = some e.addr := by
  obtain ⟨l1, l2, rfl⟩ := List.append_of_mem he
  rw [Seg_append, Seg_cons] at hs
  obtain ⟨_, hcell, hrest⟩ := hs
  rw [hcell] at hn
  cases hn
  cases l2 with
  | nil => simp at hb
  | cons f l2 =>
    simp only [hd_cons, Option.some.injEq] at hb
    subst hb
    exact ⟨by simp, _, hrest.1, rfl⟩

theorem keyAt_of_mem {s : LRUCache K V} {l : List (Entry K V)} (hl : Linked s l)
    {e : Entry K V} (he : e ∈ l) : keyAt s e.addr = some e.key := by
  obtain ⟨p, n, hcell⟩ := Seg_mem hl.seg he
  simp [keyAt, hcell]

/-! ## Properties of the public interface -/

/-- C1: for every capacity and every finite sequence of put/get/erase/clear calls on a
freshly constructed cache, every call returns and `size() <= capacity()` holds after each
call of the sequence (after the first `n` calls, for every `n`). -/
theorem C1_size_le_capacity [DecidableEq K] (c : Nat) (ops : List (Op K V)) (n : Nat) :
    ∃ s : LRUCache K V, run (construct c) (ops.take n) = some s ∧ size s ≤ capacity s := by
  obtain ⟨s, l, hrun, hr, -⟩ := reachable_represents (K := K) (V := V) c (ops.take n)
  exact ⟨s, hrun, by rw [size_eq_length hr.coherent]; exact hr.bound⟩

/-- C2: for every history `ops` of calls on a fresh cache, when `put(k, v)` is called with
`k` not held and `size() == capacity()`, exactly one key `e` disappears from the cache; `e`
was held, was touched (by a `put` of `e` or a `get` that found `e`), and its last touch is
older than the last touch of every other held key.  The inserted key `k` is not the one
evicted: it is held after the call. -/
theorem C2_evicts_least_recently_touched [DecidableEq K] (c : Nat) (ops : List (Op K V))
    (s : LRUCache K V) (hs : run (construct c) ops = some s) (k : K) (v : V)
    (hk : contains s k = false) (hfull : size s = capacity s) :
    ∃ s1 e, put s k v = some s1 ∧
      contains s e = true ∧ contains s1 e = false ∧
      (∀ j, contains s j = true → j ≠ e → contains s1 j = true) ∧
      e ≠ k ∧ contains s1 k = true ∧
      0 < lastTouch (touchLog (construct c : LRUCache K V) ops) e ∧
      ∀ j, contains s j = true → j ≠ e →
        lastTouch (touchLog (construct c : LRUCache K V) ops) e <
          lastTouch (touchLog (construct c : LRUCache K V) ops) j := by
  obtain ⟨s0, l, hrun, hr, ho⟩ := history_ordered (K := K) (V := V) c ops
  rw [hs] at hrun
  cases hrun
  have hmem := (contains_eq_false_iff hr.coherent k).1 hk
  rw [size_eq_length hr.coherent] at hfull
  obtain ⟨s1, l1, t, hput, hl, -, hheld, hgone, htk, hnew, hkeep⟩ :=
    put_full_spec hr hmem v hfull
  rw [hl] at ho
  refine ⟨s1, t.key, hput, hheld, hgone, fun j hj hjt => (hkeep j hj hjt).1, htk, hnew,
    ho.2 t (by simp), fun j hj hjt => ?_⟩
  obtain ⟨y, hy, rfl⟩ := List.mem_map.1 (hkeep j hj hjt).2
  exact (List.pairwise_append.1 ho.1).2.2 y hy t (by simp)

/-- Scenario 1: capacity 2, `put(1, "one")`, `put(2, "two")`, `get(1)`, then
`put(3, "three")` evicts a key as C2 says; afterwards `get(2)` is "not found" while
`get(3)` and `get(1)` still hit. -/
theorem C2_scenario1 :
    run (construct 2) scenario1Ops = some scenario1 ∧ contains scenario1 3 = false ∧
      size scenario1 = capacity scenario1 ∧
      (∃ s1 e, put scenario1 3 "three" = some s1 ∧
        contains scenario1 e = true ∧ contains s1 e = false ∧
        (∀ j, contains scenario1 j = true → j ≠ e → contains s1 j = true) ∧
        e ≠ 3 ∧ contains s1 3 = true ∧
        0 < lastTouch (touchLog (construct 2 : LRUCache Nat String) scenario1Ops) e ∧
        ∀ j, contains scenario1 j = true → j ≠ e →
          lastTouch (touchLog (construct 2 : LRUCache Nat String) scenario1Ops) e <
            lastTouch (touchLog (construct 2 : LRUCache Nat String) scenario1Ops) j) ∧
      ((put scenario1 3 "three").bind fun s1 => (get s1 2).bind fun r2 =>
        (get r2.2 3).bind fun r3 => (get r3.2 1).map fun r1 => (r2.1, r3.1, r1.1)) =
        some (none, some "three", some "one") :=
  ⟨(Option.some_get _).symm, by decide, by decide,
    C2_evicts_least_recently_touched 2 scenario1Ops scenario1 (Option.some_get _).symm 3
      "three" (by decide) (by decide),
    by decide⟩

/-- C3: in every reachable state, for every key `k` and value `v`, `put(k, v)` returns and
an immediate `get(k)` returns `v`, never "not found", whatever the put did (insert, update,
eviction). -/
theorem C3_get_after_put [DecidableEq K] (s : LRUCache K V) (hs : Reachable s) (k : K)
    (v : V) : ∃ s1 s2, put s k v = some s1 ∧ get s1 k = some (some v, s2) := by
  obtain ⟨l, hr⟩ := hs.represents
  obtain ⟨s1, hput, hr1, -⟩ := put_spec hr k v
  obtain ⟨s2, hget, -, -⟩ := get_spec hr1 k
  rw [valueOf_listPut_self l k v s.brk hr.capPos hr.bound] at hget
  exact ⟨s1, s2, hput, hget⟩

/-- In the state of scenario 1, `put(3, "three")` followed by `get(3)` returns "three". -/
theorem C3_scenario1 :
    Reachable scenario1 ∧
      ∃ s1 s2, put scenario1 3 "three" = some s1 ∧ get s1 3 = some (some "three", s2) :=
  ⟨⟨2, scenario1Ops, (Option.some_get _).symm⟩,
    C3_get_after_put scenario1 ⟨2, scenario1Ops, (Option.some_get _).symm⟩ 3 "three"⟩

/-- C4: in every reachable state, after `put(k, v)` returns, `k` is the first key of the
most-to-least-recent order printed by `debug_print`, and `head_` points at the node with
key `k`; this holds for an inserted and for an updated key alike. -/
theorem C4_put_makes_most_recent [DecidableEq K] (s : LRUCache K V) (hs : Reachable s)
    (k : K) (v : V) :
    ∃ s1 ks a n, put s k v = some s1 ∧ debug_print s1 = some (k :: ks) ∧
      s1.head_ = some a ∧ s1.heap a = some n ∧ n.key = k := by
  obtain ⟨l, hr⟩ := hs.represents
  obtain ⟨s1, hput, hr1, -⟩ := put_spec hr k v
  obtain ⟨a1, rest, hshape, -⟩ :=
    listPut_shape l k v s.brk hr.capPos hr.bound
  rw [hshape] at hr1
  refine ⟨s1, rest.map Entry.key, a1, _, hput, ?_, hr1.coherent.linked.head,
    hr1.coherent.linked.seg.1, rfl⟩
  rw [debug_print_eq hr1.coherent]
  rfl

/-- In the state of scenario 1, `put(2, "deux")` updates key 2 and makes it the head. -/
theorem C4_scenario1 :
    Reachable scenario1 ∧
      (∃ s1 ks a n, put scenario1 2 "deux" = some s1 ∧ debug_print s1 = some (2 :: ks) ∧
        s1.head_ = some a ∧ s1.heap a = some n ∧ n.key = 2) ∧
      (put scenario1 2 "deux").bind debug_print = some [2, 1] :=
  ⟨⟨2, scenario1Ops, (Option.some_get _).symm⟩,
    C4_put_makes_most_recent scenario1 ⟨2, scenario1Ops, (Option.some_get _).symm⟩ 2 "deux",
    by decide⟩

/-- C5: in every reachable state and for every key `k` the cache holds, `get(k)` returns
the value stored in the node of `k`, makes `k` the first key of the most-to-least-recent
order and keeps the order of all other keys; the set of keys, the value returned for every
key, `size()` and `capacity()` are unchanged (nothing is evicted). -/
theorem C5_get_hit [DecidableEq K] (s : LRUCache K V) (hs : Reachable s) (k : K)
    (hk : contains s k = true) :
    ∃ v s1 ks a n, get s k = some (some v, s1) ∧
      (mapFind s.map_ k = some (some a) ∧ s.heap a = some n ∧ n.value = v) ∧
      debug_print s = some ks ∧
      debug_print s1 = some (k :: ks.filter fun j => decide (j ≠ k)) ∧
      (∀ j, contains s1 j = contains s j) ∧ (∀ j, lookup s1 j = lookup s j) ∧
      size s1 = size s ∧ capacity s1 = capacity s := by
  obtain ⟨l, hr⟩ := hs.represents
  have hmem := (contains_iff hr.coherent k).1 hk
  obtain ⟨e, he, hek, hshape⟩ := promote_present hr.coherent.nodupKey hmem
  obtain ⟨s1, hget, hr1, hc⟩ := get_spec hr k
  have hval : valueOf l k = some e.value :=
    (valueOf_eq_some_iff hr.coherent.nodupKey k e.value).2 ⟨e, he, hek, rfl⟩
  obtain ⟨p, n, hcell⟩ := Seg_mem hr.coherent.linked.seg he
  have hfind := index_find_mem hr.coherent he
  rw [hek] at hfind
  refine ⟨e.value, s1, l.map Entry.key, e.addr, _, by rw [hget, hval], ⟨hfind, hcell, rfl⟩,
    debug_print_eq hr.coherent, ?_, ?_, ?_, ?_, hc⟩
  · rw [debug_print_eq hr1.coherent, hshape, List.map_cons, hek, keys_without]
  · exact contains_congr hr.coherent hr1.coherent fun j =>
      ((promote_perm l k).map Entry.key).mem_iff
  · intro j
    rw [lookup_eq hr1, lookup_eq hr, valueOf_promote hr.coherent.nodupKey]
  · rw [size_eq_length hr1.coherent, size_eq_length hr.coherent, (promote_perm l k).length_eq]

/-- Scenario 3: capacity 3, `put(1, "x")`, `put(2, "y")`, `put(3, "z")`, then `get(1)`
behaves as C5 says, and the following `put(4, "w")` evicts key 2, not key 1. -/
theorem C5_scenario3 :
    Reachable scenario3 ∧ contains scenario3 1 = true ∧
      (∃ v s1 ks a n, get scenario3 1 = some (some v, s1) ∧
        (mapFind scenario3.map_ 1 = some (some a) ∧ scenario3.heap a = some n ∧
          n.value = v) ∧
        debug_print scenario3 = some ks ∧
        debug_print s1 = some (1 :: ks.filter fun j => decide (j ≠ 1)) ∧
        (∀ j, contains s1 j = contains scenario3 j) ∧
        (∀ j, lookup s1 j = lookup scenario3 j) ∧
        size s1 = size scenario3 ∧ capacity s1 = capacity scenario3) ∧
      lookup scenario3 1 = some (some "x") ∧
      ((get scenario3 1).bind fun r => debug_print r.2) = some [1, 3, 2] ∧
      ((get scenario3 1).bind fun r => (put r.2 4 "w").bind debug_print) = some [4, 1, 3] ∧
      ((get scenario3 1).bind fun r => (put r.2 4 "w").bind fun s2 => lookup s2 2) =
        some none ∧
      ((get scenario3 1).bind fun r => (put r.2 4 "w").bind fun s2 => lookup s2 1) =
        some (some "x") :=
  ⟨⟨3, scenario3Ops, (Option.some_get _).symm⟩, by decide,
    C5_get_hit scenario3 ⟨3, scenario3Ops, (Option.some_get _).symm⟩ 1 (by decide),
    by decide, by decide, by decide, by decide, by decide⟩

/-- C6: for every state (reachable or not, the empty cache included) and every key `k` the
cache does not hold, `get(k)` returns "not found" and the state after the call is the state
before it: same index, same heap, same `head_`/`tail_`, same capacity. -/
theorem C6_get_miss_is_pure [DecidableEq K] (s : LRUCache K V) (k : K)
    (hk : contains s k = false) : get s k = some (none, s) := by
  unfold contains at hk
  unfold get
  cases hf : mapFind s.map_ k with
  | none => rfl
  | some p => simp [hf] at hk

/-- A `get` on the empty cache and a `get` of a missing key in scenario 1 change nothing. -/
theorem C6_scenario_miss :
    contains (construct 2 : LRUCache Nat String) 7 = false ∧
      get (construct 2 : LRUCache Nat String) 7 = some (none, construct 2) ∧
      contains scenario1 3 = false ∧ get scenario1 3 = some (none, scenario1) :=
  ⟨by decide, C6_get_miss_is_pure (construct 2) 7 (by decide), by decide,
    C6_get_miss_is_pure scenario1 3 (by decide)⟩

/-- C7: in every reachable state, when `get(k)` returns a value `v`, a second `get(k)`
issued immediately afterwards returns the same `v`, and `size()` is the same before the
first get, between the two gets and after the second. -/
theorem C7_get_twice [DecidableEq K] (s : LRUCache K V) (hs : Reachable s) (k : K) (v : V)
    (hv : lookup s k = some (some v)) :
    ∃ s1 s2, get s k = some (some v, s1) ∧ get s1 k = some (some v, s2) ∧
      size s1 = size s ∧ size s2 = size s := by
  obtain ⟨l, hr⟩ := hs.represents
  rw [lookup_eq hr k, Option.some.injEq] at hv
  obtain ⟨s1, hget1, hr1, -⟩ := get_spec hr k
  obtain ⟨s2, hget2, hr2, -⟩ := get_spec hr1 k
  rw [hv] at hget1
  rw [valueOf_promote hr.coherent.nodupKey, hv] at hget2
  refine ⟨s1, s2, hget1, hget2, ?_, ?_⟩
  · rw [size_eq_length hr1.coherent, size_eq_length hr.coherent, (promote_perm l k).length_eq]
  · rw [size_eq_length hr2.coherent, size_eq_length hr.coherent,
      (promote_perm _ k).length_eq, (promote_perm l k).length_eq]

/-- In the state of scenario 1, `get(2)` twice returns "two" both times. -/
theorem C7_scenario1 :
    Reachable scenario1 ∧ lookup scenario1 2 = some (some "two") ∧
      ∃ s1 s2, get scenario1 2 = some (some "two", s1) ∧ get s1 2 = some (some "two", s2) ∧
        size s1 = size scenario1 ∧ size s2 = size scenario1 :=
  ⟨⟨2, scenario1Ops, (Option.some_get _).symm⟩, by decide,
    C7_get_twice scenario1 ⟨2, scenario1Ops, (Option.some_get _).symm⟩ 2 "two" (by decide)⟩

/-- C8: in every reachable state and for every key `k` the cache already holds,
`put(k, v)` makes `get(k)` return `v`, leaves `size()` unchanged, removes no key (also when
the cache is full) and leaves the value returned for every other key unchanged; putting the
same key again, with any value, leaves `size()` unchanged again. -/
theorem C8_put_update [DecidableEq K] (s : LRUCache K V) (hs : Reachable s) (k : K)
    (hk : contains s k = true) (v : V) :
    ∃ s1, put s k v = some s1 ∧ lookup s1 k = some (some v) ∧ size s1 = size s ∧
      (∀ j, contains s j = true → contains s1 j = true) ∧
      (∀ j, j ≠ k → lookup s1 j = lookup s j) ∧
      ∀ v2, ∃ s2, put s1 k v2 = some s2 ∧ size s2 = size s1 := by
  obtain ⟨l, hr⟩ := hs.represents
  have hmem := (contains_iff hr.coherent k).1 hk
  obtain ⟨s1, a, hput, hr1, hsize⟩ := put_present_spec hr hmem v
  refine ⟨s1, hput, ?_, hsize, ?_, ?_, ?_⟩
  · rw [lookup_eq hr1, valueOf_cons]
    simp
  · intro j hj
    rw [contains_iff hr1.coherent]
    rw [contains_iff hr.coherent] at hj
    by_cases hjk : j = k
    · simp [hjk]
    · rw [List.map_cons, List.mem_cons, mem_keys_without]
      exact Or.inr ⟨hj, hjk⟩
  · intro j hjk
    rw [lookup_eq hr1, lookup_eq hr, valueOf_cons, valueOf_without]
    simp [hjk, Ne.symm hjk]
  · intro v2
    obtain ⟨s2, -, hput2, -, hsize2⟩ := put_present_spec hr1 (k := k) (by simp) v2
    exact ⟨s2, hput2, hsize2⟩

/-- In the full cache of scenario 1, `put(2, "deux")` overwrites key 2 and evicts nothing. -/
theorem C8_scenario1 :
    Reachable scenario1 ∧ contains scenario1 2 = true ∧
      (∃ s1, put scenario1 2 "deux" = some s1 ∧ lookup s1 2 = some (some "deux") ∧
        size s1 = size scenario1 ∧
        (∀ j, contains scenario1 j = true → contains s1 j = true) ∧
        (∀ j, j ≠ 2 → lookup s1 j = lookup scenario1 j) ∧
        ∀ v2, ∃ s2, put s1 2 v2 = some s2 ∧ size s2 = size s1) ∧
      (put scenario1 2 "deux").map size = some 2 ∧
      (put scenario1 2 "deux").bind (fun s1 => lookup s1 1) = some (some "one") :=
  ⟨⟨2, scenario1Ops, (Option.some_get _).symm⟩, by decide,
    C8_put_update scenario1 ⟨2, scenario1Ops, (Option.some_get _).symm⟩ 2 (by decide) "deux",
    by decide, by decide⟩

/-- C9: in every reachable state and for every key `k` the cache does not hold, `put(k, v)`
returns; when `size() < capacity()` it removes no key and `size()` grows by exactly 1;
when `size() == capacity()` exactly one key held before is no longer held afterwards, every
other key is still held, and `size()` still equals `capacity()`. -/
theorem C9_put_insert [DecidableEq K] (s : LRUCache K V) (hs : Reachable s) (k : K)
    (hk : contains s k = false) (v : V) :
    ∃ s1, put s k v = some s1 ∧ capacity s1 = capacity s ∧
      (size s < capacity s →
        size s1 = size s + 1 ∧ ∀ j, contains s j = true → contains s1 j = true) ∧
      (size s = capacity s →
        size s1 = capacity s ∧
        (∃! e, contains s e = true ∧ contains s1 e = false) ∧
        ∃ e, contains s e = true ∧ contains s1 e = false ∧
          ∀ j, contains s j = true → j ≠ e → contains s1 j = true) := by
  obtain ⟨l, hr⟩ := hs.represents
  have hmem := (contains_eq_false_iff hr.coherent k).1 hk
  obtain ⟨s1, hput, hr1, hc⟩ := put_spec hr k v
  rw [size_eq_length hr.coherent]
  refine ⟨s1, hput, hc, ?_, ?_⟩
  · intro hroom
    have hroom1 : l.length < s.capacity_ := hroom
    rw [listPut_room hmem v s.brk hroom1] at hr1
    refine ⟨by rw [size_eq_length hr1.coherent]; rfl, fun j hj => ?_⟩
    rw [contains_iff hr1.coherent]
    rw [contains_iff hr.coherent] at hj
    simp [hj]
  · intro hfull
    have hfull1 : l.length = s.capacity_ := hfull
    obtain ⟨l1, t, hl, hshape⟩ := listPut_full hmem v s.brk hfull1 hr.capPos
    rw [hshape] at hr1
    have hnd := hr.coherent.nodupKey
    rw [hl] at hnd hmem
    simp only [List.map_append, List.map_cons, List.map_nil, List.mem_append,
      List.mem_singleton, not_or] at hmem
    have ht1 : t.key ∉ l1.map Entry.key := by
      simp only [List.map_append, List.map_cons, List.map_nil] at hnd
      exact fun h => (List.disjoint_of_nodup_append hnd) h (by simp)
    have hheld : contains s t.key = true := by
      rw [contains_iff hr.coherent, hl]; simp
    have hgone : contains s1 t.key = false := by
      rw [contains_eq_false_iff hr1.coherent, List.map_cons, List.mem_cons, not_or]
      exact ⟨fun h => hmem.2 h.symm, ht1⟩
    have hkeep : ∀ j, contains s j = true → j ≠ t.key → contains s1 j = true := by
      intro j hj hjt
      rw [contains_iff hr1.coherent]
      rw [contains_iff hr.coherent, hl] at hj
      simp only [List.map_append, List.map_cons, List.map_nil, List.mem_append,
        List.mem_singleton] at hj
      rcases hj with hj | hj
      · simp [hj]
      · exact absurd hj hjt
    refine ⟨?_, ⟨t.key, ⟨hheld, hgone⟩, fun j hj => ?_⟩, t.key, hheld, hgone, hkeep⟩
    · rw [size_eq_length hr1.coherent, ← hfull, hl]; simp
    · by_contra hne
      have := hkeep j hj.1 hne
      rw [hj.2] at this
      cases this

/-- In the full cache of scenario 1, `put(3, "three")` removes exactly one key and keeps
the size at the capacity. -/
theorem C9_scenario1 :
    Reachable scenario1 ∧ contains scenario1 3 = false ∧
      (∃ s1, put scenario1 3 "three" = some s1 ∧ capacity s1 = capacity scenario1 ∧
        (size scenario1 < capacity scenario1 →
          size s1 = size scenario1 + 1 ∧
            ∀ j, contains scenario1 j = true → contains s1 j = true) ∧
        (size scenario1 = capacity scenario1 →
          size s1 = capacity scenario1 ∧
          (∃! e, contains scenario1 e = true ∧ contains s1 e = false) ∧
          ∃ e, contains scenario1 e = true ∧ contains s1 e = false ∧
            ∀ j, contains scenario1 j = true → j ≠ e → contains s1 j = true)) ∧
      size scenario1 = 2 ∧ capacity scenario1 = 2 ∧
      (put scenario1 3 "three").map size = some 2 :=
  ⟨⟨2, scenario1Ops, (Option.some_get _).symm⟩, by decide,
    C9_put_insert scenario1 ⟨2, scenario1Ops, (Option.some_get _).symm⟩ 3 (by decide) "three",
    by decide, by decide, by decide⟩

/-- C10: for a reachable cache of capacity 1 that holds the key `a` (and hence no other
key), `put(b, v)` with `b != a` leaves the cache holding exactly the key `b` with value `v`:
`get(a)` is then "not found" and `get(b)` returns `v`. -/
theorem C10_capacity_one [DecidableEq K] (s : LRUCache K V) (hs : Reachable s) (a b : K)
    (hcap : capacity s = 1) (ha : contains s a = true) (hab : b ≠ a) (v : V) :
    ∃ s1, put s b v = some s1 ∧ debug_print s1 = some [b] ∧ size s1 = 1 ∧
      (∀ j, contains s1 j = true ↔ j = b) ∧
      lookup s1 a = some none ∧ lookup s1 b = some (some v) := by
  obtain ⟨l, hr⟩ := hs.represents
  have hmem := (contains_iff hr.coherent a).1 ha
  have hb := hr.bound
  have hcap1 : s.capacity_ = 1 := hcap
  rw [hcap1] at hb
  obtain ⟨e, rfl⟩ : ∃ e, l = [e] := by
    match l, hmem, hb with
    | [e], _, _ => exact ⟨e, rfl⟩
    | _ :: _ :: _, _, h => simp at h
  simp only [List.map_cons, List.map_nil, List.mem_singleton] at hmem
  have hbk : b ∉ [e].map Entry.key := by simpa [← hmem] using hab
  obtain ⟨s1, hput, hr1, -⟩ := put_spec hr b v
  obtain ⟨l1, t, hl, hshape⟩ := listPut_full hbk v s.brk (by simp [hcap1]) hr.capPos
  have hl1 : l1 = [] := by
    have := congrArg List.length hl
    simp only [List.length_cons, List.length_nil, List.length_append] at this
    exact List.length_eq_zero.1 (by omega)
  rw [hshape, hl1] at hr1
  refine ⟨s1, hput, by rw [debug_print_eq hr1.coherent]; rfl,
    by rw [size_eq_length hr1.coherent]; rfl, fun j => ?_, ?_, ?_⟩
  · rw [contains_iff hr1.coherent]; simp
  · rw [lookup_eq hr1, valueOf_cons]
    simp [valueOf, hab]
  · rw [lookup_eq hr1, valueOf_cons]
    simp

/-- Scenario 2: capacity 1, `put("a", 1)`, then `put("b", 2)` evicts "a": `get("a")` is
"not found" and `get("b")` returns 2. -/
theorem C10_scenario2 :
    Reachable scenario2 ∧ capacity scenario2 = 1 ∧ contains scenario2 "a" = true ∧
      "b" ≠ "a" ∧
      (∃ s1, put scenario2 "b" 2 = some s1 ∧ debug_print s1 = some ["b"] ∧ size s1 = 1 ∧
        (∀ j, contains s1 j = true ↔ j = "b") ∧
        lookup s1 "a" = some none ∧ lookup s1 "b" = some (some 2)) ∧
      ((put scenario2 "b" 2).bind fun s1 => (get s1 "a").bind fun ra =>
        (get ra.2 "b").map fun rb => (ra.1, rb.1)) = some (none, some 2) :=
  ⟨⟨1, [Op.put "a" 1], (Option.some_get _).symm⟩, by decide, by decide, by decide,
    C10_capacity_one scenario2 ⟨1, [Op.put "a" 1], (Option.some_get _).symm⟩ "a" "b"
      (by decide) (by decide) (by decide) 2,
    by decide⟩

/-- C11: in every reachable state and for every key `k`, `erase(k)` returns true if and
only if the cache held `k`; when it returns true, `k` is gone from the index and from the
recency list, `size()` is smaller by 1, the most-to-least-recent order is the previous
order with `k` deleted, and `get` returns the same value as before for every other key. -/
theorem C11_erase_removes [DecidableEq K] (s : LRUCache K V) (hs : Reachable s) (k : K) :
    ∃ b s1 ks, erase s k = some (b, s1) ∧ (b = true ↔ contains s k = true) ∧
      debug_print s = some ks ∧
      (b = true →
        contains s1 k = false ∧
        debug_print s1 = some (ks.filter fun j => decide (j ≠ k)) ∧
        size s1 + 1 = size s ∧ ∀ j, j ≠ k → lookup s1 j = lookup s j) := by
  obtain ⟨l, hr⟩ := hs.represents
  obtain ⟨s1, herase, hr1, -⟩ := erase_spec hr k
  have hiff : (valueOf l k).isSome = true ↔ contains s k = true := by
    rw [contains_iff hr.coherent, ← not_iff_not, ← valueOf_eq_none_iff]
    simp
  refine ⟨_, s1, l.map Entry.key, herase, hiff, debug_print_eq hr.coherent, fun hb => ?_⟩
  have hk : k ∈ l.map Entry.key := (contains_iff hr.coherent k).1 (hiff.1 hb)
  refine ⟨?_, ?_, ?_, fun j hj => ?_⟩
  · rw [contains_eq_false_iff hr1.coherent, mem_keys_without]
    exact fun h => h.2 rfl
  · rw [debug_print_eq hr1.coherent, keys_without]
  · rw [size_eq_length hr1.coherent, size_eq_length hr.coherent,
      length_without_present hr.coherent.nodupKey hk]
  · rw [lookup_eq hr1, lookup_eq hr, valueOf_without, if_neg hj]

/-- In the state of scenario 1, `erase(2)` returns true and leaves only key 1;
`erase(9)` returns false. -/
theorem C11_scenario1 :
    Reachable scenario1 ∧
      (∃ b s1 ks, erase scenario1 2 = some (b, s1) ∧ (b = true ↔ contains scenario1 2 = true) ∧
        debug_print scenario1 = some ks ∧
        (b = true →
          contains s1 2 = false ∧
          debug_print s1 = some (ks.filter fun j => decide (j ≠ 2)) ∧
          size s1 + 1 = size scenario1 ∧ ∀ j, j ≠ 2 → lookup s1 j = lookup scenario1 j)) ∧
      (erase scenario1 2).map (fun r => r.1) = some true ∧
      ((erase scenario1 2).bind fun r => debug_print r.2) = some [1] ∧
      (erase scenario1 9).map (fun r => r.1) = some false :=
  ⟨⟨2, scenario1Ops, (Option.some_get _).symm⟩,
    C11_erase_removes scenario1 ⟨2, scenario1Ops, (Option.some_get _).symm⟩ 2,
    by decide, by decide, by decide⟩

/-- C12: in every reachable state and for every key `k`, held or not, `erase(k)` returns
and a `get(k)` called immediately afterwards returns "not found". -/
theorem C12_get_after_erase [DecidableEq K] (s : LRUCache K V) (hs : Reachable s) (k : K) :
    ∃ b s1, erase s k = some (b, s1) ∧ get s1 k = some (none, s1) := by
  obtain ⟨l, hr⟩ := hs.represents
  obtain ⟨s1, herase, hr1, -⟩ := erase_spec hr k
  refine ⟨_, s1, herase, ?_⟩
  have hgone : contains s1 k = false := by
    rw [contains_eq_false_iff hr1.coherent, mem_keys_without]
    exact fun h => h.2 rfl
  unfold contains at hgone
  unfold get
  cases hf : mapFind s1.map_ k with
  | none => rfl
  | some p => simp [hf] at hgone

/-- In the state of scenario 1, `erase(1)` followed by `get(1)` finds nothing, and so does
`erase(9)` followed by `get(9)` for the key 9 that was never inserted. -/
theorem C12_scenario1 :
    Reachable scenario1 ∧
      (∃ b s1, erase scenario1 1 = some (b, s1) ∧ get s1 1 = some (none, s1)) ∧
      ((erase scenario1 1).bind fun r => lookup r.2 1) = some none ∧
      ((erase scenario1 9).bind fun r => lookup r.2 9) = some none :=
  ⟨⟨2, scenario1Ops, (Option.some_get _).symm⟩,
    C12_get_after_erase scenario1 ⟨2, scenario1Ops, (Option.some_get _).symm⟩ 1,
    by decide, by decide⟩

/-- C13: for every state (reachable or not, the empty cache included) and every key `k`
the cache does not hold, `erase(k)` returns false without any undefined behaviour and the
state after the call is the state before it. -/
theorem C13_erase_miss_is_pure [DecidableEq K] (s : LRUCache K V) (k : K)
    (hk : contains s k = false) : erase s k = some (false, s) := by
  unfold contains at hk
  unfold erase
  cases hf : mapFind s.map_ k with
  | none => rfl
  | some p => simp [hf] at hk

/-- An `erase` on the empty cache and an `erase` of a never-inserted key in scenario 1
return false and change nothing. -/
theorem C13_scenario_miss :
    contains (construct 2 : LRUCache Nat String) 7 = false ∧
      erase (construct 2 : LRUCache Nat String) 7 = some (false, construct 2) ∧
      contains scenario1 3 = false ∧ erase scenario1 3 = some (false, scenario1) :=
  ⟨by decide, C13_erase_miss_is_pure (construct 2) 7 (by decide), by decide,
    C13_erase_miss_is_pure scenario1 3 (by decide)⟩

/-- C14: in every reachable state `clear()` returns, afterwards `size()` is 0 and `get(k)`
returns "not found" for every key `k`, in particular for every key held before. -/
theorem C14_clear_empties [DecidableEq K] (s : LRUCache K V) (hs : Reachable s) :
    ∃ s1, clear s = some s1 ∧ size s1 = 0 ∧ ∀ k, get s1 k = some (none, s1) := by
  obtain ⟨l, hr⟩ := hs.represents
  obtain ⟨s1, hclear, hr1, -⟩ := clear_spec hr
  refine ⟨s1, hclear, by rw [size_eq_length hr1.coherent]; rfl, fun k => ?_⟩
  have hgone : contains s1 k = false := by
    rw [contains_eq_false_iff hr1.coherent]
    simp
  unfold contains at hgone
  unfold get
  cases hf : mapFind s1.map_ k with
  | none => rfl
  | some p => simp [hf] at hgone

/-- Clearing the three-entry cache of scenario 3 gives size 0, and the keys 1, 2, 3 held
before are not found afterwards. -/
theorem C14_scenario3 :
    Reachable scenario3 ∧
      (∃ s1, clear scenario3 = some s1 ∧ size s1 = 0 ∧ ∀ k, get s1 k = some (none, s1)) ∧
      size scenario3 = 3 ∧ (clear scenario3).map size = some 0 ∧
      ((clear scenario3).bind fun s1 => lookup s1 1) = some none ∧
      ((clear scenario3).bind fun s1 => lookup s1 2) = some none ∧
      ((clear scenario3).bind fun s1 => lookup s1 3) = some none :=
  ⟨⟨3, scenario3Ops, (Option.some_get _).symm⟩,
    C14_clear_empties scenario3 ⟨3, scenario3Ops, (Option.some_get _).symm⟩,
    by decide, by decide, by decide, by decide, by decide⟩

/-- C15: in every reachable state with capacity `c`, the state after `clear()` cannot be
told apart from a freshly constructed `LRUCache(c)`: every subsequent sequence of
put/get/erase/clear calls returns on both, with the same returned values, the same
`size()` and the same `debug_print` key order after every call. -/
theorem C15_clear_is_fresh [DecidableEq K] (s : LRUCache K V) (hs : Reachable s) :
    ∃ s1, clear s = some s1 ∧
      ∀ ops : List (Op K V), ∃ t, transcript s1 ops = some t ∧
        transcript (construct (capacity s)) ops = some t := by
  obtain ⟨l, hr⟩ := hs.represents
  obtain ⟨s1, hclear, hr1, hc⟩ := clear_spec hr
  refine ⟨s1, hclear, fun ops => ⟨_, transcript_spec hr1 ops, ?_⟩⟩
  rw [transcript_spec (construct_spec (K := K) (V := V) (capacity s)) ops, hc]
  have hpos : s.capacity_ ≠ 0 := by have := hr.capPos; omega
  simp [construct, capacity, hpos]

/-- Scenario 5: after `clear()` on the three-entry cache of scenario 3, a sequence of calls
gives the same transcript as on a fresh cache of capacity 3. -/
theorem C15_scenario5 :
    Reachable scenario3 ∧
      (∃ s1, clear scenario3 = some s1 ∧
        ∀ ops : List (Op Nat String), ∃ t, transcript s1 ops = some t ∧
          transcript (construct (capacity scenario3)) ops = some t) ∧
      ((clear scenario3).bind fun s1 =>
        transcript s1 [Op.put 1 "a", Op.put 2 "b", Op.get 1, Op.put 3 "c", Op.put 4 "d"]) =
        some [(Reply.unit, 1, [1]), (Reply.unit, 2, [2, 1]),
          (Reply.value (some "a"), 2, [1, 2]), (Reply.unit, 3, [3, 1, 2]),
          (Reply.unit, 3, [4, 3, 1])] ∧
      transcript (construct 3 : LRUCache Nat String)
          [Op.put 1 "a", Op.put 2 "b", Op.get 1, Op.put 3 "c", Op.put 4 "d"] =
        some [(Reply.unit, 1, [1]), (Reply.unit, 2, [2, 1]),
          (Reply.value (some "a"), 2, [1, 2]), (Reply.unit, 3, [3, 1, 2]),
          (Reply.unit, 3, [4, 3, 1])] :=
  ⟨⟨3, scenario3Ops, (Option.some_get _).symm⟩,
    C15_clear_is_fresh scenario3 ⟨3, scenario3Ops, (Option.some_get _).symm⟩,
    by decide, by decide⟩

/-- C16: constructing with requested capacity 0 gives a cache whose `capacity()` is 1; for
every requested capacity `c >= 1`, `capacity()` is `c`; and no put/get/erase/clear changes
`capacity()`: every call in a reachable state returns with the capacity it found, so after
any sequence of calls the capacity is still the constructed one. -/
theorem C16_capacity_fixed [DecidableEq K] (c : Nat) (hc : 1 ≤ c) (ops : List (Op K V)) :
    capacity (construct 0 : LRUCache K V) = 1 ∧ capacity (construct c : LRUCache K V) = c ∧
      (∃ s : LRUCache K V, run (construct c) ops = some s ∧ capacity s = c) ∧
      (∃ s : LRUCache K V, run (construct 0) ops = some s ∧ capacity s = 1) ∧
      ∀ s : LRUCache K V, Reachable s → ∀ op : Op K V,
        ∃ s1, step s op = some s1 ∧ capacity s1 = capacity s := by
  have hne : c ≠ 0 := by omega
  refine ⟨rfl, by simp [capacity, construct, hne], ?_, ?_, fun s hs op => ?_⟩
  · obtain ⟨s, l, hrun, -, hcap⟩ := reachable_represents (K := K) (V := V) c ops
    exact ⟨s, hrun, by simpa [capacity, hne] using hcap⟩
  · obtain ⟨s, l, hrun, -, hcap⟩ := reachable_represents (K := K) (V := V) 0 ops
    exact ⟨s, hrun, by simpa [capacity] using hcap⟩
  · obtain ⟨l, hr⟩ := hs.represents
    obtain ⟨s1, hstep, -, hc1⟩ := step_spec hr op
    exact ⟨s1, hstep, hc1⟩

/-- Requested capacity 2 stays 2 through scenario 1, and requested capacity 0 is 1. -/
theorem C16_scenario_capacity :
    1 ≤ 2 ∧
      (capacity (construct 0 : LRUCache Nat String) = 1 ∧
        capacity (construct 2 : LRUCache Nat String) = 2 ∧
        (∃ s : LRUCache Nat String, run (construct 2) scenario1Ops = some s ∧
          capacity s = 2) ∧
        (∃ s : LRUCache Nat String, run (construct 0) scenario1Ops = some s ∧
          capacity s = 1) ∧
        ∀ s : LRUCache Nat String, Reachable s → ∀ op : Op Nat String,
          ∃ s1, step s op = some s1 ∧ capacity s1 = capacity s) ∧
      capacity scenario1 = 2 :=
  ⟨by decide, C16_capacity_fixed 2 (by decide) scenario1Ops, by decide⟩

/-- C17 (as the code behaves): constructing with requested capacity 0 does not fail.  It
yields an empty cache whose `capacity()` is 1, and every sequence of calls on that cache
returns, with `size() <= 1` and `capacity() == 1` afterwards. -/
theorem C17_zero_capacity_normalised [DecidableEq K] (ops : List (Op K V)) :
    capacity (construct 0 : LRUCache K V) = 1 ∧ size (construct 0 : LRUCache K V) = 0 ∧
      ∃ s : LRUCache K V, run (construct 0) ops = some s ∧ size s ≤ 1 ∧ capacity s = 1 := by
  obtain ⟨s, l, hrun, hr, hcap⟩ := reachable_represents (K := K) (V := V) 0 ops
  have hcap1 : s.capacity_ = 1 := by simpa using hcap
  refine ⟨rfl, rfl, s, hrun, ?_, hcap1⟩
  rw [size_eq_length hr.coherent, ← hcap1]
  exact hr.bound

/-- The constructor called with capacity 0 produces a working cache of capacity 1 rather
than an error: `put(1, "one")` followed by `get(1)` on it returns "one". -/
theorem C17_zero_capacity_yields_cache :
    capacity (construct 0 : LRUCache Nat String) = 1 ∧
      size (construct 0 : LRUCache Nat String) = 0 ∧
      ((put (construct 0 : LRUCache Nat String) 1 "one").bind fun s => lookup s 1) =
        some (some "one") :=
  ⟨by decide, by decide, by decide⟩

/-- C38: for every capacity `c` and every sequence of get/put/erase/clear calls, the cache
is observationally equal to the reference model, a duplicate-free list of (key, value)
pairs in most-to-least-recent order bounded by `max(c, 1)`: every call returns, what the
calls return (the results of `get` and `erase`), `size()` and the key order of
`debug_print` after each call coincide with the model, and so does every continuation from
the state reached. -/
theorem C38_refines_reference_model [DecidableEq K] (c : Nat) (ops : List (Op K V)) :
    transcript (construct c : LRUCache K V) ops = some (refTranscript (max c 1) [] ops) ∧
      ((refRun (max c 1) ([] : List (K × V)) ops).map Prod.fst).Nodup ∧
      (refRun (max c 1) ([] : List (K × V)) ops).length ≤ max c 1 ∧
      ∃ s : LRUCache K V, run (construct c) ops = some s ∧
        size s = (refRun (max c 1) ([] : List (K × V)) ops).length ∧
        debug_print s = some ((refRun (max c 1) ([] : List (K × V)) ops).map Prod.fst) ∧
        (∀ k, lookup s k = some (refGet (refRun (max c 1) [] ops) k).1) ∧
        (∀ k, (erase s k).map (fun r => r.1) =
          some (refErase (refRun (max c 1) [] ops) k).1) ∧
        ∀ more, transcript s more =
          some (refTranscript (max c 1) (refRun (max c 1) [] ops) more) := by
  have h0 : Represents (construct c : LRUCache K V) [] := construct_spec c
  have hcap0 : (construct c : LRUCache K V).capacity_ = max c 1 := construct_capacity c
  have htr := transcript_spec h0 ops
  obtain ⟨s, l, hrun, hr, hview, hcap⟩ := run_view h0 ops
  rw [hcap0] at htr hview hcap
  have hview0 : view ([] : List (Entry K V)) = [] := rfl
  rw [hview0] at htr hview
  have hkeys : (view l).map Prod.fst = l.map Entry.key := by
    simp [view, List.map_map, Function.comp_def]
  refine ⟨htr, ?_, ?_, s, hrun, ?_, ?_, fun k => ?_, fun k => ?_, fun more => ?_⟩
  · rw [← hview, hkeys]
    exact hr.coherent.nodupKey
  · rw [← hview]
    simpa [view, hcap] using hr.bound
  · rw [← hview, size_eq_length hr.coherent]
    simp [view]
  · rw [← hview, hkeys]
    exact debug_print_eq hr.coherent
  · obtain ⟨s1, hget, _, _⟩ := get_spec hr k
    have h1 := congrArg Prod.fst (view_promote hr.coherent.nodupKey k)
    simp only at h1
    rw [← hview, ← h1]
    simp [lookup, hget]
  · obtain ⟨s1, her, _, _⟩ := erase_spec hr k
    have h1 := congrArg Prod.fst (view_erase l k)
    simp only at h1
    rw [← hview, ← h1]
    simp [her]
  · rw [← hview, ← hcap]
    exact transcript_spec hr more

/-- With capacity 2: `put(1)`, `put(2)`, `get(1)`, `put(3)` evicts key 2, `get(2)` misses,
`erase(1)` succeeds and `clear` empties the cache; the cache shows what the model shows. -/
theorem C38_scenario_transcript :
    transcript (construct 2 : LRUCache Nat String)
        [Op.put 1 "one", Op.put 2 "two", Op.get 1, Op.put 3 "three", Op.get 2, Op.erase 1,
          Op.clear] =
      some (refTranscript (max 2 1) []
        [Op.put 1 "one", Op.put 2 "two", Op.get 1, Op.put 3 "three", Op.get 2, Op.erase 1,
          Op.clear]) ∧
      refTranscript (max 2 1) ([] : List (Nat × String))
          [Op.put 1 "one", Op.put 2 "two", Op.get 1, Op.put 3 "three", Op.get 2, Op.erase 1,
            Op.clear] =
        [(Reply.unit, 1, [1]), (Reply.unit, 2, [2, 1]), (Reply.value (some "one"), 2, [1, 2]),
          (Reply.unit, 2, [3, 1]), (Reply.value none, 2, [3, 1]), (Reply.flag true, 1, [3]),
          (Reply.unit, 0, [])] :=
  ⟨(C38_refines_reference_model 2
      [Op.put 1 "one", Op.put 2 "two", Op.get 1, Op.put 3 "three", Op.get 2, Op.erase 1,
        Op.clear]).1,
    by decide⟩

/-- C35: after every sequence of put/get/erase/clear calls, the key index and the recency
list agree.  The traversal from `head_` ends and meets pairwise distinct nodes; no two of
them carry the same key; a key is in `map_` iff exactly one list node carries it; `map_[k]`
is the list node whose key field is `k`; and `map_.size()` is the number of nodes reachable
from `head_`. -/
theorem C35_index_agrees_with_list [DecidableEq K] (s : LRUCache K V) (hs : Reachable s) :
    ∃ nodes, listNodes s = some nodes ∧ nodes.Nodup ∧
      (∀ a, a ∈ nodes → ∃ k, keyAt s a = some k) ∧
      (∀ a b k, a ∈ nodes → b ∈ nodes → keyAt s a = some k → keyAt s b = some k → a = b) ∧
      (∀ k, contains s k = true ↔ ∃! a, a ∈ nodes ∧ keyAt s a = some k) ∧
      (∀ k p, mapFind s.map_ k = some p →
        ∃ a, p = some a ∧ a ∈ nodes ∧ keyAt s a = some k) ∧
      s.map_.length = nodes.length := by
  obtain ⟨l, hr⟩ := hs.represents
  have hco := hr.coherent
  have hl := hco.linked
  have hnodes : listNodes s = some (l.map Entry.addr) := by
    rw [listNodes, hl.head]
    exact nodesFrom_seg hl.seg (length_le_brk hco)
  have hsame : ∀ e1 e2 : Entry K V, e1 ∈ l → e2 ∈ l → e1.key = e2.key → e1 = e2 :=
    fun e1 e2 h1 h2 hk => List.inj_on_of_nodup_map hco.nodupKey h1 h2 hk
  have huniq : ∀ a b k, a ∈ l.map Entry.addr → b ∈ l.map Entry.addr → keyAt s a = some k →
      keyAt s b = some k → a = b := by
    intro a b k ha hb hka hkb
    obtain ⟨e1, he1, rfl⟩ := List.mem_map.1 ha
    obtain ⟨e2, he2, rfl⟩ := List.mem_map.1 hb
    rw [keyAt_of_mem hl he1] at hka
    rw [keyAt_of_mem hl he2] at hkb
    rw [hsame e1 e2 he1 he2 ((Option.some.inj hka).trans (Option.some.inj hkb).symm)]
  refine ⟨l.map Entry.addr, hnodes, hl.nodupAddr, fun a ha => ?_, huniq, fun k => ?_,
    fun k p hp => ?_, ?_⟩
  · obtain ⟨e, he, rfl⟩ := List.mem_map.1 ha
    exact ⟨e.key, keyAt_of_mem hl he⟩
  · rw [contains_iff hco]
    constructor
    · intro hk
      obtain ⟨e, he, rfl⟩ := List.mem_map.1 hk
      refine ⟨e.addr, ⟨List.mem_map.2 ⟨e, he, rfl⟩, keyAt_of_mem hl he⟩, fun b hb => ?_⟩
      exact huniq b e.addr e.key hb.1 (List.mem_map.2 ⟨e, he, rfl⟩) hb.2 (keyAt_of_mem hl he)
    · rintro ⟨a, ⟨ha, hka⟩, _⟩
      obtain ⟨e, he, rfl⟩ := List.mem_map.1 ha
      rw [keyAt_of_mem hl he] at hka
      exact List.mem_map.2 ⟨e, he, Option.some.inj hka⟩
  · rw [mapFind_eq_some_iff (index_nodup hco)] at hp
    obtain ⟨e, he, heq⟩ := List.mem_map.1 (hco.index.mem_iff.1 hp)
    simp only [Prod.mk.injEq] at heq
    exact ⟨e.addr, heq.2.symm, List.mem_map.2 ⟨e, he, rfl⟩, by rw [keyAt_of_mem hl he, heq.1]⟩
  · have := size_eq_length hco
    simpa [size] using this

/-- In scenario 1 (capacity 2, after `put(1)`, `put(2)`, `get(1)`): the list holds the
node of key 1 (address 0) before the node of key 2 (address 1), and `map_` has two keys. -/
theorem C35_scenario1 :
    listNodes scenario1 = some [0, 1] ∧ keyAt scenario1 0 = some 1 ∧
      keyAt scenario1 1 = some 2 ∧ scenario1.map_.length = 2 ∧
      ∃ nodes, listNodes scenario1 = some nodes ∧ nodes.Nodup :=
  ⟨by decide, by decide, by decide, by decide,
    (C35_index_agrees_with_list scenario1 ⟨2, scenario1Ops, (Option.some_get _).symm⟩).imp
      (fun _ h => ⟨h.1, h.2.1⟩)⟩

/-- C36: after every sequence of put/get/erase/clear calls, the recency list is a
well-formed doubly-linked list: `head_` and `tail_` are both null iff the cache is empty,
`head_->prev` and `tail_->next` are null, following `next` from `head_` visits exactly
`size()` nodes, the last of which is `tail_`, following `prev` from `tail_` visits the same
nodes in reverse order, and `n->next->prev == n` for every node `n` with a successor. -/
theorem C36_list_is_well_formed [DecidableEq K] (s : LRUCache K V) (hs : Reachable s) :
    ∃ nodes, listNodes s = some nodes ∧ listNodesBack s = some nodes.reverse ∧
      nodes.length = size s ∧ nodes.Nodup ∧
      s.head_ = nodes.head? ∧ s.tail_ = nodes.getLast? ∧
      ((s.head_ = none ∧ s.tail_ = none) ↔ size s = 0) ∧
      (s.head_ = none ↔ s.tail_ = none) ∧
      (∀ a, s.head_ = some a → ∃ n, s.heap a = some n ∧ n.prev = none) ∧
      (∀ a, s.tail_ = some a → ∃ n, s.heap a = some n ∧ n.next = none) ∧
      ∀ a n b, a ∈ nodes → s.heap a = some n → n.next = some b →
        b ∈ nodes ∧ ∃ m, s.heap b = some m ∧ m.prev = some a := by
  obtain ⟨l, hr⟩ := hs.represents
  have hco := hr.coherent
  have hl := hco.linked
  have hlen : l.length = size s := (size_eq_length hco).symm
  have hnodes : listNodes s = some (l.map Entry.addr) := by
    rw [listNodes, hl.head]
    exact nodesFrom_seg hl.seg (length_le_brk hco)
  have hback : listNodesBack s = some (l.map Entry.addr).reverse := by
    rw [listNodesBack, hl.tail]
    exact nodesBack_seg l hl.seg (length_le_brk hco)
  have hhead : s.head_ = (l.map Entry.addr).head? := by rw [hl.head, hd_eq_head?]
  have htail : s.tail_ = (l.map Entry.addr).getLast? := by rw [hl.tail, lst_eq_getLast?]
  refine ⟨l.map Entry.addr, hnodes, hback, by simpa using hlen, hl.nodupAddr, hhead, htail,
    ?_, ?_, fun a ha => ?_, fun a ha => ?_, fun a n b ha hn hb => ?_⟩
  · rw [hhead, htail, ← hlen]
    cases l using List.reverseRecOn <;> simp
  · rw [hhead, htail]
    cases l using List.reverseRecOn <;> simp
  · rw [hl.head] at ha
    cases l with
    | nil => simp at ha
    | cons e l =>
      simp only [hd_cons, Option.some.injEq] at ha
      subst ha
      exact ⟨_, hl.seg.1, rfl⟩
  · rw [hl.tail] at ha
    induction l using List.reverseRecOn with
    | nil => simp at ha
    | append_singleton l q _ =>
      simp only [lst_concat, Option.some.injEq] at ha
      subst ha
      exact ⟨_, Seg_last_cell hl.seg, rfl⟩
  · obtain ⟨e, he, rfl⟩ := List.mem_map.1 ha
    exact Seg_next_prev hl.seg he hn hb

/-- In scenario 3 (capacity 3, after `put(1)`, `put(2)`, `put(3)`): from `head_` the nodes
are met in the order 2, 1, 0 and from `tail_` in the order 0, 1, 2. -/
theorem C36_scenario3 :
    listNodes scenario3 = some [2, 1, 0] ∧ listNodesBack scenario3 = some [0, 1, 2] ∧
      scenario3.head_ = some 2 ∧ scenario3.tail_ = some 0 ∧ size scenario3 = 3 ∧
      ∃ nodes, listNodes scenario3 = some nodes ∧ listNodesBack scenario3 = some nodes.reverse :=
  ⟨by decide, by decide, by decide, by decide, by decide,
    (C36_list_is_well_formed scenario3 ⟨3, scenario3Ops, (Option.some_get _).symm⟩).imp
      (fun _ h => ⟨h.1, h.2.1⟩)⟩

/-- On the first node of a well-formed list, `remove_node` followed by `add_to_front`
restores the state exactly. -/
theorem remove_add_head {s : LRUCache K V} {l2 : List (Entry K V)} {e : Entry K V}
    (hl : Linked s (e :: l2)) :
    (remove_node s (some e.addr)).bind (fun s2 => add_to_front s2 (some e.addr)) = some s := by
  obtain ⟨hseg, hhead, htail, hnd⟩ := hl
  obtain ⟨hcell, hrest⟩ := hseg
  cases l2 with
  | nil =>
    simp only [hd_nil, hd_cons, lst_cons, lst_nil] at hhead htail hcell
    have hheap : store (store s.heap e.addr ⟨e.key, e.value, none, none⟩) e.addr
        ⟨e.key, e.value, none, none⟩ = s.heap := by
      funext x
      by_cases hx : x = e.addr
      · rw [hx, store_same, hcell]
      · rw [store_other _ _ hx, store_other _ _ hx]
    cases s with
    | mk cap mp hd0 tl0 heap brk =>
      simp only at hhead htail hcell hheap
      subst hhead htail
      simp [remove_node, add_to_front, hcell, hheap]
  | cons f l2 =>
    simp only [hd_cons, lst_cons] at hhead htail hcell
    obtain ⟨hf, _⟩ := hrest
    simp only [List.map_cons, List.nodup_cons, List.mem_cons, not_or] at hnd
    have hne : f.addr ≠ e.addr := Ne.symm hnd.1.1
    have htl : s.tail_ ≠ none := by rw [htail]; exact lst_some_ne_none _ _
    have hheap : store (store (store (store s.heap f.addr ⟨f.key, f.value, none, hd l2 none⟩)
        e.addr ⟨e.key, e.value, none, none⟩) e.addr ⟨e.key, e.value, none, some f.addr⟩)
        f.addr ⟨f.key, f.value, some e.addr, hd l2 none⟩ = s.heap := by
      funext x
      by_cases hx : x = f.addr
      · rw [hx, store_same, hf]
      · rw [store_other _ _ hx]
        by_cases hy : x = e.addr
        · rw [hy, store_same, hcell]
        · rw [store_other _ _ hy, store_other _ _ hy, store_other _ _ hx]
    cases s with
    | mk cap mp hd0 tl0 heap brk =>
      simp only at hhead htail hcell hheap hf htl
      subst hhead
      cases tl0 with
      | none => exact absurd rfl htl
      | some t =>
        simp [remove_node, add_to_front, hcell, hf, store_other _ _ hne, store_other _ _ hne.symm,
          hheap]

/-- C37: for every well-formed recency list and every node linked in it,
`move_to_front(node)` returns and leaves exactly the state that `remove_node(node)`
followed by `add_to_front(node)` leaves, namely the list with the node moved to the front;
this includes the case that the node is already `head_`, where `move_to_front` returns at
once. -/
theorem C37_move_to_front_is_remove_then_add (s : LRUCache K V) (l : List (Entry K V))
    (hl : Linked s l) (e : Entry K V) (he : e ∈ l) :
    ∃ s1, move_to_front s (some e.addr) = some s1 ∧
      (remove_node s (some e.addr)).bind (fun s2 => add_to_front s2 (some e.addr)) = some s1 ∧
      (s.head_ = some e.addr → s1 = s) ∧
      ∃ l1 l2, l = l1 ++ e :: l2 ∧ Linked s1 (e :: (l1 ++ l2)) := by
  obtain ⟨l1, l2, rfl⟩ := List.append_of_mem he
  obtain ⟨s1, hmove, hl1, _⟩ := move_to_front_linked hl
  refine ⟨s1, hmove, ?_, fun hhd => ?_, l1, l2, rfl, hl1⟩
  · cases l1 with
    | nil =>
      have hhd : some e.addr = s.head_ := by rw [hl.head]; rfl
      have hs1 : s1 = s := by
        simp only [move_to_front, hhd, if_true, Option.some.injEq] at hmove
        exact hmove.symm
      rw [hs1]
      exact remove_add_head hl
    | cons f l1 =>
      have hne : some e.addr ≠ s.head_ := by
        rw [hl.head]
        have hnd := hl.nodupAddr
        simp only [List.cons_append, List.map_cons, List.map_append, List.nodup_cons,
          List.mem_append, List.mem_cons, not_or] at hnd
        simp only [List.cons_append, hd_cons, ne_eq, Option.some.injEq]
        exact Ne.symm hnd.1.2.1
      simpa only [move_to_front, hne, if_false] using hmove
  · simp only [move_to_front, hhd, if_true, Option.some.injEq] at hmove
    exact hmove.symm

/-- In scenario 1 (list: key 1 at address 0, then key 2 at address 1): moving node 1 puts
it in front, moving the head node 0 leaves the state as it is, and both agree with
`remove_node` followed by `add_to_front`. -/
theorem C37_scenario1 :
    Linked scenario1 [⟨0, 1, "one"⟩, ⟨1, 2, "two"⟩] ∧
      (∃ s1, move_to_front scenario1 (some 1) = some s1 ∧
        ((remove_node scenario1 (some 1)).bind fun s2 => add_to_front s2 (some 1)) = some s1) ∧
      (move_to_front scenario1 (some 1)).bind listNodes = some [1, 0] ∧
      ((remove_node scenario1 (some 1)).bind fun s2 => add_to_front s2 (some 1)).bind listNodes =
        some [1, 0] ∧
      (move_to_front scenario1 (some 0)).bind listNodes = some [0, 1] ∧
      ((remove_node scenario1 (some 0)).bind fun s2 => add_to_front s2 (some 0)).bind listNodes =
        some [0, 1] :=
  ⟨⟨⟨rfl, rfl, trivial⟩, rfl, rfl, by decide⟩,
    (C37_move_to_front_is_remove_then_add scenario1 [⟨0, 1, "one"⟩, ⟨1, 2, "two"⟩]
      ⟨⟨rfl, rfl, trivial⟩, rfl, rfl, by decide⟩ ⟨1, 2, "two"⟩
      (List.mem_cons_of_mem _ (List.mem_cons_self _ _))).imp (fun _ h => ⟨h.1, h.2.1⟩),
    by decide, by decide, by decide, by decide⟩

end LRUCache

/-! ## The loop invariant of `sliding_window_max` and its correctness -/

namespace qalg

theorem getElem?_of_lt (a : List Int) {j : Nat} (h : j < a.length) :
    a[j]? = some (a.getD j 0) := by
  simp [List.getElem?_eq_getElem h]

theorem getD_of_getElem? {a : List Int} {j : Nat} {y : Int} (h : a[j]? = some y) :
    a.getD j 0 = y := by
  simp [h]

theorem mem_window (a : List Int) (t k : Nat) (x : Int) :
    x ∈ (a.drop t).take k ↔ ∃ p, t ≤ p ∧ p < t + k ∧ a[p]? = some x := by
  rw [List.mem_iff_getElem?]
  constructor
  · rintro ⟨q, hq⟩
    have hqk : q < k := by
      by_contra hge
      rw [List.getElem?_take_eq_none (Nat.le_of_not_lt hge)] at hq
      cases hq
    rw [List.getElem?_take_of_lt hqk, List.getElem?_drop] at hq
    exact ⟨t + q, Nat.le_add_right t q, by omega, hq⟩
  · rintro ⟨p, h1, h2, hp⟩
    refine ⟨p - t, ?_⟩
    rw [List.getElem?_take_of_lt (by omega), List.getElem?_drop]
    rwa [Nat.add_sub_cancel' h1]

theorem popFrontLoop_suffix (k i : Nat) (l : List Nat) : popFrontLoop k i l <:+ l := by
  induction l with
  | nil => exact List.suffix_refl _
  | cons j rest ih =>
    unfold popFrontLoop
    split
    · exact ih.trans (List.suffix_cons j rest)
    · exact List.suffix_refl _

theorem popFrontLoop_keep (k i : Nat) {l : List Nat} {j : Nat} (hj : j ∈ l)
    (hk : i < j + k) : j ∈ popFrontLoop k i l := by
  induction l with
  | nil => cases hj
  | cons x rest ih =>
    unfold popFrontLoop
    split
    · rcases List.mem_cons.1 hj with rfl | h
      · omega
      · exact ih h
    · exact hj

theorem popFrontLoop_fresh (k i : Nat) {l : List Nat} (hs : l.Pairwise fun u v => u < v) :
    ∀ j ∈ popFrontLoop k i l, i < j + k := by
  induction l with
  | nil => intro j hj; cases hj
  | cons x rest ih =>
    rw [List.pairwise_cons] at hs
    unfold popFrontLoop
    split
    · exact ih hs.2
    · intro j hj
      rcases List.mem_cons.1 hj with rfl | h
      · omega
      · have := hs.1 j h
        omega

/-- The back loop, on the deque listed from the back: it returns, keeps a suffix, keeps
every index whose value is greater than `x`, and leaves only such indices when the values
increase along the list. -/
theorem popBackLoop_spec (a : List Int) (x : Int) {r : List Nat}
    (hin : ∀ j ∈ r, j < a.length) :
    ∃ r1, popBackLoop a x r = some r1 ∧ r1 <:+ r ∧
      (∀ j ∈ r, x < a.getD j 0 → j ∈ r1) ∧
      (r.Pairwise (fun u v => a.getD u 0 < a.getD v 0) → ∀ j ∈ r1, x < a.getD j 0) := by
  induction r with
  | nil =>
    exact ⟨[], rfl, List.suffix_refl _, fun j hj => (by cases hj), fun _ j hj => (by cases hj)⟩
  | cons y rest ih =>
    obtain ⟨r1, hrun, hsuf, hkeep, hall⟩ := ih fun j hj => hin j (List.mem_cons_of_mem _ hj)
    have hy := getElem?_of_lt a (hin y (List.mem_cons_self _ _))
    by_cases hle : a.getD y 0 ≤ x
    · refine ⟨r1, by simp only [popBackLoop, hy, hle, if_true, hrun],
        hsuf.trans (List.suffix_cons y rest), fun j hj hx => ?_, fun hp => ?_⟩
      · rcases List.mem_cons.1 hj with rfl | h
        · omega
        · exact hkeep j h hx
      · exact hall (List.pairwise_cons.1 hp).2
    · refine ⟨y :: rest, by simp only [popBackLoop, hy, hle, if_false],
        List.suffix_refl _, fun j hj _ => hj, fun hp j hj => ?_⟩
      rcases List.mem_cons.1 hj with rfl | h
      · omega
      · have := (List.pairwise_cons.1 hp).1 j h
        omega

/-- One iteration of the `for` loop returns and re-establishes the invariant. -/
theorem windowStep_spec {a : List Int} {k i : Nat} {st : List Nat × List Int}
    (hk : 1 ≤ k) (hi : i < a.length) (inv : WindowInv a k i st) :
    ∃ st1, windowStep a k st i = some st1 ∧ WindowInv a k (i + 1) st1 := by
  obtain ⟨dq, res⟩ := st
  obtain ⟨hsorted, hbelow, hwin, hdec, hcov, hcount, hmax⟩ := inv
  simp only at hsorted hbelow hwin hdec hcov hcount hmax
  -- the front loop
  have hsuf1 := popFrontLoop_suffix k i dq
  have hsub1 : (popFrontLoop k i dq).Sublist dq := hsuf1.sublist
  have hfresh := popFrontLoop_fresh k i hsorted
  -- the back loop
  have hin : ∀ j ∈ (popFrontLoop k i dq).reverse, j < a.length := by
    intro j hj
    have := hbelow j (hsub1.subset (List.mem_reverse.1 hj))
    omega
  obtain ⟨back, hback, hsuf2, hkeep, hall⟩ := popBackLoop_spec a (a.getD i 0) hin
  have hinc : (popFrontLoop k i dq).reverse.Pairwise
      (fun u v => a.getD u 0 < a.getD v 0) := by
    rw [List.pairwise_reverse]
    exact hdec.sublist hsub1
  have hall1 := hall hinc
  have hsub2 : back.reverse.Sublist dq := by
    have h := hsuf2.sublist.reverse
    rw [List.reverse_reverse] at h
    exact h.trans hsub1
  have hmem2 : ∀ j ∈ back.reverse, j ∈ popFrontLoop k i dq := by
    intro j hj
    exact List.mem_reverse.1 (hsuf2.subset (List.mem_reverse.1 hj))
  -- the new deque
  have hsorted3 : (back.reverse ++ [i]).Pairwise fun u v => u < v := by
    rw [List.pairwise_append]
    refine ⟨hsorted.sublist hsub2, List.pairwise_singleton _ _, fun u hu v hv => ?_⟩
    rw [List.mem_singleton] at hv
    rw [hv]
    exact hbelow u (hsub2.subset hu)
  have hbelow3 : ∀ j ∈ back.reverse ++ [i], j < i + 1 := by
    intro j hj
    rcases List.mem_append.1 hj with h | h
    · exact Nat.lt_succ_of_lt (hbelow j (hsub2.subset h))
    · rw [List.mem_singleton] at h; omega
  have hwin3 : ∀ j ∈ back.reverse ++ [i], i + 1 ≤ j + k := by
    intro j hj
    rcases List.mem_append.1 hj with h | h
    · exact hfresh j (hmem2 j h)
    · rw [List.mem_singleton] at h; omega
  have hdec3 : (back.reverse ++ [i]).Pairwise fun u v => a.getD v 0 < a.getD u 0 := by
    rw [List.pairwise_append]
    refine ⟨hdec.sublist hsub2, List.pairwise_singleton _ _, fun u hu v hv => ?_⟩
    rw [List.mem_singleton] at hv
    rw [hv]
    exact hall1 u (List.mem_reverse.1 hu)
  have hcov3 : ∀ p, p < i + 1 → i + 1 ≤ p + k →
      ∃ j ∈ back.reverse ++ [i], p ≤ j ∧ a.getD p 0 ≤ a.getD j 0 := by
    intro p hp hpk
    rcases Nat.lt_succ_iff_lt_or_eq.1 hp with hlt | rfl
    · obtain ⟨j, hj, hpj, hval⟩ := hcov p hlt (by omega)
      have hj1 : j ∈ popFrontLoop k i dq := popFrontLoop_keep k i hj (by omega)
      by_cases hgt : a.getD i 0 < a.getD j 0
      · exact ⟨j, List.mem_append_left _
          (List.mem_reverse.2 (hkeep j (List.mem_reverse.2 hj1) hgt)), hpj, hval⟩
      · exact ⟨i, by simp, Nat.le_of_lt hlt, by omega⟩
    · exact ⟨p, by simp, Nat.le_refl _, Int.le_refl _⟩
  have hx := getElem?_of_lt a hi
  by_cases hout : k ≤ i + 1
  · -- a window is complete: its maximum is the value at the front of the deque
    obtain ⟨f, hf⟩ : ∃ f, (back.reverse ++ [i]).head? = some f := by
      cases hb : back.reverse with
      | nil => exact ⟨i, rfl⟩
      | cons f rest => exact ⟨f, rfl⟩
    have hfmem : f ∈ back.reverse ++ [i] := List.mem_of_mem_head? hf
    have hflt : f < a.length := by have := hbelow3 f hfmem; omega
    have hfy := getElem?_of_lt a hflt
    refine ⟨(back.reverse ++ [i], res ++ [a.getD f 0]), ?_, ?_⟩
    · simp only [windowStep, hx, hback, hout, if_true, hf, hfy]
    · refine ⟨hsorted3, hbelow3, hwin3, hdec3, hcov3, ?_, ?_⟩
      · simp only [List.length_append, List.length_singleton, hcount]
        omega
      · intro t ht
        simp only [List.length_append, List.length_singleton] at ht
        rcases Nat.lt_succ_iff_lt_or_eq.1 ht with hlt | heq
        · obtain ⟨m, hm, hmaxm⟩ := hmax t hlt
          exact ⟨m, by simp only [List.getElem?_append_left hlt, hm], hmaxm⟩
        · refine ⟨a.getD f 0, by rw [heq, List.getElem?_concat_length], ?_⟩
          have ht : t = i + 1 - k := heq.trans hcount
          have hfront : ∀ j ∈ back.reverse ++ [i], a.getD j 0 ≤ a.getD f 0 := by
            intro j hj
            obtain ⟨rest, hrest⟩ : ∃ rest, back.reverse ++ [i] = f :: rest := by
              cases hb : back.reverse ++ [i] with
              | nil => rw [hb] at hf; cases hf
              | cons g rest =>
                rw [hb] at hf
                simp only [List.head?_cons, Option.some.injEq] at hf
                exact ⟨rest, by rw [hf]⟩
            rw [hrest] at hj hdec3
            rcases List.mem_cons.1 hj with rfl | h
            · exact Int.le_refl _
            · exact Int.le_of_lt ((List.pairwise_cons.1 hdec3).1 j h)
          constructor
          · rw [mem_window]
            exact ⟨f, by have := hwin3 f hfmem; omega, by have := hbelow3 f hfmem; omega, hfy⟩
          · intro y hy
            rw [mem_window] at hy
            obtain ⟨p, hp1, hp2, hp3⟩ := hy
            obtain ⟨j, hj, -, hval⟩ := hcov3 p (by omega) (by omega)
            rw [getD_of_getElem? hp3] at hval
            exact Int.le_trans hval (hfront j hj)
  · refine ⟨(back.reverse ++ [i], res), ?_, ?_⟩
    · simp only [windowStep, hx, hback, hout, if_false]
    · refine ⟨hsorted3, hbelow3, hwin3, hdec3, hcov3, ?_, ?_⟩
      · simp only [hcount]; omega
      · exact hmax

theorem windowLoop_spec {a : List Int} {k : Nat} (hk : 1 ≤ k) (remaining : Nat) {i : Nat}
    {st : List Nat × List Int} (hi : i + remaining ≤ a.length) (inv : WindowInv a k i st) :
    ∃ st1, windowLoop a k remaining i st = some st1 ∧ WindowInv a k (i + remaining) st1 := by
  induction remaining generalizing i st with
  | zero => exact ⟨st, rfl, inv⟩
  | succ r ih =>
    obtain ⟨st1, hstep, inv1⟩ := windowStep_spec hk (by omega) inv
    obtain ⟨st2, hloop, inv2⟩ := ih (i := i + 1) (by omega) inv1
    refine ⟨st2, by simp only [windowLoop, hstep, hloop], ?_⟩
    have : i + (r + 1) = i + 1 + r := by omega
    rw [this]
    exact inv2

theorem windowInv_init (a : List Int) {k : Nat} (hk : 1 ≤ k) : WindowInv a k 0 ([], []) := by
  refine ⟨List.Pairwise.nil, fun j hj => (by cases hj), fun j hj => (by cases hj),
    List.Pairwise.nil, fun p hp => (by omega), ?_, fun t ht => (by cases ht)⟩
  simp only [List.length_nil]
  omega

/-- C18: for every vector `a` of length `n` and every `k`, `sliding_window_max(a, k)`
returns without an out-of-range access; if `k == 0` or `k > n` the result is empty;
otherwise the result has length `n - k + 1` and, for every `0 <= i <= n - k`, its `i`-th
element is the maximum of `a[i], ..., a[i+k-1]`. -/
theorem C18_sliding_window_max (a : List Int) (k : Nat) :
    ∃ res, sliding_window_max a k = some res ∧
      (k = 0 ∨ a.length < k → res = []) ∧
      (1 ≤ k → k ≤ a.length →
        res.length = a.length - k + 1 ∧
        ∀ i, i ≤ a.length - k → ∃ m, res[i]? = some m ∧ IsWindowMax a i k m) := by
  by_cases hdeg : k = 0 ∨ a.length < k
  · refine ⟨[], by simp only [sliding_window_max, hdeg, if_true], fun _ => rfl, fun h1 h2 => ?_⟩
    omega
  · have hk : 1 ≤ k := by omega
    obtain ⟨st, hloop, inv⟩ :=
      windowLoop_spec hk a.length (i := 0) (by omega) (windowInv_init a hk)
    refine ⟨st.2, by simp only [sliding_window_max, hdeg, if_false, hloop, Option.map_some'],
      fun h => absurd h hdeg, fun _ hle => ?_⟩
    have hcount := inv.count
    refine ⟨by omega, fun i hi => inv.maxima i (by omega)⟩

/-- The test of `main_queue.cpp`: `a = {1,3,-1,-3,5,3,6,7}`, `k = 3` gives
`{3,3,5,5,6,7}`; `k = 0` and `k = 9` give the empty vector. -/
theorem C18_test_vector :
    (∃ res, sliding_window_max [1, 3, -1, -3, 5, 3, 6, 7] 3 = some res ∧
      (3 = 0 ∨ [1, 3, -1, -3, 5, 3, 6, 7].length < 3 → res = []) ∧
      (1 ≤ 3 → 3 ≤ [1, 3, -1, -3, 5, 3, 6, 7].length →
        res.length = [1, 3, -1, -3, 5, 3, 6, 7].length - 3 + 1 ∧
        ∀ i, i ≤ [1, 3, -1, -3, 5, 3, 6, 7].length - 3 →
          ∃ m, res[i]? = some m ∧ IsWindowMax [1, 3, -1, -3, 5, 3, 6, 7] i 3 m)) ∧
      sliding_window_max [1, 3, -1, -3, 5, 3, 6, 7] 3 = some [3, 3, 5, 5, 6, 7] ∧
      sliding_window_max [1, 3, -1, -3, 5, 3, 6, 7] 0 = some [] ∧
      sliding_window_max [1, 3, -1, -3, 5, 3, 6, 7] 9 = some [] :=
  ⟨C18_sliding_window_max [1, 3, -1, -3, 5, 3, 6, 7] 3, by decide, by decide, by decide⟩

end qalg

/-! ## Lemmas about ring indices and array cells -/

namespace CArray

/-- Different offsets below `cap` from the same start name different cells of the ring. -/
theorem ring_ne {cap i j : Nat} (h : Nat) (hi : i < cap) (hj : j < cap) (hij : i ≠ j) :
    (h + i) % cap ≠ (h + j) % cap := by
  intro heq
  have hmod : i % cap = j % cap := Nat.ModEq.add_left_cancel' h heq
  rw [Nat.mod_eq_of_lt hi, Nat.mod_eq_of_lt hj] at hmod
  exact hij hmod

/-- Offset `i` from the cell after `h` is offset `i + 1` from `h`. -/
theorem ring_succ (h i cap : Nat) : ((h + 1) % cap + i) % cap = (h + (i + 1)) % cap := by
  rw [Nat.mod_add_mod]
  congr 1
  omega

theorem read_write_same {T : Type} {buf b : Nat → Option T} {cap i : Nat} {v : T}
    (h : write buf cap i v = some b) : b i = some v := by
  unfold write at h
  split at h
  · cases h; simp
  · cases h

theorem read_write_other {T : Type} {buf b : Nat → Option T} {cap i : Nat} {v : T}
    (h : write buf cap i v = some b) {x : Nat} (hx : x ≠ i) : b x = buf x := by
  unfold write at h
  split at h
  · cases h; simp [hx]
  · cases h

theorem write_of_lt {T : Type} (buf : Nat → Option T) {cap i : Nat} (v : T) (h : i < cap) :
    ∃ b, write buf cap i v = some b := by
  exact ⟨fun x => if x = i then some v else buf x, by simp only [write, h, if_true]⟩

end CArray

/-! ## `ArrayQueue` refines the bounded FIFO list -/

namespace ArrayQueue

variable {T : Type}

theorem queue_holds_construct (c : Nat) : Holds (construct c : ArrayQueue T) [] := by
  refine ⟨?_, ?_, ?_, rfl, Nat.zero_le _, fun i hi => absurd hi (Nat.not_lt_zero i)⟩
  · simp only [construct, alloc_buf]; split <;> omega
  · simp only [construct, alloc_buf]; split <;> omega
  · simp [construct, alloc_buf]

theorem front_spec {q : ArrayQueue T} {l : List T} (hq : Holds q l) :
    front q = some l.head? := by
  unfold front front_ptr
  by_cases h0 : q.len = 0
  · have : l = [] := List.length_eq_zero.1 (hq.lenEq ▸ h0)
    simp [h0, this]
  · have hcell := hq.cells 0 (Nat.pos_of_ne_zero h0)
    rw [Nat.add_zero, Nat.mod_eq_of_lt hq.headLt] at hcell
    have hpos : 0 < l.length := by rw [← hq.lenEq]; exact Nat.pos_of_ne_zero h0
    simp only [h0, if_false, CArray.read, hq.headLt, if_true, hcell]
    cases l with
    | nil => simp at hpos
    | cons x rest => simp

theorem enqueue_spec {q : ArrayQueue T} {l : List T} (hq : Holds q l) (v : T) :
    ∃ q1, enqueue q v = some ((fifoCall q.cap l (Op.enqueue v)).1.getD false, q1) ∧
      Holds q1 (fifoCall q.cap l (Op.enqueue v)).2 ∧ q1.cap = q.cap := by
  obtain ⟨hc, hh, ht, hlen, hle, hcells⟩ := hq
  by_cases hfull : q.len ≥ q.cap
  · have heq : l.length = q.cap := by omega
    exact ⟨q, by simp [enqueue, hfull, fifoCall, heq],
      by simpa [fifoCall, heq] using (⟨hc, hh, ht, hlen, hle, hcells⟩ : Holds q l), rfl⟩
  · have hne : l.length ≠ q.cap := by omega
    have htlt : q.tail < q.cap := by rw [ht]; exact Nat.mod_lt _ hc
    obtain ⟨b, hb⟩ := CArray.write_of_lt q.buf v htlt
    have hc0 : q.cap ≠ 0 := by omega
    refine ⟨{ q with buf := b, tail := (q.tail + 1) % q.cap, len := q.len + 1 }, ?_, ?_, rfl⟩
    · simp [enqueue, hfull, hb, CArray.wrap, hc0, fifoCall, hne]
    · simp only [fifoCall, hne, if_false]
      refine ⟨hc, hh, ?_, by simp [hlen], by show q.len + 1 ≤ q.cap; omega, fun i hi => ?_⟩
      · show (q.tail + 1) % q.cap = (q.head + (q.len + 1)) % q.cap
        rw [ht, Nat.mod_add_mod]
        rfl
      · show b ((q.head + i) % q.cap) = (l ++ [v])[i]?
        rcases Nat.lt_succ_iff_lt_or_eq.1 hi with hlt | heq
        · have hne1 : (q.head + i) % q.cap ≠ q.tail := by
            rw [ht]
            exact CArray.ring_ne q.head (by omega) (by omega) (Nat.ne_of_lt hlt)
          rw [CArray.read_write_other hb hne1, hcells i hlt,
            List.getElem?_append_left (by omega)]
        · rw [heq, ← ht, CArray.read_write_same hb, hlen, List.getElem?_concat_length]

theorem dequeue_spec {q : ArrayQueue T} {l : List T} (hq : Holds q l) :
    ∃ q1, dequeue q = some ((fifoCall q.cap l Op.dequeue).1.getD false, q1) ∧
      Holds q1 (fifoCall q.cap l Op.dequeue).2 ∧ q1.cap = q.cap := by
  obtain ⟨hc, hh, ht, hlen, hle, hcells⟩ := hq
  cases l with
  | nil =>
    have h0 : q.len = 0 := hlen
    exact ⟨q, by simp [dequeue, h0, fifoCall], ⟨hc, hh, ht, hlen, hle, hcells⟩, rfl⟩
  | cons x rest =>
    have hpos : q.len ≠ 0 := by rw [hlen]; simp
    have hc0 : q.cap ≠ 0 := by omega
    simp only [List.length_cons] at hlen
    refine ⟨{ q with head := (q.head + 1) % q.cap, len := q.len - 1 }, ?_, ?_, rfl⟩
    · simp [dequeue, hpos, CArray.wrap, hc0, fifoCall]
    · refine ⟨hc, Nat.mod_lt _ hc, ?_, by show q.len - 1 = rest.length; omega,
        by show q.len - 1 ≤ q.cap; omega, fun i hi => ?_⟩
      · show q.tail = ((q.head + 1) % q.cap + (q.len - 1)) % q.cap
        rw [ht, CArray.ring_succ]
        congr 2
        omega
      · show q.buf (((q.head + 1) % q.cap + i) % q.cap) = rest[i]?
        have hi1 : i < q.len - 1 := hi
        rw [CArray.ring_succ, hcells (i + 1) (by omega), List.getElem?_cons_succ]

theorem queue_holds_clear {q : ArrayQueue T} {l : List T} (hq : Holds q l) :
    Holds (clear q) [] :=
  ⟨hq.capPos, hq.capPos, by simp [clear], rfl, Nat.zero_le _,
    fun i hi => absurd hi (Nat.not_lt_zero i)⟩

/-- One call agrees with the bounded FIFO list on the flag returned and on the contents. -/
theorem queue_call_spec {q : ArrayQueue T} {l : List T} (hq : Holds q l) (op : Op T) :
    ∃ q1, call q op = some ((fifoCall q.cap l op).1, q1) ∧
      Holds q1 (fifoCall q.cap l op).2 ∧ q1.cap = q.cap := by
  cases op with
  | enqueue v =>
    obtain ⟨q1, h, hq1, hc⟩ := enqueue_spec hq v
    refine ⟨q1, ?_, hq1, hc⟩
    simp only [call, h, Option.map_some']
    simp only [fifoCall]
    split <;> rfl
  | dequeue =>
    obtain ⟨q1, h, hq1, hc⟩ := dequeue_spec hq
    refine ⟨q1, ?_, hq1, hc⟩
    simp only [call, h, Option.map_some']
    cases l <;> rfl
  | clear => exact ⟨clear q, rfl, queue_holds_clear hq, rfl⟩

theorem queue_transcript_spec {q : ArrayQueue T} {l : List T} (hq : Holds q l) (ops : List (Op T)) :
    transcript q ops = some (fifoTranscript q.cap l ops) := by
  induction ops generalizing q l with
  | nil => rfl
  | cons op ops ih =>
    obtain ⟨q1, hcall, hq1, hc⟩ := queue_call_spec hq op
    have hrest := ih hq1
    rw [hc] at hrest
    simp only [transcript, hcall, front_spec hq1, hrest, Option.map_some', fifoTranscript,
      size, hq1.lenEq]

theorem queue_run_spec {q : ArrayQueue T} {l : List T} (hq : Holds q l) (ops : List (Op T)) :
    ∃ q1, run q ops = some q1 ∧ Holds q1 (fifoRun q.cap l ops) ∧ q1.cap = q.cap := by
  induction ops generalizing q l with
  | nil => exact ⟨q, rfl, hq, rfl⟩
  | cons op ops ih =>
    obtain ⟨q1, hcall, hq1, hc⟩ := queue_call_spec hq op
    obtain ⟨q2, hrun, hq2, hc2⟩ := ih hq1
    rw [hc] at hq2
    exact ⟨q2, by simp only [run, hcall, hrun], hq2, hc2.trans hc⟩

variable {T : Type}

/-- C19: for every capacity `c >= 1` and every sequence of enqueue/dequeue/clear calls on
`ArrayQueue(c)`, the queue behaves as a FIFO list bounded by `c`: the flag every call
returns, `size()` and the element `front_ptr()` points at agree with the list after every
call (also after `head` and `tail` wrapped around the ring).  In the state reached,
`enqueue(v)` returns false and changes nothing iff `size() == capacity()`, `dequeue()`
returns false and changes nothing iff the queue is empty, and `front_ptr()` is null iff the
queue is empty and otherwise points at the oldest element not yet dequeued. -/
theorem C19_array_queue_is_bounded_fifo (c : Nat) (hc : 1 ≤ c) (ops : List (Op T)) :
    transcript (construct c) ops = some (fifoTranscript c [] ops) ∧
      ∃ q : ArrayQueue T, run (construct c) ops = some q ∧ capacity q = c ∧
        size q = (fifoRun c [] ops).length ∧ size q ≤ c ∧
        (∀ v, (size q = capacity q → enqueue q v = some (false, q)) ∧
          (size q ≠ capacity q → ∃ q1, enqueue q v = some (true, q1) ∧ size q1 = size q + 1)) ∧
        (size q = 0 → dequeue q = some (false, q)) ∧
        (size q ≠ 0 → ∃ q1, dequeue q = some (true, q1) ∧ size q1 + 1 = size q) ∧
        (front_ptr q = none ↔ size q = 0) ∧
        ∀ x rest, fifoRun c [] ops = x :: rest →
          ∃ p, front_ptr q = some p ∧ CArray.read q.buf q.cap p = some x := by
  have hcap : (construct c : ArrayQueue T).cap = c := by
    have : c ≠ 0 := by omega
    simp [construct, alloc_buf, this]
  have h0 := queue_holds_construct (T := T) c
  refine ⟨by rw [queue_transcript_spec h0, hcap], ?_⟩
  obtain ⟨q, hrun, hq, hqc⟩ := queue_run_spec h0 ops
  rw [hcap] at hq hqc
  refine ⟨q, hrun, hqc, hq.lenEq, by have := hq.lenLe; rw [hqc] at this; exact this,
    fun v => ⟨fun hfull => ?_, fun hroom => ?_⟩, fun hempty => ?_, fun hne => ?_, ?_,
    fun x rest hl => ?_⟩
  · have : q.len ≥ q.cap := Nat.le_of_eq hfull.symm
    simp [enqueue, this]
  · obtain ⟨q1, henq, hq1, -⟩ := enqueue_spec hq v
    have hne : (fifoRun c [] ops).length ≠ q.cap := fun h => hroom (hq.lenEq.trans h)
    simp only [fifoCall, hne, if_false, Option.getD_some] at henq hq1
    refine ⟨q1, henq, ?_⟩
    show q1.len = q.len + 1
    rw [hq1.lenEq, hq.lenEq, List.length_append, List.length_singleton]
  · have : q.len = 0 := hempty
    simp [dequeue, this]
  · obtain ⟨q1, hdeq, hq1, -⟩ := dequeue_spec hq
    have hlen := hq.lenEq
    cases hl : fifoRun c [] ops with
    | nil => rw [hl] at hlen; exact absurd hlen hne
    | cons x rest =>
      rw [hl] at hdeq hq1 hlen
      simp only [fifoCall, Option.getD_some] at hdeq hq1
      refine ⟨q1, hdeq, ?_⟩
      show q1.len + 1 = q.len
      rw [hq1.lenEq, hlen, List.length_cons]
  · unfold front_ptr size
    by_cases h : q.len = 0 <;> simp [h]
  · have hfront := front_spec hq
    rw [hl] at hfront
    have hpos : q.len ≠ 0 := by rw [hq.lenEq, hl]; simp
    unfold front front_ptr at hfront
    simp only [hpos, if_false, List.head?_cons] at hfront
    refine ⟨q.head, by simp [front_ptr, hpos], ?_⟩
    cases hread : CArray.read q.buf q.cap q.head with
    | none => rw [hread] at hfront; cases hfront
    | some y =>
      rw [hread] at hfront
      simp only [Option.map_some', Option.some.injEq] at hfront
      rw [hfront]

/-- The test of `main_queue.cpp`: on `ArrayQueue<int>(5)`, enqueue 1, 2, 3 and then
draining shows the fronts 1, 2, 3; a queue of capacity 2 refuses a third element and keeps
FIFO order after its indices wrapped around. -/
theorem C19_test_drain :
    1 ≤ 5 ∧
      (transcript (construct 5)
          [Op.enqueue (1 : Int), Op.enqueue 2, Op.enqueue 3, Op.dequeue, Op.dequeue,
            Op.dequeue] =
        some (fifoTranscript 5 []
          [Op.enqueue (1 : Int), Op.enqueue 2, Op.enqueue 3, Op.dequeue, Op.dequeue,
            Op.dequeue])) ∧
      transcript (construct 5)
          [Op.enqueue (1 : Int), Op.enqueue 2, Op.enqueue 3, Op.dequeue, Op.dequeue,
            Op.dequeue] =
        some [(some true, 1, some 1), (some true, 2, some 1), (some true, 3, some 1),
          (some true, 2, some 2), (some true, 1, some 3), (some true, 0, none)] ∧
      transcript (construct 2)
          [Op.enqueue (1 : Int), Op.enqueue 2, Op.enqueue 3, Op.dequeue, Op.enqueue 4,
            Op.dequeue, Op.dequeue, Op.dequeue] =
        some [(some true, 1, some 1), (some true, 2, some 1), (some false, 2, some 1),
          (some true, 1, some 2), (some true, 2, some 2), (some true, 1, some 4),
          (some true, 0, none), (some false, 0, none)] :=
  ⟨by decide,
    (C19_array_queue_is_bounded_fifo 5 (by decide)
      [Op.enqueue (1 : Int), Op.enqueue 2, Op.enqueue 3, Op.dequeue, Op.dequeue,
        Op.dequeue]).1,
    by decide, by decide⟩

end ArrayQueue

/-! ## `Deque` refines the plain list -/

namespace Deque

variable {T : Type}

variable {T : Type}

end Deque

/-! ## `ArrayStack` refines the bounded LIFO list -/

namespace ArrayStack

variable {T : Type} {CAP : Nat}

theorem stack_holds_construct : Holds (construct : ArrayStack T CAP) [] :=
  ⟨rfl, Nat.zero_le _, fun i hi => absurd hi (Nat.not_lt_zero i)⟩

theorem stack_top_spec {s : ArrayStack T CAP} {l : List T} (hs : Holds s l) :
    top s = some l.head? := by
  unfold top top_or_throw
  cases l with
  | nil =>
    have h0 : s.len = 0 := hs.lenEq
    simp [h0]
  | cons x rest =>
    have hlen : s.len = rest.length + 1 := hs.lenEq
    have hpos : s.len ≠ 0 := by omega
    have hcell := hs.cells (s.len - 1) (by omega)
    have hlt : s.len - 1 < CAP := by have := hs.lenLe; omega
    have hidx : s.len - 1 = rest.reverse.length := by simp; omega
    rw [List.reverse_cons, hidx, List.getElem?_concat_length, ← hidx] at hcell
    simp [hpos, CArray.read, hlt, hcell]

theorem stack_push_spec {s : ArrayStack T CAP} {l : List T} (hs : Holds s l) (v : T) :
    ∃ s1, push s v = some ((lifoCall CAP l (Op.push v)).1.getD false, s1) ∧
      Holds s1 (lifoCall CAP l (Op.push v)).2 := by
  obtain ⟨hlen, hle, hcells⟩ := hs
  by_cases hfull : s.len ≥ CAP
  · have heq : l.length = CAP := by omega
    exact ⟨s, by simp [push, hfull, lifoCall, heq],
      by simpa [lifoCall, heq] using (⟨hlen, hle, hcells⟩ : Holds s l)⟩
  · have hne : l.length ≠ CAP := by omega
    obtain ⟨b, hb⟩ := CArray.write_of_lt s.buf v (show s.len < CAP by omega)
    refine ⟨{ buf := b, len := s.len + 1 }, ?_, ?_⟩
    · simp [push, hfull, hb, lifoCall, hne]
    · simp only [lifoCall, hne, if_false]
      refine ⟨by simp [hlen], by show s.len + 1 ≤ CAP; omega, fun i hi => ?_⟩
      show b i = (v :: l).reverse[i]?
      rw [List.reverse_cons]
      rcases Nat.lt_succ_iff_lt_or_eq.1 hi with hlt | heq
      · rw [CArray.read_write_other hb (Nat.ne_of_lt hlt), hcells i hlt,
          List.getElem?_append_left (by simp; omega)]
      · have hidx : s.len = l.reverse.length := by simp [hlen]
        rw [heq, CArray.read_write_same hb, hidx, List.getElem?_concat_length]

theorem stack_pop_spec {s : ArrayStack T CAP} {l : List T} (hs : Holds s l) :
    (pop s).1 = (lifoCall CAP l Op.pop).1.getD false ∧
      Holds (pop s).2 (lifoCall CAP l Op.pop).2 := by
  obtain ⟨hlen, hle, hcells⟩ := hs
  cases l with
  | nil =>
    have h0 : s.len = 0 := hlen
    simp only [pop, h0, if_true, lifoCall]
    exact ⟨rfl, ⟨hlen, hle, hcells⟩⟩
  | cons x rest =>
    simp only [List.length_cons] at hlen
    have hpos : s.len ≠ 0 := by omega
    simp only [pop, hpos, if_false, lifoCall]
    refine ⟨rfl, by show s.len - 1 = rest.length; omega, by show s.len - 1 ≤ CAP; omega,
      fun i hi => ?_⟩
    show s.buf i = rest.reverse[i]?
    have hi1 : i < s.len - 1 := hi
    rw [hcells i (by omega), List.reverse_cons, List.getElem?_append_left (by simp; omega)]

/-- One call agrees with the bounded LIFO list on the flag returned and on the contents. -/
theorem stack_call_spec {s : ArrayStack T CAP} {l : List T} (hs : Holds s l) (op : Op T) :
    ∃ s1, call s op = some ((lifoCall CAP l op).1, s1) ∧ Holds s1 (lifoCall CAP l op).2 := by
  cases op with
  | push v =>
    obtain ⟨s1, h, hs1⟩ := stack_push_spec hs v
    refine ⟨s1, ?_, hs1⟩
    simp only [call, h, Option.map_some']
    simp only [lifoCall]
    split <;> rfl
  | pop =>
    obtain ⟨h, hs1⟩ := stack_pop_spec hs
    refine ⟨(pop s).2, ?_, hs1⟩
    simp only [call, h]
    cases l <;> rfl
  | clear =>
    exact ⟨clear s, rfl, ⟨rfl, Nat.zero_le _, fun i hi => absurd hi (Nat.not_lt_zero i)⟩⟩

theorem stack_transcript_spec {s : ArrayStack T CAP} {l : List T} (hs : Holds s l)
    (ops : List (Op T)) : transcript s ops = some (lifoTranscript CAP l ops) := by
  induction ops generalizing s l with
  | nil => rfl
  | cons op ops ih =>
    obtain ⟨s1, hcall, hs1⟩ := stack_call_spec hs op
    simp only [transcript, hcall, stack_top_spec hs1, ih hs1, Option.map_some',
      lifoTranscript, size, hs1.lenEq]

theorem stack_run_spec {s : ArrayStack T CAP} {l : List T} (hs : Holds s l)
    (ops : List (Op T)) : ∃ s1, run s ops = some s1 ∧ Holds s1 (lifoRun CAP l ops) := by
  induction ops generalizing s l with
  | nil => exact ⟨s, rfl, hs⟩
  | cons op ops ih =>
    obtain ⟨s1, hcall, hs1⟩ := stack_call_spec hs op
    obtain ⟨s2, hrun, hs2⟩ := ih hs1
    exact ⟨s2, by simp only [run, hcall, hrun], hs2⟩

/-- C21: for every `CAP` and every sequence of push/pop/clear calls on `ArrayStack<T, CAP>`,
the stack behaves as a LIFO list bounded by `CAP`: the flag every call returns, `size()` and
the result of `top()` agree with the list after every call.  In the state reached, `push(v)`
returns false and changes nothing iff `size() == CAP` and otherwise makes `v` the top,
`pop()` returns false (changing nothing) iff the stack is empty, and
`top_or_throw()`/`top()` throws iff the stack is empty and otherwise returns the last pushed
remaining element. -/
theorem C21_array_stack_is_bounded_lifo (CAP : Nat) (ops : List (Op T)) :
    transcript (construct : ArrayStack T CAP) ops = some (lifoTranscript CAP [] ops) ∧
      ∃ s : ArrayStack T CAP, run construct ops = some s ∧
        size s = (lifoRun CAP [] ops).length ∧ size s ≤ CAP ∧
        (∀ v, (size s = CAP → push s v = some (false, s)) ∧
          (size s ≠ CAP → ∃ s1, push s v = some (true, s1) ∧ size s1 = size s + 1 ∧
            top s1 = some (some v))) ∧
        (size s = 0 → pop s = (false, s)) ∧
        (size s ≠ 0 → (pop s).1 = true ∧ size (pop s).2 + 1 = size s) ∧
        (top_or_throw s = some none ↔ size s = 0) ∧ top s = top_or_throw s ∧
        top_or_throw s = some (lifoRun CAP [] ops).head? := by
  have h0 : Holds (construct : ArrayStack T CAP) [] := stack_holds_construct
  refine ⟨stack_transcript_spec h0 ops, ?_⟩
  obtain ⟨s, hrun, hs⟩ := stack_run_spec h0 ops
  refine ⟨s, hrun, hs.lenEq, hs.lenLe, fun v => ⟨fun hfull => ?_, fun hroom => ?_⟩,
    fun hempty => ?_, fun hne => ?_, ?_, rfl, stack_top_spec hs⟩
  · have : s.len ≥ CAP := Nat.le_of_eq hfull.symm
    simp [push, this]
  · obtain ⟨s1, hpush, hs1⟩ := stack_push_spec hs v
    have hne : (lifoRun CAP [] ops).length ≠ CAP := fun h => hroom (hs.lenEq.trans h)
    simp only [lifoCall, hne, if_false, Option.getD_some] at hpush hs1
    refine ⟨s1, hpush, ?_, by rw [stack_top_spec hs1]; rfl⟩
    show s1.len = s.len + 1
    rw [hs1.lenEq, hs.lenEq, List.length_cons]
  · have : s.len = 0 := hempty
    simp [pop, this]
  · have : s.len ≠ 0 := hne
    simp only [pop, this, if_false, size]
    exact ⟨trivial, by omega⟩
  · have htop : top_or_throw s = some (lifoRun CAP [] ops).head? := stack_top_spec hs
    rw [htop]
    show _ ↔ s.len = 0
    rw [hs.lenEq]
    cases lifoRun CAP [] ops <;> simp

/-- The test of `main_stack.cpp`: on `ArrayStack<int, 5>`, push 1, 2, 3 and then draining
shows the tops 3, 2, 1; a stack with `CAP = 2` refuses a third element. -/
theorem C21_test_drain :
    (transcript (construct : ArrayStack Int 5)
        [Op.push 1, Op.push 2, Op.push 3, Op.pop, Op.pop, Op.pop, Op.pop] =
      some (lifoTranscript 5 [] [Op.push 1, Op.push 2, Op.push 3, Op.pop, Op.pop, Op.pop,
        Op.pop])) ∧
      transcript (construct : ArrayStack Int 5)
          [Op.push 1, Op.push 2, Op.push 3, Op.pop, Op.pop, Op.pop, Op.pop] =
        some [(some true, 1, some 1), (some true, 2, some 2), (some true, 3, some 3),
          (some true, 2, some 2), (some true, 1, some 1), (some true, 0, none),
          (some false, 0, none)] ∧
      transcript (construct : ArrayStack Int 2) [Op.push 1, Op.push 2, Op.push 3, Op.pop] =
        some [(some true, 1, some 1), (some true, 2, some 2), (some false, 2, some 2),
          (some true, 1, some 1)] :=
  ⟨(C21_array_stack_is_bounded_lifo 5
      [Op.push (1 : Int), Op.push 2, Op.push 3, Op.pop, Op.pop, Op.pop, Op.pop]).1,
    by decide, by decide⟩

end ArrayStack

/-! ## The array algorithms -/

namespace arralg

theorem swapAt_spec {T : Type} (a : List T) {i j : Nat} (hi : i < a.length) (hj : j < a.length) :
    ∃ a1, swapAt a i j = some a1 ∧ a1.length = a.length ∧
      (∀ k, k ≠ i → k ≠ j → a1[k]? = a[k]?) ∧ a1[j]? = a[i]? ∧ (i ≠ j → a1[i]? = a[j]?) := by
  have h1 : a[i]? = some a[i] := List.getElem?_eq_getElem hi
  have h2 : a[j]? = some a[j] := List.getElem?_eq_getElem hj
  refine ⟨(a.set i a[j]).set j a[i], by simp [swapAt, h1, h2], by simp, fun k hki hkj => ?_, ?_,
    fun hij => ?_⟩
  · rw [List.getElem?_set_ne (Ne.symm hkj), List.getElem?_set_ne (Ne.symm hki)]
  · rw [List.getElem?_set_self (by simpa using hj), h1]
  · rw [List.getElem?_set_ne (Ne.symm hij), List.getElem?_set_self hi, h2]

/-- The loop invariant of `reverse_inplace`: outside `[i, j]` the vector is already
mirrored, inside it is still the original. -/
theorem reverseLoop_spec {T : Type} (a0 : List T) :
    ∀ (fuel : Nat) (a : List T) (i j : Nat), a.length = a0.length → i + j + 1 = a0.length →
      j ≤ i + fuel →
      (∀ k, k < a0.length → (k < i ∨ j < k) → a[k]? = a0[a0.length - 1 - k]?) →
      (∀ k, i ≤ k → k ≤ j → a[k]? = a0[k]?) →
      ∃ r, reverseLoop fuel a i j = some r ∧ r.length = a0.length ∧
        ∀ k, k < a0.length → r[k]? = a0[a0.length - 1 - k]? := by
  intro fuel
  induction fuel with
  | zero =>
    intro a i j hlen hsum hfuel hout hin
    have hnlt : ¬ i < j := by omega
    refine ⟨a, by simp [reverseLoop, hnlt], hlen, fun k hk => ?_⟩
    by_cases hmid : k < i ∨ j < k
    · exact hout k hk hmid
    · have hk1 : a0.length - 1 - k = k := by omega
      rw [hk1]; exact hin k (by omega) (by omega)
  | succ fuel ih =>
    intro a i j hlen hsum hfuel hout hin
    by_cases hlt : i < j
    · obtain ⟨a1, hswap, hlen1, hother, hj1, hi1⟩ :=
        swapAt_spec a (show i < a.length by omega) (show j < a.length by omega)
      have hloop : reverseLoop (fuel + 1) a i j = reverseLoop fuel a1 (i + 1) (j - 1) := by
        simp [reverseLoop, hlt, hswap]
      rw [hloop]
      refine ih a1 (i + 1) (j - 1) (hlen1.trans hlen) (by omega) (by omega) (fun k hk hor => ?_)
        (fun k h1 h2 => ?_)
      · by_cases hki : k = i
        · have hidx : a0.length - 1 - k = j := by omega
          rw [hki, hi1 (by omega), hin j (by omega) (le_refl _), ← hki, hidx]
        · by_cases hkj : k = j
          · have hidx : a0.length - 1 - k = i := by omega
            rw [hkj, hj1, hin i (le_refl _) (by omega), ← hkj, hidx]
          · rw [hother k hki hkj]
            exact hout k hk (by omega)
      · rw [hother k (by omega) (by omega)]
        exact hin k (by omega) (by omega)
    · refine ⟨a, by simp [reverseLoop, hlt], hlen, fun k hk => ?_⟩
      by_cases hmid : k < i ∨ j < k
      · exact hout k hk hmid
      · have hk1 : a0.length - 1 - k = k := by omega
        rw [hk1]; exact hin k (by omega) (by omega)

/-- C23: for every vector `a` of length `n`, `reverse_inplace(a)` returns, and afterwards the
element at index `i` is the original element at index `n - 1 - i` for every `i < n`: the
vector is the reversed original.  The empty vector is left empty. -/
theorem C23_reverse_inplace {T : Type} (a : List T) :
    ∃ r, reverse_inplace a = some r ∧ r.length = a.length ∧
      (∀ i, i < a.length → r[i]? = a[a.length - 1 - i]?) ∧ r = a.reverse ∧
      (a = [] → r = []) := by
  have hmain : ∃ r, reverse_inplace a = some r ∧ r.length = a.length ∧
      ∀ i, i < a.length → r[i]? = a[a.length - 1 - i]? := by
    cases a with
    | nil => exact ⟨[], rfl, rfl, fun i hi => absurd hi (Nat.not_lt_zero i)⟩
    | cons x rest =>
      have hunf : reverse_inplace (x :: rest) =
          reverseLoop (x :: rest).length (x :: rest) 0 ((x :: rest).length - 1) := rfl
      rw [hunf]
      exact reverseLoop_spec (x :: rest) _ (x :: rest) 0 _ rfl (by simp) (by simp)
        (fun k hk hor => by omega) (fun k _ _ => rfl)
  obtain ⟨r, hr, hlen, hcells⟩ := hmain
  have hrev : r = a.reverse := by
    apply List.ext_getElem?
    intro i
    by_cases hi : i < a.length
    · rw [hcells i hi, List.getElem?_reverse hi]
    · rw [List.getElem?_eq_none (by omega), List.getElem?_eq_none (by simp; omega)]
  refine ⟨r, hr, hlen, hcells, hrev, fun h => ?_⟩
  rw [hrev, h]; rfl

/-- The test of `main_arrays.cpp`: `{1,2,3,4,5}` becomes `{5,4,3,2,1}`. -/
theorem C23_test_vector :
    reverse_inplace [(1 : Int), 2, 3, 4, 5] = some [5, 4, 3, 2, 1] := by
  obtain ⟨r, hr, _, _, hrev, _⟩ := C23_reverse_inplace [(1 : Int), 2, 3, 4, 5]
  rw [hr, hrev]
  rfl

theorem segSum_append_left (p r : List Int) {i j : Nat} (hj : j < p.length) :
    segSum (p ++ r) i j = segSum p i j := by
  unfold segSum
  by_cases hi : i ≤ p.length
  · rw [List.drop_append_of_le_length hi, List.take_append_of_le_length (by simp; omega)]
  · have h0 : j + 1 - i = 0 := by omega
    simp [h0]

theorem segSum_to_end (a : List Int) (i j : Nat) (hj : a.length ≤ j + 1) :
    segSum a i j = (a.drop i).sum := by
  unfold segSum
  rw [List.take_of_length_le (by simp; omega)]

theorem drop_concat_sum (p : List Int) (x : Int) {i : Nat} (hi : i ≤ p.length) :
    ((p ++ [x]).drop i).sum = (p.drop i).sum + x := by
  rw [List.drop_append_of_le_length hi, List.sum_append]
  simp

/-- The loop invariant of `kadane_max_subarray`: after the elements `p`, `cur` is the
greatest sum of a non-empty suffix of `p` and `best` the greatest sum of a non-empty
contiguous subarray of `p`; the loop then returns the greatest such sum of `p ++ rest`. -/
theorem kadaneLoop_spec : ∀ (rest p : List Int) (best cur : Int),
    (∃ i, i < p.length ∧ (p.drop i).sum = cur) → (∀ i, i < p.length → (p.drop i).sum ≤ cur) →
    (∃ i j, i ≤ j ∧ j < p.length ∧ segSum p i j = best) →
    (∀ i j, i ≤ j → j < p.length → segSum p i j ≤ best) →
    (∃ i j, i ≤ j ∧ j < (p ++ rest).length ∧ segSum (p ++ rest) i j = kadaneLoop rest best cur) ∧
      ∀ i j, i ≤ j → j < (p ++ rest).length →
        segSum (p ++ rest) i j ≤ kadaneLoop rest best cur := by
  intro rest
  induction rest with
  | nil =>
    intro p best cur _ _ hbe hbm
    simpa [kadaneLoop] using And.intro hbe hbm
  | cons x rest ih =>
    intro p best cur hce hcm hbe hbm
    have happ : p ++ x :: rest = (p ++ [x]) ++ rest := by simp
    rw [happ]
    show (∃ i j, i ≤ j ∧ j < ((p ++ [x]) ++ rest).length ∧ segSum ((p ++ [x]) ++ rest) i j =
        kadaneLoop rest (max best (max x (cur + x))) (max x (cur + x))) ∧
      ∀ i j, i ≤ j → j < ((p ++ [x]) ++ rest).length → segSum ((p ++ [x]) ++ rest) i j ≤
        kadaneLoop rest (max best (max x (cur + x))) (max x (cur + x))
    have hlen : (p ++ [x]).length = p.length + 1 := by simp
    have hsufm : ∀ i, i < (p ++ [x]).length → ((p ++ [x]).drop i).sum ≤ max x (cur + x) := by
      intro i hi
      rw [hlen] at hi
      rw [drop_concat_sum p x (by omega)]
      rcases Nat.lt_succ_iff_lt_or_eq.1 hi with hlt | heq
      · have := hcm i hlt
        exact le_max_of_le_right (by omega)
      · rw [heq, List.drop_length]
        exact le_max_of_le_left (by simp)
    have hsufe : ∃ i, i < (p ++ [x]).length ∧ ((p ++ [x]).drop i).sum = max x (cur + x) := by
      rcases max_choice x (cur + x) with h | h
      · refine ⟨p.length, by omega, ?_⟩
        rw [drop_concat_sum p x (le_refl _), List.drop_length, h]; simp
      · obtain ⟨i, hi, hs⟩ := hce
        refine ⟨i, by omega, ?_⟩
        rw [drop_concat_sum p x (by omega), hs, h]
    refine ih (p ++ [x]) _ _ hsufe hsufm ?_ ?_
    · rcases max_choice best (max x (cur + x)) with h | h
      · obtain ⟨i, j, hij, hj, hs⟩ := hbe
        exact ⟨i, j, hij, by omega, by rw [segSum_append_left p [x] hj, hs, h]⟩
      · obtain ⟨i, hi, hs⟩ := hsufe
        refine ⟨i, p.length, by omega, by omega, ?_⟩
        rw [segSum_to_end _ _ _ (by omega), hs, h]
    · intro i j hij hj
      rw [hlen] at hj
      rcases Nat.lt_succ_iff_lt_or_eq.1 hj with hlt | heq
      · rw [segSum_append_left p [x] hlt]
        exact le_max_of_le_left (hbm i j hij hlt)
      · rw [segSum_to_end _ _ _ (by omega)]
        exact le_max_of_le_right (hsufm i (by omega))

/-- C27: with exact integers, for every non-empty vector `a` the value
`kadane_max_subarray(a)` is the sum of some non-empty contiguous subarray `a[i..j]` and no
such subarray has a greater sum; for the empty vector the value is 0. -/
theorem C27_kadane_max_subarray (a : List Int) :
    (a = [] → kadane_max_subarray a = 0) ∧
      (a ≠ [] →
        (∃ i j, i ≤ j ∧ j < a.length ∧ segSum a i j = kadane_max_subarray a) ∧
          ∀ i j, i ≤ j → j < a.length → segSum a i j ≤ kadane_max_subarray a) := by
  refine ⟨fun h => by rw [h]; rfl, fun hne => ?_⟩
  cases a with
  | nil => exact absurd rfl hne
  | cons x rest =>
    have h1 : ∀ i, i < [x].length → segSum [x] i i = x ∧ ([x].drop i).sum = x := by
      intro i hi
      have hi0 : i = 0 := by simpa using hi
      subst hi0
      simp [segSum]
    have hspec := kadaneLoop_spec rest [x] x x ⟨0, by simp, by simp⟩
      (fun i hi => le_of_eq (h1 i hi).2) ⟨0, 0, le_refl _, by simp, (h1 0 (by simp)).1⟩
      (fun i j hij hj => by
        have hj0 : j = 0 := by simpa using hj
        have hi0 : i = 0 := by omega
        rw [hi0, hj0]
        exact le_of_eq (h1 0 (by simp)).1)
    simpa [kadane_max_subarray] using hspec

/-- On `{-2, 1, -3, 4, -1, 2, 1, -5, 4}` the value is 6, the sum of `a[3..6]`; on a vector
of negative numbers it is the greatest element. -/
theorem C27_test_vector :
    kadane_max_subarray [-2, 1, -3, 4, -1, 2, 1, -5, 4] = 6 ∧
      segSum [-2, 1, -3, 4, -1, 2, 1, -5, 4] 3 6 = 6 ∧
      segSum [-2, 1, -3, 4, -1, 2, 1, -5, 4] 3 6 ≤
        kadane_max_subarray [-2, 1, -3, 4, -1, 2, 1, -5, 4] ∧
      kadane_max_subarray [-3, -1, -2] = -1 :=
  ⟨by decide, by decide,
    ((C27_kadane_max_subarray [-2, 1, -3, 4, -1, 2, 1, -5, 4]).2 (by decide)).2 3 6
      (by decide) (by decide),
    by decide⟩

theorem segSum_eq_sub (a : List Int) {l r : Nat} (hlr : l ≤ r) :
    segSum a l r = (a.take (r + 1)).sum - (a.take l).sum := by
  have h : a.take (r + 1) = a.take l ++ (a.drop l).take (r + 1 - l) := by
    have h1 : r + 1 = l + (r + 1 - l) := by omega
    conv_lhs => rw [h1]
    exact List.take_add a l (r + 1 - l)
  rw [h, List.sum_append]
  unfold segSum
  ring

theorem take_succ_sum (p rest : List Int) (x : Int) :
    ((p ++ x :: rest).take (p.length + 1)).sum = p.sum + x := by
  have h : (p ++ x :: rest).take (p.length + 1) = p ++ [x] := by
    have h1 : p ++ x :: rest = (p ++ [x]) ++ rest := by simp
    rw [h1, List.take_append_of_le_length (by simp), List.take_of_length_le (by simp)]
  rw [h, List.sum_append]
  simp

/-- The loop invariant of `subarray_with_sum`: the keys of the map are exactly the sums of
the prefixes seen so far, each stored with the index that ends such a prefix (the empty prefix
with `(size_t)-1`), and no subarray ending before `i` sums to the target. -/
theorem subarrayLoop_spec (a : List Int) (target : Int) (hlen : a.length < 2 ^ 64) :
    ∀ (rest p : List Int) (m : List (Int × Nat)), a = p ++ rest →
      (∀ k v, prefFind m k = some v →
        (v = SIZE_MAX ∧ k = 0) ∨ (v < p.length ∧ (a.take (v + 1)).sum = k)) →
      (∀ j, j ≤ p.length → ∃ v, prefFind m (a.take j).sum = some v) →
      (∀ l r, l ≤ r → r < p.length → segSum a l r ≠ target) →
      (∀ l r, subarrayLoop target rest p.length p.sum m = some (l, r) →
        l ≤ r ∧ r < a.length ∧ segSum a l r = target) ∧
      (subarrayLoop target rest p.length p.sum m = none →
        ∀ l r, l ≤ r → r < a.length → segSum a l r ≠ target) := by
  intro rest
  induction rest with
  | nil =>
    intro p m ha _ _ hno
    have hp : a.length = p.length := by rw [ha]; simp
    refine ⟨fun l r h => by simp [subarrayLoop] at h, fun _ l r hlr hr => hno l r hlr (by omega)⟩
  | cons x rest ih =>
    intro p m ha hm1 hm2 hno
    have hapos : p.length < a.length := by rw [ha]; simp
    have hpre : (a.take (p.length + 1)).sum = p.sum + x := by rw [ha]; exact take_succ_sum p rest x
    have ha1 : a = (p ++ [x]) ++ rest := by rw [ha]; simp
    have hlen1 : (p ++ [x]).length = p.length + 1 := by simp
    have hsum1 : (p ++ [x]).sum = p.sum + x := by simp
    cases hfind : prefFind m (p.sum + x - target) with
    | some idx =>
      have hres : subarrayLoop target (x :: rest) p.length p.sum m =
          some (if idx = SIZE_MAX then 0 else idx + 1, p.length) := by
        simp [subarrayLoop, hfind]
      rw [hres]
      refine ⟨fun l r h => ?_, fun h => by simp at h⟩
      simp only [Option.some.injEq, Prod.mk.injEq] at h
      obtain ⟨hl, hr⟩ := h
      subst hr
      rcases hm1 _ _ hfind with ⟨hv, hk⟩ | ⟨hv, hk⟩
      · rw [if_pos hv] at hl
        subst hl
        refine ⟨Nat.zero_le _, hapos, ?_⟩
        rw [segSum_eq_sub a (Nat.zero_le _), hpre]
        simp only [List.take_zero, List.sum_nil]
        omega
      · have hne : idx ≠ SIZE_MAX := by unfold SIZE_MAX; omega
        rw [if_neg hne] at hl
        subst hl
        refine ⟨hv, hapos, ?_⟩
        rw [segSum_eq_sub a hv, hpre, hk]
        omega
    | none =>
      have hno1 : ∀ l r, l ≤ r → r < (p ++ [x]).length → segSum a l r ≠ target := by
        intro l r hlr hr
        rw [hlen1] at hr
        rcases Nat.lt_succ_iff_lt_or_eq.1 hr with hlt | heq
        · exact hno l r hlr hlt
        · intro hseg
          rw [heq, segSum_eq_sub a (by omega), hpre] at hseg
          obtain ⟨v, hv⟩ := hm2 l (by omega)
          have hkey : (a.take l).sum = p.sum + x - target := by omega
          rw [hkey, hfind] at hv
          cases hv
      cases hcur : prefFind m (p.sum + x) with
      | none =>
        have hres : subarrayLoop target (x :: rest) p.length p.sum m =
            subarrayLoop target rest (p ++ [x]).length (p ++ [x]).sum
              ((p.sum + x, p.length) :: m) := by
          simp [subarrayLoop, hfind, hcur]
        rw [hres]
        refine ih (p ++ [x]) _ ha1 (fun k v hkv => ?_) (fun j hj => ?_) hno1
        · simp only [prefFind] at hkv
          split at hkv
          · rename_i heq
            simp only [Option.some.injEq] at hkv
            subst hkv
            exact Or.inr ⟨by omega, by rw [hpre, heq]⟩
          · rcases hm1 k v hkv with h | ⟨h1, h2⟩
            · exact Or.inl h
            · exact Or.inr ⟨by omega, h2⟩
        · rw [hlen1] at hj
          simp only [prefFind]
          split
          · exact ⟨_, rfl⟩
          · rename_i hne
            rcases Nat.lt_succ_iff_lt_or_eq.1 (Nat.lt_succ_of_le hj) with hlt | heq
            · exact hm2 j (by omega)
            · exact absurd (by rw [heq, hpre]) hne
      | some w =>
        have hres : subarrayLoop target (x :: rest) p.length p.sum m =
            subarrayLoop target rest (p ++ [x]).length (p ++ [x]).sum m := by
          simp [subarrayLoop, hfind, hcur]
        rw [hres]
        refine ih (p ++ [x]) _ ha1 (fun k v hkv => ?_) (fun j hj => ?_) hno1
        · rcases hm1 k v hkv with h | ⟨h1, h2⟩
          · exact Or.inl h
          · exact Or.inr ⟨by omega, h2⟩
        · rw [hlen1] at hj
          rcases Nat.lt_succ_iff_lt_or_eq.1 (Nat.lt_succ_of_le hj) with hlt | heq
          · exact hm2 j (by omega)
          · exact ⟨w, by rw [heq, hpre, hcur]⟩

/-- C28: for every integer vector `a` (a `std::vector`, so shorter than `2^64`; negative
values allowed, exact arithmetic) and every target, `subarray_with_sum(a, target)` returns a
pair iff some non-empty contiguous subarray of `a` sums to the target, and every returned
pair `(l, r)` satisfies `l <= r < a.size()` and `a[l] + … + a[r] == target`. -/
theorem C28_subarray_with_sum (a : List Int) (target : Int) (hlen : a.length < 2 ^ 64) :
    ((subarray_with_sum a target).isSome ↔
        ∃ l r, l ≤ r ∧ r < a.length ∧ segSum a l r = target) ∧
      ∀ l r, subarray_with_sum a target = some (l, r) →
        l ≤ r ∧ r < a.length ∧ segSum a l r = target := by
  have hspec := subarrayLoop_spec a target hlen a [] [(0, SIZE_MAX)] rfl
    (fun k v hkv => by
      simp only [prefFind] at hkv
      split at hkv
      · rename_i heq
        simp only [Option.some.injEq] at hkv
        exact Or.inl ⟨hkv.symm, heq.symm⟩
      · cases hkv)
    (fun j hj => by
      have hj0 : j = 0 := by simpa using hj
      subst hj0
      exact ⟨SIZE_MAX, by simp [prefFind]⟩)
    (fun l r _ hr => absurd hr (Nat.not_lt_zero r))
  have hunf : subarray_with_sum a target =
      subarrayLoop target a ([] : List Int).length ([] : List Int).sum [(0, SIZE_MAX)] := rfl
  rw [← hunf] at hspec
  refine ⟨⟨fun hsome => ?_, fun ⟨l, r, hlr, hr, hseg⟩ => ?_⟩, hspec.1⟩
  · obtain ⟨⟨l, r⟩, heq⟩ := Option.isSome_iff_exists.1 hsome
    exact ⟨l, r, hspec.1 l r heq⟩
  · cases hres : subarray_with_sum a target with
    | none => exact absurd hseg (hspec.2 hres l r hlr hr)
    | some _ => rfl

/-- On `{1, 2, 3, 7, 5}` with target 12 the pair `(1, 3)` is returned (2 + 3 + 7); with a
negative element, `{1, -1, 5}` and target 0 give `(0, 1)`; no subarray of `{1, 2, 3}` sums
to 7. -/
theorem C28_test_vector :
    subarray_with_sum [1, 2, 3, 7, 5] 12 = some (1, 3) ∧
      (1 ≤ 3 ∧ 3 < [(1 : Int), 2, 3, 7, 5].length ∧ segSum [1, 2, 3, 7, 5] 1 3 = 12) ∧
      subarray_with_sum [1, -1, 5] 0 = some (0, 1) ∧
      subarray_with_sum [1, 2, 3] 7 = none :=
  ⟨by decide,
    (C28_subarray_with_sum [1, 2, 3, 7, 5] 12 (by decide)).2 1 3 (by decide),
    by decide, by decide⟩

end arralg

/-! ## `MinStack`: the stack of minima tracks the data stack -/

namespace stackalgo.MinStack

theorem tracks_push {st ms : List Int} (h : Tracks st ms) (x : Int) :
    Tracks (push ⟨st, ms⟩ x).st (push ⟨st, ms⟩ x).minSt := by
  cases ms with
  | nil => exact Tracks.fresh h (fun m hm => by cases hm)
  | cons m ms =>
    by_cases hx : x ≤ m
    · simp only [push, hx, if_true]
      exact Tracks.fresh h (fun m1 hm1 => by
        simp only [List.head?_cons, Option.some.injEq] at hm1
        rw [← hm1]; exact hx)
    · simp only [push, hx, if_false]
      exact Tracks.keep h (by omega)

theorem tracks_pop {st ms : List Int} (h : Tracks st ms) :
    ∃ s1, pop ⟨st, ms⟩ = some s1 ∧ s1.st = st.tail ∧ Tracks s1.st s1.minSt := by
  cases h with
  | nil => exact ⟨⟨[], []⟩, rfl, rfl, Tracks.nil⟩
  | keep h1 hlt =>
    rename_i x st1 m ms1
    have hne : x ≠ m := by omega
    exact ⟨⟨st1, m :: ms1⟩, by simp [pop, hne], rfl, h1⟩
  | fresh h1 hle =>
    rename_i x st1 ms1
    exact ⟨⟨st1, ms1⟩, by simp [pop], rfl, h1⟩

theorem tracks_min {st ms : List Int} (h : Tracks st ms) :
    (st = [] → ms = []) ∧
      (st ≠ [] → ∃ m, ms.head? = some m ∧ m ∈ st ∧ ∀ y, y ∈ st → m ≤ y) := by
  induction h with
  | nil => exact ⟨fun _ => rfl, fun h => absurd rfl h⟩
  | keep h1 hlt ih =>
    rename_i x st1 m ms1
    refine ⟨fun h => (by cases h), fun _ => ?_⟩
    have hst : st1 ≠ [] := fun h0 => by
      have := ih.1 h0
      cases this
    obtain ⟨m1, hm1, hmem, hmin⟩ := ih.2 hst
    simp only [List.head?_cons, Option.some.injEq] at hm1
    subst hm1
    refine ⟨m, rfl, List.mem_cons_of_mem _ hmem, fun y hy => ?_⟩
    rcases List.mem_cons.1 hy with h | h
    · omega
    · exact hmin y h
  | fresh h1 hle ih =>
    rename_i x st1 ms1
    refine ⟨fun h => (by cases h), fun _ => ⟨x, rfl, List.mem_cons_self _ _, fun y hy => ?_⟩⟩
    rcases List.mem_cons.1 hy with h | h
    · omega
    · have hst : st1 ≠ [] := List.ne_nil_of_mem h
      obtain ⟨m1, hm1, _, hmin⟩ := ih.2 hst
      have := hle m1 hm1
      have := hmin y h
      omega

theorem minstack_run_spec : ∀ (ops : List Op) (s : MinStack), Tracks s.st s.minSt →
    ∃ s1, run s ops = some s1 ∧ s1.st = listRun s.st ops ∧ Tracks s1.st s1.minSt := by
  intro ops
  induction ops with
  | nil => exact fun s h => ⟨s, rfl, rfl, h⟩
  | cons op ops ih =>
    intro s h
    cases op with
    | push x =>
      obtain ⟨s1, hrun, hst, htr⟩ := ih (push s x) (tracks_push h x)
      refine ⟨s1, hrun, ?_, htr⟩
      rw [hst]
      have : (push s x).st = x :: s.st := by
        unfold push; split
        · rfl
        · split <;> rfl
      rw [this]; rfl
    | pop =>
      obtain ⟨s0, hpop, hst0, htr0⟩ := tracks_pop h
      obtain ⟨s1, hrun, hst, htr⟩ := ih s0 htr0
      refine ⟨s1, ?_, ?_, htr⟩
      · show (match pop s with | none => none | some s1 => run s1 ops) = some s1
        rw [show pop s = some s0 from hpop]
        exact hrun
      · rw [hst, hst0]; rfl

/-- C26: after every sequence of push/pop calls on a new `MinStack`, no call is undefined
and `st` holds the elements of the plain list; when the stack is non-empty, `getMin()` is
an element of the stack that is not greater than any element of the stack (so it stays the
minimum while duplicates of it remain) and `top()` is the most recently pushed remaining
element; `pop()` on an empty `MinStack` changes nothing. -/
theorem C26_min_stack (ops : List Op) :
    ∃ s, run construct ops = some s ∧ s.st = listRun [] ops ∧
      top s = (listRun [] ops).head? ∧
      (empty s = false →
        ∃ m t, getMin s = some m ∧ m ∈ listRun [] ops ∧ (∀ y, y ∈ listRun [] ops → m ≤ y) ∧
          top s = some t ∧ (listRun [] ops).head? = some t) ∧
      (empty s = true → pop s = some s) := by
  obtain ⟨s, hrun, hst, htr⟩ := minstack_run_spec ops construct Tracks.nil
  have hst1 : s.st = listRun [] ops := hst
  refine ⟨s, hrun, hst1, by rw [top, hst1], fun hne => ?_, fun hemp => ?_⟩
  · have hne1 : s.st ≠ [] := by
      intro h0
      rw [empty, h0] at hne
      cases hne
    obtain ⟨m, hm, hmem, hmin⟩ := (tracks_min htr).2 hne1
    rw [hst1] at hmem hmin hne1
    obtain ⟨t, ht⟩ : ∃ t, (listRun [] ops).head? = some t := by
      cases hl : listRun [] ops with
      | nil => exact absurd hl hne1
      | cons t _ => exact ⟨t, rfl⟩
    exact ⟨m, t, hm, hmem, hmin, by rw [top, hst1, ht], ht⟩
  · have h0 : s.st = [] := by
      cases hs : s.st with
      | nil => rfl
      | cons t r => rw [empty, hs] at hemp; cases hemp
    simp [pop, h0]

/-- Pushing 3, 5, 2, 2 and popping once leaves the minimum 2 (its duplicate remains);
popping again leaves 3; after all four pops a further pop changes nothing. -/
theorem C26_test_duplicates :
    (run construct [Op.push 3, Op.push 5, Op.push 2, Op.push 2, Op.pop]).bind
        (fun s => getMin s) = some 2 ∧
      (run construct [Op.push 3, Op.push 5, Op.push 2, Op.push 2, Op.pop, Op.pop]).bind
        (fun s => getMin s) = some 3 ∧
      (run construct [Op.push 3, Op.push 5, Op.push 2, Op.push 2, Op.pop, Op.pop]).bind
        (fun s => top s) = some 5 ∧
      run construct [Op.push 3, Op.pop, Op.pop] = some construct ∧
      ∃ s, run construct [Op.push 3, Op.push 5, Op.push 2, Op.push 2, Op.pop] = some s ∧
        s.st = listRun [] [Op.push 3, Op.push 5, Op.push 2, Op.push 2, Op.pop] :=
  ⟨by decide, by decide, by decide, by decide,
    (C26_min_stack [Op.push 3, Op.push 5, Op.push 2, Op.push 2, Op.pop]).imp
      (fun _ h => ⟨h.1, h.2.1⟩)⟩

end stackalgo.MinStack

/-! ## `next_greater`: the monotonic stack and the 32-bit loop index -/

namespace stackalgo

theorem popNotGreater_absorb {x y : Int} (hyx : y ≤ x) :
    ∀ l : List Int, popNotGreater x (popNotGreater y l) = popNotGreater x l := by
  intro l
  induction l with
  | nil => rfl
  | cons t l ih =>
    by_cases hty : t ≤ y
    · have htx : t ≤ x := le_trans hty hyx
      simp only [popNotGreater, hty, htx, if_true, ih]
    · simp only [popNotGreater, hty, if_false]

theorem popNotGreater_stackAfter (x : Int) :
    ∀ s : List Int, popNotGreater x (stackAfter s) =
      stackAfter (s.dropWhile (fun y => decide (y ≤ x))) := by
  intro s
  induction s with
  | nil => rfl
  | cons y s ih =>
    by_cases hyx : y ≤ x
    · simp only [stackAfter, popNotGreater, hyx, if_true, List.dropWhile_cons, decide_True,
        popNotGreater_absorb hyx, ih]
    · simp only [stackAfter, popNotGreater, hyx, if_false, List.dropWhile_cons, decide_False]

theorem head_stackAfter (s : List Int) : (stackAfter s).head? = s.head? := by
  cases s <;> rfl

theorem head_dropWhile_le (x : Int) :
    ∀ s : List Int, (s.dropWhile (fun y => decide (y ≤ x))).head? =
      s.find? (fun y => decide (x < y)) := by
  intro s
  induction s with
  | nil => rfl
  | cons y s ih =>
    by_cases hyx : y ≤ x
    · have hnot : ¬ x < y := not_lt.2 hyx
      simp only [List.dropWhile_cons, hyx, decide_True, if_true, List.find?_cons, hnot,
        decide_False, ih]
    · have hlt : x < y := not_le.1 hyx
      simp [List.dropWhile_cons, hyx, List.find?_cons, hlt]

/-- What the loop stores at index `i`: the top of the stack after the pops is the first
element to the right that is strictly greater. -/
theorem head_popNotGreater (x : Int) (s : List Int) :
    (popNotGreater x (stackAfter s)).head? = s.find? (fun y => decide (x < y)) := by
  rw [popNotGreater_stackAfter, head_stackAfter, head_dropWhile_le]

theorem nextGreaterLoop_done (arr : List Int) (fuel : Nat) {i : Int} (hi : i < 0)
    (res : List (Option Int)) (st : List Int) : nextGreaterLoop arr fuel i res st = some res := by
  have hn : ¬ (0 : Int) ≤ i := not_le.2 hi
  cases fuel <;> simp [nextGreaterLoop, hn]

theorem nextGreaterLoop_spec (arr : List Int) :
    ∀ (fuel k : Nat) (res : List (Option Int)) (st : List Int), k ≤ fuel → k ≤ arr.length →
      res.length = arr.length →
      (∀ j, k ≤ j → j < arr.length → res[j]? = some (firstGreaterRight arr j)) →
      st = stackAfter (arr.drop k) →
      ∃ r, nextGreaterLoop arr fuel ((k : Int) - 1) res st = some r ∧ r.length = arr.length ∧
        ∀ j, j < arr.length → r[j]? = some (firstGreaterRight arr j) := by
  intro fuel
  induction fuel with
  | zero =>
    intro k res st hk _ hlen hres _
    have hk0 : k = 0 := by omega
    subst hk0
    exact ⟨res, nextGreaterLoop_done arr 0 (by simp) res st, hlen,
      fun j hj => hres j (Nat.zero_le _) hj⟩
  | succ fuel ih =>
    intro k res st hk hkn hlen hres hst
    cases k with
    | zero =>
      exact ⟨res, nextGreaterLoop_done arr _ (by simp) res st, hlen,
        fun j hj => hres j (Nat.zero_le _) hj⟩
    | succ k =>
      have hlt : k < arr.length := by omega
      have hi : ((k + 1 : Nat) : Int) - 1 = (k : Int) := by push_cast; ring
      have hget : arr[k]? = some arr[k] := List.getElem?_eq_getElem hlt
      have hdrop : arr.drop k = arr[k] :: arr.drop (k + 1) := List.drop_eq_getElem_cons hlt
      have hstep : nextGreaterLoop arr (fuel + 1) (((k + 1 : Nat) : Int) - 1) res st =
          nextGreaterLoop arr fuel ((k : Int) - 1)
            (res.set k (popNotGreater arr[k] st).head?) (arr[k] :: popNotGreater arr[k] st) := by
        rw [hi]
        have h0 : (0 : Int) ≤ (k : Int) := Int.ofNat_nonneg k
        have hk1 : k < res.length := by omega
        simp [nextGreaterLoop, h0, hget, hk1]
      rw [hstep]
      refine ih k _ _ (by omega) (by omega) (by simp [hlen]) (fun j hkj hj => ?_) ?_
      · rcases Nat.eq_or_lt_of_le hkj with heq | hlt1
        · subst heq
          rw [List.getElem?_set_self (by omega), hst, head_popNotGreater]
          simp [firstGreaterRight, hget]
        · rw [List.getElem?_set_ne (by omega)]
          exact hres j (by omega) hj
      · rw [hst, hdrop, stackAfter]

theorem toInt32_small {n : Nat} (h : n < 2 ^ 31) : toInt32 n = (n : Int) := by
  have h1 : n % 2 ^ 32 = n := Nat.mod_eq_of_lt (by omega)
  unfold toInt32
  rw [h1, if_pos h]

/-- The meaning of `firstGreaterRight` by indices. -/
theorem firstGreaterRight_spec (arr : List Int) {i : Nat} {x : Int} (hx : arr[i]? = some x) :
    (∀ v, firstGreaterRight arr i = some v ↔
        ∃ j, i < j ∧ arr[j]? = some v ∧ x < v ∧
          ∀ k y, i < k → k < j → arr[k]? = some y → y ≤ x) ∧
      (firstGreaterRight arr i = none ↔ ∀ j y, i < j → arr[j]? = some y → y ≤ x) := by
  have hfind : ∀ (s : List Int),
      (∀ v, s.find? (fun y => decide (x < y)) = some v ↔
        ∃ j : Nat, s[j]? = some v ∧ x < v ∧
          ∀ (k : Nat) (y : Int), k < j → s[k]? = some y → y ≤ x) ∧
      (s.find? (fun y => decide (x < y)) = none ↔
        ∀ (j : Nat) (y : Int), s[j]? = some y → y ≤ x) := by
    intro s
    induction s with
    | nil =>
      exact ⟨fun v => ⟨fun h => (by cases h), fun ⟨j, h, _⟩ => (by simp at h)⟩, by simp⟩
    | cons t s ih =>
      have e0 : (t :: s)[0]? = some t := List.getElem?_cons_zero
      have es : ∀ j : Nat, (t :: s)[j + 1]? = s[j]? := fun j => List.getElem?_cons_succ
      by_cases ht : x < t
      · have hfc : (t :: s).find? (fun y => decide (x < y)) = some t := by
          simp [List.find?_cons, ht]
        rw [hfc]
        refine ⟨fun v => ⟨fun h => ?_, fun ⟨j, hj, hv, hmin⟩ => ?_⟩, ⟨fun h => ?_, fun h => ?_⟩⟩
        · simp only [Option.some.injEq] at h
          subst h
          exact ⟨0, e0, ht, fun k y hk => absurd hk (Nat.not_lt_zero k)⟩
        · cases j with
          | zero =>
            rw [e0] at hj
            exact hj
          | succ j =>
            have := hmin 0 t (Nat.succ_pos j) e0
            omega
        · cases h
        · have := h 0 t e0
          omega
      · have hfc : (t :: s).find? (fun y => decide (x < y)) =
            s.find? (fun y => decide (x < y)) := by
          simp [List.find?_cons, ht]
        rw [hfc]
        refine ⟨fun v => (ih.1 v).trans ⟨fun ⟨j, hj, hv, hmin⟩ => ?_, fun ⟨j, hj, hv, hmin⟩ => ?_⟩,
          ih.2.trans ⟨fun h j y hj => ?_, fun h j y hj => h (j + 1) y ((es j).trans hj)⟩⟩
        · refine ⟨j + 1, (es j).trans hj, hv, fun k y hk hy => ?_⟩
          cases k with
          | zero =>
            rw [e0] at hy
            simp only [Option.some.injEq] at hy
            omega
          | succ k => exact hmin k y (by omega) ((es k).symm.trans hy)
        · cases j with
          | zero =>
            rw [e0] at hj
            simp only [Option.some.injEq] at hj
            omega
          | succ j =>
            exact ⟨j, (es j).symm.trans hj, hv,
              fun k y hk hy => hmin (k + 1) y (by omega) ((es k).trans hy)⟩
        · cases j with
          | zero =>
            rw [e0] at hj
            simp only [Option.some.injEq] at hj
            omega
          | succ j => exact h j y ((es j).symm.trans hj)
  have hunf : firstGreaterRight arr i = (arr.drop (i + 1)).find? (fun y => decide (x < y)) := by
    simp [firstGreaterRight, hx]
  rw [hunf]
  have hidx : ∀ j, (arr.drop (i + 1))[j]? = arr[i + 1 + j]? :=
    fun j => List.getElem?_drop arr (i + 1) j
  obtain ⟨h1, h2⟩ := hfind (arr.drop (i + 1))
  refine ⟨fun v => (h1 v).trans ⟨fun ⟨j, hj, hv, hmin⟩ => ?_, fun ⟨j, hij, hj, hv, hmin⟩ => ?_⟩,
    h2.trans ⟨fun h j y hij hj => ?_, fun h j y hj => ?_⟩⟩
  · refine ⟨i + 1 + j, by omega, by rw [← hidx]; exact hj, hv, fun k y hik hkj hy => ?_⟩
    refine hmin (k - (i + 1)) y (by omega) ?_
    rw [hidx, show i + 1 + (k - (i + 1)) = k by omega]
    exact hy
  · refine ⟨j - (i + 1), ?_, hv, fun k y hk hy => ?_⟩
    · rw [hidx, show i + 1 + (j - (i + 1)) = j by omega]
      exact hj
    · rw [hidx] at hy
      exact hmin (i + 1 + k) y (by omega) (by omega) hy
  · refine h (j - (i + 1)) y ?_
    rw [hidx, show i + 1 + (j - (i + 1)) = j by omega]
    exact hj
  · rw [hidx] at hj
    exact h (i + 1 + j) y (by omega) hj

theorem wideVector_length : wideVector.length = 2 ^ 31 + 1 := by
  unfold wideVector
  rw [List.length_cons, List.length_cons, List.length_replicate]
  norm_num

theorem toInt32_wide : toInt32 (2 ^ 31 + 1) = -2 ^ 31 + 1 := by
  unfold toInt32
  norm_num

/-- C29 as written fails on a vector of `2^31 + 1` elements: `(int)arr.size() - 1` is
negative, the loop body never runs and every entry stays empty, although `arr[1] = 1` is
greater than `arr[0] = 0`. -/
theorem C29_wide_vector_stays_empty :
    wideVector.length = 2 ^ 31 + 1 ∧ wideVector[0]? = some 0 ∧ wideVector[1]? = some 1 ∧
      next_greater wideVector = some (List.replicate (2 ^ 31 + 1) none) ∧
      (List.replicate (2 ^ 31 + 1) (none : Option Int))[0]? = some none := by
  refine ⟨wideVector_length, ?_, ?_, ?_, ?_⟩
  · unfold wideVector
    rw [List.getElem?_cons_zero]
  · unfold wideVector
    rw [List.getElem?_cons_succ, List.getElem?_cons_zero]
  · unfold next_greater
    rw [wideVector_length, toInt32_wide, if_neg (by norm_num)]
    exact nextGreaterLoop_done _ _ (by norm_num) _ _
  · rw [List.getElem?_replicate, if_pos (by norm_num)]

/-- C29, amended: for every vector `arr` of fewer than `2^31` elements, `next_greater(arr)`
returns a vector of the same length and, for every index `i`, its `i`-th entry is `arr[j]`
for the smallest `j > i` with `arr[j] > arr[i]`, or the empty optional when no element to
the right of `i` is strictly greater than `arr[i]`. -/
theorem C29_next_greater (arr : List Int) (hlen : arr.length < 2 ^ 31) :
    ∃ res, next_greater arr = some res ∧ res.length = arr.length ∧
      ∀ (i : Nat) (x : Int), arr[i]? = some x →
        (∀ v, res[i]? = some (some v) ↔
          ∃ j, i < j ∧ arr[j]? = some v ∧ x < v ∧
            ∀ (k : Nat) (y : Int), i < k → k < j → arr[k]? = some y → y ≤ x) ∧
        (res[i]? = some none ↔ ∀ (j : Nat) (y : Int), i < j → arr[j]? = some y → y ≤ x) := by
  have hcast : toInt32 arr.length = (arr.length : Int) := toInt32_small hlen
  have hne : ¬ ((arr.length : Int) = -2 ^ 31) := by
    have : (0 : Int) ≤ (arr.length : Int) := Int.ofNat_nonneg _
    omega
  obtain ⟨r, hr, hrlen, hcells⟩ := nextGreaterLoop_spec arr arr.length arr.length
    (List.replicate arr.length none) [] (le_refl _) (le_refl _) (by simp)
    (fun j h1 h2 => by omega) (by simp [stackAfter])
  refine ⟨r, ?_, hrlen, fun i x hx => ?_⟩
  · unfold next_greater
    rw [hcast, if_neg hne]
    exact hr
  · have hi : i < arr.length := by
      by_contra hcon
      rw [List.getElem?_eq_none (by omega)] at hx
      cases hx
    obtain ⟨h1, h2⟩ := firstGreaterRight_spec arr hx
    rw [hcells i hi]
    refine ⟨fun v => ?_, ?_⟩
    · rw [← h1 v]
      simp
    · rw [← h2]
      simp

/-- On `{2, 1, 2, 4, 3}` the result is `{4, 2, 4, -, -}`. -/
theorem C29_test_vector :
    next_greater [2, 1, 2, 4, 3] = some [some 4, some 2, some 4, none, none] ∧
      ∃ res, next_greater [2, 1, 2, 4, 3] = some res ∧ res.length = 5 :=
  ⟨by decide, (C29_next_greater [2, 1, 2, 4, 3] (by decide)).imp (fun _ h => ⟨h.1, h.2.1⟩)⟩

end stackalgo

/-! ## `QueueWithStacks` refines the FIFO list -/

namespace qalg.QueueWithStacks

variable {T : Type}

theorem qws_transferLoop_spec : ∀ (fuel : Nat) (ins outs : List T), ins.length ≤ fuel →
    transferLoop fuel ins outs = some ([], outs ++ ins.reverse) := by
  intro fuel
  induction fuel with
  | zero =>
    intro ins outs h
    have h0 : ins = [] := List.length_eq_zero.1 (by omega)
    subst h0
    simp [transferLoop]
  | succ fuel ih =>
    intro ins outs h
    rcases List.eq_nil_or_concat ins with h0 | ⟨ini, x, h1⟩
    · subst h0
      simp [transferLoop]
    · rw [List.concat_eq_append] at h1
      subst h1
      have hlen : ini.length ≤ fuel := by
        simp only [List.length_append, List.length_singleton] at h
        omega
      simp only [transferLoop, List.getLast?_concat, List.dropLast_concat, ih ini _ hlen,
        List.reverse_append, List.reverse_singleton, List.singleton_append, List.append_assoc]

/-- After `transfer_if_needed()` the contents are the same and `out_stack` is empty only
when the queue is. -/
theorem qws_transfer_spec (q : QueueWithStacks T) :
    ∃ q1, transfer_if_needed q = some q1 ∧ contents q1 = contents q ∧
      (q1.out_stack = [] → contents q = []) := by
  cases hout : q.out_stack with
  | cons y ys =>
    refine ⟨q, by simp [transfer_if_needed, hout], rfl, fun h => ?_⟩
    rw [hout] at h
    cases h
  | nil =>
    refine ⟨{ in_stack := [], out_stack := q.in_stack.reverse }, ?_, ?_, fun h => ?_⟩
    · simp [transfer_if_needed, hout, qws_transferLoop_spec _ q.in_stack [] (le_refl _)]
    · simp [contents, hout]
    · have h1 : q.in_stack = [] := by simpa using h
      simp [contents, hout, h1]

theorem qws_last_is_head (q : QueueWithStacks T) (h : q.out_stack ≠ []) :
    q.out_stack.getLast? = (contents q).head? ∧
      contents { q with out_stack := q.out_stack.dropLast } = (contents q).tail := by
  rcases List.eq_nil_or_concat q.out_stack with h0 | ⟨o, x, h1⟩
  · exact absurd h0 h
  · rw [List.concat_eq_append] at h1
    simp [contents, h1]

theorem qws_front_const_spec (q : QueueWithStacks T) :
    front_ptr_const q = (contents q).head? ∧ front_or_throw_const q = (contents q).head? := by
  have hmain : front_ptr_const q = (contents q).head? := by
    by_cases hout : q.out_stack = []
    · cases hin : q.in_stack with
      | nil => simp [front_ptr_const, contents, hout, hin]
      | cons y ys => simp [front_ptr_const, contents, hout, hin]
    · have hne : q.out_stack.isEmpty = false := by
        cases h : q.out_stack with
        | nil => exact absurd h hout
        | cons _ _ => rfl
      rw [← (qws_last_is_head q hout).1]
      simp [front_ptr_const, hne]
  exact ⟨hmain, hmain⟩

theorem qws_isEmpty_false {l : List T} (h : l ≠ []) : l.isEmpty = false := by
  cases l with
  | nil => exact absurd rfl h
  | cons _ _ => rfl

/-- One call agrees with the FIFO list on the value returned and on the contents. -/
theorem qws_call_spec (q : QueueWithStacks T) (op : Op T) :
    ∃ q1, call q op = some ((fifoCall (contents q) op).1, q1) ∧
      contents q1 = (fifoCall (contents q) op).2 := by
  obtain ⟨qt, htr, hcont, hempty⟩ := qws_transfer_spec q
  cases op with
  | push v => exact ⟨push q v, rfl, by simp [contents, push, fifoCall]⟩
  | pop =>
    by_cases hout : qt.out_stack = []
    · have hnil := hempty hout
      refine ⟨qt, ?_, ?_⟩
      · simp [call, pop, htr, hout, fifoCall, hnil]
      · rw [hcont, hnil]; rfl
    · have hne : contents q ≠ [] := by
        rw [← hcont]
        intro h
        simp [contents] at h
        exact hout h.1
      refine ⟨{ qt with out_stack := qt.out_stack.dropLast }, ?_, ?_⟩
      · simp [call, pop, htr, qws_isEmpty_false hout, fifoCall, qws_isEmpty_false hne]
      · rw [(qws_last_is_head qt hout).2, hcont]; rfl
  | front_ptr =>
    refine ⟨qt, ?_, hcont⟩
    by_cases hout : qt.out_stack = []
    · simp [call, front_ptr, htr, hout, fifoCall, hempty hout]
    · simp [call, front_ptr, htr, qws_isEmpty_false hout, fifoCall,
        (qws_last_is_head qt hout).1, hcont]
  | front_or_throw =>
    refine ⟨qt, ?_, hcont⟩
    by_cases hout : qt.out_stack = []
    · simp [call, front_or_throw, htr, hout, fifoCall, hempty hout]
    · simp [call, front_or_throw, htr, qws_isEmpty_false hout, fifoCall,
        (qws_last_is_head qt hout).1, hcont]

theorem qws_size_spec (q : QueueWithStacks T) : size q = (contents q).length := by
  simp [size, contents, Nat.add_comm]

theorem qws_transcript_spec : ∀ (ops : List (Op T)) (q : QueueWithStacks T),
    transcript q ops = some (fifoTranscript (contents q) ops) := by
  intro ops
  induction ops with
  | nil => exact fun _ => rfl
  | cons op ops ih =>
    intro q
    obtain ⟨q1, hcall, hcont⟩ := qws_call_spec q op
    simp only [transcript, hcall, ih q1, Option.map_some', fifoTranscript,
      (qws_front_const_spec q1).1, (qws_front_const_spec q1).2, qws_size_spec, hcont]

theorem qws_run_spec : ∀ (ops : List (Op T)) (q : QueueWithStacks T),
    ∃ q1, run q ops = some q1 ∧ contents q1 = fifoRun (contents q) ops := by
  intro ops
  induction ops with
  | nil => exact fun q => ⟨q, rfl, rfl⟩
  | cons op ops ih =>
    intro q
    obtain ⟨q1, hcall, hcont⟩ := qws_call_spec q op
    obtain ⟨q2, hrun, hcont2⟩ := ih q1
    exact ⟨q2, by simp only [run, hcall, hrun], by rw [hcont2, hcont]; rfl⟩

/-- C24: for every sequence of push/pop/front calls on a new `QueueWithStacks`, every call
returns, and what the calls return and what the const `front_ptr()`/`front_or_throw()` and
`size()` show after each call are those of a FIFO list.  In the state reached, the
front-to-back contents `reverse(out_stack) ++ in_stack` are that list: `push` appends at the
back, `pop` returns false iff the queue is empty and otherwise removes the oldest element,
the mutating `front_ptr()`/`front_or_throw()` return the oldest element and keep the
contents, and the const versions return the same element (they are pure functions of the
state, so neither stack can change). -/
theorem C24_queue_with_stacks_is_fifo (ops : List (Op T)) :
    transcript (construct : QueueWithStacks T) ops = some (fifoTranscript [] ops) ∧
      ∃ q : QueueWithStacks T, run construct ops = some q ∧
        q.out_stack.reverse ++ q.in_stack = fifoRun [] ops ∧
        (∀ v, contents (push q v) = contents q ++ [v]) ∧
        (∃ q1, pop q = some (!(contents q).isEmpty, q1) ∧ contents q1 = (contents q).tail) ∧
        ((contents q = [] ↔ empty q = true) ∧ size q = (contents q).length) ∧
        (∃ q1, front_ptr q = some ((contents q).head?, q1) ∧ contents q1 = contents q) ∧
        (∃ q1, front_or_throw q = some ((contents q).head?, q1) ∧ contents q1 = contents q) ∧
        front_ptr_const q = (contents q).head? ∧
        front_or_throw_const q = (contents q).head? := by
  refine ⟨qws_transcript_spec ops construct, ?_⟩
  obtain ⟨q, hrun, hcont⟩ := qws_run_spec ops (construct : QueueWithStacks T)
  refine ⟨q, hrun, hcont, fun v => by simp [contents, push], ?_, ⟨?_, qws_size_spec q⟩, ?_, ?_,
    (qws_front_const_spec q).1, (qws_front_const_spec q).2⟩
  · obtain ⟨q1, hcall, hc1⟩ := qws_call_spec q Op.pop
    simp only [call, fifoCall, Option.map_eq_some'] at hcall
    obtain ⟨r, hr, hr2⟩ := hcall
    refine ⟨q1, ?_, hc1⟩
    rw [hr]
    simp only [Prod.mk.injEq, Reply.flag.injEq] at hr2
    rw [← hr2.1, ← hr2.2]
  · cases hi : q.in_stack <;> cases ho : q.out_stack <;> simp [contents, empty, hi, ho]
  · obtain ⟨q1, hcall, hc1⟩ := qws_call_spec q Op.front_ptr
    simp only [call, fifoCall, Option.map_eq_some'] at hcall
    obtain ⟨r, hr, hr2⟩ := hcall
    refine ⟨q1, ?_, hc1⟩
    rw [hr]
    simp only [Prod.mk.injEq, Reply.elem.injEq] at hr2
    rw [← hr2.1, ← hr2.2]
  · obtain ⟨q1, hcall, hc1⟩ := qws_call_spec q Op.front_or_throw
    simp only [call, fifoCall, Option.map_eq_some'] at hcall
    obtain ⟨r, hr, hr2⟩ := hcall
    refine ⟨q1, ?_, hc1⟩
    rw [hr]
    simp only [Prod.mk.injEq, Reply.elem.injEq] at hr2
    rw [← hr2.1, ← hr2.2]

/-- Pushing 1, 2, popping, pushing 3: the front is 2 both through the mutating and the
const access, then the queue drains in the order 2, 3 and a further `pop` returns false. -/
theorem C24_test_drain :
    transcript (construct : QueueWithStacks Int)
        [Op.push 1, Op.push 2, Op.pop, Op.push 3, Op.front_ptr, Op.pop, Op.pop, Op.pop,
          Op.front_or_throw] =
      some (fifoTranscript []
        [Op.push 1, Op.push 2, Op.pop, Op.push 3, Op.front_ptr, Op.pop, Op.pop, Op.pop,
          Op.front_or_throw]) ∧
      transcript (construct : QueueWithStacks Int)
          [Op.push 1, Op.push 2, Op.pop, Op.push 3, Op.front_ptr, Op.pop, Op.pop, Op.pop] =
        some [(Reply.unit, some 1, some 1, 1), (Reply.unit, some 1, some 1, 2),
          (Reply.flag true, some 2, some 2, 1), (Reply.unit, some 2, some 2, 2),
          (Reply.elem (some 2), some 2, some 2, 2), (Reply.flag true, some 3, some 3, 1),
          (Reply.flag true, none, none, 0), (Reply.flag false, none, none, 0)] :=
  ⟨(C24_queue_with_stacks_is_fifo
      [Op.push (1 : Int), Op.push 2, Op.pop, Op.push 3, Op.front_ptr, Op.pop, Op.pop, Op.pop,
        Op.front_or_throw]).1,
    by decide⟩

end qalg.QueueWithStacks

/-! ## `DynamicArray` refines the plain list -/

namespace DynamicArray

variable {T : Type}

variable {T : Type}

variable {T : Type}

end DynamicArray

/-! ## `bfs_on_adjlist`: the loop invariants and shortest paths -/

namespace qalg

theorem entry_of_getElem? {l : List Int} {v : Nat} {x : Int} (h : l[v]? = some x) :
    entry l v = x := by
  simp [entry, List.getD_eq_getElem?_getD, h]

theorem entry_of_le {l : List Int} {v : Nat} (h : l.length ≤ v) : entry l v = -1 := by
  simp [entry, List.getD_eq_getElem?_getD, List.getElem?_eq_none h]

theorem lt_of_entry_ne {l : List Int} {v : Nat} (h : entry l v ≠ -1) : v < l.length := by
  by_contra hcon
  exact h (entry_of_le (by omega))

theorem getElem?_entry {l : List Int} {v : Nat} (h : v < l.length) :
    l[v]? = some (entry l v) := by
  simp [entry, List.getD_eq_getElem?_getD, List.getElem?_eq_getElem h]

theorem entry_set_same {l : List Int} {i : Nat} (a : Int) (h : i < l.length) :
    entry (l.set i a) i = a :=
  entry_of_getElem? (List.getElem?_set_self h)

theorem entry_set_other (l : List Int) {i j : Nat} (a : Int) (h : j ≠ i) :
    entry (l.set i a) j = entry l j := by
  simp only [entry, List.getD_eq_getElem?_getD]
  rw [List.getElem?_set_ne (Ne.symm h)]

theorem count_set_unvisited : ∀ (l : List Int) (i : Nat) (a : Int), l[i]? = some (-1) →
    a ≠ -1 → (l.set i a).count (-1) + 1 = l.count (-1) := by
  intro l
  induction l with
  | nil => intro i a h; simp at h
  | cons x xs ih =>
    intro i a h ha
    cases i with
    | zero =>
      simp only [List.getElem?_cons_zero, Option.some.injEq] at h
      subst h
      simp [List.set, List.count_cons, ha]
    | succ i =>
      rw [List.getElem?_cons_succ] at h
      have := ih i a h ha
      simp only [List.set, List.count_cons]
      omega

theorem replicate_count_set (n i : Nat) (hi : i < n) :
    ((List.replicate n (-1 : Int)).set i 0).count (-1) + 1 = n := by
  have h := count_set_unvisited (List.replicate n (-1 : Int)) i 0
    (by simp [List.getElem?_replicate, hi]) (by decide)
  rw [h]
  simp

/-- Handling one more neighbour that changes nothing. -/
theorem visitInv_seen {adj : List (List Int)} {s u : Nat} {seen dist parent q : List Int}
    (h : VisitInv adj s u seen dist parent q) (v : Int)
    (hv : ∀ w : Nat, (w : Int) = v → w < adj.length →
      entry dist w ≠ -1 ∧ entry dist w ≤ entry dist u + 1) :
    VisitInv adj s u (seen ++ [v]) dist parent q :=
  { base := h.base
    closed := h.closed
    seenU := fun w hw hlt => by
      rcases List.mem_append.1 hw with h1 | h1
      · exact h.seenU w h1 hlt
      · exact hv w (List.mem_singleton.1 h1) hlt
    bound := h.bound
    qGe := h.qGe
    uVis := h.uVis }

/-- Discovering the unvisited neighbour `w` of `u`: `dist[w] = dist[u] + 1`,
`parent[w] = u`, `q.push(w)`. -/
theorem visitInv_discover {adj : List (List Int)} {s u : Nat} {seen dist parent q : List Int}
    (h : VisitInv adj s u seen dist parent q) {w : Nat} (hedge : Edge adj u w)
    (hw : entry dist w = -1) :
    VisitInv adj s u (seen ++ [(w : Int)]) (dist.set w (entry dist u + 1))
      (parent.set w (u : Int)) (q ++ [(w : Int)]) := by
  have hwn : w < adj.length := hedge.choose_spec.2.2
  have hwd : w < dist.length := by rw [h.base.lenD]; exact hwn
  have hwp : w < parent.length := by rw [h.base.lenP]; exact hwn
  obtain ⟨du, hdu, hwalk⟩ := h.base.sound u h.uVis
  have huw : u ≠ w := fun e => h.uVis (e ▸ hw)
  have hDw : entry (dist.set w (entry dist u + 1)) w = entry dist u + 1 :=
    entry_set_same _ hwd
  have hD : ∀ x, x ≠ w → entry (dist.set w (entry dist u + 1)) x = entry dist x :=
    fun x hx => entry_set_other dist _ hx
  have hPw : entry (parent.set w (u : Int)) w = (u : Int) := entry_set_same _ hwp
  have hP : ∀ x, x ≠ w → entry (parent.set w (u : Int)) x = entry parent x :=
    fun x hx => entry_set_other parent _ hx
  have hvis : ∀ x, entry dist x ≠ -1 → x ≠ w := fun x hx e => hx (e ▸ hw)
  have hnew : entry dist u + 1 ≠ -1 := by rw [hdu]; omega
  have hold : ∀ x, entry (dist.set w (entry dist u + 1)) x ≠ -1 → x ≠ w → entry dist x ≠ -1 :=
    fun x hx hne => by rw [hD x hne] at hx; exact hx
  have hsw : s ≠ w := hvis s (by rw [h.base.startD]; decide)
  have hqw : ∀ x, x ∈ q → x.toNat ≠ w := fun x hx => hvis _ (h.base.qVis x hx).2
  refine
    { base :=
        { lenD := by rw [List.length_set]; exact h.base.lenD
          lenP := by rw [List.length_set]; exact h.base.lenP
          startD := by rw [hD s hsw]; exact h.base.startD
          sound := ?_
          qVis := ?_
          qSorted := ?_
          parStart := by rw [hP s hsw]; exact h.base.parStart
          parUnvis := ?_
          parVis := ?_ }
      closed := ?_
      seenU := ?_
      bound := ?_
      qGe := ?_
      uVis := by rw [hD u huw]; exact h.uVis }
  · intro v hv
    by_cases hvw : v = w
    · subst hvw
      exact ⟨du + 1, by rw [hDw, hdu]; push_cast; rfl, Walk.snoc hwalk hedge⟩
    · rw [hD v hvw]
      exact h.base.sound v (hold v hv hvw)
  · intro x hx
    rcases List.mem_append.1 hx with h1 | h1
    · rw [hD _ (hqw x h1)]
      exact h.base.qVis x h1
    · rw [List.mem_singleton.1 h1, Int.toNat_ofNat, hDw]
      exact ⟨Int.ofNat_nonneg w, hnew⟩
  · rw [List.pairwise_append]
    refine ⟨?_, List.pairwise_singleton _ _, fun x hx y hy => ?_⟩
    · refine h.base.qSorted.imp_of_mem ?_
      intro x y hx hy hxy
      rw [hD _ (hqw x hx), hD _ (hqw y hy)]
      exact hxy
    · rw [List.mem_singleton.1 hy, Int.toNat_ofNat, hDw, hD _ (hqw x hx)]
      exact h.bound _
  · intro v hv
    have hvw : v ≠ w := fun e => by
      rw [e, hDw] at hv
      exact hnew hv
    rw [hP v hvw]
    rw [hD v hvw] at hv
    exact h.base.parUnvis v hv
  · intro v hv hvs
    by_cases hvw : v = w
    · subst hvw
      exact ⟨u, hPw, hedge, by rw [hD u huw]; exact h.uVis, by rw [hDw, hD u huw]⟩
    · obtain ⟨u0, hp0, he0, hd0, hdv⟩ := h.base.parVis v (hold v hv hvw) hvs
      exact ⟨u0, by rw [hP v hvw]; exact hp0, he0, by rw [hD u0 (hvis u0 hd0)]; exact hd0,
        by rw [hD v hvw, hD u0 (hvis u0 hd0)]; exact hdv⟩
  · intro v x hv hvq hvu hvx
    have hvw : v ≠ w := fun e => hvq (by rw [e]; exact List.mem_append_right _ (List.mem_singleton_self _))
    have hvq0 : (v : Int) ∉ q := fun hmem => hvq (List.mem_append_left _ hmem)
    obtain ⟨h1, h2⟩ := h.closed v x (hold v hv hvw) hvq0 hvu hvx
    rw [hD x (hvis x h1), hD v hvw]
    exact ⟨h1, h2⟩
  · intro x hx hxn
    rcases List.mem_append.1 hx with h1 | h1
    · obtain ⟨h2, h3⟩ := h.seenU x h1 hxn
      rw [hD x (hvis x h2), hD u huw]
      exact ⟨h2, h3⟩
    · have hxw : x = w := by exact_mod_cast List.mem_singleton.1 h1
      subst hxw
      rw [hDw, hD u huw]
      exact ⟨hnew, le_refl _⟩
  · intro v
    rw [hD u huw]
    by_cases hvw : v = w
    · rw [hvw, hDw]
    · rw [hD v hvw]
      exact h.bound v
  · intro x hx
    rw [hD u huw]
    rcases List.mem_append.1 hx with h1 | h1
    · rw [hD _ (hqw x h1)]
      exact h.qGe x h1
    · rw [List.mem_singleton.1 h1, Int.toNat_ofNat, hDw]
      omega

/-- The loop over the neighbours of `u` returns and keeps the invariant; afterwards all
neighbours of `u` have been handled. -/
theorem visitNeighbours_spec {adj : List (List Int)} {s u : Nat} {nbrs : List Int}
    (hadj : adj[u]? = some nbrs) :
    ∀ (todo seen dist parent q : List Int) (fuel : Nat), nbrs = seen ++ todo →
      VisitInv adj s u seen dist parent q → dist.count (-1) + q.length ≤ fuel →
      ∃ r, visitNeighbours (adj.length : Int) (u : Int) todo (dist, parent, q) = some r ∧
        VisitInv adj s u nbrs r.1 r.2.1 r.2.2 ∧ r.1.count (-1) + r.2.2.length ≤ fuel := by
  intro todo
  induction todo with
  | nil =>
    intro seen dist parent q fuel hn hinv hm
    rw [List.append_nil] at hn
    subst hn
    exact ⟨(dist, parent, q), rfl, hinv, hm⟩
  | cons v vs ih =>
    intro seen dist parent q fuel hn hinv hm
    have hn1 : nbrs = (seen ++ [v]) ++ vs := by rw [hn]; simp
    by_cases hrange : v < 0 ∨ v ≥ (adj.length : Int)
    · have hstep : visitNeighbours (adj.length : Int) (u : Int) (v :: vs) (dist, parent, q) =
          visitNeighbours (adj.length : Int) (u : Int) vs (dist, parent, q) := by
        simp only [visitNeighbours, hrange, if_true]
      rw [hstep]
      exact ih (seen ++ [v]) dist parent q fuel hn1
        (visitInv_seen hinv v (fun w hw hlt => by omega)) hm
    · have hv0 : 0 ≤ v := by omega
      have hvn : v < (adj.length : Int) := by omega
      have hwI : ((v.toNat : Nat) : Int) = v := Int.toNat_of_nonneg hv0
      have hw : v.toNat < adj.length := by omega
      have hget : dist[v.toNat]? = some (entry dist v.toNat) :=
        getElem?_entry (by rw [hinv.base.lenD]; exact hw)
      by_cases hdv : entry dist v.toNat = -1
      · have hul : u < dist.length := lt_of_entry_ne hinv.uVis
        have hgetu : dist[u]? = some (entry dist u) := getElem?_entry hul
        have hwp : v.toNat < parent.length := by rw [hinv.base.lenP]; exact hw
        have hstep : visitNeighbours (adj.length : Int) (u : Int) (v :: vs) (dist, parent, q) =
            visitNeighbours (adj.length : Int) (u : Int) vs
              (dist.set v.toNat (entry dist u + 1), parent.set v.toNat (u : Int),
                q ++ [((v.toNat : Nat) : Int)]) := by
          simp only [visitNeighbours, hrange, if_false, hget, hdv, if_true, Int.toNat_ofNat,
            hgetu, hwp, hwI]
        have hedge : Edge adj u v.toNat :=
          ⟨nbrs, hadj, by rw [hwI, hn]; simp, hw⟩
        have hinv1 := visitInv_discover hinv hedge hdv
        rw [hwI] at hinv1
        rw [hstep, hwI]
        refine ih (seen ++ [v]) _ _ _ fuel hn1 hinv1 ?_
        have hnew : entry dist u + 1 ≠ -1 := by
          obtain ⟨du, hdu, _⟩ := hinv.base.sound u hinv.uVis
          rw [hdu]; omega
        have hcount := count_set_unvisited dist v.toNat (entry dist u + 1)
          (by rw [hget, hdv]) hnew
        rw [List.length_append, List.length_singleton]
        omega
      · have hstep : visitNeighbours (adj.length : Int) (u : Int) (v :: vs) (dist, parent, q) =
            visitNeighbours (adj.length : Int) (u : Int) vs (dist, parent, q) := by
          simp only [visitNeighbours, hrange, if_false, hget, hdv]
        rw [hstep]
        refine ih (seen ++ [v]) dist parent q fuel hn1 (visitInv_seen hinv v (fun w hw1 _ => ?_)) hm
        have hwv : w = v.toNat := by omega
        rw [hwv]
        exact ⟨hdv, hinv.bound _⟩

/-- The loop `while (!q.empty())` returns within `fuel` iterations when `fuel` bounds the
number of unvisited vertices plus the length of the queue, and ends with an empty queue. -/
theorem bfsLoop_spec {adj : List (List Int)} {s : Nat} :
    ∀ (fuel : Nat) (dist parent q : List Int), LoopInv adj s dist parent q →
      dist.count (-1) + q.length ≤ fuel →
      ∃ r, bfsLoop adj (adj.length : Int) fuel dist parent q = some r ∧
        LoopInv adj s r.1 r.2 [] := by
  intro fuel
  induction fuel with
  | zero =>
    intro dist parent q hinv hm
    have hq : q = [] := List.length_eq_zero.1 (by omega)
    subst hq
    exact ⟨(dist, parent), rfl, hinv⟩
  | succ fuel ih =>
    intro dist parent q hinv hm
    cases q with
    | nil => exact ⟨(dist, parent), rfl, hinv⟩
    | cons x rest =>
      obtain ⟨hx0, hxv⟩ := hinv.base.qVis x (List.mem_cons_self _ _)
      have hxI : ((x.toNat : Nat) : Int) = x := Int.toNat_of_nonneg hx0
      have hxn : x.toNat < adj.length := by
        rw [← hinv.base.lenD]; exact lt_of_entry_ne hxv
      have hadj : adj[x.toNat]? = some adj[x.toNat] := List.getElem?_eq_getElem hxn
      have hsorted := List.pairwise_cons.1 hinv.base.qSorted
      have hvinv : VisitInv adj s x.toNat [] dist parent rest :=
        { base :=
            { lenD := hinv.base.lenD
              lenP := hinv.base.lenP
              startD := hinv.base.startD
              sound := hinv.base.sound
              qVis := fun y hy => hinv.base.qVis y (List.mem_cons_of_mem _ hy)
              qSorted := hsorted.2
              parStart := hinv.base.parStart
              parUnvis := hinv.base.parUnvis
              parVis := hinv.base.parVis }
          closed := fun v w hv hvq hvu hvw => hinv.closed v w hv (fun hmem => by
            rcases List.mem_cons.1 hmem with h1 | h1
            · exact hvu (by omega)
            · exact hvq h1) hvw
          seenU := fun w hw _ => absurd hw (List.not_mem_nil _)
          bound := hinv.bound x rfl
          qGe := fun y hy => hsorted.1 y hy
          uVis := hxv }
      obtain ⟨r, hvisit, hr, hm1⟩ := visitNeighbours_spec hadj adj[x.toNat] [] dist parent rest fuel
        (by simp) hvinv (by simp only [List.length_cons] at hm; omega)
      rw [hxI] at hvisit
      have hloop : LoopInv adj s r.1 r.2.1 r.2.2 :=
        { base := hr.base
          closed := fun v w hv hvq hvw => by
            by_cases hvu : v = x.toNat
            · obtain ⟨nb, hnb, hmem, hwn⟩ := hvw
              rw [hvu, hadj] at hnb
              cases hnb
              rw [hvu]
              exact hr.seenU w hmem hwn
            · exact hr.closed v w hv hvq hvu hvw
          bound := fun y hy v => by
            have hmem : y ∈ r.2.2 := List.mem_of_mem_head? hy
            have h1 := hr.qGe y hmem
            have h2 := hr.bound v
            omega }
      obtain ⟨r1, hr1, hfin⟩ := ih r.1 r.2.1 r.2.2 hloop hm1
      exact ⟨r1, by simp only [bfsLoop, hadj, hvisit, hr1], hfin⟩

/-- When the queue is empty, every vertex with a path from `s` has a `dist` entry, which
is at most the length of the path. -/
theorem bfs_complete {adj : List (List Int)} {s : Nat} {dist parent : List Int}
    (h : LoopInv adj s dist parent []) {v k : Nat} (hw : Walk adj s v k) :
    entry dist v ≠ -1 ∧ entry dist v ≤ (k : Int) := by
  induction hw with
  | nil => rw [h.base.startD]; exact ⟨by decide, le_refl _⟩
  | snoc _ hedge ih =>
    obtain ⟨h1, h2⟩ := h.closed _ _ ih.1 (List.not_mem_nil _) hedge
    exact ⟨h1, by push_cast; omega⟩

theorem bfs_initial {adj : List (List Int)} {start : Int} (h0 : 0 ≤ start)
    (hlt : start < (adj.length : Int)) :
    LoopInv adj start.toNat ((List.replicate adj.length (-1)).set start.toNat 0)
      ((List.replicate adj.length (-1)).set start.toNat (-1)) [start] := by
  have hsI : ((start.toNat : Nat) : Int) = start := Int.toNat_of_nonneg h0
  have hs : start.toNat < adj.length := by omega
  have hrep : ∀ v, entry (List.replicate adj.length (-1 : Int)) v = -1 := by
    intro v
    by_cases hv : v < adj.length
    · exact entry_of_getElem? (by simp [List.getElem?_replicate, hv])
    · exact entry_of_le (by simp; omega)
  have hDs : entry ((List.replicate adj.length (-1 : Int)).set start.toNat 0) start.toNat = 0 :=
    entry_set_same _ (by simpa using hs)
  have hD : ∀ v, v ≠ start.toNat →
      entry ((List.replicate adj.length (-1 : Int)).set start.toNat 0) v = -1 :=
    fun v hv => by rw [entry_set_other _ _ hv]; exact hrep v
  have hP : ∀ v, entry ((List.replicate adj.length (-1 : Int)).set start.toNat (-1)) v = -1 := by
    intro v
    by_cases hv : v = start.toNat
    · rw [hv]; exact entry_set_same _ (by simpa using hs)
    · rw [entry_set_other _ _ hv]; exact hrep v
  have hvis : ∀ v, entry ((List.replicate adj.length (-1 : Int)).set start.toNat 0) v ≠ -1 →
      v = start.toNat := fun v hv => by
    by_contra hne
    exact hv (hD v hne)
  refine
    { base :=
        { lenD := by simp
          lenP := by simp
          startD := hDs
          sound := fun v hv => ⟨0, by rw [hvis v hv, hDs]; rfl, by rw [hvis v hv]; exact Walk.nil⟩
          qVis := fun x hx => by
            rw [List.mem_singleton.1 hx, hDs]
            exact ⟨h0, by decide⟩
          qSorted := List.pairwise_singleton _ _
          parStart := hP _
          parUnvis := fun v _ => hP v
          parVis := fun v hv hne => absurd (hvis v hv) hne }
      closed := fun v w hv hvq _ => by
        exfalso
        apply hvq
        rw [hvis v hv, hsI]
        exact List.mem_singleton_self _
      bound := fun x hx v => by
        simp only [List.head?_cons, Option.some.injEq] at hx
        rw [← hx, hDs]
        by_cases hv : v = start.toNat
        · rw [hv, hDs]; decide
        · rw [hD v hv]; decide }

theorem toInt32_two_pow_31 : stackalgo.toInt32 (2 ^ 31) = -2 ^ 31 := by
  unfold stackalgo.toInt32
  norm_num

/-- C25 as written fails for a graph of `2^31` vertices (none with a neighbour):
`static_cast<int>(adj.size())` is `INT_MIN`, so the start vertex 0, which is in range,
makes `bfs_on_adjlist` throw `out_of_range`. -/
theorem C25_wide_graph_throws :
    (0 : Int) < ((List.replicate (2 ^ 31) ([] : List Int)).length : Int) ∧
      bfs_on_adjlist (List.replicate (2 ^ 31) []) 0 = some none := by
  refine ⟨by rw [List.length_replicate]; norm_num, ?_⟩
  unfold bfs_on_adjlist
  rw [List.length_replicate, toInt32_two_pow_31, if_pos (Or.inr (by norm_num))]

/-- C25, amended: for every adjacency list `adj` with `n < 2^31` vertices and every `start`:
if `start < 0` or `start >= n`, `bfs_on_adjlist` throws `out_of_range`; otherwise it
terminates and returns `(dist, parent)`, both of length `n`, where for every vertex `v`:
`dist[v]` is the number of edges of a shortest path from `start` to `v` using only in-range
neighbours, `dist[v] = -1` iff `v` is unreachable, `parent[start] = -1`, `parent[v] = -1`
for unreachable `v`, and for every reachable `v != start`, `parent[v] = u` with `v` in
`adj[u]` and `dist[v] = dist[u] + 1`. -/
theorem C25_bfs_on_adjlist (adj : List (List Int)) (start : Int) (hn : adj.length < 2 ^ 31) :
    ((start < 0 ∨ (adj.length : Int) ≤ start) → bfs_on_adjlist adj start = some none) ∧
      (0 ≤ start → start < (adj.length : Int) →
        ∃ dist parent, bfs_on_adjlist adj start = some (some (dist, parent)) ∧
          dist.length = adj.length ∧ parent.length = adj.length ∧
          ∀ v, v < adj.length →
            (∀ d : Nat, dist[v]? = some (d : Int) ↔
              Walk adj start.toNat v d ∧ ∀ k, Walk adj start.toNat v k → d ≤ k) ∧
            (dist[v]? = some (-1) ↔ ¬ ∃ k, Walk adj start.toNat v k) ∧
            ((v : Int) = start → parent[v]? = some (-1)) ∧
            ((¬ ∃ k, Walk adj start.toNat v k) → parent[v]? = some (-1)) ∧
            ((∃ k, Walk adj start.toNat v k) → (v : Int) ≠ start →
              ∃ u : Nat, parent[v]? = some (u : Int) ∧ Edge adj u v ∧
                ∃ du : Int, dist[u]? = some du ∧ dist[v]? = some (du + 1))) := by
  have hcast : stackalgo.toInt32 adj.length = (adj.length : Int) := stackalgo.toInt32_small hn
  refine ⟨fun hout => ?_, fun h0 hlt => ?_⟩
  · unfold bfs_on_adjlist
    rw [hcast, if_pos (by omega)]
  · have hsI : ((start.toNat : Nat) : Int) = start := Int.toNat_of_nonneg h0
    have hs : start.toNat < adj.length := by omega
    have hcount := replicate_count_set adj.length start.toNat hs
    obtain ⟨r, hloop, hfin⟩ := bfsLoop_spec adj.length _ _ _ (bfs_initial h0 hlt)
      (by rw [List.length_singleton]; omega)
    refine ⟨r.1, r.2, ?_, hfin.base.lenD, hfin.base.lenP, fun v hv => ?_⟩
    · unfold bfs_on_adjlist
      rw [hcast, if_neg (by omega), Int.toNat_ofNat, hloop]
      rfl
    · have hgetD : r.1[v]? = some (entry r.1 v) :=
        getElem?_entry (by rw [hfin.base.lenD]; exact hv)
      have hgetP : r.2[v]? = some (entry r.2 v) :=
        getElem?_entry (by rw [hfin.base.lenP]; exact hv)
      have hunreach : entry r.1 v = -1 ↔ ¬ ∃ k, Walk adj start.toNat v k := by
        constructor
        · rintro he ⟨k, hk⟩
          exact (bfs_complete hfin hk).1 he
        · intro hno
          by_contra hne
          obtain ⟨d, _, hw⟩ := hfin.base.sound v hne
          exact hno ⟨d, hw⟩
      refine ⟨fun d => ⟨fun hd => ?_, fun ⟨hw, hmin⟩ => ?_⟩, ?_, fun hvs => ?_, fun hno => ?_,
        fun hreach hvs => ?_⟩
      · have he : entry r.1 v = (d : Int) := entry_of_getElem? hd
        obtain ⟨d1, hd1, hw⟩ := hfin.base.sound v (by rw [he]; omega)
        have hdd : d1 = d := by omega
        subst hdd
        refine ⟨hw, fun k hk => ?_⟩
        have := (bfs_complete hfin hk).2
        omega
      · obtain ⟨hne, hle⟩ := bfs_complete hfin hw
        obtain ⟨d1, hd1, hw1⟩ := hfin.base.sound v hne
        have := hmin d1 hw1
        rw [hgetD, hd1]
        congr 1
        omega
      · rw [hgetD, ← hunreach]
        constructor
        · intro h; simpa using h
        · intro h; rw [h]
      · have : v = start.toNat := by omega
        rw [hgetP, this, hfin.base.parStart]
      · rw [hgetP, hfin.base.parUnvis v (hunreach.2 hno)]
      · have hne : entry r.1 v ≠ -1 := fun he => hunreach.1 he hreach
        obtain ⟨u, hp, hedge, hdu, hdv⟩ := hfin.base.parVis v hne (by omega)
        exact ⟨u, by rw [hgetP, hp], hedge, entry r.1 u, getElem?_entry (lt_of_entry_ne hdu),
          by rw [hgetD, hdv]⟩

/-- On the graph `0 → 1, 2; 1 → 3; 2 → 3 (and the invalid neighbours 7, -1); 4 → 0` from
the start 0: the distances are 0, 1, 1, 2 and vertex 4 is unreachable; a start outside
`0 .. 4` throws. -/
theorem C25_test_graph :
    bfs_on_adjlist [[1, 2], [3], [3, 7, -1], [], [0]] 0 =
        some (some ([0, 1, 1, 2, -1], [-1, 0, 0, 1, -1])) ∧
      bfs_on_adjlist [[1, 2], [3], [3, 7, -1], [], [0]] 5 = some none ∧
      ∃ dist parent, bfs_on_adjlist [[1, 2], [3], [3, 7, -1], [], [0]] 0 =
        some (some (dist, parent)) ∧ dist.length = 5 ∧ parent.length = 5 :=
  ⟨by decide,
    (C25_bfs_on_adjlist [[1, 2], [3], [3, 7, -1], [], [0]] 5 (by decide)).1
      (Or.inr (by decide)),
    ((C25_bfs_on_adjlist [[1, 2], [3], [3, 7, -1], [], [0]] 0 (by decide)).2
      (by decide) (by decide)).imp
      (fun _ h => h.imp (fun _ h1 => ⟨h1.1, h1.2.1, h1.2.2.1⟩))⟩

end qalg

/-! ## `SinglyLinkedList::remove_nth_from_end`: the two-pointer walk -/

namespace SinglyLinkedList

variable {T : Type}

theorem sll_store_same (h : Nat → Option (SLLNode T)) (a : Nat) (nd : SLLNode T) :
    store h a nd a = some nd := by
  simp [store]

theorem sll_store_other (h : Nat → Option (SLLNode T)) {a x : Nat} (nd : SLLNode T)
    (hx : x ≠ a) : store h a nd x = h x := by
  simp [store, hx]

theorem sll_release_other (h : Nat → Option (SLLNode T)) {a x : Nat} (hx : x ≠ a) :
    release h a x = h x := by
  simp [release, hx]

/-- Distinct addresses below `b` are at most `b` many. -/
theorem sll_length_le_of_below {cs : List Nat} (hnd : cs.Nodup) {b : Nat}
    (hb : ∀ a, a ∈ cs → a < b) : cs.length ≤ b := by
  have hsub : cs.toFinset ⊆ Finset.range b := fun a ha =>
    Finset.mem_range.2 (hb a (List.mem_toFinset.1 ha))
  have hcard := Finset.card_le_card hsub
  rw [List.toFinset_card_of_nodup hnd, Finset.card_range] at hcard
  exact hcard

theorem sll_chain_index {h : Nat → Option (SLLNode T)} {cs : List Nat} {vs : List T}
    (hc : Chain h cs vs) {k : Nat} (hk : k < cs.length) :
    ∃ a v, cs[k]? = some a ∧ vs[k]? = some v ∧ h a = some { val := v, next := cs[k + 1]? } := by
  have ha : cs[k]? = some cs[k] := List.getElem?_eq_getElem hk
  obtain ⟨v, hv, hcell⟩ := hc.cells k _ ha
  exact ⟨_, v, ha, hv, hcell⟩

/-- The local node `dummy` in front of the list extends the chain. -/
theorem sll_chain_dummy [Inhabited T] {s : SinglyLinkedList T} {cs : List Nat} {l : List T}
    (hs : Holds s cs l) :
    Chain (store s.heap s.brk { val := default, next := s.head }) (s.brk :: cs) (default :: l) := by
  have hfresh : s.brk ∉ cs := fun hmem => Nat.lt_irrefl _ (hs.below _ hmem)
  refine ⟨by simp [hs.chain.lenEq], List.nodup_cons.2 ⟨hfresh, hs.chain.nodup⟩, fun i a hi => ?_⟩
  cases i with
  | zero =>
    rw [List.getElem?_cons_zero] at hi
    cases hi
    refine ⟨default, List.getElem?_cons_zero, ?_⟩
    rw [sll_store_same, List.getElem?_cons_succ, hs.headEq, List.head?_eq_getElem?]
  | succ i =>
    rw [List.getElem?_cons_succ] at hi
    obtain ⟨v, hv, hcell⟩ := hs.chain.cells i a hi
    have hne : a ≠ s.brk := fun e => hfresh (e ▸ List.mem_iff_getElem?.2 ⟨i, hi⟩)
    exact ⟨v, by rw [List.getElem?_cons_succ]; exact hv,
      by rw [sll_store_other _ _ hne, hcell, List.getElem?_cons_succ]⟩

/-- The first loop of `remove_nth_from_end` from position `k` of the chain: it reaches
position `k + count`, or returns false when it would step from `nullptr`. -/
theorem sll_advanceFast_spec {h : Nat → Option (SLLNode T)} {cs : List Nat} {vs : List T}
    (hc : Chain h cs vs) :
    ∀ (count k : Nat), k ≤ cs.length →
      advanceFast h count cs[k]? =
        if k + count ≤ cs.length then some (some cs[k + count]?) else some none := by
  intro count
  induction count with
  | zero =>
    intro k hk
    simp [advanceFast, hk]
  | succ count ih =>
    intro k hk
    rcases Nat.lt_or_eq_of_le hk with hlt | heq
    · obtain ⟨a, v, ha, _, hcell⟩ := sll_chain_index hc hlt
      simp only [advanceFast, ha, hcell, ih (k + 1) hlt]
      have e : k + 1 + count = k + (count + 1) := by omega
      rw [e]
    · have hnone : cs[k]? = none := List.getElem?_eq_none (by omega)
      have hgt : ¬ k + (count + 1) ≤ cs.length := by omega
      simp only [advanceFast, hnone, hgt, if_false]

/-- The second loop of `remove_nth_from_end` with `fast` at position `p` and `slow` at
position `q` of the chain: `slow` moves as far as `fast` is from the end. -/
theorem sll_walkBoth_spec {h : Nat → Option (SLLNode T)} {cs : List Nat} {vs : List T}
    (hc : Chain h cs vs) :
    ∀ (fuel p q : Nat), q ≤ p → p ≤ cs.length → cs.length ≤ p + fuel →
      walkBoth h fuel cs[p]? cs[q]? = some cs[q + (cs.length - p)]? := by
  intro fuel
  induction fuel with
  | zero =>
    intro p q hqp hp hfuel
    have hnone : cs[p]? = none := List.getElem?_eq_none (by omega)
    have e : q + (cs.length - p) = q := by omega
    rw [e]
    simp only [walkBoth, hnone]
  | succ fuel ih =>
    intro p q hqp hp hfuel
    rcases Nat.lt_or_eq_of_le hp with hlt | heq
    · obtain ⟨a, _, ha, _, hcell⟩ := sll_chain_index hc hlt
      obtain ⟨b, _, hb, _, hcellb⟩ := sll_chain_index hc (show q < cs.length by omega)
      simp only [walkBoth, ha, hcell, hb, hcellb, ih (p + 1) (q + 1) (by omega) hlt (by omega)]
      have e : q + 1 + (cs.length - (p + 1)) = q + (cs.length - p) := by omega
      rw [e]
    · have hnone : cs[p]? = none := List.getElem?_eq_none (by omega)
      have e : q + (cs.length - p) = q := by omega
      rw [e]
      simp only [walkBoth, hnone]

/-- The traversal from position `k` of a chain reads the values from `k` on. -/
theorem sll_toListLoop_spec {h : Nat → Option (SLLNode T)} {cs : List Nat} {vs : List T}
    (hc : Chain h cs vs) :
    ∀ (fuel k : Nat), cs.length ≤ k + fuel → toListLoop h fuel cs[k]? = some (vs.drop k) := by
  intro fuel
  induction fuel with
  | zero =>
    intro k hk
    have hnone : cs[k]? = none := List.getElem?_eq_none (by omega)
    rw [List.drop_eq_nil_of_le (by rw [← hc.lenEq]; omega)]
    simp only [toListLoop, hnone]
  | succ fuel ih =>
    intro k hk
    by_cases hlt : k < cs.length
    · obtain ⟨a, v, ha, hv, hcell⟩ := sll_chain_index hc hlt
      have hkv : k < vs.length := by rw [← hc.lenEq]; exact hlt
      have hvk : vs[k] = v := by
        rw [List.getElem?_eq_getElem hkv] at hv
        exact Option.some.inj hv
      simp only [toListLoop, ha, hcell, ih (k + 1) (by omega), Option.map_some']
      rw [List.drop_eq_getElem_cons hkv, hvk]
    · have hnone : cs[k]? = none := List.getElem?_eq_none (by omega)
      rw [List.drop_eq_nil_of_le (by rw [← hc.lenEq]; omega)]
      simp only [toListLoop, hnone]

/-- The traversal of a well-formed list reads its values. -/
theorem sll_toList_spec {s : SinglyLinkedList T} {cs : List Nat} {l : List T}
    (hs : Holds s cs l) : toList s = some l := by
  have hlen := sll_length_le_of_below hs.chain.nodup hs.below
  have h := sll_toListLoop_spec hs.chain s.brk 0 (by omega)
  rw [← List.head?_eq_getElem?, ← hs.headEq] at h
  rw [toList, h, List.drop_zero]

/-- With `n = SIZE_MAX` the bound `n + 1` of the first loop wraps to 0, `fast` and `slow`
run off the end of the list together, and `slow->next` dereferences `nullptr`: on every
non-empty list the call is undefined. -/
theorem remove_nth_from_end_size_max [Inhabited T] {s : SinglyLinkedList T} {cs : List Nat}
    {l : List T} (hs : Holds s cs l) (hne : l ≠ []) :
    remove_nth_from_end s (2 ^ 64 - 1) = none := by
  have hc := sll_chain_dummy hs
  have hcs : cs ≠ [] := fun h0 => hne (List.length_eq_zero.1 (by rw [← hs.chain.lenEq, h0]; rfl))
  have hhead : s.head ≠ none := by
    rw [hs.headEq]
    cases cs with
    | nil => exact absurd rfl hcs
    | cons a _ => simp
  have hlen := sll_length_le_of_below hs.chain.nodup hs.below
  have hwalk := sll_walkBoth_spec hc (s.brk + 1) 0 0 (le_refl _) (Nat.zero_le _)
    (by simp only [List.length_cons]; omega)
  rw [List.getElem?_cons_zero] at hwalk
  have hnone : (s.brk :: cs)[0 + ((s.brk :: cs).length - 0)]? = none :=
    List.getElem?_eq_none (by omega)
  rw [hnone] at hwalk
  have hcount : (2 ^ 64 - 1 + 1) % 2 ^ 64 = 0 := by norm_num
  have hn0 : ¬ ((2 ^ 64 - 1 : Nat) = 0 ∨ s.head = none) := by
    rintro (h | h)
    · norm_num at h
    · exact hhead h
  unfold remove_nth_from_end
  rw [if_neg hn0, hcount]
  simp only [advanceFast, hwalk]

variable {T : Type}

theorem sll_index_inj {cs : List Nat} (hnd : cs.Nodup) {i j a : Nat} (hi : cs[i]? = some a)
    (hj : cs[j]? = some a) : i = j := by
  have hil : i < cs.length := by
    by_contra hcon
    rw [List.getElem?_eq_none (by omega)] at hi
    cases hi
  have hjl : j < cs.length := by
    by_contra hcon
    rw [List.getElem?_eq_none (by omega)] at hj
    cases hj
  have h := List.nodup_iff_getElem?_ne_getElem?.1 hnd
  rcases Nat.lt_trichotomy i j with hlt | heq | hgt
  · exact absurd (hi.trans hj.symm) (h i j hlt hjl)
  · exact heq
  · exact absurd (hj.trans hi.symm) (h j i hgt hil)

theorem sll_holds_construct : Holds (construct : SinglyLinkedList T) [] [] :=
  { chain := ⟨rfl, List.nodup_nil, fun i a hi => by simp at hi⟩
    headEq := rfl
    tailEq := rfl
    lenEq := rfl
    lenLt := by simp
    below := fun a ha => absurd ha (List.not_mem_nil a) }

/-- `push_back(v)` links a new node at the fresh address behind the chain. -/
theorem sll_push_back_spec {s : SinglyLinkedList T} {cs : List Nat} {l : List T}
    (hs : Holds s cs l) (v : T) (hroom : l.length + 1 < 2 ^ 64) :
    ∃ s1, push_back s v = some s1 ∧ Holds s1 (cs ++ [s.brk]) (l ++ [v]) := by
  have hfresh : s.brk ∉ cs := fun hmem => Nat.lt_irrefl _ (hs.below _ hmem)
  have hlen : cs.length = l.length := hs.chain.lenEq
  have hlen1 : (s.len + 1) % 2 ^ 64 = (l ++ [v]).length := by
    rw [hs.lenEq, List.length_append, List.length_singleton, Nat.mod_eq_of_lt hroom]
  have hnd : (cs ++ [s.brk]).Nodup :=
    List.nodup_append.2 ⟨hs.chain.nodup, List.nodup_singleton _, fun a ha hb =>
      hfresh (List.mem_singleton.1 hb ▸ ha)⟩
  have hbelow : ∀ a, a ∈ cs ++ [s.brk] → a < s.brk + 1 := fun a ha => by
    rcases List.mem_append.1 ha with h1 | h1
    · exact Nat.lt_succ_of_lt (hs.below a h1)
    · rw [List.mem_singleton.1 h1]; exact Nat.lt_succ_self _
  have hlast : (cs ++ [s.brk]).getLast? = some s.brk := List.getLast?_concat cs
  rcases List.eq_nil_or_concat cs with h0 | ⟨ci, t, hct⟩
  · subst h0
    have hl : l = [] := List.length_eq_zero.1 hlen.symm
    subst hl
    have htail : s.tail = none := hs.tailEq
    refine ⟨SinglyLinkedList.mk (store s.heap s.brk { val := v, next := none }) (s.brk + 1)
      (some s.brk) (some s.brk) ((s.len + 1) % 2 ^ 64), by simp only [push_back, htail], ?_⟩
    refine
      { chain := ⟨rfl, hnd, fun i a hi => ?_⟩
        headEq := rfl
        tailEq := rfl
        lenEq := hlen1
        lenLt := by simp
        below := hbelow }
    cases i with
    | zero =>
      simp only [List.nil_append, List.getElem?_cons_zero, Option.some.injEq] at hi
      subst hi
      exact ⟨v, rfl, by
        show store s.heap s.brk { val := v, next := none } s.brk = _
        rw [sll_store_same]; rfl⟩
    | succ i => simp at hi
  · rw [List.concat_eq_append] at hct
    have htail : s.tail = some t := by rw [hs.tailEq, hct, List.getLast?_concat]
    have htmem : t ∈ cs := by rw [hct]; simp
    have htne : t ≠ s.brk := fun e => hfresh (e ▸ htmem)
    have hti : cs[cs.length - 1]? = some t := by
      rw [hct]
      simp
    have hpos : 0 < cs.length := by rw [hct]; simp
    obtain ⟨vt, hvt, hcellt⟩ := hs.chain.cells _ t hti
    have hnext : cs[cs.length - 1 + 1]? = none := List.getElem?_eq_none (by omega)
    rw [hnext] at hcellt
    have hread : store s.heap s.brk { val := v, next := none } t =
        some { val := vt, next := none } := by
      rw [sll_store_other _ _ htne, hcellt]
    have hhead : s.head = (cs ++ [s.brk]).head? := by
      rw [hs.headEq, hct]
      cases ci <;> rfl
    refine ⟨SinglyLinkedList.mk (store (store s.heap s.brk { val := v, next := none }) t
      { val := vt, next := some s.brk }) (s.brk + 1) s.head (some s.brk)
      ((s.len + 1) % 2 ^ 64), by simp only [push_back, htail, hread], ?_⟩
    refine
      { chain := ⟨by simp [hlen], hnd, fun i a hi => ?_⟩
        headEq := hhead
        tailEq := hlast.symm
        lenEq := hlen1
        lenLt := by simpa using hroom
        below := hbelow }
    show ∃ x, (l ++ [v])[i]? = some x ∧
      store (store s.heap s.brk { val := v, next := none }) t { val := vt, next := some s.brk } a =
        some { val := x, next := (cs ++ [s.brk])[i + 1]? }
    by_cases hi1 : i < cs.length
    · rw [List.getElem?_append_left hi1] at hi
      obtain ⟨x, hx, hcell⟩ := hs.chain.cells i a hi
      have hane : a ≠ s.brk := fun e => hfresh (e ▸ List.mem_iff_getElem?.2 ⟨i, hi⟩)
      refine ⟨x, by rw [List.getElem?_append_left (by omega)]; exact hx, ?_⟩
      by_cases hil : i = cs.length - 1
      · have hat : a = t := by
          rw [hil, hti] at hi
          exact (Option.some.inj hi).symm
        have hxv : x = vt := by
          rw [hil, hvt] at hx
          exact (Option.some.inj hx).symm
        have hidx : (cs ++ [s.brk])[i + 1]? = some s.brk := by
          rw [hil, show cs.length - 1 + 1 = cs.length by omega, List.getElem?_concat_length]
        rw [hat, sll_store_same, hxv, hidx]
      · have hat : a ≠ t := by
          intro e
          rw [e] at hi
          exact hil (sll_index_inj hs.chain.nodup hi hti)
        rw [sll_store_other _ _ hat, sll_store_other _ _ hane, hcell,
          List.getElem?_append_left (by omega)]
    · have hie : i = cs.length := by
        by_contra hne
        rw [List.getElem?_eq_none (by simp; omega)] at hi
        cases hi
      rw [hie, List.getElem?_concat_length] at hi
      have hab : a = s.brk := (Option.some.inj hi).symm
      refine ⟨v, by rw [hie, hlen, List.getElem?_concat_length], ?_⟩
      rw [hab, sll_store_other _ _ htne.symm, sll_store_same, hie,
        List.getElem?_eq_none (by simp)]

/-- Every list shorter than `2^64` can be built, and the object built holds it. -/
theorem sll_pushAll_spec : ∀ (vs : List T) (s : SinglyLinkedList T) (cs : List Nat) (l : List T),
    Holds s cs l → l.length + vs.length < 2 ^ 64 →
    ∃ s1 cs1, pushAll s vs = some s1 ∧ Holds s1 cs1 (l ++ vs) := by
  intro vs
  induction vs with
  | nil =>
    intro s cs l hs _
    exact ⟨s, cs, rfl, by rw [List.append_nil]; exact hs⟩
  | cons v vs ih =>
    intro s cs l hs hlen
    simp only [List.length_cons] at hlen
    obtain ⟨s1, hp, hs1⟩ := sll_push_back_spec hs v (by omega)
    obtain ⟨s2, cs2, hp2, hs2⟩ := ih s1 _ (l ++ [v]) hs1
      (by rw [List.length_append, List.length_singleton]; omega)
    exact ⟨s2, cs2, by simp only [pushAll, hp, hp2], by simpa using hs2⟩

theorem sll_fromList_spec (l : List T) (hl : l.length < 2 ^ 64) :
    ∃ s cs, fromList l = some s ∧ Holds s cs l := by
  obtain ⟨s, cs, h, hs⟩ := sll_pushAll_spec l construct [] [] sll_holds_construct
    (by simpa using hl)
  exact ⟨s, cs, h, by simpa using hs⟩

variable {T : Type}

theorem sll_index_lt {cs : List Nat} {i a : Nat} (hi : cs[i]? = some a) : i < cs.length := by
  by_contra hcon
  rw [List.getElem?_eq_none (by omega)] at hi
  cases hi

/-- Unlinking the node after position `j`: `slow->next = to_delete->next; delete to_delete`. -/
theorem sll_chain_unlink {h : Nat → Option (SLLNode T)} {cs : List Nat} {vs : List T}
    (hc : Chain h cs vs) {j sl td : Nat} {vsl : T} (hsl : cs[j]? = some sl)
    (htd : cs[j + 1]? = some td) (hv : vs[j]? = some vsl) :
    Chain (release (store h sl { val := vsl, next := cs[j + 2]? }) td)
      (cs.eraseIdx (j + 1)) (vs.eraseIdx (j + 1)) := by
  have hjl : j + 1 < cs.length := sll_index_lt htd
  refine ⟨?_, List.Nodup.sublist (List.eraseIdx_sublist _ _) hc.nodup, fun i a hi => ?_⟩
  · rw [List.length_eraseIdx_of_lt hjl, List.length_eraseIdx_of_lt (by rw [← hc.lenEq]; exact hjl),
      hc.lenEq]
  · rcases Nat.lt_trichotomy i j with hlt | heq | hgt
    · rw [List.getElem?_eraseIdx_of_lt _ _ _ (by omega)] at hi
      obtain ⟨v, hvi, hcell⟩ := hc.cells i a hi
      have h1 : a ≠ sl := fun e => by
        have := sll_index_inj hc.nodup hi (e ▸ hsl)
        omega
      have h2 : a ≠ td := fun e => by
        have := sll_index_inj hc.nodup hi (e ▸ htd)
        omega
      refine ⟨v, by rw [List.getElem?_eraseIdx_of_lt _ _ _ (by omega)]; exact hvi, ?_⟩
      rw [sll_release_other _ h2, sll_store_other _ _ h1, hcell,
        List.getElem?_eraseIdx_of_lt _ _ _ (by omega)]
    · subst heq
      rw [List.getElem?_eraseIdx_of_lt _ _ _ (by omega), hsl] at hi
      have hasl : sl = a := Option.some.inj hi
      subst hasl
      have h2 : sl ≠ td := fun e => by
        have := sll_index_inj hc.nodup hsl (e ▸ htd)
        omega
      refine ⟨vsl, by rw [List.getElem?_eraseIdx_of_lt _ _ _ (by omega)]; exact hv, ?_⟩
      rw [sll_release_other _ h2, sll_store_same, List.getElem?_eraseIdx_of_ge _ _ _ (le_refl _)]
    · rw [List.getElem?_eraseIdx_of_ge _ _ _ (by omega)] at hi
      obtain ⟨v, hvi, hcell⟩ := hc.cells (i + 1) a hi
      have h1 : a ≠ sl := fun e => by
        have := sll_index_inj hc.nodup hi (e ▸ hsl)
        omega
      have h2 : a ≠ td := fun e => by
        have := sll_index_inj hc.nodup hi (e ▸ htd)
        omega
      refine ⟨v, by rw [List.getElem?_eraseIdx_of_ge _ _ _ (by omega)]; exact hvi, ?_⟩
      rw [sll_release_other _ h2, sll_store_other _ _ h1, hcell,
        List.getElem?_eraseIdx_of_ge _ _ _ (by omega)]

/-- Dropping the first node of a chain. -/
theorem sll_chain_tail {h : Nat → Option (SLLNode T)} {a : Nat} {cs : List Nat} {v : T}
    {vs : List T} (hc : Chain h (a :: cs) (v :: vs)) : Chain (release h a) cs vs := by
  have hnd := List.nodup_cons.1 hc.nodup
  refine ⟨by simpa using hc.lenEq, hnd.2, fun i b hi => ?_⟩
  obtain ⟨x, hx, hcell⟩ := hc.cells (i + 1) b (by rw [List.getElem?_cons_succ]; exact hi)
  have hne : b ≠ a := fun e => hnd.1 (e ▸ List.mem_iff_getElem?.2 ⟨i, hi⟩)
  rw [List.getElem?_cons_succ] at hx
  exact ⟨x, hx, by rw [sll_release_other _ hne, hcell, List.getElem?_cons_succ]⟩

variable {T : Type}

/-- Whenever `n + 1` does not wrap, `remove_nth_from_end(n)` does what its contract says:
it returns false and changes nothing unless `1 <= n <= L`, and otherwise unlinks the node
at index `L - n`. -/
theorem remove_nth_from_end_in_range [Inhabited T] {s : SinglyLinkedList T} {cs : List Nat}
    {l : List T} (hs : Holds s cs l) (n : Nat) (hn : n + 1 < 2 ^ 64) :
    (¬ (1 ≤ n ∧ n ≤ l.length) → remove_nth_from_end s n = some (false, s)) ∧
      (1 ≤ n → n ≤ l.length →
        ∃ s1, remove_nth_from_end s n = some (true, s1) ∧
          Holds s1 (cs.eraseIdx (l.length - n)) (l.eraseIdx (l.length - n))) := by
  have hc := sll_chain_dummy hs
  have hlen : cs.length = l.length := hs.chain.lenEq
  have hbrk := sll_length_le_of_below hs.chain.nodup hs.below
  have hcount : (n + 1) % 2 ^ 64 = n + 1 := Nat.mod_eq_of_lt hn
  have hadv := sll_advanceFast_spec hc (n + 1) 0 (Nat.zero_le _)
  rw [List.getElem?_cons_zero, List.length_cons, Nat.zero_add] at hadv
  refine ⟨fun hout => ?_, fun h1 hnl => ?_⟩
  · by_cases h0 : n = 0 ∨ s.head = none
    · simp only [remove_nth_from_end, h0, if_true]
    · have hgt : ¬ n + 1 ≤ cs.length + 1 := by
        have hn0 : n ≠ 0 := fun e => h0 (Or.inl e)
        omega
      rw [if_neg hgt] at hadv
      simp only [remove_nth_from_end, h0, if_false, hcount, hadv]
  · have hL : 1 ≤ cs.length := by omega
    have hhead : s.head ≠ none := by
      rw [hs.headEq]
      cases cs with
      | nil => simp at hL
      | cons a _ => simp
    have h0 : ¬ (n = 0 ∨ s.head = none) := by
      rintro (h | h)
      · omega
      · exact hhead h
    rw [if_pos (by omega)] at hadv
    have hwalk := sll_walkBoth_spec hc (s.brk + 1) (n + 1) 0 (Nat.zero_le _)
      (by simp only [List.length_cons]; omega) (by simp only [List.length_cons]; omega)
    rw [List.getElem?_cons_zero, List.length_cons,
      show 0 + (cs.length + 1 - (n + 1)) = l.length - n by omega] at hwalk
    obtain ⟨sl, vsl, hsl, hvsl, hcsl⟩ := sll_chain_index hc
      (show l.length - n < (s.brk :: cs).length by simp only [List.length_cons]; omega)
    obtain ⟨td, vtd, htd, hvtd, hctd⟩ := sll_chain_index hc
      (show l.length - n + 1 < (s.brk :: cs).length by simp only [List.length_cons]; omega)
    rw [hsl] at hwalk
    rw [htd] at hcsl
    have hun : Chain
        (release (store (store s.heap s.brk { val := default, next := s.head }) sl
          { val := vsl, next := (s.brk :: cs)[l.length - n + 1 + 1]? }) td)
        (s.brk :: cs.eraseIdx (l.length - n)) (default :: l.eraseIdx (l.length - n)) := by
      have h := sll_chain_unlink hc hsl htd hvsl
      rw [List.eraseIdx_cons_succ, List.eraseIdx_cons_succ] at h
      exact h
    obtain ⟨vd, _, hcd⟩ := hun.cells 0 s.brk List.getElem?_cons_zero
    rw [show (s.brk :: cs.eraseIdx (l.length - n))[0 + 1]? = (cs.eraseIdx (l.length - n))[0]?
      from List.getElem?_cons_succ] at hcd
    have hfin := sll_chain_tail hun
    have htdc : cs[l.length - n]? = some td := by
      rw [List.getElem?_cons_succ] at htd
      exact htd
    refine ⟨SinglyLinkedList.mk
      (release (release (store (store s.heap s.brk { val := default, next := s.head }) sl
        { val := vsl, next := (s.brk :: cs)[l.length - n + 1 + 1]? }) td) s.brk)
      s.brk (cs.eraseIdx (l.length - n))[0]?
      (if some td = s.tail then (if sl = s.brk then none else some sl) else s.tail)
      ((s.len + 2 ^ 64 - 1) % 2 ^ 64), ?_, ?_⟩
    · simp only [remove_nth_from_end, h0, if_false, hcount, hadv, hwalk, hcsl, hctd, hcd]
    refine
      { chain := hfin
        headEq := by
          show (cs.eraseIdx (l.length - n))[0]? = _
          rw [List.head?_eq_getElem?]
        tailEq := ?_
        lenEq := ?_
        lenLt := ?_
        below := fun a ha => hs.below a (List.mem_of_mem_eraseIdx ha) }
    · show (if some td = s.tail then (if sl = s.brk then none else some sl) else s.tail) = _
      rw [List.getLast?_eq_getElem?, List.length_eraseIdx_of_lt (by omega), hs.tailEq,
        List.getLast?_eq_getElem?, List.getElem?_eraseIdx]
      by_cases hlast : l.length - n = cs.length - 1
      · rw [← htdc, hlast, if_pos rfl]
        by_cases hone : cs.length = 1
        · have hj0 : l.length - n = 0 := by omega
          rw [hj0, List.getElem?_cons_zero] at hsl
          have hsd : sl = s.brk := (Option.some.inj hsl).symm
          rw [if_pos hsd, hone, if_neg (by omega)]
          exact (List.getElem?_eq_none (by omega)).symm
        · obtain ⟨j, hj⟩ : ∃ j, l.length - n = j + 1 := ⟨l.length - n - 1, by omega⟩
          rw [hj, List.getElem?_cons_succ] at hsl
          have hne : sl ≠ s.brk := fun e =>
            Nat.lt_irrefl _ (hs.below _ (e ▸ List.mem_iff_getElem?.2 ⟨j, hsl⟩))
          rw [if_neg hne, if_pos (by omega), ← hsl]
          congr 1
          omega
      · have hne : some td ≠ cs[cs.length - 1]? := fun e => by
          have := sll_index_inj hs.chain.nodup htdc e.symm
          omega
        rw [if_neg hne, if_neg (by omega)]
        congr 1
        omega
    · show (s.len + 2 ^ 64 - 1) % 2 ^ 64 = _
      have hl := hs.lenLt
      rw [hs.lenEq, List.length_eraseIdx_of_lt (by omega),
        show l.length + 2 ^ 64 - 1 = l.length - 1 + 2 ^ 64 by omega, Nat.add_mod_right,
        Nat.mod_eq_of_lt (by omega)]
    · have hl := hs.lenLt
      exact lt_of_le_of_lt (List.length_eraseIdx_le _ _) hl

variable {T : Type}

/-- For every list built from an initializer list and every `n` below `SIZE_MAX`,
`remove_nth_from_end(n)` returns true iff `1 <= n <= L`; when true the list becomes the
original sequence without the element at index `L - n` and `size()` becomes `L - 1`; when
false the list object is unchanged. -/
theorem remove_nth_from_end_contract [Inhabited T] (l : List T) (n : Nat)
    (hl : l.length < 2 ^ 64) (hn : n + 1 < 2 ^ 64) :
    ∃ s, fromList l = some s ∧ toList s = some l ∧
      (¬ (1 ≤ n ∧ n ≤ l.length) → remove_nth_from_end s n = some (false, s)) ∧
      (1 ≤ n → n ≤ l.length →
        ∃ s1, remove_nth_from_end s n = some (true, s1) ∧
          toList s1 = some (l.eraseIdx (l.length - n)) ∧ size s1 + 1 = l.length ∧
          (l.length = 1 → get_head s1 = none ∧ get_tail s1 = none)) := by
  obtain ⟨s, cs, hf, hs⟩ := sll_fromList_spec l hl
  obtain ⟨hfalse, htrue⟩ := remove_nth_from_end_in_range hs n hn
  refine ⟨s, hf, sll_toList_spec hs, hfalse, fun h1 hnl => ?_⟩
  obtain ⟨s1, hr, hs1⟩ := htrue h1 hnl
  refine ⟨s1, hr, sll_toList_spec hs1, ?_, fun hone => ?_⟩
  · show s1.len + 1 = l.length
    rw [hs1.lenEq, List.length_eraseIdx_of_lt (by omega)]
    omega
  · have hnil : cs.eraseIdx (l.length - n) = [] := by
      apply List.length_eq_zero.1
      rw [List.length_eraseIdx_of_lt (by rw [hs.chain.lenEq]; omega), hs.chain.lenEq]
      omega
    exact ⟨by rw [get_head, hs1.headEq, hnil]; rfl, by rw [get_tail, hs1.tailEq, hnil]; rfl⟩

/-- C30 fails in the code at `n = SIZE_MAX`: on the one-element list `{1}` the call
`remove_nth_from_end(18446744073709551615)` must return false and leave the list unchanged
(`n > L`), but the loop bound `n + 1` wraps to 0, both pointers run off the end of the list
and `slow->next` dereferences `nullptr`, so the call is undefined. -/
theorem C30_size_max_is_undefined :
    ∃ s : SinglyLinkedList Int, fromList [1] = some s ∧ toList s = some [1] ∧ size s = 1 ∧
      ¬ (1 ≤ 2 ^ 64 - 1 ∧ 2 ^ 64 - 1 ≤ [(1 : Int)].length) ∧
      remove_nth_from_end s (2 ^ 64 - 1) = none ∧
      remove_nth_from_end s (2 ^ 64 - 2) = some (false, s) := by
  obtain ⟨s, cs, hf, hs⟩ := sll_fromList_spec [(1 : Int)] (by simp)
  exact ⟨s, hf, sll_toList_spec hs, hs.lenEq, by simp,
    remove_nth_from_end_size_max hs (by simp),
    (remove_nth_from_end_in_range hs (2 ^ 64 - 2) (by norm_num)).1 (by simp)⟩

/-- On `{1, 2, 3, 4, 5}`: removing the 2nd from the end leaves `{1, 2, 3, 5}`, removing the
5th from the end removes the head, and `n = 6` and `n = 0` return false. -/
theorem remove_nth_from_end_test :
    ((fromList [(1 : Int), 2, 3, 4, 5]).bind fun s =>
        (remove_nth_from_end s 2).bind fun r => (toList r.2).map fun l => (r.1, l, size r.2)) =
      some (true, [1, 2, 3, 5], 4) ∧
    ((fromList [(1 : Int), 2, 3, 4, 5]).bind fun s =>
        (remove_nth_from_end s 5).bind fun r => (toList r.2).map fun l => (r.1, l, size r.2)) =
      some (true, [2, 3, 4, 5], 4) ∧
    ((fromList [(1 : Int), 2, 3, 4, 5]).bind fun s =>
        (remove_nth_from_end s 6).bind fun r => (toList r.2).map fun l => (r.1, l, size r.2)) =
      some (false, [1, 2, 3, 4, 5], 5) ∧
    ((fromList [(1 : Int)]).bind fun s =>
        (remove_nth_from_end s 1).map fun r => (r.1, get_head r.2, get_tail r.2, size r.2)) =
      some (true, none, none, 0) ∧
    ∃ s, fromList [(1 : Int), 2, 3, 4, 5] = some s ∧ toList s = some [1, 2, 3, 4, 5] :=
  ⟨by decide, by decide, by decide, by decide,
    (remove_nth_from_end_contract [(1 : Int), 2, 3, 4, 5] 2 (by decide) (by decide)).imp
      (fun _ h => ⟨h.1, h.2.1⟩)⟩

end SinglyLinkedList

/-! ## `balanced_parentheses` accepts exactly the well-nested bracket words -/

namespace stackalgo

theorem matches_opener {o c : Char} (h : Matches o c) :
    (o = '(' ∨ o = '[' ∨ o = '{') ∧ ¬ (c = '(' ∨ c = '[' ∨ c = '{') ∧
      (c = ')' ∨ c = ']' ∨ c = '}') ∧ o = matchOf c := by
  rcases h with ⟨rfl, rfl⟩ | ⟨rfl, rfl⟩ | ⟨rfl, rfl⟩ <;> decide

theorem matches_matchOf {c : Char} (h : c = ')' ∨ c = ']' ∨ c = '}') : Matches (matchOf c) c := by
  rcases h with rfl | rfl | rfl
  · exact Or.inl ⟨rfl, rfl⟩
  · exact Or.inr (Or.inl ⟨rfl, rfl⟩)
  · exact Or.inr (Or.inr ⟨rfl, rfl⟩)

/-- Characters other than brackets are ignored by the loop. -/
theorem parenLoop_filter : ∀ (s st : List Char),
    parenLoop s st = parenLoop (s.filter isBracket) st := by
  intro s
  induction s with
  | nil => intro st; rfl
  | cons c cs ih =>
    intro st
    by_cases ho : c = '(' ∨ c = '[' ∨ c = '{'
    · have hb : isBracket c = true := by
        simp only [isBracket, decide_eq_true_eq]
        tauto
      simp only [List.filter_cons, hb, if_true, parenLoop, ho, ih]
    · by_cases hc : c = ')' ∨ c = ']' ∨ c = '}'
      · have hb : isBracket c = true := by
          simp only [isBracket, decide_eq_true_eq]
          tauto
        simp only [List.filter_cons, hb, if_true, parenLoop, ho, if_false, hc]
        cases st with
        | nil => rfl
        | cons t rest => simp only [ih]
      · have hb : isBracket c = false := by
          simp only [isBracket, decide_eq_false_iff_not]
          tauto
        simp only [List.filter_cons, hb, parenLoop, ho, if_false, hc, ih]
        rfl

/-- A well-nested word leaves the stack as it found it. -/
theorem parenLoop_wellNested {w : List Char} (hw : WellNested w) :
    ∀ (rest st : List Char), parenLoop (w ++ rest) st = parenLoop rest st := by
  induction hw with
  | nil => intro rest st; rfl
  | @wrap o c w hm _ ih =>
    intro rest st
    obtain ⟨ho, hno, hc, hmatch⟩ := matches_opener hm
    have h1 : (o :: w ++ [c]) ++ rest = o :: (w ++ c :: rest) := by simp
    rw [h1]
    simp only [parenLoop, ho, if_true, ih]
    simp only [hno, if_false, hc, if_true, hmatch, ne_eq, not_true_eq_false]
  | append _ _ ih1 ih2 =>
    intro rest st
    rw [List.append_assoc, ih1, ih2]

theorem closes_prepend {b : List Char} (hb : WellNested b) :
    ∀ {st v : List Char}, Closes st v → Closes st (b ++ v) := by
  intro st v h
  cases st with
  | nil => exact WellNested.append hb h
  | cons o st =>
    obtain ⟨u, c, v1, rfl, hu, hm, hrest⟩ := h
    exact ⟨b ++ u, c, v1, by simp, WellNested.append hb hu, hm, hrest⟩

/-- If the loop accepts the bracket word from the stack `st`, the word closes `st`. -/
theorem parenLoop_closes : ∀ (s st : List Char), parenLoop s st = true →
    Closes st (s.filter isBracket) := by
  intro s
  induction s with
  | nil =>
    intro st h
    cases st with
    | nil => exact WellNested.nil
    | cons _ _ => simp [parenLoop] at h
  | cons c cs ih =>
    intro st h
    by_cases ho : c = '(' ∨ c = '[' ∨ c = '{'
    · have hb : isBracket c = true := by
        simp only [isBracket, decide_eq_true_eq]
        tauto
      simp only [parenLoop, ho, if_true] at h
      obtain ⟨u, c1, v, huv, hu, hm, hrest⟩ := ih (c :: st) h
      simp only [List.filter_cons, hb, if_true, huv]
      have hsplit : c :: (u ++ c1 :: v) = (c :: u ++ [c1]) ++ v := by simp
      rw [hsplit]
      exact closes_prepend (WellNested.wrap hm hu) hrest
    · by_cases hc : c = ')' ∨ c = ']' ∨ c = '}'
      · have hb : isBracket c = true := by
          simp only [isBracket, decide_eq_true_eq]
          tauto
        simp only [parenLoop, ho, if_false, hc, if_true] at h
        cases st with
        | nil => simp at h
        | cons t rest =>
          by_cases ht : t = matchOf c
          · simp only [ht, ne_eq, not_true_eq_false, if_false] at h
            simp only [List.filter_cons, hb, if_true]
            exact ⟨[], c, _, rfl, WellNested.nil, ht ▸ matches_matchOf hc, ih rest h⟩
          · simp [ht] at h
      · have hb : isBracket c = false := by
          simp only [isBracket, decide_eq_false_iff_not]
          tauto
        simp only [parenLoop, ho, if_false, hc] at h
        simp only [List.filter_cons, hb]
        exact ih st h

/-- C33: for every string `s`, `balanced_parentheses(s)` returns true if and only if the
subsequence of `s` consisting of the characters `( ) [ ] { }` is a well-nested bracket
word; all other characters are ignored. -/
theorem C33_balanced_parentheses (s : List Char) :
    (balanced_parentheses s = true ↔ WellNested (s.filter isBracket)) ∧
      balanced_parentheses s = balanced_parentheses (s.filter isBracket) := by
  refine ⟨⟨fun h => parenLoop_closes s [] h, fun h => ?_⟩, parenLoop_filter s []⟩
  have h1 := parenLoop_wellNested h [] []
  rw [List.append_nil] at h1
  rw [balanced_parentheses, parenLoop_filter, h1]
  rfl

/-- The word `{[a](b)}c` is accepted (its brackets `{[]()}` are well nested); `(]`, `(()`
and `)(` are rejected. -/
theorem C33_test_words :
    balanced_parentheses "{[a](b)}c".toList = true ∧
      WellNested ("{[a](b)}c".toList.filter isBracket) ∧
      balanced_parentheses "(]".toList = false ∧ balanced_parentheses "(()".toList = false ∧
      balanced_parentheses ")(".toList = false ∧ ¬ WellNested ")(".toList :=
  ⟨by decide, (C33_balanced_parentheses "{[a](b)}c".toList).1.1 (by decide), by decide,
    by decide, by decide,
    fun h => absurd ((C33_balanced_parentheses ")(".toList).1.2 h) (by decide)⟩

theorem heightAt_of_lt {heights : List Int} {y : Nat} (hy : y < heights.length) :
    heights[y]? = some (heightAt heights y) := by
  simp [heightAt, List.getD_eq_getElem?_getD, List.getElem?_eq_getElem hy]

theorem heightAt_of_getElem? {heights : List Int} {y : Nat} {x : Int}
    (h : heights[y]? = some x) : heightAt heights y = x := by
  simp [heightAt, List.getD_eq_getElem?_getD, h]

theorem heightAt_of_le {heights : List Int} {y : Nat} (hy : heights.length ≤ y) :
    heightAt heights y = 0 := by
  simp [heightAt, List.getD_eq_getElem?_getD, List.getElem?_eq_none hy]

theorem heightAt_nonneg {heights : List Int} (hpos : ∀ x, x ∈ heights → 0 ≤ x) (y : Nat) :
    0 ≤ heightAt heights y := by
  by_cases hy : y < heights.length
  · have h := heightAt_of_lt hy
    exact hpos _ (List.mem_iff_getElem?.2 ⟨y, h⟩)
  · rw [heightAt_of_le (by omega)]

/-- The element that becomes the top after a pop satisfies the stack property up to `i`. -/
theorem stackOk_lift {heights : List Int} {i t : Nat} {rest : List Nat}
    (hrest : StackOk heights t rest) (hti : t < i)
    (hhead : ∀ p, rest.head? = some p → heightAt heights p ≤ heightAt heights t)
    (hgap : ∀ y, leftEnd rest ≤ y → y < i → heightAt heights t ≤ heightAt heights y) :
    StackOk heights i rest := by
  cases rest with
  | nil => trivial
  | cons p rest =>
    obtain ⟨hpt, hg, hh, hrec⟩ := hrest
    refine ⟨by omega, fun y hy1 hy2 => ?_, hh, hrec⟩
    by_cases hyt : y < t
    · exact hg y hy1 hyt
    · exact le_trans (hhead p rfl) (hgap y (by simp only [leftEnd]; omega) hy2)

theorem stackOk_le_top {heights : List Int} : ∀ (st : List Nat) (i top : Nat),
    StackOk heights i (top :: st) → ∀ t, t ∈ st → heightAt heights t ≤ heightAt heights top := by
  intro st
  induction st with
  | nil => intro i top _ t ht; cases ht
  | cons p st ih =>
    intro i top hok t ht
    obtain ⟨_, _, hh, hrec⟩ := hok
    rcases List.mem_cons.1 ht with h1 | h1
    · rw [h1]; exact hh p rfl
    · exact le_trans (ih top p hrec t h1) (hh p rfl)

theorem hist_width {i : Nat} (rest : List Nat) (h : leftEnd rest ≤ i) :
    (match rest with
      | [] => (i : Int)
      | p :: _ => (i : Int) - (p : Int) - 1) = ((i - leftEnd rest : Nat) : Int) := by
  cases rest with
  | nil => simp [leftEnd]
  | cons p rest =>
    simp only [leftEnd] at h ⊢
    omega

theorem leftEnd_le {heights : List Int} {i : Nat} {st : List Nat} (h : StackOk heights i st) :
    leftEnd st ≤ i := by
  cases st with
  | nil => exact Nat.zero_le _
  | cons t rest => exact h.1

/-- The loop that pops the bars higher than `h = heights[i]` keeps the invariants; when it
stops, the bar on top (if any) is not higher than `h`. -/
theorem histPop_spec {heights : List Int} (hpos : ∀ x, x ∈ heights → 0 ≤ x) {i : Nat}
    (hi : i ≤ heights.length) {h : Int} (hh : h = heightAt heights i) :
    ∀ (st : List Nat) (mx : Int), StackOk heights i st → AreaInv heights i st mx →
      (∀ y, leftEnd st ≤ y → y < i → h ≤ heightAt heights y) →
      ∃ st1 mx1, histPop heights h i st mx = some (st1, mx1) ∧ StackOk heights i st1 ∧
        AreaInv heights i st1 mx1 ∧ (∀ y, leftEnd st1 ≤ y → y < i → h ≤ heightAt heights y) ∧
        ∀ p, st1.head? = some p → heightAt heights p ≤ h := by
  intro st
  induction st with
  | nil =>
    intro mx hok hinv hgap
    exact ⟨[], mx, rfl, hok, hinv, hgap, fun p hp => by cases hp⟩
  | cons t rest ih =>
    intro mx hok hinv hgap
    obtain ⟨hti, hg, hhd, hrec⟩ := hok
    have htn : t < heights.length := by omega
    have hget := heightAt_of_lt htn
    by_cases hlt : h < heightAt heights t
    · have hle : leftEnd rest ≤ i := by
        have := leftEnd_le hrec
        omega
      have hlet : leftEnd rest ≤ t := leftEnd_le hrec
      have hstep : histPop heights h i (t :: rest) mx =
          histPop heights h i rest
            (max mx (heightAt heights t * ((i - leftEnd rest : Nat) : Int))) := by
        cases rest with
        | nil => simp only [histPop, hget, hlt, if_true, leftEnd, Nat.sub_zero]
        | cons p rest =>
          simp only [leftEnd] at hle
          have e : (i : Int) - (p : Int) - 1 = ((i - (p + 1) : Nat) : Int) := by omega
          simp only [histPop, hget, hlt, if_true, leftEnd, e]
      have htpos : 0 < heightAt heights t := by
        have := heightAt_nonneg hpos i
        omega
      rw [hstep]
      refine ih _ (stackOk_lift hrec hti hhd hg) ?_ (fun y hy1 hy2 => ?_)
      · refine ⟨le_max_of_le_left hinv.nonneg, fun t1 ht1 hmem a b hat htb hbn hall hleft => ?_, ?_⟩
        · by_cases heq : t1 = t
          · subst heq
            have hbi : b < i := by
              by_contra hcon
              have h1 := hall i (by omega) (by omega)
              rw [← hh] at h1
              omega
            have hal : leftEnd rest ≤ a := by
              cases rest with
              | nil => exact Nat.zero_le _
              | cons p rest =>
                simp only [leftEnd]
                by_contra hcon
                have hpt : p < t1 := hrec.1
                have h1 := hleft p (by omega) hpt
                have h2 := hhd p rfl
                omega
            refine le_max_of_le_right ?_
            apply mul_le_mul_of_nonneg_left _ (le_of_lt htpos)
            exact_mod_cast (show b + 1 - a ≤ i - leftEnd rest by omega)
          · refine le_max_of_le_left (hinv.popped t1 ht1 ?_ a b hat htb hbn hall hleft)
            intro hm
            rcases List.mem_cons.1 hm with h1 | h1
            · exact heq h1
            · exact hmem h1
        · rcases max_choice mx (heightAt heights t * ((i - leftEnd rest : Nat) : Int)) with
            hm | hm
          · rw [hm]; exact hinv.attained
          · right
            refine ⟨leftEnd rest, i - 1, heightAt heights t, by omega, by omega,
              ⟨⟨t, hlet, by omega, hget⟩, fun y hy1 hy2 => ⟨heightAt heights y,
                heightAt_of_lt (by omega), hg y hy1 (by omega)⟩⟩, ?_⟩
            rw [hm, mul_comm]
            congr 2
            omega
      · have := hg y hy1 hy2
        omega
    · refine ⟨t :: rest, mx, by simp only [histPop, hget, hlt, if_false], ⟨hti, hg, hhd, hrec⟩,
        hinv, hgap, fun p hp => ?_⟩
      simp only [List.head?_cons, Option.some.injEq] at hp
      rw [← hp]
      omega

theorem histLoop_done (heights : List Int) {n : Int} {i : Nat} (h : ¬ (i : Int) ≤ n)
    (fuel : Nat) (st : List Nat) (mx : Int) : histLoop heights n fuel i st mx = some mx := by
  cases fuel <;> simp [histLoop, h]

/-- The loop over the indices `0 .. n` returns and keeps the invariants up to the end. -/
theorem histLoop_spec {heights : List Int} (hpos : ∀ x, x ∈ heights → 0 ≤ x)
    (hlen : heights.length + 1 < 2 ^ 31) :
    ∀ (fuel i : Nat) (st : List Nat) (mx : Int), i ≤ heights.length + 1 →
      heights.length + 1 ≤ i + fuel → leftEnd st = i → StackOk heights i st →
      AreaInv heights i st mx →
      ∃ r st1, histLoop heights (heights.length : Int) fuel i st mx = some r ∧
        leftEnd st1 = heights.length + 1 ∧ StackOk heights (heights.length + 1) st1 ∧
        AreaInv heights (heights.length + 1) st1 r := by
  intro fuel
  induction fuel with
  | zero =>
    intro i st mx hi hfuel hleft hok hinv
    have hie : i = heights.length + 1 := by omega
    subst hie
    exact ⟨mx, st, histLoop_done heights (by push_cast; omega) 0 st mx, hleft, hok, hinv⟩
  | succ fuel ih =>
    intro i st mx hi hfuel hleft hok hinv
    by_cases hin : i ≤ heights.length
    · have hcond : (i : Int) ≤ (heights.length : Int) := by exact_mod_cast hin
      have hh : (if (i : Int) = (heights.length : Int) then some 0 else heights[i]?) =
          some (heightAt heights i) := by
        by_cases hie : i = heights.length
        · rw [if_pos (by exact_mod_cast hie), heightAt_of_le (by omega)]
        · rw [if_neg (by exact_mod_cast hie), heightAt_of_lt (by omega)]
      obtain ⟨st1, mx1, hpop, hok1, hinv1, hgap1, hhead1⟩ :=
        histPop_spec hpos hin (rfl : heightAt heights i = heightAt heights i) st mx hok hinv
          (fun y hy1 hy2 => by rw [hleft] at hy1; omega)
      have hguard : i ≠ 2 ^ 31 - 1 := by omega
      have hstep : histLoop heights (heights.length : Int) (fuel + 1) i st mx =
          histLoop heights (heights.length : Int) fuel (i + 1) (i :: st1) mx1 := by
        simp only [histLoop, hcond, if_true, hh, hpop, hguard, if_false]
      rw [hstep]
      refine ih (i + 1) (i :: st1) mx1 (by omega) (by omega) rfl
        ⟨Nat.lt_succ_self i, fun y hy1 hy2 => ?_, hhead1, hok1⟩
        ⟨hinv1.nonneg, fun t ht hmem => ?_, hinv1.attained⟩
      · by_cases hyi : y = i
        · rw [hyi]
        · exact hgap1 y hy1 (by omega)
      · have hti : t ≠ i := fun e => hmem (e ▸ List.mem_cons_self _ _)
        exact hinv1.popped t (by omega) (fun h1 => hmem (List.mem_cons_of_mem _ h1))
    · have hie : i = heights.length + 1 := by omega
      subst hie
      exact ⟨mx, st, histLoop_done heights (by push_cast; omega) _ st mx, hleft, hok, hinv⟩

/-- The leftmost bar of minimal height in a segment. -/
theorem leftmost_min {heights : List Int} {a b : Nat} {m : Int}
    (hmin : IsSegMin heights a b m) :
    ∃ t, a ≤ t ∧ t ≤ b ∧ heightAt heights t = m ∧
      (∀ y, a ≤ y → y ≤ b → heightAt heights t ≤ heightAt heights y) ∧
      ∀ y, a ≤ y → y < t → heightAt heights t < heightAt heights y := by
  obtain ⟨⟨t0, hat0, ht0b, hget0⟩, hall⟩ := hmin
  have hall1 : ∀ y, a ≤ y → y ≤ b → m ≤ heightAt heights y := by
    intro y hy1 hy2
    obtain ⟨x, hx, hmx⟩ := hall y hy1 hy2
    rw [heightAt_of_getElem? hx]
    exact hmx
  have hex : ∃ t, a ≤ t ∧ heightAt heights t = m := ⟨t0, hat0, heightAt_of_getElem? hget0⟩
  classical
  refine ⟨Nat.find hex, (Nat.find_spec hex).1, le_trans (Nat.find_min' hex ⟨hat0,
    heightAt_of_getElem? hget0⟩) ht0b, (Nat.find_spec hex).2, fun y hy1 hy2 => ?_,
    fun y hy1 hy2 => ?_⟩
  · rw [(Nat.find_spec hex).2]
    exact hall1 y hy1 hy2
  · rw [(Nat.find_spec hex).2]
    have hle := hall1 y hy1 (by
      have := le_trans (Nat.find_min' hex ⟨hat0, heightAt_of_getElem? hget0⟩) ht0b
      omega)
    have hne : heightAt heights y ≠ m := fun e => Nat.find_min hex hy2 ⟨hy1, e⟩
    omega

theorem toInt32_hist : toInt32 (2 ^ 31) = -2 ^ 31 := by
  unfold toInt32
  norm_num

/-- C34 as written fails on a vector of `2^31` bars of height 1: `int n = heights.size()`
is `INT_MIN`, the loop body never runs and the result is 0, although the bar at index 0
alone is a rectangle of area 1. -/
theorem C34_wide_histogram_gives_zero :
    largest_rectangle_histogram (List.replicate (2 ^ 31) 1) = some 0 ∧
      0 < (List.replicate (2 ^ 31) (1 : Int)).length ∧
      IsSegMin (List.replicate (2 ^ 31) 1) 0 0 1 := by
  have hget : (List.replicate (2 ^ 31) (1 : Int))[0]? = some 1 := by
    rw [List.getElem?_replicate, if_pos (by norm_num)]
  refine ⟨?_, by rw [List.length_replicate]; norm_num, ⟨0, le_refl _, le_refl _, hget⟩,
    fun y _ hy => ?_⟩
  · unfold largest_rectangle_histogram
    rw [List.length_replicate, toInt32_hist]
    exact histLoop_done _ (by norm_num) _ _ _
  · have hy0 : y = 0 := by omega
    rw [hy0]
    exact ⟨1, hget, le_refl _⟩

/-- C34, amended: for every vector `heights` of non-negative integers with
`heights.size() + 1 < 2^31` (the index is a 32-bit `int` that runs up to `n`; products are
exact), `largest_rectangle_histogram(heights)` returns the maximum over all
`0 <= i <= j < n` of `(j - i + 1) * min(heights[i..j])`: no such product is greater and,
for a non-empty vector, one of them equals the result; the result is 0 for the empty
vector. -/
theorem C34_largest_rectangle_histogram (heights : List Int)
    (hpos : ∀ x, x ∈ heights → 0 ≤ x) (hlen : heights.length + 1 < 2 ^ 31) :
    ∃ r, largest_rectangle_histogram heights = some r ∧
      (∀ a b m, a ≤ b → b < heights.length → IsSegMin heights a b m →
        ((b - a + 1 : Nat) : Int) * m ≤ r) ∧
      (heights ≠ [] → ∃ a b m, a ≤ b ∧ b < heights.length ∧ IsSegMin heights a b m ∧
        r = ((b - a + 1 : Nat) : Int) * m) ∧
      (heights = [] → r = 0) := by
  have hcast : toInt32 heights.length = (heights.length : Int) := toInt32_small (by omega)
  obtain ⟨r, st1, hloop, hleft, hok, hinv⟩ := histLoop_spec hpos hlen (heights.length + 1) 0 [] 0
    (Nat.zero_le _) (by omega) rfl trivial
    ⟨le_refl _, fun t ht => absurd ht (Nat.not_lt_zero t), Or.inl rfl⟩
  have hbound : ∀ a b m, a ≤ b → b < heights.length → IsSegMin heights a b m →
      ((b - a + 1 : Nat) : Int) * m ≤ r := by
    intro a b m hab hb hmin
    obtain ⟨t, hat, htb, htm, hall, hleftmost⟩ := leftmost_min hmin
    have hw : b - a + 1 = b + 1 - a := by omega
    rw [hw, ← htm, mul_comm]
    by_cases hmem : t ∈ st1
    · cases st1 with
      | nil => cases hmem
      | cons top st2 =>
        simp only [leftEnd, Nat.add_right_cancel_iff] at hleft
        subst hleft
        rcases List.mem_cons.1 hmem with h1 | h1
        · omega
        · have h2 := stackOk_le_top st2 _ _ hok t h1
          rw [heightAt_of_le (le_refl _)] at h2
          have h3 := heightAt_nonneg hpos t
          have h4 : heightAt heights t = 0 := by omega
          rw [h4, zero_mul]
          exact hinv.nonneg
    · exact hinv.popped t (by omega) hmem a b hat htb hb hall hleftmost
  refine ⟨r, ?_, hbound, fun hne => ?_, fun hnil => ?_⟩
  · unfold largest_rectangle_histogram
    rw [hcast]
    exact hloop
  · rcases hinv.attained with h0 | ⟨a, b, m, hab, hb, hmin, hr⟩
    · have hpos0 : 0 < heights.length := List.length_pos.2 hne
      have hget := heightAt_of_lt hpos0
      have hmin0 : IsSegMin heights 0 0 (heightAt heights 0) :=
        ⟨⟨0, le_refl _, le_refl _, hget⟩, fun y _ hy => by
          have hy0 : y = 0 := by omega
          rw [hy0]
          exact ⟨_, hget, le_refl _⟩⟩
      have h1 := hbound 0 0 _ (le_refl _) hpos0 hmin0
      have h2 := heightAt_nonneg hpos 0
      refine ⟨0, 0, heightAt heights 0, le_refl _, hpos0, hmin0, ?_⟩
      simp only [Nat.sub_self, Nat.zero_add, Nat.cast_one, one_mul] at h1 ⊢
      omega
    · refine ⟨a, b, m, hab, hb, hmin, ?_⟩
      rw [hr]
      congr 2
      omega
  · rcases hinv.attained with h0 | ⟨a, b, m, hab, hb, hmin, hr⟩
    · exact h0
    · rw [hnil] at hb
      cases hb

/-- On `{2, 1, 5, 6, 2, 3}` the result is 10, the rectangle over the bars 5 and 6. -/
theorem C34_test_vector :
    largest_rectangle_histogram [2, 1, 5, 6, 2, 3] = some 10 ∧
      IsSegMin [2, 1, 5, 6, 2, 3] 2 3 5 ∧
      largest_rectangle_histogram [] = some 0 ∧
      ∃ r, largest_rectangle_histogram [2, 1, 5, 6, 2, 3] = some r ∧
        ((3 - 2 + 1 : Nat) : Int) * 5 ≤ r := by
  have hmin : IsSegMin [2, 1, 5, 6, 2, 3] 2 3 5 := by
    refine ⟨⟨2, le_refl _, by decide, rfl⟩, fun y hy1 hy2 => ?_⟩
    have hy : y = 2 ∨ y = 3 := by omega
    rcases hy with rfl | rfl
    · exact ⟨5, rfl, by decide⟩
    · exact ⟨6, rfl, by decide⟩
  exact ⟨by decide, hmin, by decide,
    (C34_largest_rectangle_histogram [2, 1, 5, 6, 2, 3] (by decide) (by decide)).imp
      (fun _ h => ⟨h.1, h.2.1 2 3 5 (by decide) (by decide) hmin⟩)⟩

end stackalgo

namespace Solution

/-! ## `Solution::topoSort`: depth-first topological order of a DAG -/

theorem count_set_visited : ∀ (l : List Bool) (i : Nat), l[i]? = some false →
    (l.set i true).count false + 1 = l.count false := by
  intro l
  induction l with
  | nil => intro i h; simp at h
  | cons x xs ih =>
    intro i h
    cases i with
    | zero =>
      simp only [List.getElem?_cons_zero, Option.some.injEq] at h
      subst h
      simp [List.set, List.count_cons]
    | succ i =>
      rw [List.getElem?_cons_succ] at h
      have := ih i h
      simp only [List.set, List.count_cons]
      omega

theorem before_prepend {st : List Nat} {u v : Nat} (new : List Nat) (h : Before st u v) :
    Before (new ++ st) u v := by
  obtain ⟨a, b, hst, hv⟩ := h
  exact ⟨new ++ a, b, by rw [hst, List.append_assoc], hv⟩

theorem drain_eq : ∀ (st out : List Nat), drain st out = out ++ st := by
  intro st
  induction st with
  | nil => intro out; simp [drain]
  | cons t st ih => intro out; simp [drain, ih]

theorem visited_set_iff (vis : List Bool) {node : Nat} (h : node < vis.length) (x : Nat) :
    (vis.set node true)[x]? = some true ↔ x = node ∨ vis[x]? = some true := by
  by_cases hx : x = node
  · subst hx
    simp [List.getElem?_set_self h]
  · rw [List.getElem?_set_ne (Ne.symm hx)]
    simp [hx]

theorem unvisited_of_not {vis : List Bool} {x : Nat} (hx : x < vis.length)
    (h : ¬ vis[x]? = some true) : vis[x]? = some false := by
  rw [List.getElem?_eq_getElem hx] at h ⊢
  cases hb : vis[x] with
  | true => rw [hb] at h; exact absurd rfl h
  | false => rfl

theorem lt_of_visit_some {vis : List Bool} {x : Nat} {b : Bool} (h : vis[x]? = some b) :
    x < vis.length := by
  by_contra hcon
  rw [List.getElem?_eq_none (by omega)] at h
  cases h

theorem grows_refl {vis : List Bool} {st : List Nat} (hsub : ∀ x, x ∈ st → vis[x]? = some true) :
    Grows vis st vis st :=
  ⟨⟨[], rfl, fun x hx => by cases hx⟩,
    fun x => ⟨Or.inl, fun h => h.elim id (hsub x)⟩, le_refl _⟩

theorem grows_trans {vis vis1 vis2 : List Bool} {st st1 st2 : List Nat}
    (h1 : Grows vis st vis1 st1) (h2 : Grows vis1 st1 vis2 st2) : Grows vis st vis2 st2 := by
  obtain ⟨n1, e1, u1⟩ := h1.ext
  obtain ⟨n2, e2, u2⟩ := h2.ext
  refine ⟨⟨n2 ++ n1, by rw [e2, e1, List.append_assoc], ?_⟩, ?_, le_trans h2.count h1.count⟩
  · intro x hx hv
    rcases List.mem_append.1 hx with h | h
    · exact u2 x h ((h1.marks x).2 (Or.inl hv))
    · exact u1 x h hv
  · intro x
    rw [h2.marks x, h1.marks x]
    constructor
    · rintro ((h | h) | h)
      · exact Or.inl h
      · exact Or.inr (by rw [e2]; exact List.mem_append_right _ h)
      · exact Or.inr h
    · rintro (h | h)
      · exact Or.inl (Or.inl h)
      · exact Or.inr h

theorem grows_mem {vis vis1 : List Bool} {st st1 : List Nat} (h : Grows vis st vis1 st1)
    {x : Nat} (hx : x ∈ st) : x ∈ st1 := by
  obtain ⟨n, e, _⟩ := h.ext
  rw [e]
  exact List.mem_append_right _ hx

theorem grows_not_mem {vis vis1 : List Bool} {st st1 : List Nat} (h : Grows vis st vis1 st1)
    {x : Nat} (hv : vis[x]? = some true) (hx : x ∉ st) : x ∉ st1 := by
  obtain ⟨n, e, u⟩ := h.ext
  rw [e]
  intro hm
  rcases List.mem_append.1 hm with h | h
  · exact u x h hv
  · exact hx h

theorem visitAll_spec (adj : List (List Int)) (V d node : Nat)
    (hacyc : ∀ u, ¬ Relation.TransGen (Arc adj) u u)
    (ih : ∀ (n : Nat) (vis : List Bool) (st : List Nat), TopoInv adj V vis st → n < V →
      vis[n]? = some false → vis.count false ≤ d →
      (∀ g, vis[g]? = some true → g ∉ st → Relation.ReflTransGen (Arc adj) g n) →
      ∃ vis1 st1, dfs adj d n (vis, st) = some (vis1, st1) ∧ TopoInv adj V vis1 st1 ∧
        Grows vis st vis1 st1 ∧ n ∈ st1) :
    ∀ (todo : List Int) (vis : List Bool) (st : List Nat), TopoInv adj V vis st →
      vis[node]? = some true → node ∉ st → vis.count false ≤ d →
      (∀ g, vis[g]? = some true → g ∉ st → Relation.ReflTransGen (Arc adj) g node) →
      (∀ v, v ∈ todo → 0 ≤ v ∧ v < (V : Int) ∧ Arc adj node v.toNat) →
      ∃ vis1 st1, visitAll (dfs adj d) todo (vis, st) = some (vis1, st1) ∧
        TopoInv adj V vis1 st1 ∧ Grows vis st vis1 st1 ∧ ∀ v, v ∈ todo → v.toNat ∈ st1 := by
  intro todo
  induction todo with
  | nil =>
    intro vis st hinv _ _ _ _ _
    exact ⟨vis, st, rfl, hinv, grows_refl hinv.sub, fun v hv => by cases hv⟩
  | cons v vs ihl =>
    intro vis st hinv hnode hnot hcnt hgray htodo
    obtain ⟨hv0, hvV, harc⟩ := htodo v (List.mem_cons_self _ _)
    have hlt : v.toNat < vis.length := by rw [hinv.lenV]; omega
    have hrest : ∀ w, w ∈ vs → 0 ≤ w ∧ w < (V : Int) ∧ Arc adj node w.toNat :=
      fun w hw => htodo w (List.mem_cons_of_mem _ hw)
    by_cases hvis : vis[v.toNat]? = some true
    · have hin : v.toNat ∈ st := by
        by_contra hn
        exact hacyc node (Relation.TransGen.head' harc (hgray _ hvis hn))
      obtain ⟨vis1, st1, hrun, hinv1, hg1, hall⟩ := ihl vis st hinv hnode hnot hcnt hgray hrest
      refine ⟨vis1, st1, ?_, hinv1, hg1, ?_⟩
      · simp only [visitAll, if_neg (not_lt.2 hv0), hvis]
        exact hrun
      · intro w hw
        rcases List.mem_cons.1 hw with h | h
        · rw [h]; exact grows_mem hg1 hin
        · exact hall w h
    · have hfalse := unvisited_of_not hlt hvis
      have hreach : ∀ g, vis[g]? = some true → g ∉ st →
          Relation.ReflTransGen (Arc adj) g v.toNat :=
        fun g hg hn => Relation.ReflTransGen.tail (hgray g hg hn) harc
      obtain ⟨vis1, st1, hcall, hinv1, hg1, hmem1⟩ :=
        ih v.toNat vis st hinv (by omega) hfalse hcnt hreach
      have hnode1 : vis1[node]? = some true := (hg1.marks node).2 (Or.inl hnode)
      have hnot1 : node ∉ st1 := grows_not_mem hg1 hnode hnot
      have hgray1 : ∀ g, vis1[g]? = some true → g ∉ st1 →
          Relation.ReflTransGen (Arc adj) g node := by
        intro g hg hn
        rcases (hg1.marks g).1 hg with h | h
        · exact hgray g h (fun hm => hn (grows_mem hg1 hm))
        · exact absurd h hn
      obtain ⟨vis2, st2, hrun, hinv2, hg2, hall⟩ :=
        ihl vis1 st1 hinv1 hnode1 hnot1 (le_trans hg1.count hcnt) hgray1 hrest
      refine ⟨vis2, st2, ?_, hinv2, grows_trans hg1 hg2, ?_⟩
      · simp only [visitAll, if_neg (not_lt.2 hv0), hfalse, hcall]
        exact hrun
      · intro w hw
        rcases List.mem_cons.1 hw with h | h
        · rw [h]; exact grows_mem hg2 hmem1
        · exact hall w h

theorem dfs_spec (adj : List (List Int)) (V : Nat) (hV : adj.length = V)
    (hrange : ∀ nbrs, nbrs ∈ adj → ∀ v, v ∈ nbrs → 0 ≤ v ∧ v < (V : Int))
    (hacyc : ∀ u, ¬ Relation.TransGen (Arc adj) u u) :
    ∀ (d n : Nat) (vis : List Bool) (st : List Nat), TopoInv adj V vis st → n < V →
      vis[n]? = some false → vis.count false ≤ d →
      (∀ g, vis[g]? = some true → g ∉ st → Relation.ReflTransGen (Arc adj) g n) →
      ∃ vis1 st1, dfs adj d n (vis, st) = some (vis1, st1) ∧ TopoInv adj V vis1 st1 ∧
        Grows vis st vis1 st1 ∧ n ∈ st1 := by
  intro d
  induction d with
  | zero =>
    intro n vis st _ _ hfalse hcnt _
    have := count_set_visited vis n hfalse
    omega
  | succ d ihd =>
    intro n vis st hinv hn hfalse hcnt hgray
    have hlen : n < vis.length := by rw [hinv.lenV]; exact hn
    have hadj : adj[n]? = some adj[n] := List.getElem?_eq_getElem (by omega)
    have hnode0 : (vis.set n true)[n]? = some true := (visited_set_iff vis hlen n).2 (Or.inl rfl)
    have hnot : n ∉ st := by
      intro hm
      have := hinv.sub n hm
      rw [hfalse] at this
      cases this
    have hinv0 : TopoInv adj V (vis.set n true) st :=
      ⟨by rw [List.length_set]; exact hinv.lenV,
        fun x hx => (visited_set_iff vis hlen x).2 (Or.inr (hinv.sub x hx)),
        hinv.nodup, hinv.closed⟩
    have hcnt0 : (vis.set n true).count false ≤ d := by
      have := count_set_visited vis n hfalse
      omega
    have hgray0 : ∀ g, (vis.set n true)[g]? = some true → g ∉ st →
        Relation.ReflTransGen (Arc adj) g n := by
      intro g hg hm
      rcases (visited_set_iff vis hlen g).1 hg with h | h
      · rw [h]
      · exact hgray g h hm
    have htodo : ∀ v, v ∈ adj[n] → 0 ≤ v ∧ v < (V : Int) ∧ Arc adj n v.toNat := by
      intro v hv
      obtain ⟨h0, h1⟩ := hrange adj[n] (List.getElem_mem _) v hv
      exact ⟨h0, h1, adj[n], hadj, by rw [Int.toNat_of_nonneg h0]; exact hv⟩
    obtain ⟨vis1, st1, hrun, hinv1, hg1, hall⟩ :=
      visitAll_spec adj V d n hacyc ihd adj[n] (vis.set n true) st hinv0 hnode0 hnot hcnt0
        hgray0 htodo
    have hnot1 : n ∉ st1 := grows_not_mem hg1 hnode0 hnot
    obtain ⟨new, enew, unew⟩ := hg1.ext
    refine ⟨vis1, n :: st1, ?_, ⟨hinv1.lenV, ?_, List.nodup_cons.2 ⟨hnot1, hinv1.nodup⟩, ?_⟩,
      ⟨⟨n :: new, by rw [enew]; rfl, ?_⟩, ?_, ?_⟩, List.mem_cons_self _ _⟩
    · simp only [dfs, if_pos hlen, hadj, hrun]
    · intro x hx
      rcases List.mem_cons.1 hx with h | h
      · rw [h]; exact (hg1.marks n).2 (Or.inl hnode0)
      · exact hinv1.sub x h
    · intro u v hu harc
      rcases List.mem_cons.1 hu with h | h
      · subst h
        obtain ⟨nb, hnb, hvm⟩ := harc
        rw [hadj] at hnb
        have hnb1 : adj[u] = nb := Option.some.inj hnb
        have := hall (v : Int) (by rw [hnb1]; exact hvm)
        exact ⟨[], st1, rfl, by simpa using this⟩
      · exact before_prepend [n] (hinv1.closed u v h harc)
    · intro x hx hv
      rcases List.mem_cons.1 hx with h | h
      · rw [h, hfalse] at hv
        cases hv
      · exact unew x h ((visited_set_iff vis hlen x).2 (Or.inr hv))
    · intro x
      rw [hg1.marks x, visited_set_iff vis hlen x, List.mem_cons]
      constructor
      · rintro ((h | h) | h)
        · exact Or.inr (Or.inl h)
        · exact Or.inl h
        · exact Or.inr (Or.inr h)
      · rintro (h | h | h)
        · exact Or.inl (Or.inr h)
        · exact Or.inl (Or.inl h)
        · exact Or.inr h
    · have := count_set_visited vis n hfalse
      have := hg1.count
      omega

theorem topoLoop_spec (adj : List (List Int)) (V : Nat) (hV : adj.length = V)
    (hrange : ∀ nbrs, nbrs ∈ adj → ∀ v, v ∈ nbrs → 0 ≤ v ∧ v < (V : Int))
    (hacyc : ∀ u, ¬ Relation.TransGen (Arc adj) u u) :
    ∀ (remaining i : Nat) (vis : List Bool) (st : List Nat), i + remaining = V →
      TopoInv adj V vis st → (∀ x, vis[x]? = some true → x ∈ st) →
      (∀ x, x < i → vis[x]? = some true) →
      ∃ vis1 st1, topoLoop adj V remaining i (vis, st) = some (vis1, st1) ∧
        TopoInv adj V vis1 st1 ∧ ∀ x, x < V → x ∈ st1 := by
  intro remaining
  induction remaining with
  | zero =>
    intro i vis st hi hinv hblack hdone
    exact ⟨vis, st, rfl, hinv, fun x hx => hblack x (hdone x (by omega))⟩
  | succ r ih =>
    intro i vis st hi hinv hblack hdone
    have hlen : i < vis.length := by rw [hinv.lenV]; omega
    by_cases hvis : vis[i]? = some true
    · obtain ⟨vis1, st1, hrun, hinv1, hall⟩ := ih (i + 1) vis st (by omega) hinv hblack
        (fun x hx => by
          rcases Nat.lt_succ_iff_lt_or_eq.1 hx with h | h
          · exact hdone x h
          · rw [h]; exact hvis)
      refine ⟨vis1, st1, ?_, hinv1, hall⟩
      simp only [topoLoop, hvis]
      exact hrun
    · have hfalse := unvisited_of_not hlen hvis
      have hcnt : vis.count false ≤ V := by
        rw [← hinv.lenV]
        exact List.count_le_length _ _
      obtain ⟨vis1, st1, hcall, hinv1, hg1, hmem⟩ :=
        dfs_spec adj V hV hrange hacyc V i vis st hinv (by omega) hfalse hcnt
          (fun g hg hm => absurd (hblack g hg) hm)
      obtain ⟨vis2, st2, hrun, hinv2, hall⟩ := ih (i + 1) vis1 st1 (by omega) hinv1
        (fun x hx => ((hg1.marks x).1 hx).elim (fun h => grows_mem hg1 (hblack x h)) id)
        (fun x hx => by
          rcases Nat.lt_succ_iff_lt_or_eq.1 hx with h | h
          · exact (hg1.marks x).2 (Or.inl (hdone x h))
          · rw [h]; exact hinv1.sub i hmem)
      refine ⟨vis2, st2, ?_, hinv2, hall⟩
      simp only [topoLoop, hfalse, hcall]
      exact hrun

theorem acyclic_of_rank (adj : List (List Int)) (r : Nat → Nat)
    (h : ∀ u v, Arc adj u v → r v < r u) : ∀ u, ¬ Relation.TransGen (Arc adj) u u := by
  have hlt : ∀ u v, Relation.TransGen (Arc adj) u v → r v < r u := by
    intro u v huv
    induction huv with
    | single hab => exact h _ _ hab
    | tail _ hbc ih => exact lt_trans (h _ _ hbc) ih
  intro u hu
  exact lt_irrefl _ (hlt u u hu)

/-- C31: for a directed acyclic graph `adj` on `V` vertices whose neighbour indices all lie
in `0 .. V-1`, `topoSort(V, adj)` returns, and what it returns is a permutation of
`0 .. V-1` in which `u` stands before `v` for every edge `u -> v`. -/
theorem C31_topoSort_orders_dag (V : Nat) (adj : List (List Int)) (hV : adj.length = V)
    (hrange : ∀ nbrs, nbrs ∈ adj → ∀ v, v ∈ nbrs → 0 ≤ v ∧ v < (V : Int))
    (hacyc : ∀ u, ¬ Relation.TransGen (Arc adj) u u) :
    ∃ order, topoSort V adj = some order ∧ order.Perm (List.range V) ∧
      ∀ u v, Arc adj u v → Before order u v := by
  have hinit : TopoInv adj V (List.replicate V false) [] :=
    ⟨List.length_replicate _ _, fun x hx => (by cases hx), List.nodup_nil,
      fun u v hu => (by cases hu)⟩
  have hnone : ∀ x, (List.replicate V false)[x]? = some true → x ∈ ([] : List Nat) := by
    intro x hx
    rw [List.getElem?_replicate] at hx
    split at hx <;> cases hx
  obtain ⟨vis1, st1, hrun, hinv1, hall⟩ :=
    topoLoop_spec adj V hV hrange hacyc V 0 (List.replicate V false) [] (by omega) hinit hnone
      (fun x hx => by omega)
  refine ⟨st1, ?_, ?_, ?_⟩
  · simp only [topoSort, hrun, drain_eq, List.nil_append]
  · refine (List.perm_ext_iff_of_nodup hinv1.nodup (List.nodup_range V)).2 (fun x => ?_)
    rw [List.mem_range]
    refine ⟨fun hx => ?_, hall x⟩
    rw [← hinv1.lenV]
    exact lt_of_visit_some (hinv1.sub x hx)
  · intro u v harc
    refine hinv1.closed u v (hall u ?_) harc
    obtain ⟨nb, hnb, _⟩ := harc
    rw [← hV]
    by_contra hcon
    rw [List.getElem?_eq_none (by omega)] at hnb
    cases hnb

/-- Example 1 of `main`: `V = 6` with the edges `5->2, 5->0, 4->0, 4->1, 2->3, 3->1` is
sorted as `5 4 2 3 1 0`, a permutation of `0 .. 5` that respects every edge. -/
theorem C31_example1 :
    topoSort 6 [[], [], [3], [1], [0, 1], [2, 0]] = some [5, 4, 2, 3, 1, 0] ∧
      ∃ order, topoSort 6 [[], [], [3], [1], [0, 1], [2, 0]] = some order ∧
        order.Perm (List.range 6) ∧
        ∀ u v, Arc [[], [], [3], [1], [0, 1], [2, 0]] u v → Before order u v :=
  ⟨by decide,
    C31_topoSort_orders_dag 6 [[], [], [3], [1], [0, 1], [2, 0]] rfl (by decide)
      (acyclic_of_rank _ (fun u => [0, 1, 3, 2, 4, 5].getD u 0) (by
        rintro u v ⟨nb, hnb, hv⟩
        have hu : u < 6 := by
          by_contra hcon
          rw [List.getElem?_eq_none (by simpa using hcon)] at hnb
          cases hnb
        interval_cases u <;> simp at hnb <;> subst hnb <;> simp at hv
        · obtain rfl : v = 3 := by omega
          decide
        · obtain rfl : v = 1 := by omega
          decide
        · rcases hv with hv | hv
          · obtain rfl : v = 0 := by omega
            decide
          · obtain rfl : v = 1 := by omega
            decide
        · rcases hv with hv | hv
          · obtain rfl : v = 2 := by omega
            decide
          · obtain rfl : v = 0 := by omega
            decide))⟩

end Solution

namespace llist

/-! ## `find_middle`, `split_list`, `merge_two_sorted` and `mergesort_list` on raw node pointers -/

variable {T : Type}

theorem segment_frame {h h1 : Nat → Option (SLLNode T)} : ∀ (l : List (Nat × T)) (p q : Option Nat),
    (∀ x, x ∈ l → h1 x.1 = h x.1) → Segment h p l q → Segment h1 p l q := by
  intro l
  induction l with
  | nil => intro p q _ hs; exact hs
  | cons x l ih =>
    intro p q hfr hs
    obtain ⟨hp, nx, hx, hrest⟩ := hs
    exact ⟨hp, nx, by rw [hfr x (List.mem_cons_self _ _)]; exact hx,
      ih nx q (fun y hy => hfr y (List.mem_cons_of_mem _ hy)) hrest⟩

theorem segment_append {h : Nat → Option (SLLNode T)} : ∀ (l1 l2 : List (Nat × T))
    (p q : Option Nat),
    Segment h p (l1 ++ l2) q ↔ ∃ m, Segment h p l1 m ∧ Segment h m l2 q := by
  intro l1
  induction l1 with
  | nil =>
    intro l2 p q
    constructor
    · intro hs; exact ⟨p, rfl, hs⟩
    · rintro ⟨m, hm, hs⟩
      have : p = m := hm
      rw [this]; exact hs
  | cons x l1 ih =>
    intro l2 p q
    constructor
    · rintro ⟨hp, nx, hx, hrest⟩
      obtain ⟨m, h1, h2⟩ := (ih l2 nx q).1 hrest
      exact ⟨m, ⟨hp, nx, hx, h1⟩, h2⟩
    · rintro ⟨m, ⟨hp, nx, hx, h1⟩, h2⟩
      exact ⟨hp, nx, hx, (ih l2 nx q).2 ⟨m, h1, h2⟩⟩

theorem isList_unique {h : Nat → Option (SLLNode T)} : ∀ (l1 l2 : List (Nat × T)) (p : Option Nat),
    IsList h p l1 → IsList h p l2 → l1 = l2 := by
  intro l1
  induction l1 with
  | nil =>
    intro l2 p h1 h2
    cases l2 with
    | nil => rfl
    | cons y l2 =>
      have e1 : p = none := h1
      rw [e1] at h2
      cases h2.1
  | cons x l1 ih =>
    intro l2 p h1 h2
    obtain ⟨hp, nx, hx, hrest⟩ := h1
    cases l2 with
    | nil =>
      have e2 : p = none := h2
      rw [e2] at hp
      cases hp
    | cons y l2 =>
      obtain ⟨hp2, ny, hy, hrest2⟩ := h2
      rw [hp] at hp2
      have e1 : x.1 = y.1 := Option.some.inj hp2
      rw [← e1, hx] at hy
      have e2 := Option.some.inj hy
      have e3 : x.2 = y.2 := congrArg SLLNode.val e2
      have e4 : nx = ny := congrArg SLLNode.next e2
      rw [← e4] at hrest2
      rw [ih l2 nx hrest hrest2, Prod.ext e1 e3]

theorem isList_nodup {h : Nat → Option (SLLNode T)} : ∀ (l : List (Nat × T)) (p : Option Nat),
    IsList h p l → (l.map Prod.fst).Nodup := by
  intro l
  induction l with
  | nil => intro p _; exact List.nodup_nil
  | cons x l ih =>
    intro p hl
    obtain ⟨hp, nx, hx, hrest⟩ := hl
    rw [List.map_cons, List.nodup_cons]
    refine ⟨fun hmem => ?_, ih nx hrest⟩
    obtain ⟨y, hy, hy1⟩ := List.mem_map.1 hmem
    obtain ⟨pre, suf, hsplit⟩ := List.append_of_mem hy
    have hr : Segment h nx (pre ++ y :: suf) none := by rw [← hsplit]; exact hrest
    obtain ⟨m, _, hm, ny, hyc, hsuf⟩ := (segment_append pre (y :: suf) nx none).1 hr
    rw [hy1, hx] at hyc
    have e4 : nx = ny := congrArg SLLNode.next (Option.some.inj hyc)
    rw [← e4] at hsuf
    have := isList_unique suf l nx hsuf hrest
    have hlen := congrArg List.length hsplit
    rw [← this] at hlen
    simp at hlen
    omega

theorem isList_ptrAt {h : Nat → Option (SLLNode T)} : ∀ (l : List (Nat × T)) (p : Option Nat),
    IsList h p l → p = ptrAt l 0 ∧
      ∀ k x, l[k]? = some x → h x.1 = some { val := x.2, next := ptrAt l (k + 1) } := by
  intro l
  induction l with
  | nil =>
    intro p hl
    exact ⟨hl, fun k x hk => by simp at hk⟩
  | cons x l ih =>
    intro p hl
    obtain ⟨hp, nx, hx, hrest⟩ := hl
    obtain ⟨h0, hcells⟩ := ih nx hrest
    refine ⟨by rw [hp]; simp [ptrAt], fun k y hk => ?_⟩
    cases k with
    | zero =>
      simp only [List.getElem?_cons_zero, Option.some.injEq] at hk
      subst hk
      rw [hx, h0]
      simp [ptrAt]
    | succ k =>
      rw [List.getElem?_cons_succ] at hk
      rw [hcells k y hk]
      simp [ptrAt]

theorem ptrAt_of_getElem? {l : List (Nat × T)} {k : Nat} {x : Nat × T} (hk : l[k]? = some x) :
    ptrAt l k = some x.1 := by
  simp [ptrAt, hk]

theorem ptrAt_of_le {l : List (Nat × T)} {k : Nat} (hk : l.length ≤ k) : ptrAt l k = none := by
  simp [ptrAt, List.getElem?_eq_none hk]

theorem middleLoop_spec {h : Nat → Option (SLLNode T)} {l : List (Nat × T)}
    (hcells : ∀ k x, l[k]? = some x → h x.1 = some { val := x.2, next := ptrAt l (k + 1) }) :
    ∀ (fuel i : Nat), 2 * i + 1 ≤ l.length → l.length ≤ 2 * i + 2 + 2 * fuel →
      middleLoop h fuel (ptrAt l i) (ptrAt l (2 * i + 1)) = some (ptrAt l ((l.length - 1) / 2)) := by
  have hdone : ∀ i, 2 * i + 1 ≤ l.length → l.length ≤ 2 * i + 2 → (l.length - 1) / 2 = i :=
    fun i h1 h2 => by omega
  intro fuel
  induction fuel with
  | zero =>
    intro i h1 h2
    rw [hdone i h1 (by omega)]
    by_cases hlt : 2 * i + 1 < l.length
    · have hf : l[2 * i + 1]? = some l[2 * i + 1] := List.getElem?_eq_getElem hlt
      simp only [middleLoop, ptrAt_of_getElem? hf, hcells _ _ hf,
        ptrAt_of_le (show l.length ≤ 2 * i + 1 + 1 by omega)]
    · simp only [middleLoop, ptrAt_of_le (show l.length ≤ 2 * i + 1 by omega)]
  | succ fuel ih =>
    intro i h1 h2
    by_cases hlt : 2 * i + 1 < l.length
    · have hf : l[2 * i + 1]? = some l[2 * i + 1] := List.getElem?_eq_getElem hlt
      by_cases hlt2 : 2 * i + 2 < l.length
      · have hg : l[2 * i + 1 + 1]? = some l[2 * i + 1 + 1] := List.getElem?_eq_getElem hlt2
        have hs : l[i]? = some l[i] := List.getElem?_eq_getElem (by omega)
        have hrec := ih (i + 1) (by omega) (by omega)
        simp only [middleLoop, ptrAt_of_getElem? hf, hcells _ _ hf, ptrAt_of_getElem? hg,
          ptrAt_of_getElem? hs, hcells _ _ hs, hcells _ _ hg]
        exact hrec
      · rw [hdone i h1 (by omega)]
        simp only [middleLoop, ptrAt_of_getElem? hf, hcells _ _ hf,
          ptrAt_of_le (show l.length ≤ 2 * i + 1 + 1 by omega)]
    · rw [hdone i h1 (by omega)]
      simp only [middleLoop, ptrAt_of_le (show l.length ≤ 2 * i + 1 by omega)]

/-- `find_middle` returns the node at position `(n - 1) / 2` of a list of `n >= 1` nodes
(the first middle when `n` is even), and `nullptr` for the empty list. -/
theorem find_middle_spec {h : Nat → Option (SLLNode T)} {head : Option Nat} {l : List (Nat × T)}
    (hl : IsList h head l) {fuel : Nat} (hf : l.length ≤ 2 * fuel + 2) :
    find_middle fuel h head = some (ptrAt l ((l.length - 1) / 2)) := by
  obtain ⟨h0, hcells⟩ := isList_ptrAt l head hl
  cases l with
  | nil =>
    have : head = none := hl
    rw [this]
    rfl
  | cons x l =>
    have hx : (x :: l)[0]? = some x := List.getElem?_cons_zero
    have hrun := middleLoop_spec hcells fuel 0 (by simp) (by omega)
    rw [ptrAt_of_getElem? hx] at h0
    rw [h0]
    simp only [find_middle, hcells 0 x hx]
    rw [ptrAt_of_getElem? hx] at hrun
    exact hrun

/-- `split_list` cuts a list of `n` nodes after its first `(n + 1) / 2` nodes: the front
keeps the head and gets the extra node when `n` is odd, the back is the rest, and only the
`next` of the middle node is written. -/
theorem split_list_spec {h : Nat → Option (SLLNode T)} {head : Option Nat} {l : List (Nat × T)}
    (hl : IsList h head l) {fuel : Nat} (hf : l.length ≤ 2 * fuel + 2) :
    ∃ h1 back, split_list fuel h head = some (h1, head, back) ∧
      IsList h1 head (l.take ((l.length + 1) / 2)) ∧
      IsList h1 back (l.drop ((l.length + 1) / 2)) ∧
      ∀ a, a ∉ l.map Prod.fst → h1 a = h a := by
  cases hl0 : l with
  | nil =>
    subst hl0
    have : head = none := hl
    subst this
    exact ⟨h, none, rfl, by simp [IsList, Segment], by simp [IsList, Segment], fun _ _ => rfl⟩
  | cons x0 l0 =>
    rw [← hl0]
    have hpos : 0 < l.length := by rw [hl0]; simp
    have hmid := find_middle_spec hl hf
    have hk : (l.length - 1) / 2 < l.length := by omega
    have hy : l[(l.length - 1) / 2]? = some l[(l.length - 1) / 2] := List.getElem?_eq_getElem hk
    have hkk : (l.length + 1) / 2 = (l.length - 1) / 2 + 1 := by omega
    have hsplit : l = l.take ((l.length - 1) / 2) ++ l[(l.length - 1) / 2] ::
        l.drop ((l.length - 1) / 2 + 1) := by
      conv_lhs => rw [← List.take_append_drop ((l.length - 1) / 2) l]
      rw [List.drop_eq_getElem_cons hk]
    have hseg : Segment h head (l.take ((l.length - 1) / 2) ++ l[(l.length - 1) / 2] ::
        l.drop ((l.length - 1) / 2 + 1)) none := by
      rw [← hsplit]; exact hl
    obtain ⟨m, hfront, hm, nx, hcell, hback⟩ := (segment_append _ _ head none).1 hseg
    have hnd := isList_nodup l head hl
    rw [hsplit, List.map_append, List.map_cons] at hnd
    have hnd1 := (List.nodup_append.1 hnd).2.2
    have hnd2 := (List.nodup_cons.1 (List.nodup_append.1 hnd).2.1).1
    have hhead : ∃ a, head = some a := by
      have := (isList_ptrAt l head hl).1
      rw [hl0] at this
      exact ⟨x0.1, by rw [this]; simp [ptrAt]⟩
    obtain ⟨a0, ha0⟩ := hhead
    refine ⟨SinglyLinkedList.store h l[(l.length - 1) / 2].1
        { val := l[(l.length - 1) / 2].2, next := none }, nx, ?_, ?_, ?_, ?_⟩
    · rw [ha0] at hmid ⊢
      simp only [split_list, hmid, ptrAt_of_getElem? hy, hcell]
    · rw [hkk, List.take_succ, hy]
      refine (segment_append _ _ head none).2 ⟨m, segment_frame _ _ _ (fun z hz => ?_) hfront,
        hm, none, ?_, rfl⟩
      · have hne : z.1 ≠ l[(l.length - 1) / 2].1 := fun e =>
          hnd1 (List.mem_map.2 ⟨z, hz, rfl⟩) (by rw [e]; exact List.mem_cons_self _ _)
        simp [SinglyLinkedList.store, hne]
      · simp [SinglyLinkedList.store]
    · rw [hkk]
      refine segment_frame _ _ _ (fun z hz => ?_) hback
      have hne : z.1 ≠ l[(l.length - 1) / 2].1 := fun e =>
        hnd2 (by rw [← e]; exact List.mem_map.2 ⟨z, hz, rfl⟩)
      simp [SinglyLinkedList.store, hne]
    · intro a ha
      have hne : a ≠ l[(l.length - 1) / 2].1 := fun e =>
        ha (by rw [e]; exact List.mem_map.2 ⟨_, List.getElem_mem _, rfl⟩)
      simp [SinglyLinkedList.store, hne]

theorem linkAfter_spec (h : Nat → Option (SLLNode T)) (dn tail r : Option Nat)
    (htail : ∀ t, tail = some t → ∃ nt, h t = some nt) :
    ∃ h1 dn1, linkAfter h dn tail r = some (h1, dn1) ∧ (tail = none → dn1 = r) ∧
      (∀ t nt, tail = some t → h t = some nt → h1 t = some { nt with next := r } ∧ dn1 = dn) ∧
      ∀ x, some x ≠ tail → h1 x = h x := by
  cases tail with
  | none =>
    exact ⟨h, r, rfl, fun _ => rfl, fun t nt ht _ => (by cases ht), fun _ _ => rfl⟩
  | some t =>
    obtain ⟨nt, hnt⟩ := htail t rfl
    refine ⟨SinglyLinkedList.store h t { nt with next := r }, dn, by simp [linkAfter, hnt],
      fun ht => (by cases ht), fun t1 nt1 ht1 hnt1 => ?_, fun x hx => ?_⟩
    · cases ht1
      rw [hnt] at hnt1
      cases hnt1
      exact ⟨by simp [SinglyLinkedList.store], rfl⟩
    · have hne : x ≠ t := fun e => hx (by rw [e])
      simp [SinglyLinkedList.store, hne]

theorem mergeLoop_done [LinearOrder T] (fuel : Nat) (h : Nat → Option (SLLNode T))
    (dn tail l1 l2 : Option Nat) (hend : l1 = none ∨ l2 = none) :
    mergeLoop fuel h dn tail l1 l2 = linkAfter h dn tail (if l1 = none then l2 else l1) := by
  cases fuel <;> cases l1 <;> cases l2 <;> simp [mergeLoop] at hend ⊢

theorem isList_head {h : Nat → Option (SLLNode T)} {p : Option Nat} {l : List (Nat × T)}
    (hl : IsList h p l) : p = ptrAt l 0 :=
  (isList_ptrAt l p hl).1

theorem isList_nil_iff {h : Nat → Option (SLLNode T)} {l : List (Nat × T)} (hl : IsList h none l) :
    l = [] := by
  cases l with
  | nil => rfl
  | cons x l => cases hl.1

/-- The rest of a merge once one list is used up: the other list is linked after `tail`. -/
theorem mergeLoop_rest [LinearOrder T] (fuel : Nat) {h : Nat → Option (SLLNode T)}
    (dn tail l1 l2 r : Option Nat) {R : List (Nat × T)}
    (hend : l1 = none ∨ l2 = none) (hr : (if l1 = none then l2 else l1) = r) (hR : IsList h r R)
    (htail : ∀ t, tail = some t → t ∉ R.map Prod.fst ∧ ∃ nt, h t = some nt) :
    ∃ h1 dn1, mergeLoop fuel h dn tail l1 l2 = some (h1, dn1) ∧ IsList h1 (ptrAt R 0) R ∧
      (tail = none → dn1 = ptrAt R 0) ∧
      (∀ t nt, tail = some t → h t = some nt →
        h1 t = some { nt with next := ptrAt R 0 } ∧ dn1 = dn) ∧
      ∀ x, x ∉ R.map Prod.fst → some x ≠ tail → h1 x = h x := by
  obtain ⟨h1, dn1, hrun, hd, ht, hfr⟩ := linkAfter_spec h dn tail r (fun t e => (htail t e).2)
  have hrp := isList_head hR
  refine ⟨h1, dn1, by rw [mergeLoop_done fuel h dn tail l1 l2 hend, hr]; exact hrun, ?_,
    fun e => (by rw [← hrp]; exact hd e), fun t nt e1 e2 => (by rw [← hrp]; exact ht t nt e1 e2),
    fun x _ hx => hfr x hx⟩
  rw [← hrp]
  refine segment_frame R r none (fun z hz => hfr z.1 (fun e => ?_)) hR
  exact (htail z.1 e.symm).1 (List.mem_map.2 ⟨z, hz, rfl⟩)

theorem mergeLoop_spec_end [LinearOrder T] (fuel : Nat) (A B : List (Nat × T))
    (h : Nat → Option (SLLNode T)) (dn tail l1 l2 : Option Nat)
    (hA : IsList h l1 A) (hB : IsList h l2 B) (hnil : A = [] ∨ B = [])
    (hsA : (A.map Prod.snd).Sorted (· ≤ ·)) (hsB : (B.map Prod.snd).Sorted (· ≤ ·))
    (htail : ∀ t, tail = some t → t ∉ (A ++ B).map Prod.fst ∧ ∃ nt, h t = some nt) :
    ∃ h1 dn1 M, mergeLoop fuel h dn tail l1 l2 = some (h1, dn1) ∧ M.Perm (A ++ B) ∧
      (M.map Prod.snd).Sorted (· ≤ ·) ∧ IsList h1 (ptrAt M 0) M ∧
      (tail = none → dn1 = ptrAt M 0) ∧
      (∀ t nt, tail = some t → h t = some nt →
        h1 t = some { nt with next := ptrAt M 0 } ∧ dn1 = dn) ∧
      ∀ x, x ∉ (A ++ B).map Prod.fst → some x ≠ tail → h1 x = h x := by
  by_cases hAn : A = []
  · subst hAn
    have hl1 : l1 = none := hA
    subst hl1
    rw [List.nil_append] at htail ⊢
    obtain ⟨h1, dn1, hrun, hlist, hd, ht, hfr⟩ :=
      mergeLoop_rest fuel dn tail none l2 l2 (Or.inl rfl) (by simp) hB htail
    exact ⟨h1, dn1, B, hrun, List.Perm.refl _, hsB, hlist, hd, ht, hfr⟩
  · have hBn : B = [] := hnil.resolve_left hAn
    subst hBn
    have hl2 : l2 = none := hB
    subst hl2
    rw [List.append_nil] at htail ⊢
    obtain ⟨h1, dn1, hrun, hlist, hd, ht, hfr⟩ :=
      mergeLoop_rest fuel dn tail l1 none l1 (Or.inr rfl) (by cases l1 <;> simp) hA htail
    exact ⟨h1, dn1, A, hrun, List.Perm.refl _, hsA, hlist, hd, ht, hfr⟩

/-- The merge loop links the nodes of two ascending lists into one ascending list after
`tail`, writing no node outside the two lists and `tail`. -/
theorem mergeLoop_spec [LinearOrder T] : ∀ (fuel : Nat) (A B : List (Nat × T))
    (h : Nat → Option (SLLNode T)) (dn tail l1 l2 : Option Nat),
    IsList h l1 A → IsList h l2 B → ((A ++ B).map Prod.fst).Nodup →
    (A.map Prod.snd).Sorted (· ≤ ·) → (B.map Prod.snd).Sorted (· ≤ ·) →
    (∀ t, tail = some t → t ∉ (A ++ B).map Prod.fst ∧ ∃ nt, h t = some nt) →
    A.length + B.length ≤ fuel →
    ∃ h1 dn1 M, mergeLoop fuel h dn tail l1 l2 = some (h1, dn1) ∧ M.Perm (A ++ B) ∧
      (M.map Prod.snd).Sorted (· ≤ ·) ∧ IsList h1 (ptrAt M 0) M ∧
      (tail = none → dn1 = ptrAt M 0) ∧
      (∀ t nt, tail = some t → h t = some nt →
        h1 t = some { nt with next := ptrAt M 0 } ∧ dn1 = dn) ∧
      ∀ x, x ∉ (A ++ B).map Prod.fst → some x ≠ tail → h1 x = h x := by
  intro fuel
  induction fuel with
  | zero =>
    intro A B h dn tail l1 l2 hA hB _ hsA hsB htail hlen
    have hAn : A = [] := List.length_eq_zero.1 (by omega)
    exact mergeLoop_spec_end 0 A B h dn tail l1 l2 hA hB (Or.inl hAn) hsA hsB htail
  | succ fuel ih =>
    intro A B h dn tail l1 l2 hA hB hnd hsA hsB htail hlen
    cases A with
    | nil => exact mergeLoop_spec_end _ [] B h dn tail l1 l2 hA hB (Or.inl rfl) hsA hsB htail
    | cons xa A1 =>
      cases B with
      | nil =>
        exact mergeLoop_spec_end _ (xa :: A1) [] h dn tail l1 l2 hA hB (Or.inr rfl) hsA hsB htail
      | cons xb B1 =>
        obtain ⟨hl1, nxa, hxa, hA1⟩ := hA
        obtain ⟨hl2, nxb, hxb, hB1⟩ := hB
        subst hl1 hl2
        have hmemA : xa.1 ∈ ((xa :: A1) ++ xb :: B1).map Prod.fst := by simp
        have hmemB : xb.1 ∈ ((xa :: A1) ++ xb :: B1).map Prod.fst := by simp
        by_cases hle : xa.2 ≤ xb.2
        · obtain ⟨h1, dn1, hrun, hd, ht, hfr⟩ :=
            linkAfter_spec h dn tail (some xa.1) (fun t e => (htail t e).2)
          have hkeep : ∀ x, x ∈ ((xa :: A1) ++ xb :: B1).map Prod.fst → h1 x = h x :=
            fun x hx => hfr x (fun e => (htail x e.symm).1 hx)
          have h1a : h1 xa.1 = some { val := xa.2, next := nxa } := by rw [hkeep _ hmemA, hxa]
          have hA2 : IsList h1 nxa A1 := segment_frame A1 nxa none
            (fun z hz => hkeep z.1 (by simp; exact Or.inr (Or.inl ⟨z.2, hz⟩))) hA1
          have hB2 : IsList h1 (some xb.1) (xb :: B1) := segment_frame (xb :: B1) _ none
            (fun z hz => hkeep z.1 (List.mem_map.2 ⟨z, List.mem_append_right _ hz, rfl⟩))
            ⟨rfl, nxb, hxb, hB1⟩
          have hnd2 : ((xa :: (A1 ++ xb :: B1)).map Prod.fst).Nodup := hnd
          rw [List.map_cons, List.nodup_cons] at hnd2
          obtain ⟨h2, dn2, M1, hrec, hperm, hsort, hlist, _, ht2, hfr2⟩ :=
            ih A1 (xb :: B1) h1 dn1 (some xa.1) nxa (some xb.1) hA2 hB2 hnd2.2
              (List.Sorted.of_cons hsA) hsB
              (fun t e => by cases e; exact ⟨hnd2.1, _, h1a⟩)
              (by simp at hlen ⊢; omega)
          obtain ⟨h2a, hdn2⟩ := ht2 xa.1 _ rfl h1a
          refine ⟨h2, dn2, xa :: M1, ?_, List.Perm.cons xa hperm, ?_, ?_, ?_, ?_, ?_⟩
          · simp only [mergeLoop, hxa, hxb, if_pos hle, hrun, h1a]
            exact hrec
          · rw [List.map_cons, List.sorted_cons]
            refine ⟨fun y hy => ?_, hsort⟩
            have hy1 : y ∈ (A1 ++ xb :: B1).map Prod.snd := (hperm.map Prod.snd).subset hy
            rw [List.map_append, List.mem_append] at hy1
            rcases hy1 with hy1 | hy1
            · exact List.rel_of_sorted_cons hsA y hy1
            · rw [List.map_cons, List.mem_cons] at hy1
              rcases hy1 with hy1 | hy1
              · rw [hy1]; exact hle
              · exact le_trans hle (List.rel_of_sorted_cons hsB y hy1)
          · exact ⟨by simp [ptrAt], ptrAt M1 0, h2a, hlist⟩
          · intro e
            rw [hdn2, hd e]
            simp [ptrAt]
          · intro t nt e hnt
            obtain ⟨e1, e2⟩ := ht t nt e hnt
            have hta := (htail t e).1
            have hne : t ≠ xa.1 := fun e3 => hta (e3 ▸ hmemA)
            refine ⟨?_, by rw [hdn2, e2]⟩
            rw [hfr2 t (fun hm => hta (by simp at hm ⊢; exact Or.inr hm))
              (fun e3 => hne (Option.some.inj e3)), e1]
            simp [ptrAt]
          · intro x hx hxt
            have hne : x ≠ xa.1 := fun e3 => hx (e3 ▸ hmemA)
            rw [hfr2 x (fun hm => hx (by simp at hm ⊢; exact Or.inr hm))
              (fun e3 => hne (Option.some.inj e3)), hfr x hxt]
        · have hlt : xb.2 ≤ xa.2 := le_of_not_le hle
          obtain ⟨h1, dn1, hrun, hd, ht, hfr⟩ :=
            linkAfter_spec h dn tail (some xb.1) (fun t e => (htail t e).2)
          have hkeep : ∀ x, x ∈ ((xa :: A1) ++ xb :: B1).map Prod.fst → h1 x = h x :=
            fun x hx => hfr x (fun e => (htail x e.symm).1 hx)
          have h1b : h1 xb.1 = some { val := xb.2, next := nxb } := by rw [hkeep _ hmemB, hxb]
          have hA2 : IsList h1 (some xa.1) (xa :: A1) := segment_frame (xa :: A1) _ none
            (fun z hz => hkeep z.1 (List.mem_map.2 ⟨z, List.mem_append_left _ hz, rfl⟩))
            ⟨rfl, nxa, hxa, hA1⟩
          have hB2 : IsList h1 nxb B1 := segment_frame B1 nxb none
            (fun z hz => hkeep z.1 (List.mem_map.2
              ⟨z, List.mem_append_right _ (List.mem_cons_of_mem _ hz), rfl⟩)) hB1
          have hpm : ((xa :: A1) ++ xb :: B1).Perm (xb :: ((xa :: A1) ++ B1)) :=
            List.perm_middle
          have hnd2 : ((xb :: ((xa :: A1) ++ B1)).map Prod.fst).Nodup :=
            (hpm.map Prod.fst).nodup_iff.1 hnd
          rw [List.map_cons, List.nodup_cons] at hnd2
          obtain ⟨h2, dn2, M1, hrec, hperm, hsort, hlist, _, ht2, hfr2⟩ :=
            ih (xa :: A1) B1 h1 dn1 (some xb.1) (some xa.1) nxb hA2 hB2 hnd2.2
              hsA (List.Sorted.of_cons hsB)
              (fun t e => by cases e; exact ⟨hnd2.1, _, h1b⟩)
              (by simp at hlen ⊢; omega)
          obtain ⟨h2b, hdn2⟩ := ht2 xb.1 _ rfl h1b
          have hsub : ∀ x, x ∈ ((xa :: A1) ++ B1).map Prod.fst →
              x ∈ ((xa :: A1) ++ xb :: B1).map Prod.fst := fun x hm =>
            (hpm.map Prod.fst).symm.subset (List.mem_cons_of_mem _ hm)
          refine ⟨h2, dn2, xb :: M1, ?_, (List.Perm.cons xb hperm).trans hpm.symm, ?_, ?_, ?_,
            ?_, ?_⟩
          · simp only [mergeLoop, hxa, hxb, if_neg hle, hrun, h1b]
            exact hrec
          · rw [List.map_cons, List.sorted_cons]
            refine ⟨fun y hy => ?_, hsort⟩
            have hy1 : y ∈ ((xa :: A1) ++ B1).map Prod.snd := (hperm.map Prod.snd).subset hy
            rw [List.map_append, List.mem_append] at hy1
            rcases hy1 with hy1 | hy1
            · rw [List.map_cons, List.mem_cons] at hy1
              rcases hy1 with hy1 | hy1
              · rw [hy1]; exact hlt
              · exact le_trans hlt (List.rel_of_sorted_cons hsA y hy1)
            · exact List.rel_of_sorted_cons hsB y hy1
          · exact ⟨by simp [ptrAt], ptrAt M1 0, h2b, hlist⟩
          · intro e
            rw [hdn2, hd e]
            simp [ptrAt]
          · intro t nt e hnt
            obtain ⟨e1, e2⟩ := ht t nt e hnt
            have hta := (htail t e).1
            have hne : t ≠ xb.1 := fun e3 => hta (e3 ▸ hmemB)
            refine ⟨?_, by rw [hdn2, e2]⟩
            rw [hfr2 t (fun hm => hta (hsub t hm)) (fun e3 => hne (Option.some.inj e3)), e1]
            simp [ptrAt]
          · intro x hx hxt
            have hne : x ≠ xb.1 := fun e3 => hx (e3 ▸ hmemB)
            rw [hfr2 x (fun hm => hx (hsub x hm)) (fun e3 => hne (Option.some.inj e3)),
              hfr x hxt]

/-- With `dummy` a node, `merge_two_sorted` of two separate ascending lists returns an
ascending list made of exactly the nodes of both, and writes no other node. -/
theorem merge_two_sorted_spec [LinearOrder T] {h : Nat → Option (SLLNode T)}
    {l1 l2 : Option Nat} {A B : List (Nat × T)} (hA : IsList h l1 A) (hB : IsList h l2 B)
    (hdis : ∀ a, a ∈ A.map Prod.fst → a ∉ B.map Prod.fst)
    (hsA : (A.map Prod.snd).Sorted (· ≤ ·)) (hsB : (B.map Prod.snd).Sorted (· ≤ ·))
    {fuel : Nat} (hf : A.length + B.length ≤ fuel) :
    ∃ h1 r M, merge_two_sorted fuel h l1 l2 = some (h1, r) ∧ IsList h1 r M ∧
      M.Perm (A ++ B) ∧ (M.map Prod.snd).Sorted (· ≤ ·) ∧
      ∀ x, x ∉ (A ++ B).map Prod.fst → h1 x = h x := by
  have hnd : ((A ++ B).map Prod.fst).Nodup := by
    rw [List.map_append]
    exact List.nodup_append.2 ⟨isList_nodup A l1 hA, isList_nodup B l2 hB,
      fun a ha hb => hdis a ha hb⟩
  obtain ⟨h1, dn1, M, hrun, hperm, hsort, hlist, hd, _, hfr⟩ :=
    mergeLoop_spec fuel A B h none none l1 l2 hA hB hnd hsA hsB (fun t e => by cases e) hf
  refine ⟨h1, dn1, M, hrun, ?_, hperm, hsort, fun x hx => hfr x hx (fun e => by cases e)⟩
  rw [hd rfl]
  exact hlist

/-- With `dummy` a node in `merge_two_sorted`, `mergesort_list` returns: the result is an
ascending list made of exactly the nodes of the input, and no other node is written. -/
theorem mergesort_list_spec [LinearOrder T] : ∀ (fuel : Nat) (l : List (Nat × T))
    (h : Nat → Option (SLLNode T)) (head : Option Nat), IsList h head l → l.length ≤ fuel →
    ∃ h1 r M, mergesort_list fuel h head = some (h1, r) ∧ IsList h1 r M ∧ M.Perm l ∧
      (M.map Prod.snd).Sorted (· ≤ ·) ∧ ∀ x, x ∉ l.map Prod.fst → h1 x = h x := by
  have hshort : ∀ (fuel : Nat) (l : List (Nat × T)) (h : Nat → Option (SLLNode T))
      (head : Option Nat), IsList h head l → l.length ≤ 1 →
      ∃ h1 r M, mergesort_list fuel h head = some (h1, r) ∧ IsList h1 r M ∧ M.Perm l ∧
        (M.map Prod.snd).Sorted (· ≤ ·) ∧ ∀ x, x ∉ l.map Prod.fst → h1 x = h x := by
    intro fuel l h head hl hlen
    cases l with
    | nil =>
      have e : head = none := hl
      subst e
      exact ⟨h, none, [], by cases fuel <;> rfl, rfl, List.Perm.refl _, List.sorted_nil,
        fun _ _ => rfl⟩
    | cons x l =>
      have hnil : l = [] := List.length_eq_zero.1 (by rw [List.length_cons] at hlen; omega)
      subst hnil
      obtain ⟨hp, nx, hx, hrest⟩ := hl
      have e : nx = none := hrest
      subst e hp
      exact ⟨h, some x.1, [x], by cases fuel <;> simp [mergesort_list, hx],
        ⟨rfl, none, hx, rfl⟩, List.Perm.refl _, List.sorted_singleton _, fun _ _ => rfl⟩
  intro fuel
  induction fuel with
  | zero =>
    intro l h head hl hlen
    exact hshort 0 l h head hl (by omega)
  | succ fuel ih =>
    intro l h head hl hlen
    by_cases hlong : l.length ≤ 1
    · exact hshort _ l h head hl hlong
    · obtain ⟨h1, back, hsplit, hF, hBk, hfr1⟩ :=
        split_list_spec hl (show l.length ≤ 2 * (fuel + 1) + 2 by omega)
      have hnd := isList_nodup l head hl
      rw [← List.take_append_drop ((l.length + 1) / 2) l, List.map_append] at hnd
      have hdis := (List.nodup_append.1 hnd).2.2
      obtain ⟨h2, left, ML, hrunL, hlistL, hpermL, hsortL, hfr2⟩ :=
        ih (l.take ((l.length + 1) / 2)) h1 head hF (by rw [List.length_take]; omega)
      have hBk2 : IsList h2 back (l.drop ((l.length + 1) / 2)) :=
        segment_frame _ back none (fun z hz => hfr2 z.1 (fun hm =>
          hdis hm (List.mem_map.2 ⟨z, hz, rfl⟩))) hBk
      obtain ⟨h3, right, MR, hrunR, hlistR, hpermR, hsortR, hfr3⟩ :=
        ih (l.drop ((l.length + 1) / 2)) h2 back hBk2 (by rw [List.length_drop]; omega)
      have hlistL3 : IsList h3 left ML :=
        segment_frame _ left none (fun z hz => hfr3 z.1 (fun hm =>
          hdis (List.mem_map.2 ⟨z, hpermL.subset hz, rfl⟩) hm)) hlistL
      have hpm : (ML ++ MR).Perm l := by
        have := List.Perm.append hpermL hpermR
        rwa [List.take_append_drop] at this
      obtain ⟨h4, r, M, hrunM, hlistM, hpermM, hsortM, hfr4⟩ :=
        merge_two_sorted_spec hlistL3 hlistR
          (fun a ha hb => hdis ((hpermL.map Prod.fst).subset ha) ((hpermR.map Prod.fst).subset hb))
          hsortL hsortR
          (show ML.length + MR.length ≤ fuel + 1 by
            rw [← List.length_append, hpm.length_eq]; exact hlen)
      refine ⟨h4, r, M, ?_, hlistM, hpermM.trans hpm, hsortM, fun x hx => ?_⟩
      · cases l with
        | nil => simp at hlong
        | cons x l =>
          cases l with
          | nil => simp at hlong
          | cons y l =>
            obtain ⟨hp, nx, hx, hq, _⟩ := hl
            subst hp hq
            simp only [mergesort_list, hx, hsplit, hrunL, hrunR]
            exact hrunM
      · have hx1 : x ∉ (ML ++ MR).map Prod.fst := fun hm => hx ((hpm.map Prod.fst).subset hm)
        have hx2 : x ∉ (l.take ((l.length + 1) / 2)).map Prod.fst := fun hm =>
          hx (List.map_subset _ (List.take_subset _ _) hm)
        have hx3 : x ∉ (l.drop ((l.length + 1) / 2)).map Prod.fst := fun hm =>
          hx (List.map_subset _ (List.drop_subset _ _) hm)
        rw [hfr4 x hx1, hfr3 x hx3, hfr2 x hx2, hfr1 x hx]

/-- C32, the part on `find_middle` and `split_list`, which compile as written: for a
finite null-terminated list of `n` nodes, `find_middle` returns the node at position
`(n - 1) / 2` and `split_list` returns `(head, back)` with the list cut into a front of
`(n + 1) / 2` nodes and a back of `n / 2` nodes, so the front has the extra node exactly
when `n` is odd; no node outside the list is written. -/
theorem C32_split_list_front_gets_extra (h : Nat → Option (SLLNode T)) (head : Option Nat)
    (l : List (Nat × T)) (fuel : Nat) (hl : IsList h head l) (hf : l.length ≤ 2 * fuel + 2) :
    find_middle fuel h head = some (ptrAt l ((l.length - 1) / 2)) ∧
    ∃ h1 back front rest, split_list fuel h head = some (h1, head, back) ∧
      l = front ++ rest ∧ IsList h1 head front ∧ IsList h1 back rest ∧
      front.length = (l.length + 1) / 2 ∧ rest.length = l.length / 2 ∧
      (l.length % 2 = 1 → front.length = rest.length + 1) ∧
      (l.length % 2 = 0 → front.length = rest.length) ∧
      ∀ a, a ∉ l.map Prod.fst → h1 a = h a := by
  refine ⟨find_middle_spec hl hf, ?_⟩
  obtain ⟨h1, back, hrun, hF, hB, hfr⟩ := split_list_spec hl hf
  have h1len : (l.take ((l.length + 1) / 2)).length = (l.length + 1) / 2 := by
    rw [List.length_take]; omega
  have h2len : (l.drop ((l.length + 1) / 2)).length = l.length / 2 := by
    rw [List.length_drop]; omega
  refine ⟨h1, back, _, _, hrun, (List.take_append_drop _ l).symm, hF, hB, h1len, h2len, ?_, ?_,
    hfr⟩
  · intro hodd
    rw [h1len, h2len]; omega
  · intro heven
    rw [h1len, h2len]; omega

/-- The list `5 -> 3 -> 8` in nodes at the addresses 10, 11, 12: `find_middle` returns
the node at 11 and `split_list` returns the heads 10 and 12, front `5 -> 3` and back `8`. -/
theorem C32_split_three_nodes :
    (split_list 1 sampleHeap (some 10)).map (fun r => r.2) = some (some 10, some 12) ∧
    find_middle 1 sampleHeap (some 10) = some (some 11) ∧
    ∃ h1 back front rest, split_list 1 sampleHeap (some 10) = some (h1, some 10, back) ∧
      [(10, (5 : Int)), (11, 3), (12, 8)] = front ++ rest ∧ IsList h1 (some 10) front ∧
      IsList h1 back rest ∧ front.length = 2 ∧ rest.length = 1 :=
  ⟨rfl, rfl,
    (C32_split_list_front_gets_extra sampleHeap (some 10) [(10, (5 : Int)), (11, 3), (12, 8)] 1
      ⟨rfl, some 11, rfl, rfl, some 12, rfl, rfl, none, rfl, rfl⟩ (by decide)).2.imp
      (fun _ hb => hb.imp (fun _ hf => hf.imp (fun _ hr => hr.imp (fun _ hx =>
        ⟨hx.1, hx.2.1, hx.2.2.1, hx.2.2.2.1, hx.2.2.2.2.1, hx.2.2.2.2.2.1⟩))))⟩

/-- With `dummy` a node, `mergesort_list` of `5 -> 3 -> 8` relinks the nodes as
`3 -> 5 -> 8`: the head is the node at 11, followed by those at 10 and 12. -/
theorem mergesort_list_test :
    (mergesort_list 3 sampleHeap (some 10)).map (fun r => (r.2, r.1 11, r.1 10, r.1 12))
      = some (some 11, some ⟨3, some 10⟩, some ⟨5, some 12⟩, some ⟨8, none⟩) := by
  rfl

end llist
